import Mathlib

/-!
# FaCT++ : a shallow embedding of the tableau engine entry points, the reasoning
kernel queries, the role master, the conjunctive query folding and the EL
reasoner

Sources embedded here:
* `src/trunk/Kernel/Reasoner.cpp`  (`DlSatTester`)
* `src/trunk/Kernel/Kernel.h`      (`ReasoningKernel`)
* `src/Kernel/RoleMaster.h`        (`RoleMaster`)
* `src/Kernel/ConjunctiveQueryFolding.cpp`  (query folding, Phases 1 to 3)
* `src/Kernel/ELFReasoner.h`       (`ELFReasoner`)
* `src/Kernel/tDLExpression.h`     (the expression classes, n-ary expressions)

Classes whose headers are not among the sources (`DepSet`, `CWDArray`, `TBox`,
`DlCompletionGraph`, `ToDoList`, `TRole`, `TNameSet`, the query classes of
`QR.h`, the expression manager, the ontology, ...) are either taken as
parameters or modelled from the specification; every such definition says so.
-/

set_option autoImplicit false

/-! ## Bipolar pointers, dependency sets, labels -/

/-- Modelled from the spec: `BiPointer.h` is not among the sources. A bipolar
pointer is a signed integer identifying a term of the DAG. -/
abbrev BipolarPointer := Int

/-- Modelled from the spec: negation of a bipolar pointer is the unary sign flip. -/
def inverse (p : BipolarPointer) : BipolarPointer := -p

/-- Modelled from the spec: the invalid pointer; `TOP` and `BOTTOM` are fixed
pointers with `inverse TOP = BOTTOM`. -/
def bpINVALID : BipolarPointer := 0

/-- Modelled from the spec: the fixed pointer of `TOP`. -/
def bpTOP : BipolarPointer := 1

/-- Modelled from the spec: the fixed pointer of `BOTTOM`, the inverse of `TOP`. -/
def bpBOTTOM : BipolarPointer := -1

/-- Modelled from the spec: a pointer is correct when it is not the invalid one. -/
def isCorrect (p : BipolarPointer) : Bool := p != bpINVALID

/-- Modelled from the spec: `DepSet` is a set of branching levels with `empty`,
`insert`, `union` (the source's `add`) and membership. -/
abbrev DepSet := Finset Nat

/-- Modelled from the spec: `DepSet::add` is set union. -/
def DepSet.add (s d : DepSet) : DepSet := s ∪ d

/-- A label entry `(bp, DepSet)` (the source's `ConceptWDep`). -/
structure ConceptWDep where
  bp : BipolarPointer
  dep : DepSet
deriving DecidableEq

/-- Accessor `ConceptWDep::getDep`. -/
def ConceptWDep.getDep (c : ConceptWDep) : DepSet := c.dep

instance : Inhabited ConceptWDep := ⟨⟨bpINVALID, ∅⟩⟩

/-- One of the two label lists of a node (the source's `CWDArray`): the entries
in insertion order. -/
abbrev CWDArray := List ConceptWDep

/-- Modelled from the spec: `CWDArray::contains(p)` holds when some entry of the
label carries the pointer `p`. -/
def CWDArray.contains (lab : CWDArray) (p : BipolarPointer) : Bool :=
  lab.any (fun e => e.bp == p)

/-- Result of an attempt to add a concept to a label. -/
inductive addConceptResult where
  | acrClash
  | acrExist
  | acrDone
deriving DecidableEq, Repr

/-! ## Completion graph, to-do list and branching stack -/

/-- Modelled from the spec: a completion node with its two label lists
(simple-concept and complex-concept entries). -/
structure DlCompletionTree where
  id : Nat
  sc : CWDArray
  cc : CWDArray
deriving DecidableEq

/-- Modelled from the spec: a completion edge `(from, to, role)` with a DepSet. -/
structure DlCompletionTreeArc where
  src : Nat
  dst : Nat
  role : Int
  dep : DepSet
deriving DecidableEq

/-- Modelled from the spec: the delta header pushed by `save()`: sizes of each
node's label lists, the edge count and the node count. -/
structure CGSaveState where
  labelSizes : List (Nat × Nat)
  nEdges : Nat
  nNodes : Nat
deriving DecidableEq

/-- Modelled from the spec: the completion graph (`dlCompletionGraph.h` is not
among the sources): nodes, edges and the stack of snapshot headers. -/
structure DlCompletionGraph where
  nodes : List DlCompletionTree
  edges : List DlCompletionTreeArc
  saved : List CGSaveState
deriving DecidableEq

/-- Modelled from the spec: `save()` pushes a header storing the current sizes
of each node's label lists, the edge count and the node count. -/
def DlCompletionGraph.save (g : DlCompletionGraph) : DlCompletionGraph :=
  { g with saved := g.saved ++
      [{ labelSizes := g.nodes.map (fun n => (n.sc.length, n.cc.length)),
         nEdges := g.edges.length, nNodes := g.nodes.length }] }

/-- Truncate the two label lists of a node to saved sizes. -/
def DlCompletionTree.restore (n : DlCompletionTree) (sz : Nat × Nat) : DlCompletionTree :=
  { n with sc := n.sc.take sz.1, cc := n.cc.take sz.2 }

/-- Modelled from the spec: `restore(level)` truncates every node's lists to
the sizes saved for `level` and removes the edges and nodes created after it.
The header of level `L` is the `L`-th pushed one; it is popped. The result is
`none` when there is no such header. -/
def DlCompletionGraph.restore (g : DlCompletionGraph) (level : Nat) : Option DlCompletionGraph :=
  if level = 0 then none else
  match g.saved.get? (level - 1) with
  | none => none
  | some h =>
    some { nodes := List.zipWith DlCompletionTree.restore (g.nodes.take h.nNodes) h.labelSizes,
           edges := g.edges.take h.nEdges,
           saved := g.saved.take (level - 1) }

/-- A to-do entry: the node and the offset of the concept in its label. -/
structure ToDoEntry where
  Node : Nat
  offset : Int
deriving DecidableEq

/-- Modelled from the spec: the to-do list (`ToDoList.h` is not among the
sources): FIFO buckets ordered by priority, and the stack of saved bucket
lengths. -/
structure ToDoList where
  buckets : List (List ToDoEntry)
  saved : List (List Nat)
deriving DecidableEq

/-- Modelled from the spec: the queue is empty when every bucket is. -/
def ToDoList.empty (t : ToDoList) : Bool := t.buckets.all (fun b => b.isEmpty)

/-- Head of the first non-empty bucket, with the buckets left after taking it. -/
def ToDoList.nextIn : List (List ToDoEntry) → Option (ToDoEntry × List (List ToDoEntry))
  | [] => none
  | [] :: bs => (ToDoList.nextIn bs).map (fun r => (r.1, [] :: r.2))
  | (e :: b) :: bs => some (e, b :: bs)

/-- Modelled from the spec: `getNextEntry()` returns the head of the
highest-priority non-empty bucket (`NULL`, here `none`, when there is none). -/
def ToDoList.getNextEntry (t : ToDoList) : Option (ToDoEntry × ToDoList) :=
  (ToDoList.nextIn t.buckets).map (fun r => (r.1, { t with buckets := r.2 }))

/-- Modelled from the spec: `save()` records the current bucket lengths. -/
def ToDoList.save (t : ToDoList) : ToDoList :=
  { t with saved := t.saved ++ [t.buckets.map List.length] }

/-- Modelled from the spec: `restore(level)` truncates the buckets to the
lengths saved for `level`; `none` when nothing was saved for that level. -/
def ToDoList.restore (t : ToDoList) (level : Nat) : Option ToDoList :=
  if level = 0 then none else
  match t.saved.get? (level - 1) with
  | none => none
  | some lens =>
    some { buckets := List.zipWith (fun b n => b.take n) t.buckets lens,
           saved := t.saved.take (level - 1) }

/-- Modelled from the spec: the branching context saved when a
non-deterministic rule fires: the current node and concept, the index of the
option to try next, the size snapshots of the used-pointer sets and of the
session GCIs, and the branch DepSet. -/
structure BranchingContext where
  curNode : Option Nat
  curConcept : ConceptWDep
  pUsedIndex : Nat
  nUsedIndex : Nat
  SGsize : Nat
  branchDep : DepSet
  branchIndex : Nat
deriving DecidableEq

/-- Modelled from the spec: `nextOption()` advances the index of the option to
try next. -/
def BranchingContext.nextOption (bc : BranchingContext) : BranchingContext :=
  { bc with branchIndex := bc.branchIndex + 1 }

/-- Modelled from the spec: initial value of the branching level
(`InitBranchingLevelValue`); levels are `1..currentLevel`. -/
def InitBranchingLevelValue : Nat := 1

/-- The `std::vector::resize` of the used-pointer arrays: truncate, or pad with
the default value. -/
def vresize {α : Type} [Inhabited α] (v : List α) (n : Nat) : List α :=
  v.take n ++ List.replicate (n - v.length) default

/-! ## The satisfiability tester (`Reasoner.cpp`) -/

/-- The option set handed to the tester (`ifOptionSet`): a lookup of boolean
options by name. -/
structure ifOptionSet where
  getBool : String → Bool

/-- The part of `TBox` the tester reads: the fairness constraints (pointers of
their names) and the cancellation flag. -/
structure TBoxView where
  Fairness : List BipolarPointer
  cancelled : Bool
deriving DecidableEq

/-- Modelled from the spec: `TBox::hasFC()`: the KB has fairness constraints. -/
def TBoxView.hasFC (t : TBoxView) : Bool := !t.Fairness.isEmpty

/-- Accessor `TBox::isCancelled()`. -/
def TBoxView.isCancelled (t : TBoxView) : Bool := t.cancelled

/-- State of `DlSatTester` touched by the embedded methods. `tBox` is the
referenced TBox (its cancellation flag may be set from outside between two
steps) and `testTimer` the reading of the session timer, in seconds. -/
structure DlSatTester where
  tBox : TBoxView
  testTimer : ℚ
  useSemanticBranching : Bool
  useBackjumping : Bool
  useLazyBlocking : Bool
  useAnywhereBlocking : Bool
  testTimeout : Nat
  clashSet : DepSet
  tryLevel : Nat
  curNode : Option Nat
  curConcept : ConceptWDep
  pUsed : List BipolarPointer
  nUsed : List BipolarPointer
  SessionGCIs : List BipolarPointer
  Stack : List BranchingContext
  bContext : Option Nat
  CGraph : DlCompletionGraph
  TODO : ToDoList
deriving DecidableEq

namespace DlSatTester

/-- Embeds `DlSatTester::readConfig`: load the four boolean options; `none` when the
assertion `Options != NULL` fails. -/
def readConfig (s : DlSatTester) (Options : Option ifOptionSet) : Option DlSatTester :=
  match Options with
  | none => none
  | some o =>
    some { s with
      useSemanticBranching := o.getBool "useSemanticBranching",
      useBackjumping := o.getBool "useBackjumping",
      useLazyBlocking := o.getBool "useLazyBlocking",
      useAnywhereBlocking := o.getBool "useAnywhereBlocking" }

/-- The member-initialiser list of the constructor; the option flags are not
initialised there (they are written by `readConfig`), any value `b` stands for
their indeterminate content. -/
def initMembers (tBox : TBoxView) (b : Bool) : DlSatTester :=
  { tBox := tBox, testTimer := 0,
    useSemanticBranching := b, useBackjumping := b, useLazyBlocking := b,
    useAnywhereBlocking := b,
    testTimeout := 0, clashSet := ∅, tryLevel := InitBranchingLevelValue,
    curNode := none, curConcept := default, pUsed := [], nUsed := [],
    SessionGCIs := [], Stack := [], bContext := none,
    CGraph := { nodes := [], edges := [], saved := [] },
    TODO := { buckets := [], saved := [] } }

/-- Embeds `DlSatTester::DlSatTester`: read the options, then, in presence of fairness
constraints, use ancestor blocking. The remaining statements of the body
(`initContext`, the datatype reasoner, reflexive roles, splits,
`resetSessionFlags`) do not write the option flags. -/
def ctor (tBox : TBoxView) (Options : Option ifOptionSet) (b : Bool) : Option DlSatTester :=
  match readConfig (initMembers tBox b) Options with
  | none => none
  | some s =>
    if tBox.hasFC && s.useAnywhereBlocking then
      some { s with useAnywhereBlocking := false }
    else
      some s

/-- The sanity assertions shared by the three lookups, compiled in only with
`ENABLE_CHECKING` (`checking`): `p` is correct and is neither `TOP` nor
`BOTTOM`. -/
def argChecked (checking : Bool) (p : BipolarPointer) : Bool :=
  !checking || (isCorrect p && p != bpTOP && p != bpBOTTOM)

/-- Embeds `DlSatTester::findConcept`: `none` when an assertion fails. -/
def findConcept (checking : Bool) (lab : CWDArray) (p : BipolarPointer) : Option Bool :=
  if argChecked checking p then some (lab.contains p) else none

/-- The loop of `findConceptClash`: the first entry with pointer `p` creates
the clash set from its DepSet and `dep`. -/
def findConceptClashLoop (p : BipolarPointer) (dep : DepSet) (clashSet : DepSet) :
    CWDArray → Bool × DepSet
  | [] => (false, clashSet)
  | i :: rest =>
    if i.bp = p then (true, (i.getDep).add dep)
    else findConceptClashLoop p dep clashSet rest

/-- Embeds `DlSatTester::findConceptClash`: the result and the clash set after the
call (`clashSet` is the one before it); `none` when an assertion fails. -/
def findConceptClash (checking : Bool) (lab : CWDArray) (p : BipolarPointer) (dep : DepSet)
    (clashSet : DepSet) : Option (Bool × DepSet) :=
  if argChecked checking p then some (findConceptClashLoop p dep clashSet lab) else none

/-- Embeds `DlSatTester::checkAddedConcept`: the result and the clash set after the
call; `none` when an assertion fails. -/
def checkAddedConcept (checking : Bool) (lab : CWDArray) (p : BipolarPointer) (dep : DepSet)
    (clashSet : DepSet) : Option (addConceptResult × DepSet) :=
  if argChecked checking p then
    match findConcept checking lab p with
    | none => none
    | some true => some (addConceptResult.acrExist, clashSet)
    | some false =>
      match findConceptClash checking lab (inverse p) dep clashSet with
      | none => none
      | some (true, cs) => some (addConceptResult.acrClash, cs)
      | some (false, cs) => some (addConceptResult.acrDone, cs)
  else none

/-- Exceptions leaving the tester. -/
inductive EFPPException where
  | EFPPTimeout
  | EFPPAssertion
deriving DecidableEq, Repr

/-- The methods of the engine called by `checkSatisfiability` whose code is not
among the sources, taken as parameters: each returns its result and the state
it leaves. -/
structure Tactics where
  commonTactic : DlSatTester → Bool × DlSatTester
  tunedRestore : DlSatTester → Bool × DlSatTester
  straightforwardRestore : DlSatTester → Bool × DlSatTester
  retestCGBlockedStatus : DlSatTester → DlSatTester
  isFCViolated : DlCompletionGraph → BipolarPointer → Bool
  getConcept : DlCompletionGraph → Nat → Int → ConceptWDep

/-- Outcome of one pass through the body of the `for (;;)` loop. -/
inductive LoopStep where
  | returned (b : Bool) (s : DlSatTester)
  | thrown (e : EFPPException) (s : DlSatTester)
  | again (loop : Nat) (s : DlSatTester)

/-- First part of the loop body, entered with `curNode == NULL` and an empty
to-do list: re-test the blocked nodes and, with `RKG_USE_FAIRNESS` (`fair`),
check the fairness constraints. `Sum.inl b` is `return b`; `Sum.inr s` falls
through to `getNextEntry` in state `s`. -/
def nothingToDo (T : Tactics) (fair : Bool) (s : DlSatTester) : Bool × DlSatTester ⊕ DlSatTester :=
  let s1 := T.retestCGBlockedStatus s
  if s1.TODO.empty then
    if !fair then Sum.inl (true, s1)
    else if !s1.tBox.hasFC then Sum.inl (true, s1)
    else
      match s1.tBox.Fairness.find? (fun p => T.isFCViolated s1.CGraph p) with
      | some _ =>
        let r := T.straightforwardRestore s1
        if r.1 then Sum.inl (false, r.2)
        else if r.2.TODO.empty then Sum.inl (true, r.2) else Sum.inr r.2
      | none => Sum.inl (true, s1)
  else Sum.inr s1

/-- Second part of the loop body with `curNode == NULL`: take the next to-do
entry and set up the current context; the assertion fails when there is no
entry. -/
def setupContext (T : Tactics) (s : DlSatTester) : Option DlSatTester :=
  match s.TODO.getNextEntry with
  | none => none
  | some (curTDE, todo) =>
    some { s with TODO := todo, curNode := some curTDE.Node,
                  curConcept := T.getConcept s.CGraph curTDE.Node curTDE.offset }

/-- The poll made on every 5000th pass: the cancellation flag first, then the
timeout (`testTimeout` is in milliseconds, `0` standing for none). `none` when
the loop goes on.  The code compares `1000*(float)testTimer` with
`testTimeout` in single precision; the comparison here is exact, so a timeout
that expires here expires for the code too, while the code may also throw
when the rounded product reaches a timeout that the exact product is just
below. -/
def poll (s : DlSatTester) : Option (Except EFPPException Bool) :=
  if s.tBox.isCancelled then some (Except.ok false)
  else if s.testTimeout ≠ 0 ∧ 1000 * s.testTimer ≥ (s.testTimeout : ℚ) then
    some (Except.error EFPPException.EFPPTimeout)
  else none

/-- The end of the loop body: apply the tactic to the current entry; on a
clash restore, and return `false` when no alternative is left. -/
def expand (T : Tactics) (loop : Nat) (s : DlSatTester) : LoopStep :=
  let r := T.commonTactic s
  if r.1 then
    let q := T.tunedRestore r.2
    if q.1 then LoopStep.returned false q.2 else LoopStep.again loop q.2
  else LoopStep.again loop { r.2 with curNode := none }

/-- The rest of the loop body, where `curNode` and `curConcept` are set:
`if ( ++loop == 5000 )` resets the counter (an `unsigned int`) and polls; then
the tactic is applied. -/
def pollAndExpand (T : Tactics) (loop : Nat) (s : DlSatTester) : LoopStep :=
  if (loop + 1) % 4294967296 = 5000 then
    match poll s with
    | some (Except.ok b) => LoopStep.returned b s
    | some (Except.error e) => LoopStep.thrown e s
    | none => expand T 0 s
  else expand T ((loop + 1) % 4294967296) s

/-- The beginning of a pass, up to the poll: with `curNode == NULL` the next
to-do entry becomes the current one, unless the pass returns or an assertion
fails before. `Sum.inl` is a pass that ends there; `Sum.inr s` is the state in
which the poll is reached. -/
def enterPass (T : Tactics) (fair : Bool) (s : DlSatTester) : LoopStep ⊕ DlSatTester :=
  match s.curNode with
  | some _ => Sum.inr s
  | none =>
    if s.TODO.empty then
      match nothingToDo T fair s with
      | Sum.inl (b, s1) => Sum.inl (LoopStep.returned b s1)
      | Sum.inr s1 =>
        match setupContext T s1 with
        | none => Sum.inl (LoopStep.thrown EFPPException.EFPPAssertion s1)
        | some s2 => Sum.inr s2
    else
      match setupContext T s with
      | none => Sum.inl (LoopStep.thrown EFPPException.EFPPAssertion s)
      | some s2 => Sum.inr s2

/-- One pass through the body of the loop of `checkSatisfiability`, entered
with the local counter `loop`. -/
def loopBody (T : Tactics) (fair : Bool) (loop : Nat) (s : DlSatTester) : LoopStep :=
  match enterPass T fair s with
  | Sum.inl r => r
  | Sum.inr s2 => pollAndExpand T loop s2

/-- The `for (;;)` loop of `checkSatisfiability`, run for at most `fuel`
passes; `none` when the fuel runs out. -/
def checkSatisfiabilityLoop (T : Tactics) (fair : Bool) :
    Nat → Nat → DlSatTester → Option (Except EFPPException Bool × DlSatTester)
  | 0, _, _ => none
  | fuel + 1, loop, s =>
    match loopBody T fair loop s with
    | LoopStep.returned b s1 => some (Except.ok b, s1)
    | LoopStep.thrown e s1 => some (Except.error e, s1)
    | LoopStep.again loop1 s1 => checkSatisfiabilityLoop T fair fuel loop1 s1

/-- Embeds `DlSatTester::checkSatisfiability`: the loop entered with `loop = 0`. -/
def checkSatisfiability (T : Tactics) (fair : Bool) (fuel : Nat) (s : DlSatTester) :
    Option (Except EFPPException Bool × DlSatTester) :=
  checkSatisfiabilityLoop T fair fuel 0 s

/-- Modelled from the spec: `clearBC()` (declared in `Reasoner.h`, not among
the sources) forgets the current branching context. -/
def clearBC (s : DlSatTester) : DlSatTester := { s with bContext := none }

/-- Modelled from the spec: `updateBranchDep()` (declared in `Reasoner.h`)
adds the current clash set to the branch DepSet of the context. -/
def updateBranchDep (s : DlSatTester) (bc : BranchingContext) : BranchingContext :=
  { bc with branchDep := bc.branchDep.add s.clashSet }

/-- Embeds `DlSatTester::restoreBC`: restore the local state from the branching
context `bContext`; `none` when `bContext` does not point into the stack. -/
def restoreBC (s : DlSatTester) : Option DlSatTester :=
  match s.bContext with
  | none => none
  | some i =>
    match s.Stack.get? i with
    | none => none
    | some bc =>
      some { s with
        curNode := bc.curNode,
        curConcept := bc.curConcept,
        pUsed := vresize s.pUsed bc.pUsedIndex,
        nUsed := vresize s.nUsed bc.nUsedIndex,
        SessionGCIs :=
          if !s.SessionGCIs.isEmpty then vresize s.SessionGCIs bc.SGsize else s.SessionGCIs,
        Stack := s.Stack.set i (updateBranchDep s bc).nextOption }

/-- Embeds `DlSatTester::save`: save the graph and the to-do list, increase the
branching level and forget the branching context. (`Manager.ensureLevel` only
grows the pool of the DepSet manager; statistics and logging are left out
throughout.) -/
def save (s : DlSatTester) : DlSatTester :=
  clearBC { s with CGraph := s.CGraph.save, TODO := s.TODO.save, tryLevel := s.tryLevel + 1 }

/-- Modelled from the spec: `Stack.top(level)` of the branching stack
(`tSaveStack.h` is not among the sources) keeps the contexts of the levels
`1..level` and yields the one of `level`, as an index; `none` when the stack is
shorter than `level`. -/
def stackTop (st : List BranchingContext) (level : Nat) : Option (Nat × List BranchingContext) :=
  if level = 0 ∨ st.length < level then none else some (level - 1, st.take level)

/-- Embeds `DlSatTester::restore`: `none` when an assertion fails or a saved state is
missing. -/
def restore (s : DlSatTester) (newTryLevel : Nat) : Option DlSatTester :=
  if s.Stack.isEmpty then none
  else if newTryLevel = 0 then none
  else
    let s1 := { s with tryLevel := newTryLevel }
    match stackTop s1.Stack s1.tryLevel with
    | none => none
    | some (i, st) =>
      match restoreBC { s1 with bContext := some i, Stack := st } with
      | none => none
      | some s2 =>
        match s2.CGraph.restore s2.tryLevel with
        | none => none
        | some g =>
          match s2.TODO.restore s2.tryLevel with
          | none => none
          | some t => some { s2 with CGraph := g, TODO := t }

end DlSatTester

/-! ## Roles -/

/-- Modelled from the spec: a boolean role property together with the flag
telling whether it has been determined yet (`tRole.h` is not among the
sources). -/
structure TKnownValue where
  known : Bool := false
  value : Bool := false
deriving DecidableEq

/-- Setting a property makes it known. -/
def TKnownValue.setValue (_ : TKnownValue) (v : Bool) : TKnownValue := { known := true, value := v }

/-- Modelled from the spec: a role (`tRole.h` is not among the sources): its
name, its id, the pointer to its inverse (`NULL` before it is set), the
data-role flag, the told parents and the boolean properties. Pointers to roles
are addresses of a role store. -/
structure TRole where
  name : String
  Id : Int := 0
  Inverse : Option Nat := none
  dataRole : Bool := false
  parents : List Nat := []
  Functionality : TKnownValue := {}
  Transitivity : TKnownValue := {}
  Symmetry : TKnownValue := {}
  Asymmetry : TKnownValue := {}
  Reflexivity : TKnownValue := {}
  Irreflexivity : TKnownValue := {}
deriving DecidableEq

/-! ## The reasoning kernel (`Kernel.h`) -/

/-- The input expressions of `tDLExpression.h`. -/
inductive TDLExpression where
  | ConceptTop
  | ConceptBottom
  | ConceptName (name : String)
  | IndividualName (name : String)
  | ObjectRoleTop
  | ObjectRoleBottom
  | ObjectRoleName (name : String)
  | ObjectRoleInverse (R : TDLExpression)
  | ObjectRoleChain (args : List TDLExpression)
  | ObjectRoleProjectionFrom (R C : TDLExpression)
  | ObjectRoleProjectionInto (R C : TDLExpression)
  | DataRoleTop
  | DataRoleBottom
  | DataRoleName (name : String)
  | DataTop
  | DataBottom
  | DataTypeName (name : String)

/-- Modelled from the spec: the internal trees (`dltree.h` is not among the
sources) over concept, individual and role entries. -/
inductive DLTree where
  | TOP
  | BOTTOM
  | CNAME (c : Nat)
  | INAME (i : Nat)
  | RNAME (r : Nat)
  | DNAME (r : Nat)
  | NOT (t : DLTree)
  | AND (l r : DLTree)
  | EXISTS (r c : DLTree)
  | FORALL (r c : DLTree)
  | INV (r : DLTree)
deriving DecidableEq, Repr

/-- Modelled from the spec: the status of the KB (declared outside the
sources), in the order used by the comparisons of `Kernel.h`. -/
inductive KBStatus where
  | kbEmpty
  | kbLoading
  | kbCChecked
  | kbClassified
  | kbRealised
deriving DecidableEq, Repr

/-- Position of a status in the enumeration. -/
def KBStatus.toNat : KBStatus → Nat
  | kbEmpty => 0
  | kbLoading => 1
  | kbCChecked => 2
  | kbClassified => 3
  | kbRealised => 4

/-- The level of the query cache. -/
inductive cacheStatus where
  | csEmpty
  | csSat
  | csClassified
deriving DecidableEq, Repr

/-- Errors leaving a kernel call. -/
inductive KernelError where
  | EFPPInconsistentKB
  | EFaCTPlusPlus (reason : String)
  | EFPPAssertion
  | EFPPTimeout
deriving DecidableEq, Repr

/-- The TBox as the kernel sees it (`dlTBox.h` is not among the sources): its
status and consistency flag, the store of its roles, and its reasoning
services, taken as parameters. Concept entries are pointers (`none` is
`NULL`). -/
structure TBox where
  Status : KBStatus
  Consistent : Bool
  roles : List TRole
  isSatisfiable : Option Nat → Except KernelError Bool
  isSubHolds : Option Nat → Option Nat → Except KernelError Bool
  getCI : DLTree → Option Nat
  getFreshConcept : DLTree
  isDisjointRoles : Nat → Nat → Except KernelError Bool
  isIrreflexive : Nat → Except KernelError Bool
  roleLE : Nat → Nat → Bool

/-- State of `ReasoningKernel` touched by the queries: the TBox (`NULL` before
`newKB`), the changed flag of the ontology, the argument list of the
expression manager and the cached query concept. -/
structure ReasoningKernel where
  pTBox : Option TBox
  ontologyChanged : Bool
  argList : List TDLExpression
  cachedConcept : Option Nat

/-- The functions used by the queries whose code is not among the sources,
taken as parameters: `processKB` and `setUpCache` (implemented in
`Kernel.cpp`), the expression translator `e`, `resolveRole`, the tree builders
of `dltree.h` and the tests for the built-in roles. -/
structure KernelDeps where
  processKB : KBStatus → ReasoningKernel → Except KernelError ReasoningKernel
  setUpCache : DLTree → cacheStatus → ReasoningKernel → Except KernelError ReasoningKernel
  e : TDLExpression → Except KernelError DLTree
  resolveRole : DLTree → Except KernelError Nat
  isCN : DLTree → Bool
  createSNFNot : DLTree → DLTree
  createSNFAnd : DLTree → DLTree → DLTree
  createSNFExists : DLTree → DLTree → DLTree
  createSNFForall : DLTree → DLTree → DLTree
  isUniversalRole : TDLExpression → Bool
  isEmptyRole : TDLExpression → Bool

/-- A kernel method: it reads and updates the kernel and returns a value or
throws. -/
abbrev KernelM (α : Type) := StateT ReasoningKernel (Except KernelError) α

namespace ReasoningKernel

/-- Lift a throwing service into a kernel method. -/
def liftE {α : Type} (x : Except KernelError α) : KernelM α :=
  fun k => x.map (fun a => (a, k))

/-- Embeds `ReasoningKernel::getStatus`. -/
def getStatus (k : ReasoningKernel) : KBStatus :=
  match k.pTBox with
  | none => KBStatus.kbEmpty
  | some t => if k.ontologyChanged then KBStatus.kbLoading else t.Status

/-- Embeds `ReasoningKernel::getTBox` (with `checkTBox`). -/
def getTBox : KernelM TBox := fun k =>
  match k.pTBox with
  | none => Except.error (KernelError.EFaCTPlusPlus "FaCT++ Kernel: KB Not Initialised")
  | some t => Except.ok (t, k)

/-- Embeds `ReasoningKernel::e`: translate an input expression into a tree. -/
def e (D : KernelDeps) (expr : TDLExpression) : KernelM DLTree := liftE (D.e expr)

/-- Embeds `ReasoningKernel::isKBConsistent`. -/
def isKBConsistent (D : KernelDeps) : KernelM Bool := do
  let k ← get
  if (getStatus k).toNat ≤ KBStatus.kbLoading.toNat then
    let k1 ← liftE (D.processKB KBStatus.kbCChecked k)
    set k1
  let t ← getTBox
  pure t.Consistent

/-- Embeds `ReasoningKernel::preprocessKB`. -/
def preprocessKB (D : KernelDeps) : KernelM Unit := do
  if !(← isKBConsistent D) then
    throw KernelError.EFPPInconsistentKB

/-- Embeds `ReasoningKernel::checkSat`. -/
def checkSat (D : KernelDeps) (C : DLTree) : KernelM Bool := do
  if D.isCN C then
    let t ← getTBox
    liftE (t.isSatisfiable (t.getCI C))
  else
    let k ← get
    let k1 ← liftE (D.setUpCache C cacheStatus.csSat k)
    set k1
    let t ← getTBox
    liftE (t.isSatisfiable k1.cachedConcept)

/-- Embeds `ReasoningKernel::checkSub`. -/
def checkSub (D : KernelDeps) (C Dt : DLTree) : KernelM Bool := do
  if D.isCN C && D.isCN Dt then
    let t ← getTBox
    liftE (t.isSubHolds (t.getCI C) (t.getCI Dt))
  else
    let r ← checkSat D (D.createSNFAnd C (D.createSNFNot Dt))
    pure (!r)

/-- Embeds `ReasoningKernel::checkFunctionality`. -/
def checkFunctionality (D : KernelDeps) (R : DLTree) : KernelM Bool := do
  let t ← getTBox
  let tmp := D.createSNFExists R (D.createSNFNot t.getFreshConcept)
  let tmp := D.createSNFAnd tmp (D.createSNFExists R t.getFreshConcept)
  let r ← checkSat D tmp
  pure (!r)

/-- Embeds `ReasoningKernel::checkTransitivity`. -/
def checkTransitivity (D : KernelDeps) (R : DLTree) : KernelM Bool := do
  let t ← getTBox
  let tmp := D.createSNFExists R (D.createSNFNot t.getFreshConcept)
  let tmp := D.createSNFExists R tmp
  let tmp := D.createSNFAnd tmp (D.createSNFForall R t.getFreshConcept)
  let r ← checkSat D tmp
  pure (!r)

/-- Embeds `ReasoningKernel::checkSymmetry`. -/
def checkSymmetry (D : KernelDeps) (R : DLTree) : KernelM Bool := do
  let t ← getTBox
  let tmp := D.createSNFForall R (D.createSNFNot t.getFreshConcept)
  let tmp := D.createSNFAnd t.getFreshConcept (D.createSNFExists R tmp)
  let r ← checkSat D tmp
  pure (!r)

/-- Embeds `ReasoningKernel::checkReflexivity`. -/
def checkReflexivity (D : KernelDeps) (R : DLTree) : KernelM Bool := do
  let t ← getTBox
  let tmp := D.createSNFForall R (D.createSNFNot t.getFreshConcept)
  let tmp := D.createSNFAnd t.getFreshConcept tmp
  let r ← checkSat D tmp
  pure (!r)

/-- Embeds `ReasoningKernel::checkRoleSubsumption`. -/
def checkRoleSubsumption (D : KernelDeps) (R S : DLTree) : KernelM Bool := do
  let t ← getTBox
  let tmp := D.createSNFForall S (D.createSNFNot t.getFreshConcept)
  let tmp := D.createSNFAnd (D.createSNFExists R t.getFreshConcept) tmp
  let r ← checkSat D tmp
  pure (!r)

/-- Read the role at address `r` of the TBox; the access fails on a dangling
pointer. -/
def roleAt (r : Nat) : KernelM TRole := do
  let t ← getTBox
  match t.roles.get? r with
  | none => throw KernelError.EFPPAssertion
  | some R => pure R

/-- Update the role at address `r` of the TBox. -/
def setRole (r : Nat) (f : TRole → TRole) : KernelM Unit := do
  let t ← getTBox
  let k ← get
  set { k with pTBox := some { t with roles := t.roles.modify f r } }

/-- Embeds `TRole::inverse()`: the inverse of the role at `r`, asserted to be set. -/
def roleInverse (r : Nat) : KernelM Nat := do
  let R ← roleAt r
  match R.Inverse with
  | none => throw KernelError.EFPPAssertion
  | some ri => pure ri

/-- Embeds `ReasoningKernel::getRole`: any failure of the translation or of the
resolution is reported with `reason`. -/
def getRole (D : KernelDeps) (r : TDLExpression) (reason : String) : KernelM Nat :=
  fun k =>
    match D.e r with
    | Except.error _ => Except.error (KernelError.EFaCTPlusPlus reason)
    | Except.ok t =>
      match D.resolveRole t with
      | Except.error _ => Except.error (KernelError.EFaCTPlusPlus reason)
      | Except.ok R => Except.ok (R, k)

/-- Embeds `ReasoningKernel::getFunctionality`. -/
def getFunctionality (D : KernelDeps) (R : Nat) : KernelM Bool := do
  let r ← roleAt R
  if !r.Functionality.known then
    let v ← checkFunctionality D (if r.dataRole then DLTree.DNAME R else DLTree.RNAME R)
    setRole R (fun x => { x with Functionality := x.Functionality.setValue v })
  let r ← roleAt R
  pure r.Functionality.value

/-- Embeds `ReasoningKernel::isFunctional` (the object-role and the data-role
overloads have the same body). -/
def isFunctional (D : KernelDeps) (R : TDLExpression) : KernelM Bool := do
  preprocessKB D
  if D.isUniversalRole R then return false
  if D.isEmptyRole R then return true
  let r ← getRole D R "Role expression expected in isFunctional()"
  getFunctionality D r

/-- Embeds `ReasoningKernel::isInverseFunctional`. -/
def isInverseFunctional (D : KernelDeps) (R : TDLExpression) : KernelM Bool := do
  preprocessKB D
  if D.isUniversalRole R then return false
  if D.isEmptyRole R then return true
  let r ← getRole D R "Role expression expected in isInverseFunctional()"
  let ri ← roleInverse r
  getFunctionality D ri

/-- Embeds `ReasoningKernel::isTransitive`. -/
def isTransitive (D : KernelDeps) (R : TDLExpression) : KernelM Bool := do
  preprocessKB D
  if D.isUniversalRole R then return true
  if D.isEmptyRole R then return true
  let r ← getRole D R "Role expression expected in isTransitive()"
  if !(← roleAt r).Transitivity.known then
    let v ← checkTransitivity D (← e D R)
    setRole r (fun x => { x with Transitivity := x.Transitivity.setValue v })
  pure (← roleAt r).Transitivity.value

/-- Embeds `ReasoningKernel::isSymmetric`. -/
def isSymmetric (D : KernelDeps) (R : TDLExpression) : KernelM Bool := do
  preprocessKB D
  if D.isUniversalRole R then return true
  if D.isEmptyRole R then return true
  let r ← getRole D R "Role expression expected in isSymmetric()"
  if !(← roleAt r).Symmetry.known then
    let v ← checkSymmetry D (← e D R)
    setRole r (fun x => { x with Symmetry := x.Symmetry.setValue v })
  pure (← roleAt r).Symmetry.value

/-- Embeds `ReasoningKernel::isAsymmetric`. -/
def isAsymmetric (D : KernelDeps) (R : TDLExpression) : KernelM Bool := do
  preprocessKB D
  if D.isUniversalRole R then return false
  if D.isEmptyRole R then return true
  let r ← getRole D R "Role expression expected in isAsymmetric()"
  if !(← roleAt r).Asymmetry.known then
    let t ← getTBox
    let v ← liftE (t.isDisjointRoles r (← roleInverse r))
    setRole r (fun x => { x with Asymmetry := x.Asymmetry.setValue v })
  pure (← roleAt r).Asymmetry.value

/-- Embeds `ReasoningKernel::isReflexive`. -/
def isReflexive (D : KernelDeps) (R : TDLExpression) : KernelM Bool := do
  preprocessKB D
  if D.isUniversalRole R then return true
  if D.isEmptyRole R then return false
  let r ← getRole D R "Role expression expected in isReflexive()"
  if !(← roleAt r).Reflexivity.known then
    let v ← checkReflexivity D (← e D R)
    setRole r (fun x => { x with Reflexivity := x.Reflexivity.setValue v })
  pure (← roleAt r).Reflexivity.value

/-- Embeds `ReasoningKernel::isIrreflexive`. -/
def isIrreflexive (D : KernelDeps) (R : TDLExpression) : KernelM Bool := do
  preprocessKB D
  if D.isUniversalRole R then return false
  if D.isEmptyRole R then return true
  let r ← getRole D R "Role expression expected in isIrreflexive()"
  if !(← roleAt r).Irreflexivity.known then
    let t ← getTBox
    let v ← liftE (t.isIrreflexive r)
    setRole r (fun x => { x with Irreflexivity := x.Irreflexivity.setValue v })
  pure (← roleAt r).Irreflexivity.value

/-- Embeds `ReasoningKernel::isSubRoles`. -/
def isSubRoles (D : KernelDeps) (R S : TDLExpression) : KernelM Bool := do
  preprocessKB D
  if D.isEmptyRole R || D.isUniversalRole S then return true
  if D.isUniversalRole R && D.isEmptyRole S then return false
  let r ← getRole D R "Role expression expected in isSubRoles()"
  let s ← getRole D S "Role expression expected in isSubRoles()"
  let t ← getTBox
  if t.roleLE r s then return true
  let rt ← e D R
  let st ← e D S
  checkRoleSubsumption D rt st

/-- Embeds `ReasoningKernel::isDisjointRoles` (the object-role and the data-role
overloads have the same body). -/
def isDisjointRoles (D : KernelDeps) (R S : TDLExpression) : KernelM Bool := do
  preprocessKB D
  if D.isUniversalRole R || D.isUniversalRole S then return false
  if D.isEmptyRole R || D.isEmptyRole S then return true
  let r ← getRole D R "Role expression expected in isDisjointRoles()"
  let s ← getRole D S "Role expression expected in isDisjointRoles()"
  let t ← getTBox
  liftE (t.isDisjointRoles r s)

/-- Embeds `ReasoningKernel::isSatisfiable`. -/
def isSatisfiable (D : KernelDeps) (C : TDLExpression) : KernelM Bool := do
  preprocessKB D
  checkSat D (← e D C)

/-- Embeds `ReasoningKernel::isSubsumedBy`. -/
def isSubsumedBy (D : KernelDeps) (C Dx : TDLExpression) : KernelM Bool := do
  preprocessKB D
  let c ← e D C
  let d ← e D Dx
  checkSub D c d

/-- Embeds `ReasoningKernel::isDisjoint`. -/
def isDisjoint (D : KernelDeps) (C Dx : TDLExpression) : KernelM Bool := do
  preprocessKB D
  let c ← e D C
  let d ← e D Dx
  checkSub D c (D.createSNFNot d)

/-- Embeds `ReasoningKernel::isEquivalent`. -/
def isEquivalent (D : KernelDeps) (C Dx : TDLExpression) : KernelM Bool := do
  preprocessKB D
  if ← isSubsumedBy D C Dx then isSubsumedBy D Dx C else pure false

/-- The `dynamic_cast` to `TDLObjectRoleExpression`: the object-role
expressions of `tDLExpression.h`. -/
def isObjectRoleExpression : TDLExpression → Bool
  | TDLExpression.ObjectRoleTop => true
  | TDLExpression.ObjectRoleBottom => true
  | TDLExpression.ObjectRoleName _ => true
  | TDLExpression.ObjectRoleInverse _ => true
  | _ => false

/-- The loop of `checkSubChain` over the chain, taken from its last element to
its first: every element has to be an object-role expression and wraps `tmp`
into an existential restriction. -/
def chainExists (D : KernelDeps) : List TDLExpression → DLTree → KernelM DLTree
  | [], tmp => pure tmp
  | p :: ps, tmp => do
    if !isObjectRoleExpression p then
      throw (KernelError.EFaCTPlusPlus "Role expression expected in the role chain construct")
    let r ← e D p
    chainExists D ps (D.createSNFExists r tmp)

/-- Embeds `ReasoningKernel::checkSubChain`, for the role at address `R`. -/
def checkSubChain (D : KernelDeps) (R : Nat) : KernelM Bool := do
  let k ← get
  let t ← getTBox
  let tmp ← chainExists D k.argList.reverse (D.createSNFNot t.getFreshConcept)
  let tmp := D.createSNFAnd tmp (D.createSNFForall (DLTree.RNAME R) t.getFreshConcept)
  let r ← checkSat D tmp
  pure (!r)

/-- Embeds `ReasoningKernel::isSubChain`. -/
def isSubChain (D : KernelDeps) (R : TDLExpression) : KernelM Bool := do
  preprocessKB D
  if D.isUniversalRole R then return true
  if D.isEmptyRole R then return false
  let r ← getRole D R "Role expression expected in isSubChain()"
  checkSubChain D r

/-- The concept of the transitivity test as the specification words it:
`(EXISTS R.EXISTS R.NOT C) AND (FORALL R.C)`. -/
def transitivityTestConcept (D : KernelDeps) (C R : DLTree) : DLTree :=
  D.createSNFAnd (D.createSNFExists R (D.createSNFExists R (D.createSNFNot C)))
    (D.createSNFForall R C)

end ReasoningKernel

/-! ## The role master (`RoleMaster.h`) -/

/-- Failure of a name registration (`EFPPCantRegName`), with the name and the
type string given to it. -/
structure EFPPCantRegName where
  name : String
  type : String
deriving DecidableEq, Repr

/-- State of `RoleMaster`. The roles live in the store `heap`; a `TRole*` is an
address of it. The two member objects `emptyRole` and `universalRole` sit at
the addresses `0` and `1`. The name set `roleNS` is the list of the entries it
has created, with their names. -/
structure RoleMaster where
  heap : List TRole
  newRoleId : Int
  Roles : List (Option Nat)
  roleNS : List (String × Nat)
  DJRolesA : List Nat
  DJRolesB : List Nat
  useUndefinedNames : Bool
deriving DecidableEq

namespace RoleMaster

/-- Address of the member object `emptyRole`. -/
def emptyRole : Nat := 0

/-- Address of the member object `universalRole`. -/
def universalRole : Nat := 1

/-- The constant `firstRoleIndex()`. -/
def firstRoleIndex : Nat := 2

/-- Modelled from the spec: `TRole::getIndex()`, the role index used in
bitmaps: `2k` for the role of id `k > 0` and `2k+1` for its inverse of id
`-k`; a role of id `0` has index `1`. -/
def getIndex (R : TRole) : Nat :=
  if 0 < 2 * R.Id then (2 * R.Id).toNat else (1 - 2 * R.Id).toNat

/-- The id of the role at an address (`getId()`), if the address is valid. -/
def idOf (rm : RoleMaster) (p : Nat) : Option Int := (rm.heap.get? p).map (fun R => R.Id)

/-- The `Inverse` pointer of the role at an address; `none` also for `NULL`. -/
def inverseOf (rm : RoleMaster) (p : Nat) : Option Nat := (rm.heap.get? p).bind (fun R => R.Inverse)

/-- The told parents of the role at an address. -/
def parentsOf (rm : RoleMaster) (p : Nat) : List Nat :=
  match rm.heap.get? p with
  | none => []
  | some R => R.parents

/-- Embeds `RoleMaster::RoleMaster`. -/
def ctor : RoleMaster :=
  { heap := [ { name := "emptyRole", Id := 0, Inverse := some emptyRole },
              { name := "universalRole", Id := 0, Inverse := some universalRole } ],
    newRoleId := 1,
    Roles := [none, none],
    roleNS := [],
    DJRolesA := [], DJRolesB := [],
    useUndefinedNames := true }

/-- Embeds `RoleMaster::size`. -/
def size (rm : RoleMaster) : Nat := rm.Roles.length / 2 - 1

/-- Embeds `RoleMaster::registerRole`: `none` when an assertion fails (`r` is not the
address of a new role: its `Inverse` is set or its id is not `0`). -/
def registerRole (rm : RoleMaster) (r : Nat) (isDataRole : Bool) : Option RoleMaster :=
  match rm.heap.get? r with
  | none => none
  | some R =>
    if R.Inverse ≠ none ∨ R.Id ≠ 0 then none
    else
      let ri := rm.heap.length
      let R1 : TRole :=
        { R with dataRole := if isDataRole then true else R.dataRole,
                 Id := rm.newRoleId, Inverse := some ri }
      let Ri : TRole := { name := "-" ++ R.name, Id := -rm.newRoleId, Inverse := some r }
      some { rm with
        heap := rm.heap.set r R1 ++ [Ri],
        Roles := rm.Roles ++ [some r, some ri],
        newRoleId := rm.newRoleId + 1 }

/-- Embeds `RoleMaster::isRegisteredRole`. -/
def isRegisteredRole (rm : RoleMaster) (p : Option Nat) : Bool :=
  match p with
  | none => false
  | some a =>
    match rm.heap.get? a with
    | none => false
    | some R =>
      let ind := getIndex R
      decide (firstRoleIndex ≤ ind) && decide (ind < rm.Roles.length) &&
        decide (rm.Roles.get? ind = some (some a))

/-- Modelled from the spec: `TNameSet::insert(name)` (`tNameSet.h` is not
among the sources): the entry registered under `name` if there is one,
otherwise a new role with that name (id `0`, no inverse) is created and
recorded. -/
def nsInsert (rm : RoleMaster) (name : String) : Option Nat × RoleMaster :=
  match rm.roleNS.find? (fun e => e.1 == name) with
  | some e => (some e.2, rm)
  | none =>
    let p := rm.heap.length
    (some p, { rm with heap := rm.heap ++ [{ name := name }], roleNS := rm.roleNS ++ [(name, p)] })

/-- Embeds `RoleMaster::ensureRoleName`: the entry or the exception, and the state
left; `none` when an assertion of `registerRole` fails. -/
def ensureRoleName (rm : RoleMaster) (name : String) (isDataRole : Bool) :
    Option (Except EFPPCantRegName Nat × RoleMaster) :=
  let type := if isDataRole then "data role" else "role"
  match nsInsert rm name with
  | (none, rm1) => some (Except.error { name := name, type := type }, rm1)
  | (some p, rm1) =>
    if isRegisteredRole rm1 (some p) then some (Except.ok p, rm1)
    else if rm1.idOf p ≠ some 0 ∨ !rm1.useUndefinedNames then
      some (Except.error { name := name, type := type }, rm1)
    else
      match registerRole rm1 p isDataRole with
      | none => none
      | some rm2 => some (Except.ok p, rm2)

/-- Modelled from the spec: `TRole::addParent` adds a role to the parents of
the role at address `p`. -/
def addParent (rm : RoleMaster) (p parent : Nat) : RoleMaster :=
  { rm with heap := rm.heap.modify (fun R => { R with parents := R.parents ++ [parent] }) p }

/-- Embeds `RoleMaster::addRoleParent ( TRole*, TRole* )`: `none` when a pointer
followed by the call (`role`, `parent`, `role->Inverse`) is dangling or
`NULL`, or `parent->Inverse` is `NULL`. -/
def addRoleParent (rm : RoleMaster) (role parent : Nat) : Option (Bool × RoleMaster) :=
  match rm.heap.get? role, rm.heap.get? parent with
  | some R, some P =>
    if R.dataRole ≠ P.dataRole then some (true, rm)
    else
      match R.Inverse, P.Inverse with
      | some ri, some pi =>
        let rm1 := addParent rm role parent
        if ri < rm1.heap.length then some (false, addParent rm1 ri pi) else none
      | _, _ => none
  | _, _ => none

/-- Embeds `RoleMaster::addRoleSynonym`. -/
def addRoleSynonym (rm : RoleMaster) (role syn : Nat) : Option (Bool × RoleMaster) :=
  if role = syn then some (false, rm)
  else
    match addRoleParent rm role syn with
    | none => none
    | some (true, rm1) => some (true, rm1)
    | some (false, rm1) => addRoleParent rm1 syn role

/-- Embeds `RoleMaster::addDisjointRoles`. -/
def addDisjointRoles (rm : RoleMaster) (R S : Nat) : RoleMaster :=
  { rm with DJRolesA := rm.DJRolesA ++ [R], DJRolesB := rm.DJRolesB ++ [S] }

/-- Embeds `RoleMaster::setUndefinedNames`. -/
def setUndefinedNames (rm : RoleMaster) (val : Bool) : RoleMaster :=
  { rm with useUndefinedNames := val }

/-- The states a role master goes through: built by the constructor, then
changed by the name set (`roleNS.insert`), by `registerRole` and by the other
mutators of the class (`addRoleSynonym` is two calls of `addRoleParent`;
`initAncDesc` and `Load` are implemented outside this header and are not
steps). The index lists the roles handed to `registerRole`, in the order of the
registrations. -/
inductive Reachable : List Nat → RoleMaster → Prop where
  | ctor : Reachable [] RoleMaster.ctor
  | insert {regs : List Nat} {rm : RoleMaster} (name : String) :
      Reachable regs rm → Reachable regs (nsInsert rm name).2
  | register {regs : List Nat} {rm rm1 : RoleMaster} (r : Nat) (isDataRole : Bool) :
      Reachable regs rm → registerRole rm r isDataRole = some rm1 →
      Reachable (regs ++ [r]) rm1
  | addRoleParent {regs : List Nat} {rm rm1 : RoleMaster} (role parent : Nat) (b : Bool) :
      Reachable regs rm → RoleMaster.addRoleParent rm role parent = some (b, rm1) →
      Reachable regs rm1
  | addDisjointRoles {regs : List Nat} {rm : RoleMaster} (R S : Nat) :
      Reachable regs rm → Reachable regs (RoleMaster.addDisjointRoles rm R S)
  | setUndefinedNames {regs : List Nat} {rm : RoleMaster} (val : Bool) :
      Reachable regs rm → Reachable regs (RoleMaster.setUndefinedNames rm val)

end RoleMaster

/-! ## Concrete inputs used by the examples -/

/-- A label with two entries carrying the pointer `-3`. -/
def exLabel : CWDArray := [⟨2, {1}⟩, ⟨-3, {2}⟩, ⟨-3, {7}⟩]

/-- Tactics under which every expansion clashes and every restore finds another
alternative, so the loop never leaves the current entry. -/
def exTactics : DlSatTester.Tactics :=
  { commonTactic := fun s => (true, s),
    tunedRestore := fun s => (false, s),
    straightforwardRestore := fun s => (true, s),
    retestCGBlockedStatus := fun s => s,
    isFCViolated := fun _ _ => false,
    getConcept := fun _ _ _ => default }

/-- A tester working on node `0` whose TBox has been cancelled. -/
def exCancelled : DlSatTester :=
  { DlSatTester.initMembers { Fairness := [], cancelled := true } false with curNode := some 0 }

/-- A tester working on node `0` with a timeout of one second, two seconds
after the start of the test. -/
def exTimedOut : DlSatTester :=
  { DlSatTester.initMembers { Fairness := [], cancelled := false } false with
      curNode := some 0, testTimeout := 1000, testTimer := 2 }

/-- Kernel services for the examples: concept names translate to name entries,
the tree builders are the plain constructors, a KB never needs processing. -/
def exDeps : KernelDeps :=
  { processKB := fun _ k => Except.ok k,
    setUpCache := fun _ _ k => Except.ok { k with cachedConcept := some 0 },
    e := fun x =>
      match x with
      | TDLExpression.ConceptTop => Except.ok DLTree.TOP
      | TDLExpression.ConceptBottom => Except.ok DLTree.BOTTOM
      | TDLExpression.ConceptName n => Except.ok (DLTree.CNAME n.length)
      | TDLExpression.ObjectRoleName n => Except.ok (DLTree.RNAME n.length)
      | _ => Except.error (KernelError.EFaCTPlusPlus "unsupported expression"),
    resolveRole := fun t =>
      match t with
      | DLTree.RNAME r => Except.ok r
      | _ => Except.error (KernelError.EFaCTPlusPlus "not a role"),
    isCN := fun t =>
      match t with
      | DLTree.CNAME _ => true
      | _ => false,
    createSNFNot := DLTree.NOT,
    createSNFAnd := DLTree.AND,
    createSNFExists := DLTree.EXISTS,
    createSNFForall := DLTree.FORALL,
    isUniversalRole := fun x =>
      match x with
      | TDLExpression.ObjectRoleTop => true
      | TDLExpression.DataRoleTop => true
      | _ => false,
    isEmptyRole := fun x =>
      match x with
      | TDLExpression.ObjectRoleBottom => true
      | TDLExpression.DataRoleBottom => true
      | _ => false }

/-- A checked TBox with the given consistency flag, whose satisfiability
service answers `sat` and whose told-subsumption service answers `sub`. -/
def exTBox (consistent sat sub : Bool) : TBox :=
  { Status := KBStatus.kbCChecked,
    Consistent := consistent,
    roles := [],
    isSatisfiable := fun _ => Except.ok sat,
    isSubHolds := fun _ _ => Except.ok sub,
    getCI := fun t =>
      match t with
      | DLTree.CNAME c => some c
      | _ => none,
    getFreshConcept := DLTree.CNAME 1000,
    isDisjointRoles := fun _ _ => Except.ok false,
    isIrreflexive := fun _ => Except.ok false,
    roleLE := fun _ _ => false }

/-- A kernel holding `exTBox`, its ontology unchanged. -/
def exKernel (consistent sat sub : Bool) : ReasoningKernel :=
  { pTBox := some (exTBox consistent sat sub),
    ontologyChanged := false,
    argList := [],
    cachedConcept := none }

/-- The role master after `ensureRoleName("R", false)`: the object role `R` at
address `2`, its inverse at `3`. -/
def exRM1 : RoleMaster :=
  ((RoleMaster.ensureRoleName RoleMaster.ctor "R" false).map Prod.snd).getD RoleMaster.ctor

/-- The role master after a further `ensureRoleName("S", false)`: the object
role `S` at address `4`, its inverse at `5`. -/
def exRM2 : RoleMaster :=
  ((RoleMaster.ensureRoleName exRM1 "S" false).map Prod.snd).getD RoleMaster.ctor

/-- The role master after `ensureRoleName("D", true)`: the data role `D` at
address `2`. -/
def exRMD : RoleMaster :=
  ((RoleMaster.ensureRoleName RoleMaster.ctor "D" true).map Prod.snd).getD RoleMaster.ctor

/-- An engine at level `1` that has just created the branching context of the
level: the context records the current node `3`, the current concept and the
lengths of the used-pointer arrays; nothing has been saved yet. -/
def exEngine : DlSatTester :=
  { DlSatTester.initMembers { Fairness := [], cancelled := false } false with
      tryLevel := 1,
      curNode := some 3,
      curConcept := ⟨5, {1}⟩,
      pUsed := [5, 7],
      nUsed := [-4],
      Stack := [{ curNode := some 3, curConcept := ⟨5, {1}⟩, pUsedIndex := 2, nUsedIndex := 1,
                  SGsize := 0, branchDep := ∅, branchIndex := 0 }],
      CGraph := { nodes := [{ id := 0, sc := [⟨5, {1}⟩], cc := [⟨7, ∅⟩, ⟨9, {1}⟩] }],
                  edges := [{ src := 0, dst := 0, role := 1, dep := ∅ }],
                  saved := [] },
      TODO := { buckets := [[{ Node := 0, offset := 1 }], []], saved := [] } }

/-- The same engine after it has moved on to node `4`, the branching context
on the stack still recording node `3`. -/
def exEngineMoved : DlSatTester := { exEngine with curNode := some 4 }

/-- The invariant of the role master after the registrations `regs`: the next
id, the length of `Roles`, and for the `(k+1)`-th registered role `r`: `r` and
its inverse `ri` sit at the positions `2(k+1)` and `2(k+1)+1` of `Roles`, are
distinct, carry the ids `k+1` and `-(k+1)` and are inverses of each other; the
two built-in roles have id `0` and are their own inverses. -/
def RoleMaster.Registered (regs : List Nat) (rm : RoleMaster) : Prop :=
  rm.newRoleId = (regs.length : Int) + 1 ∧
  rm.Roles.length = 2 + 2 * regs.length ∧
  (∀ k r, regs.get? k = some r →
    ∃ ri, rm.Roles.get? (2 * (k + 1)) = some (some r) ∧
      rm.Roles.get? (2 * (k + 1) + 1) = some (some ri) ∧ r ≠ ri ∧
      rm.idOf r = some ((k : Int) + 1) ∧ rm.idOf ri = some (-((k : Int) + 1)) ∧
      rm.inverseOf r = some ri ∧ rm.inverseOf ri = some r) ∧
  (rm.idOf RoleMaster.emptyRole = some 0 ∧
    rm.inverseOf RoleMaster.emptyRole = some RoleMaster.emptyRole) ∧
  (rm.idOf RoleMaster.universalRole = some 0 ∧
    rm.inverseOf RoleMaster.universalRole = some RoleMaster.universalRole)

/-! ## Conjunctive query folding (`ConjunctiveQueryFolding.cpp`) -/

/-- Object role expressions met in queries (`TORoleExpr`): a role name or the
inverse of a role expression. -/
inductive TORoleExpr where
  | Name (name : String)
  | Inverse (R : TORoleExpr)
deriving DecidableEq, Repr

/-- Concept expressions met in query folding (`TConceptExpr`).  Every
conjunction of this file is built by `pEM->And(C,D)` and every disjunction by
`pEM->Or(C,D)`, so both have two arguments. -/
inductive TConceptExpr where
  | Top
  | Bottom
  | Name (name : String)
  | Not (C : TConceptExpr)
  | And (C D : TConceptExpr)
  | Or (C D : TConceptExpr)
  | Exists (R : TORoleExpr) (C : TConceptExpr)
  | Forall (R : TORoleExpr) (C : TConceptExpr)
deriving DecidableEq, Repr

/-- Modelled from the spec: a query atom is `R(x,y)` or `C(x)`; its arguments
are variables, and a variable is the number under which the variable factory
created it. -/
inductive QRAtom where
  | Role (R : TORoleExpr) (Arg1 Arg2 : Nat)
  | Concept (C : TConceptExpr) (Arg : Nat)
deriving DecidableEq, Repr

/-- Modelled from the spec: a query is a body of atoms (kept in the order in
which they were added) with a designated set of free variables. -/
structure QRQuery where
  Body : List QRAtom
  FreeVars : List Nat
deriving DecidableEq, Repr

/-- Insertion into a `std::set` kept as a list without repetitions. -/
def setInsert (s : List Nat) (v : Nat) : List Nat := if v ∈ s then s else s ++ [v]

/-- Modelled from the spec: the variable factory hands out variables one after
another; the list holds the names of the variables created so far. -/
abbrev VariableFactory := List String

/-- Modelled from the spec: `VarFact.getNewVar(name)` creates a variable. -/
def VariableFactory.getNewVar (vf : VariableFactory) (name : String) :
    Nat × VariableFactory :=
  (vf.length, vf ++ [name])

/-- Modelled from the spec: `var->getName()`. -/
def VariableFactory.getName (vf : VariableFactory) (v : Nat) : String := vf.getD v ""

namespace QRQuery

/-- Modelled from the spec: `isFreeVar(v)` tests membership in `FreeVars`. -/
def isFreeVar (q : QRQuery) (v : Nat) : Bool := decide (v ∈ q.FreeVars)

/-- Modelled from the spec: `setVarFree(v)` inserts `v` into `FreeVars`. -/
def setVarFree (q : QRQuery) (v : Nat) : QRQuery :=
  { q with FreeVars := setInsert q.FreeVars v }

/-- Modelled from the spec: `addAtom(atom)` appends the atom to the body. -/
def addAtom (q : QRQuery) (atom : QRAtom) : QRQuery := { q with Body := q.Body ++ [atom] }

/-- Modelled from the spec: `Body.replaceAtom(i, atom)` overwrites the atom at
position `i` and returns the old one. -/
def replaceAtom (q : QRQuery) (i : Nat) (atom : QRAtom) : QRQuery :=
  { q with Body := q.Body.set i atom }

end QRQuery

/-- Modelled from the spec: the expression manager is an external collaborator
that produces the terms.  `C == D` compares objects: `Top`, `Bottom` and the
concept of a given name are single objects of the manager, every other
expression is an object of its own, created where it is built. -/
def sameObject : TConceptExpr → TConceptExpr → Bool
  | TConceptExpr.Top, TConceptExpr.Top => true
  | TConceptExpr.Bottom, TConceptExpr.Bottom => true
  | TConceptExpr.Name a, TConceptExpr.Name b => decide (a = b)
  | _, _ => false

/-- Embeds the static function `And` ("smart AND") of the folding code; `same`
is the outcome of the comparison `C == D` of the two objects. -/
def smartAndWith (same : Bool) (C D : TConceptExpr) : TConceptExpr :=
  if same then C
  else match C with
    | TConceptExpr.Top => D
    | _ => match D with
      | TConceptExpr.Top => C
      | _ => TConceptExpr.And C D

/-- The function `And` on the terms of the folding code, whose objects
`sameObject` compares. -/
def smartAnd (C D : TConceptExpr) : TConceptExpr := smartAndWith (sameObject C D) C D

namespace QueryConnectednessChecker

/-- One turn of the loop of `MarkVertex` over the atoms; `rec` is the
recursive call and `passed` is `PassedVertice`. -/
def markStep (rec : Nat → List Nat → List Nat) (var : Nat) (passed : List Nat) :
    QRAtom → List Nat
  | QRAtom.Role _ arg1 arg2 =>
    if (arg1 ≠ var ∧ arg2 ≠ var) ∨ (arg1 = var ∧ arg2 = var) then passed
    else
      let neighbour := if arg1 = var then arg2 else arg1
      if neighbour ∈ passed then passed else rec neighbour passed
  | QRAtom.Concept _ _ => passed

/-- Embeds `QueryConnectednessChecker::MarkVertex`; the first argument bounds
the depth of the recursion. -/
def MarkVertex (body : List QRAtom) : Nat → Nat → List Nat → List Nat
  | 0, _, passed => passed
  | fuel + 1, var, passed =>
    body.foldl (fun acc atom => markStep (MarkVertex body fuel) var acc atom)
      (setInsert passed var)

/-- The second loop of `isConnected`: `false` at the first atom with an
argument that was not passed. -/
def allPassed (passed : List Nat) : List QRAtom → Bool
  | [] => true
  | QRAtom.Role _ arg1 arg2 :: rest =>
    if arg1 ∉ passed ∨ arg2 ∉ passed then false else allPassed passed rest
  | QRAtom.Concept _ arg :: rest =>
    if arg ∉ passed then false else allPassed passed rest

/-- Embeds `QueryConnectednessChecker::isConnected`.  The code reads the first
atom without a test, so an empty body has no result.  Each recursive call of
`MarkVertex` passes a new variable, and a body of `n` atoms has at most `2n`
variables: the depth `2n` is never exhausted. -/
def isConnected (q : QRQuery) : Option Bool :=
  match q.Body with
  | [] => none
  | QRAtom.Role _ arg1 _ :: _ =>
    some (allPassed (MarkVertex q.Body (2 * q.Body.length) arg1 []) q.Body)
  | QRAtom.Concept _ arg :: _ =>
    some (allPassed (MarkVertex q.Body (2 * q.Body.length) arg []) q.Body)

end QueryConnectednessChecker

/-- The variables occurring in the atoms of a body. -/
def varsOf : List QRAtom → List Nat
  | [] => []
  | QRAtom.Role _ arg1 arg2 :: rest => arg1 :: arg2 :: varsOf rest
  | QRAtom.Concept _ arg :: rest => arg :: varsOf rest

/-- The first argument of the first atom. -/
def startVar : List QRAtom → Nat
  | [] => 0
  | QRAtom.Role _ arg1 _ :: _ => arg1
  | QRAtom.Concept _ arg :: _ => arg

/-- The undirected graph of a body: an edge joins the two arguments of each
role atom. -/
def adjacent (body : List QRAtom) (a b : Nat) : Prop :=
  ∃ R, QRAtom.Role R a b ∈ body ∨ QRAtom.Role R b a ∈ body

/-- Reachability in the undirected graph of a body. -/
def Linked (body : List QRAtom) : Nat → Nat → Prop :=
  Relation.ReflTransGen (adjacent body)

/-- Number of variables of the body that were not passed yet. -/
def unpassed (body : List QRAtom) (passed : List Nat) : Nat :=
  ((varsOf body).toFinset \ passed.toFinset).card

/-- What a call of `MarkVertex` on `var` achieves: it keeps what was passed,
passes `var`, the newly passed variables are closed under adjacency, and each
of them is linked to `var`. -/
structure MarkSpec (body : List QRAtom) (var : Nat) (passed res : List Nat) : Prop where
  keeps : ∀ u ∈ passed, u ∈ res
  self : var ∈ res
  closed : ∀ u ∈ res, u ∉ passed → ∀ w, adjacent body u w → w ∈ res
  sound : ∀ u ∈ res, u ∈ passed ∨ Linked body var u

/-- Invariant of the loop of `MarkVertex` over the atoms. -/
structure LoopInv (body : List QRAtom) (var : Nat) (passed acc : List Nat) : Prop where
  base : ∀ u ∈ setInsert passed var, u ∈ acc
  closed : ∀ u ∈ acc, u ∉ passed → u ≠ var → ∀ w, adjacent body u w → w ∈ acc
  sound : ∀ u ∈ acc, u ∈ passed ∨ Linked body var u


/-- Embeds `PossiblyReplaceAtom`.  Atoms are identified by their position in the
body: `passedAtoms` holds positions, and after the call the atom at position
`i` is in `passedAtoms` (the new atom after a success, the restored old atom
after a rollback).  The result is the returned flag, the query and
`passedAtoms`; there is none when `i` is not a position of the body. -/
def PossiblyReplaceAtom (query : QRQuery) (i : Nat) (newAtom : QRAtom) (newArg : Nat)
    (passedAtoms : List Nat) : Option (Bool × QRQuery × List Nat) :=
  match query.Body.get? i with
  | none => none
  | some oldAtom =>
    let query1 := (query.replaceAtom i newAtom).setVarFree newArg
    match QueryConnectednessChecker.isConnected query1 with
    | none => none
    | some true => some (true, query1, setInsert passedAtoms i)
    | some false =>
      some (false,
        { Body := (query1.replaceAtom i oldAtom).Body, FreeVars := query1.FreeVars.erase newArg },
        setInsert passedAtoms i)

/-- The state of Phase 1: the query, the globals `VarFact` and `NewVarMap`
(a variable without an entry is mapped to `NULL`), and the locals
`passedAtoms` and `n` of `transformQueryPhase1`.  The counter `n` grows by one
for each atom at most. -/
structure Phase1State where
  query : QRQuery
  VarFact : VariableFactory
  NewVarMap : List (Nat × Nat)
  passedAtoms : List Nat
  n : Nat
deriving DecidableEq, Repr

/-- Reading `NewVarMap[v]`; `none` is the `NULL` of a missing entry. -/
def mapFind (m : List (Nat × Nat)) (v : Nat) : Option Nat :=
  (m.find? (fun p => p.1 = v)).map (fun p => p.2)

/-- Writing `NewVarMap[v] = w`. -/
def mapSet (m : List (Nat × Nat)) (v w : Nat) : List (Nat × Nat) :=
  (m.filter (fun p => p.1 ≠ v)) ++ [(v, w)]

/-- Embeds `initVarMap`: the map is cleared and every free variable is mapped
to itself. -/
def initVarMap (query : QRQuery) : List (Nat × Nat) :=
  query.FreeVars.foldl (fun m p => mapSet m p p) []

/-- Embeds `getNewCopyVar`: a new variable named after `old` with the suffix
`_<suffix>`, recorded in `NewVarMap` as a copy of `old`. -/
def getNewCopyVar (s : Phase1State) (old : Nat) (suffix : Nat) : Nat × Phase1State :=
  let r := s.VarFact.getNewVar (s.VarFact.getName old ++ "_" ++ toString suffix)
  (r.1, { s with VarFact := r.2, NewVarMap := mapSet s.NewVarMap r.1 old })

/-- One freshening attempt of `transformQueryPhase1` at position `i`: the
argument `old` of the atom is copied, the atom built by `mk` from the copy
replaces the atom at `i` if the query stays connected.  The result is the
state and the next position: `i` again after a success (`continue`), `i + 1`
otherwise. -/
def tryFreshen (s : Phase1State) (i : Nat) (old : Nat) (mk : Nat → QRAtom) :
    Option (Phase1State × Nat) :=
  let r := getNewCopyVar { s with n := s.n + 1 } old (s.n + 1)
  match PossiblyReplaceAtom r.2.query i (mk r.1) r.1 r.2.passedAtoms with
  | none => none
  | some (ret, q, pa) =>
    some ({ r.2 with query := q, passedAtoms := pa }, if ret then i else i + 1)

/-- The body of the loop of `transformQueryPhase1` at position `i`. -/
def phase1Body (s : Phase1State) (i : Nat) : Option (Phase1State × Nat) :=
  match s.query.Body.get? i with
  | none => none
  | some (QRAtom.Concept _ _) => some (s, i + 1)
  | some (QRAtom.Role role arg1 arg2) =>
    if i ∈ s.passedAtoms then some (s, i + 1)
    else if s.query.isFreeVar arg2 then
      tryFreshen s i arg2 (fun newArg => QRAtom.Role role arg1 newArg)
    else if s.query.isFreeVar arg1 then
      tryFreshen s i arg1 (fun newArg => QRAtom.Role role newArg arg2)
    else some (s, i + 1)

/-- The loop of `transformQueryPhase1`; `p_end` is the end of the body taken
when the loop starts, the first argument bounds the number of turns. -/
def phase1Loop (p_end : Nat) : Nat → Phase1State → Nat → Option Phase1State
  | 0, _, _ => none
  | fuel + 1, s, i =>
    if i < p_end then
      match phase1Body s i with
      | none => none
      | some (s1, i1) => phase1Loop p_end fuel s1 i1
    else some s

/-- Embeds `transformQueryPhase1`.  Each position is met twice at most, so
`2 * length + 1` turns are enough. -/
def transformQueryPhase1 (query : QRQuery) (VarFact : VariableFactory) : Option Phase1State :=
  phase1Loop query.Body.length (2 * query.Body.length + 1)
    { query := query, VarFact := VarFact, NewVarMap := initVarMap query,
      passedAtoms := [], n := 0 } 0


/-- The state of a `TermAssigner`: the query and the counter `N`, together
with the globals `VarFact` and `NewVarMap` it reads.  The member
`PassedVertice` is only written, never read, and is left out. -/
structure TermAssigner where
  Query : QRQuery
  N : Nat
  VarFact : VariableFactory
  NewVarMap : List (Nat × Nat)
deriving DecidableEq, Repr

namespace TermAssigner

/-- Embeds `TermAssigner::createVar`: the test is on `NewVarMap[v]`, the
variable that `v` was copied from; a missing entry is `NULL`, which is not a
free variable. -/
def createVar (a : TermAssigner) (v : Nat) : TConceptExpr × TermAssigner :=
  match mapFind a.NewVarMap v with
  | none => (TConceptExpr.Top, a)
  | some orig =>
    if a.Query.isFreeVar orig then
      (TConceptExpr.Name (a.VarFact.getName orig ++ ":" ++ toString (a.N + 1)),
        { a with N := a.N + 1 })
    else (TConceptExpr.Top, a)

/-- One turn of the loop of `Assign` over the atoms: `j` is the position of
the atom, `rec` the recursive call, and the state is the term `s` built so far
with the assigner.  There is no result when a recursive call has none. -/
def assignStep (rec : Option Nat → Nat → TermAssigner → Option (TConceptExpr × TermAssigner))
    (previousAtom : Option Nat) (v : Nat) (st : Option (TConceptExpr × TermAssigner))
    (ja : Nat × QRAtom) : Option (TConceptExpr × TermAssigner) :=
  match st with
  | none => none
  | some (s, a) =>
    match ja.2 with
    | QRAtom.Role role arg1 arg2 =>
      if some ja.1 = previousAtom then some (s, a)
      else
        let st1 : Option (TConceptExpr × TermAssigner) :=
          if arg1 = v then
            match rec (some ja.1) arg2 a with
            | none => none
            | some (p, a1) => some (smartAnd s (TConceptExpr.Exists role p), a1)
          else some (s, a)
        match st1 with
        | none => none
        | some (s1, a1) =>
          if arg2 = v then
            match rec (some ja.1) arg1 a1 with
            | none => none
            | some (p, a2) =>
              some (smartAnd s1 (TConceptExpr.Exists (TORoleExpr.Inverse role) p), a2)
          else some (s1, a1)
    | QRAtom.Concept concept arg =>
      if arg = v then some (smartAnd s concept, a) else some (s, a)

/-- Embeds `TermAssigner::Assign`; `previousAtom` is the position of the atom
just traversed (`none` for `NULL`) and the first argument bounds the depth of
the recursion, which the code does not bound. -/
def Assign : Nat → Option Nat → Nat → TermAssigner → Option (TConceptExpr × TermAssigner)
  | 0, _, _, _ => none
  | fuel + 1, previousAtom, v, a =>
    let t := createVar a v
    match a.Query.Body.enum.foldl (assignStep (Assign fuel) previousAtom v)
        (some (TConceptExpr.Top, t.2)) with
    | none => none
    | some (s, a1) => some (smartAnd t.1 s, a1)

/-- The loop of `DeleteFictiveVariables`, collecting `RealFreeVars`. -/
def realFreeVars (query : QRQuery) : List QRAtom → List Nat → List Nat
  | [], acc => acc
  | QRAtom.Role _ arg1 arg2 :: rest, acc =>
    let acc1 := if query.isFreeVar arg1 then setInsert acc arg1 else acc
    let acc2 := if query.isFreeVar arg2 then setInsert acc1 arg2 else acc1
    realFreeVars query rest acc2
  | QRAtom.Concept _ _ :: rest, acc => realFreeVars query rest acc

/-- Embeds `TermAssigner::DeleteFictiveVariables`. -/
def DeleteFictiveVariables (a : TermAssigner) : TermAssigner :=
  { a with Query := { a.Query with FreeVars := realFreeVars a.Query a.Query.Body [] } }

/-- Embeds the constructor `TermAssigner(query)`, on the query and the globals
that Phase 1 left. -/
def ctor (s : Phase1State) : TermAssigner :=
  { Query := s.query, N := 0, VarFact := s.VarFact, NewVarMap := s.NewVarMap }

end TermAssigner

/-- The first element of a `std::set` of variables, which is ordered by the
addresses `addr` of the variables; an empty set has none. -/
def setBegin (addr : Nat → Nat) : List Nat → Option Nat
  | [] => none
  | v :: rest =>
    match setBegin addr rest with
    | none => some v
    | some w => if addr v ≤ addr w then some v else some w

/-- Embeds `transformQueryPhase2` on the state that Phase 1 left; `addr` gives
the addresses of the variables and `fuel` bounds the recursion of `Assign`.
The code reads the first free variable without a test, so there is no result
when no free variable is left. -/
def transformQueryPhase2 (addr : Nat → Nat) (fuel : Nat) (s : Phase1State) :
    Option (TConceptExpr × TermAssigner) :=
  let assigner : TermAssigner := (TermAssigner.ctor s).DeleteFictiveVariables
  match setBegin addr assigner.Query.FreeVars with
  | none => none
  | some var => TermAssigner.Assign fuel none var assigner


/-- Embeds `IsNominal`: a concept name whose first character is a lower-case
letter (the first character of an empty name is the terminating zero). -/
def IsNominal : TConceptExpr → Bool
  | TConceptExpr.Name name =>
    match name.data with
    | [] => false
    | c :: _ => decide ('a' ≤ c ∧ c ≤ 'z')
  | _ => false

/-- Modelled from the spec: the identity of an object of the expression
manager, which the visitors of Phase 3 use as the key of their maps.  `Top`,
`Bottom` and the concept of a given name are single objects; every other
expression is an object of its own, identified by its position in the term that
is visited (the list of argument numbers leading to it from the root). -/
inductive ObjRef where
  | top
  | bottom
  | name (n : String)
  | node (pos : List Nat)
deriving DecidableEq, Repr

/-- The object at position `pos` whose value is `t`. -/
def objectOf (pos : List Nat) : TConceptExpr → ObjRef
  | TConceptExpr.Top => ObjRef.top
  | TConceptExpr.Bottom => ObjRef.bottom
  | TConceptExpr.Name n => ObjRef.name n
  | _ => ObjRef.node pos

namespace TDepthMeasurer

/-- The insertion into `DepthOfNominalOccurences`, a `std::map` whose keys are
name objects ordered by their addresses `addr`: a key that is present keeps its
depth. -/
def mapInsert (addr : String → Nat) (m : List (String × Nat)) (k : String) (d : Nat) :
    List (String × Nat) :=
  if m.any (fun e => e.1 = k) then m
  else List.orderedInsert (fun a b => addr a.1 ≤ addr b.1) (k, d) m

/-- Embeds the `visit` methods of `TDepthMeasurer`: `depth` is `CurrentDepth`
and `m` is `DepthOfNominalOccurences`.  The counter `TotalNominalOccurences`
is only printed and is left out.  The visitor does nothing on the other
expressions. -/
def visit (addr : String → Nat) : Nat → TConceptExpr → List (String × Nat) → List (String × Nat)
  | _, TConceptExpr.Top, m => m
  | depth, TConceptExpr.Name n, m =>
    if IsNominal (TConceptExpr.Name n) then mapInsert addr m n depth else m
  | depth, TConceptExpr.And C D, m => visit addr depth D (visit addr depth C m)
  | depth, TConceptExpr.Exists (TORoleExpr.Name _) C, m => visit addr (depth + 1) C m
  | depth, TConceptExpr.Exists (TORoleExpr.Inverse _) C, m => visit addr depth C m
  | _, _, m => m

/-- Embeds `TDepthMeasurer::getMaxDepth`. -/
def getMaxDepth : List (String × Nat) → Int
  | [] => -1
  | e :: rest => ((e :: rest).foldl (fun im it => if it.2 > im.2 then it else im) e).2

/-- Embeds `TDepthMeasurer::getNominalWithMaxDepth`; `none` is `NULL`. -/
def getNominalWithMaxDepth : List (String × Nat) → Option String
  | [] => none
  | e :: rest => some ((e :: rest).foldl (fun im it => if it.2 ≥ im.2 then it else im) e).1

end TDepthMeasurer

namespace TExpressionMarker

/-- Embeds `KnownToBeSimple` after the visit of the term: the entry of an
expression in `SimpleTerms` is written when the expression is visited, it is
the same at every visit of `Top` or of a name, and an expression without a
visit method has the default entry `false`. -/
def KnownToBeSimple : TConceptExpr → Bool
  | TConceptExpr.Top => false
  | TConceptExpr.Name n => IsNominal (TConceptExpr.Name n)
  | TConceptExpr.And C D => KnownToBeSimple C || KnownToBeSimple D
  | TConceptExpr.Exists (TORoleExpr.Name _) _ => false
  | TConceptExpr.Exists (TORoleExpr.Inverse _) C => KnownToBeSimple C
  | _ => false

/-- Embeds `KnownToBeGood` after the visit of the term, for the marker of the
nominal `Nominal`; see `KnownToBeSimple` for the map. -/
def KnownToBeGood (Nominal : String) : TConceptExpr → Bool
  | TConceptExpr.Top => true
  | TConceptExpr.Name n =>
    if n = Nominal then true else !IsNominal (TConceptExpr.Name n)
  | TConceptExpr.And C D => KnownToBeGood Nominal C && KnownToBeGood Nominal D
  | TConceptExpr.Exists _ C => KnownToBeGood Nominal C
  | _ => false

/-- Embeds `KnownToBeOnPath`: the last object of `Path` is the given one. -/
def KnownToBeOnPath (Path : List (ObjRef × TConceptExpr)) (o : ObjRef) : Bool :=
  match Path.getLast? with
  | none => false
  | some e => decide (e.1 = o)

/-- Embeds the `visit` methods of `TExpressionMarker` as far as `Path` goes:
`pos` is the position of the visited expression, and `Path` holds the objects
with their values. -/
def visit (Nominal : String) :
    List Nat → TConceptExpr → List (ObjRef × TConceptExpr) → List (ObjRef × TConceptExpr)
  | _, TConceptExpr.Top, Path => Path
  | _, TConceptExpr.Name n, Path =>
    if n = Nominal then Path ++ [(ObjRef.name n, TConceptExpr.Name n)] else Path
  | pos, TConceptExpr.And C D, Path =>
    let Path1 := visit Nominal (pos ++ [0]) C Path
    let onPath1 := KnownToBeOnPath Path1 (objectOf (pos ++ [0]) C)
    let Path2 := visit Nominal (pos ++ [1]) D Path1
    let onPath2 := KnownToBeOnPath Path2 (objectOf (pos ++ [1]) D)
    if (onPath1 || onPath2) && KnownToBeGood Nominal (TConceptExpr.And C D)
        && KnownToBeSimple (TConceptExpr.And C D) then
      Path2 ++ [(ObjRef.node pos, TConceptExpr.And C D)]
    else Path2
  | pos, TConceptExpr.Exists R C, Path =>
    let Path1 := visit Nominal (pos ++ [0]) C Path
    if KnownToBeOnPath Path1 (objectOf (pos ++ [0]) C)
        && KnownToBeGood Nominal (TConceptExpr.Exists R C)
        && KnownToBeSimple (TConceptExpr.Exists R C) then
      Path1 ++ [(ObjRef.node pos, TConceptExpr.Exists R C)]
    else Path1
  | _, _, Path => Path

/-- Embeds `TExpressionMarker::getSubterm`; `none` is `NULL`. -/
def getSubterm (Path : List (ObjRef × TConceptExpr)) : Option (ObjRef × TConceptExpr) :=
  Path.getLast?

end TExpressionMarker

namespace TReplacer

/-- Embeds the `visit` methods of `TReplacer` with `getReplaceResult`: the
result for the expression at position `pos`.  An expression without a visit
method has the default entry `NULL` in `ReplaceResult`, which is `none`. -/
def visit (ExpressionToReplace : ObjRef) (PropositionalVariable : TConceptExpr) :
    List Nat → TConceptExpr → Option TConceptExpr
  | _, TConceptExpr.Top => some TConceptExpr.Top
  | _, TConceptExpr.Name n =>
    if ObjRef.name n = ExpressionToReplace then some PropositionalVariable
    else some (TConceptExpr.Name n)
  | pos, TConceptExpr.And C D =>
    if ObjRef.node pos = ExpressionToReplace then some PropositionalVariable
    else
      match visit ExpressionToReplace PropositionalVariable (pos ++ [0]) C,
          visit ExpressionToReplace PropositionalVariable (pos ++ [1]) D with
      | some s, some r => some (smartAnd s r)
      | _, _ => none
  | pos, TConceptExpr.Exists R C =>
    if ObjRef.node pos = ExpressionToReplace then some PropositionalVariable
    else
      match visit ExpressionToReplace PropositionalVariable (pos ++ [0]) C with
      | some r => some (TConceptExpr.Exists R r)
      | none => none
  | _, _ => none

end TReplacer

namespace TEquationSolver

/-- One turn of the loop of `Solve` on a left part that is not a nominal; the
oracle is `ExpressionMarker->KnownToBeSimple`.  There is no result when the
role of an existential is not an inverse (`invRole` is `NULL`); a left part
that is neither an existential nor a conjunction is left as it is. -/
def solveStep (KnownToBeSimple : TConceptExpr → Bool) (LeftPart RightPart : TConceptExpr) :
    Option (TConceptExpr × TConceptExpr) :=
  match LeftPart with
  | TConceptExpr.Exists (TORoleExpr.Inverse role) C =>
    some (C, TConceptExpr.Forall role RightPart)
  | TConceptExpr.Exists (TORoleExpr.Name _) _ => none
  | TConceptExpr.And arg1 arg2 =>
    let args := if !KnownToBeSimple arg1 then (arg2, arg1) else (arg1, arg2)
    let newRightPart :=
      match args.2 with
      | TConceptExpr.Top => RightPart
      | _ => TConceptExpr.Or (TConceptExpr.Not args.2) RightPart
    some (args.1, newRightPart)
  | _ => some (LeftPart, RightPart)

/-- Embeds `TEquationSolver::Solve`: the loop runs until the left part is a
nominal; the first argument bounds the number of turns, which the code does
not bound.  The result is the final `LeftPart` and `RightPart`. -/
def Solve (KnownToBeSimple : TConceptExpr → Bool) :
    Nat → TConceptExpr → TConceptExpr → Option (TConceptExpr × TConceptExpr)
  | 0, _, _ => none
  | fuel + 1, LeftPart, RightPart =>
    if IsNominal LeftPart then some (LeftPart, RightPart)
    else
      match solveStep KnownToBeSimple LeftPart RightPart with
      | none => none
      | some (l, r) => Solve KnownToBeSimple fuel l r

/-- Modelled from the spec: `std::string::find(":")` gives the position of the
first colon of the name, or `npos`, the greatest value of a 64-bit `size_t`,
when the name has none. -/
def findColon (name : String) : Nat :=
  let k := (name.data.takeWhile (fun c => c ≠ ':')).length
  if k < name.data.length then k else 18446744073709551615

/-- The string that `getNominal` builds from the name: `int colon` keeps the
low 32 bits of the position, read as a signed number; the constructor
`std::string(longNominal, 0, colon)` takes it as a `size_t` again (a negative
number becomes `2^64 - 2^32` plus its low 32 bits) and copies that many
characters at most. -/
def getNominalName (longNominal : String) : String :=
  let colon := findColon longNominal % 4294967296
  let len := if colon < 2147483648 then colon else 18446744069414584320 + colon
  String.mk (longNominal.data.take len)

/-- Embeds `TEquationSolver::getNominal`; `none` when the left part is not a
name. -/
def getNominal : TConceptExpr → Option String
  | TConceptExpr.Name longNominal => some (getNominalName longNominal)
  | _ => none

end TEquationSolver

/-- Number of constructors of a concept expression. -/
def TConceptExpr.size : TConceptExpr → Nat
  | TConceptExpr.Not C => C.size + 1
  | TConceptExpr.And C D => C.size + D.size + 1
  | TConceptExpr.Or C D => C.size + D.size + 1
  | TConceptExpr.Exists _ C => C.size + 1
  | TConceptExpr.Forall _ C => C.size + 1
  | _ => 1

namespace TQueryToConceptsTransformer

/-- The locals of the loop of `Run`: the term, the buffer
`propositionalVariable`, `lastNominal` and `Result`, whose pairs are kept in
the order in which they were inserted. -/
structure RunState where
  term : TConceptExpr
  propositionalVariable : String
  lastNominal : String
  Result : List (String × TConceptExpr)
deriving DecidableEq, Repr

/-- The part of a round of `Run` that follows the choice of the nominal, with
the index `i`: the marker gives the sub-term to replace, the replacer the new
term, and the solver the pair to emit.  There is no result when a `NULL` is
used or `Solve` does not end within `fuel` turns. -/
def runRoundWith (nominal : String) (fuel : Nat) (i : Nat) (s : RunState) : Option RunState :=
  match TExpressionMarker.getSubterm (TExpressionMarker.visit nominal [] s.term []) with
  | none => none
  | some subterm =>
    let propositionalVariable := "P" ++ toString i
    match TReplacer.visit subterm.1 (TConceptExpr.Name propositionalVariable) [] s.term,
        TEquationSolver.Solve TExpressionMarker.KnownToBeSimple fuel
          subterm.2 (TConceptExpr.Name propositionalVariable) with
    | some newTerm, some (LeftPart, Phi) =>
      match TEquationSolver.getNominal LeftPart with
      | none => none
      | some nominalName =>
        some { term := newTerm, propositionalVariable := propositionalVariable,
               lastNominal := nominalName,
               Result := s.Result ++ [(nominalName, Phi)] }
    | _, _ => none

/-- One round of the loop of `Run` with the index `i`: `none` when the round
has no result, otherwise the new locals, or the old ones unchanged together
with `true` when the loop is left because the term has no nominal. -/
def runRound (addr : String → Nat) (fuel : Nat) (i : Nat) (s : RunState) :
    Option (RunState × Bool) :=
  let depths := TDepthMeasurer.visit addr 0 s.term []
  if TDepthMeasurer.getMaxDepth depths = -1 then some (s, true)
  else
    match TDepthMeasurer.getNominalWithMaxDepth depths with
    | none => none
    | some nominal => (runRoundWith nominal fuel i s).map (fun s1 => (s1, false))

/-- The loop of `Run` from the index `i` on; `rounds` bounds the number of
rounds, which the code does not bound, and `fuel` the turns of `Solve`. -/
def runLoop (addr : String → Nat) (fuel : Nat) : Nat → Nat → RunState → Option RunState
  | 0, _, _ => none
  | rounds + 1, i, s =>
    match runRound addr fuel i s with
    | none => none
    | some (s1, true) => some s1
    | some (s1, false) => runLoop addr fuel rounds (i + 1) s1

/-- Embeds the part of `TQueryToConceptsTransformer::Run` after Phase 2, on the
term that Phase 2 built: `buffer` is what the buffer `propositionalVariable`
holds before the first round writes it, and `fuel` bounds the rounds and the
turns of `Solve`. -/
def RunPhase3 (addr : String → Nat) (fuel : Nat) (buffer : String) (term : TConceptExpr) :
    Option (List (String × TConceptExpr)) :=
  match runLoop addr fuel fuel 1
      { term := term, propositionalVariable := buffer, lastNominal := "", Result := [] } with
  | none => none
  | some s =>
    some (s.Result ++
      [(s.lastNominal, TConceptExpr.Not (TConceptExpr.Name s.propositionalVariable))])

/-- Embeds `TQueryToConceptsTransformer::Run`: Phase 1, Phase 2 and the loop
of Phase 3.  `varAddr` and `nameAddr` give the addresses of the variables and
of the name objects, which order the sets and maps keyed by pointers. -/
def Run (varAddr : Nat → Nat) (nameAddr : String → Nat) (fuel : Nat) (buffer : String)
    (query : QRQuery) (VarFact : VariableFactory) : Option (List (String × TConceptExpr)) :=
  match transformQueryPhase1 query VarFact with
  | none => none
  | some s =>
    match transformQueryPhase2 varAddr fuel s with
    | none => none
    | some (term, _) => RunPhase3 nameAddr fuel buffer term

end TQueryToConceptsTransformer


/-- Embeds `buildQueryFigure2` on the query and the variable factory. -/
def buildQueryFigure2 (query : QRQuery) (VarFact : VariableFactory) :
    QRQuery × VariableFactory :=
  let x := VarFact.getNewVar "x"
  let y := x.2.getNewVar "y"
  let z := y.2.getNewVar "z"
  let w := z.2.getNewVar "v"
  let query := (query.setVarFree x.1).setVarFree y.1
  let query := query.addAtom (QRAtom.Role (TORoleExpr.Name "R1") x.1 z.1)
  let query := query.addAtom (QRAtom.Role (TORoleExpr.Name "R2") x.1 w.1)
  let query := query.addAtom (QRAtom.Role (TORoleExpr.Name "R3") z.1 y.1)
  let query := query.addAtom (QRAtom.Role (TORoleExpr.Name "R4") y.1 w.1)
  let query := query.addAtom (QRAtom.Role (TORoleExpr.Name "R5") z.1 w.1)
  let query := query.addAtom (QRAtom.Role (TORoleExpr.Name "R6") y.1 y.1)
  (query, w.2)

/-- Embeds `buildSimpleQuery` on the query and the variable factory. -/
def buildSimpleQuery (query : QRQuery) (VarFact : VariableFactory) :
    QRQuery × VariableFactory :=
  let x := VarFact.getNewVar "x"
  let y := x.2.getNewVar "y"
  let query := (query.setVarFree x.1).setVarFree y.1
  let query := query.addAtom (QRAtom.Role (TORoleExpr.Name "R1") x.1 y.1)
  let query := query.addAtom (QRAtom.Role (TORoleExpr.Name "R2") y.1 x.1)
  (query, y.2)

/-- The empty query `new QRQuery()`. -/
def exEmptyQuery : QRQuery := { Body := [], FreeVars := [] }

/-- The query of Figure 2 built on an empty query and a new factory. -/
def exFigure2 : QRQuery := (buildQueryFigure2 exEmptyQuery []).1

/-- The simple query built on an empty query and a new factory. -/
def exSimple : QRQuery := (buildSimpleQuery exEmptyQuery []).1


/-- The one freshening attempt that Phase 1 makes at position `i` on the
argument `old`: a copy of `old` is created, and the atom built by `mk` from the
copy takes the place of the atom at `i`, with the copy added to the free
variables, exactly when `isConnected` holds of the query so changed; otherwise
the query is left as it is.  The position is recorded as passed. -/
def freshenOnce (s : Phase1State) (i : Nat) (old : Nat) (mk : Nat → QRAtom) : Phase1State :=
  let r := getNewCopyVar { s with n := s.n + 1 } old (s.n + 1)
  let candidate : QRQuery :=
    { Body := s.query.Body.set i (mk r.1), FreeVars := s.query.FreeVars ++ [r.1] }
  if QueryConnectednessChecker.isConnected candidate = some true then
    { r.2 with query := candidate, passedAtoms := setInsert s.passedAtoms i }
  else { r.2 with passedAtoms := setInsert s.passedAtoms i }

/-- What Phase 1 does at position `i`: nothing at a concept atom; at a role
atom one attempt, on the second argument when it is free at that moment,
otherwise on the first argument when that one is free, otherwise none. -/
def visitAtom (s : Phase1State) (i : Nat) : Phase1State :=
  match s.query.Body.get? i with
  | some (QRAtom.Role role arg1 arg2) =>
    if arg2 ∈ s.query.FreeVars then
      freshenOnce s i arg2 (fun newArg => QRAtom.Role role arg1 newArg)
    else if arg1 ∈ s.query.FreeVars then
      freshenOnce s i arg1 (fun newArg => QRAtom.Role role newArg arg2)
    else s
  | _ => s

/-- The state in which the loop of `transformQueryPhase1` starts. -/
def phase1Init (query : QRQuery) (VarFact : VariableFactory) : Phase1State :=
  { query := query, VarFact := VarFact, NewVarMap := initVarMap query,
    passedAtoms := [], n := 0 }


/-- Invariant of the loop of `transformQueryPhase1` at position `i`: the free
variables were created by the factory, the body has `len` atoms, and the
positions passed are below `i`. -/
structure Phase1Inv (len i : Nat) (s : Phase1State) : Prop where
  length : s.query.Body.length = len
  fresh : ∀ v ∈ s.query.FreeVars, v < s.VarFact.length
  passed : ∀ j ∈ s.passedAtoms, j < i


/-- The contributions to the term of the variable `v`, atom by atom in the
order of the body, with the assigner threaded through the recursive calls
`rec`: a role atom `R(v,w)` other than the atom just traversed contributes
`Exists R C_w`, a role atom `R(w,v)` other than the atom just traversed
contributes `Exists (Inverse R) C_w`, where `C_w` is the term that `rec`
builds for `w`, and a concept atom `C(v)` contributes `C`. -/
def TermAssigner.contributions
    (rec : Option Nat → Nat → TermAssigner → Option (TConceptExpr × TermAssigner))
    (previousAtom : Option Nat) (v : Nat) :
    List (Nat × QRAtom) → TermAssigner → Option (List TConceptExpr × TermAssigner)
  | [], a => some ([], a)
  | (j, QRAtom.Role role arg1 arg2) :: rest, a =>
    if some j = previousAtom then TermAssigner.contributions rec previousAtom v rest a
    else
      match (if arg1 = v then
              (rec (some j) arg2 a).map (fun r => ([TConceptExpr.Exists role r.1], r.2))
            else some ([], a)) with
      | none => none
      | some (c1, a1) =>
        match (if arg2 = v then
                (rec (some j) arg1 a1).map
                  (fun r => ([TConceptExpr.Exists (TORoleExpr.Inverse role) r.1], r.2))
              else some ([], a1)) with
        | none => none
        | some (c2, a2) =>
          match TermAssigner.contributions rec previousAtom v rest a2 with
          | none => none
          | some (cs, a3) => some (c1 ++ c2 ++ cs, a3)
  | (_, QRAtom.Concept C arg) :: rest, a =>
    match TermAssigner.contributions rec previousAtom v rest a with
    | none => none
    | some (cs, a1) => some ((if arg = v then [C] else []) ++ cs, a1)

/-- The assigner of Phase 2 for a query built on a new factory: Phase 1, the
constructor and `DeleteFictiveVariables`. -/
def assignerOf (built : QRQuery × VariableFactory) : Option TermAssigner :=
  (transformQueryPhase1 built.1 built.2).map
    (fun s => (TermAssigner.ctor s).DeleteFictiveVariables)

/-- The assigner of Phase 2 for the simple query: the body is
`R1(x,y_1), R2(y,x)` and `x`, `y_1`, `y` are free. -/
def exSimpleAssigner : TermAssigner :=
  { Query := { Body := [QRAtom.Role (TORoleExpr.Name "R1") 0 2,
                 QRAtom.Role (TORoleExpr.Name "R2") 1 0],
               FreeVars := [0, 2, 1] },
    N := 0,
    VarFact := ["x", "y", "y_1", "x_2"],
    NewVarMap := [(0, 0), (1, 1), (2, 1), (3, 0)] }

/-- The assigner of Phase 2 for the query of Figure 2: the body is
`R1(x_1,z), R2(x_2,v), R3(z,y_3), R4(y,v), R5(z,v), R6(y,y_5)` and
`x_1`, `x_2`, `y_3`, `y`, `y_5` are free. -/
def exFigure2Assigner : TermAssigner :=
  { Query := { Body := [QRAtom.Role (TORoleExpr.Name "R1") 4 2,
                 QRAtom.Role (TORoleExpr.Name "R2") 5 3,
                 QRAtom.Role (TORoleExpr.Name "R3") 2 6,
                 QRAtom.Role (TORoleExpr.Name "R4") 1 3,
                 QRAtom.Role (TORoleExpr.Name "R5") 2 3,
                 QRAtom.Role (TORoleExpr.Name "R6") 1 8],
               FreeVars := [4, 5, 6, 1, 8] },
    N := 0,
    VarFact := ["x", "y", "z", "v", "x_1", "x_2", "y_3", "y_4", "y_5"],
    NewVarMap := [(0, 0), (1, 1), (4, 0), (5, 0), (6, 1), (7, 1), (8, 1)] }


/-! ### Semantics of concept expressions -/

/-- An interpretation over the domain `Δ`: a set for each concept name and a
binary relation for each role name. -/
structure Interpretation (Δ : Type) where
  conceptI : String → Set Δ
  roleI : String → Δ → Δ → Prop

/-- The relation that interprets a role expression. -/
def roleSem {Δ : Type} (I : Interpretation Δ) : TORoleExpr → Δ → Δ → Prop
  | TORoleExpr.Name r => I.roleI r
  | TORoleExpr.Inverse R => fun x y => roleSem I R y x

/-- The set that interprets a concept expression. -/
def conceptSem {Δ : Type} (I : Interpretation Δ) : TConceptExpr → Set Δ
  | TConceptExpr.Top => Set.univ
  | TConceptExpr.Bottom => ∅
  | TConceptExpr.Name n => I.conceptI n
  | TConceptExpr.Not C => (conceptSem I C)ᶜ
  | TConceptExpr.And C D => conceptSem I C ∩ conceptSem I D
  | TConceptExpr.Or C D => conceptSem I C ∪ conceptSem I D
  | TConceptExpr.Exists R C => {x | ∃ y, roleSem I R x y ∧ y ∈ conceptSem I C}
  | TConceptExpr.Forall R C => {x | ∀ y, roleSem I R x y → y ∈ conceptSem I C}

/-- The inclusion `C ⊑ D` holds in the interpretation. -/
def Subsumed {Δ : Type} (I : Interpretation Δ) (C D : TConceptExpr) : Prop :=
  conceptSem I C ⊆ conceptSem I D

/-- A layer that the solver peels off a left part: the inverse role of an
existential, or the conjunct that is set aside. -/
inductive Peel where
  | inverse (R : TORoleExpr)
  | conjunct (Y : TConceptExpr)
deriving DecidableEq, Repr

/-- A left part built from existentials over inverse roles and binary
conjunctions down to a nominal; of a conjunction the solver keeps the first
argument when the marker knows it to be simple, the second one otherwise. -/
def peelable (KnownToBeSimple : TConceptExpr → Bool) : TConceptExpr → Bool
  | TConceptExpr.Name n => IsNominal (TConceptExpr.Name n)
  | TConceptExpr.Exists (TORoleExpr.Inverse _) C => peelable KnownToBeSimple C
  | TConceptExpr.And C D =>
    if !KnownToBeSimple C then peelable KnownToBeSimple D else peelable KnownToBeSimple C
  | _ => false

/-- The layers peeled off a left part, the outermost first. -/
def peels (KnownToBeSimple : TConceptExpr → Bool) : TConceptExpr → List Peel
  | TConceptExpr.Exists (TORoleExpr.Inverse R) C => Peel.inverse R :: peels KnownToBeSimple C
  | TConceptExpr.And C D =>
    if !KnownToBeSimple C then Peel.conjunct C :: peels KnownToBeSimple D
    else Peel.conjunct D :: peels KnownToBeSimple C
  | _ => []

/-- The nominal under the layers of a left part. -/
def peeledNominal (KnownToBeSimple : TConceptExpr → Bool) : TConceptExpr → TConceptExpr
  | TConceptExpr.Exists (TORoleExpr.Inverse _) C => peeledNominal KnownToBeSimple C
  | TConceptExpr.And C D =>
    if !KnownToBeSimple C then peeledNominal KnownToBeSimple D
    else peeledNominal KnownToBeSimple C
  | C => C

/-- The right part after a layer is peeled: a peeled `Exists (Inverse R)` turns
the right part into `Forall R`, a peeled conjunct `Y` turns it into
`(Not Y) Or (right part)`, and a conjunct `Top` leaves it unchanged. -/
def applyPeel (RightPart : TConceptExpr) : Peel → TConceptExpr
  | Peel.inverse R => TConceptExpr.Forall R RightPart
  | Peel.conjunct TConceptExpr.Top => RightPart
  | Peel.conjunct Y => TConceptExpr.Or (TConceptExpr.Not Y) RightPart


/-- The terms that Phase 2 builds from atoms with concept names: `Top`, names,
conjunctions and existentials. -/
def inFragment : TConceptExpr → Bool
  | TConceptExpr.Top => true
  | TConceptExpr.Name _ => true
  | TConceptExpr.And C D => inFragment C && inFragment D
  | TConceptExpr.Exists _ C => inFragment C
  | _ => false

/-- The name `n` is a leaf of the term under conjunctions and existentials. -/
def occursIn (n : String) : TConceptExpr → Bool
  | TConceptExpr.Name m => decide (m = n)
  | TConceptExpr.And C D => occursIn n C || occursIn n D
  | TConceptExpr.Exists _ C => occursIn n C
  | _ => false

/-- Number of the leaves under conjunctions and existentials that are
nominals. -/
def nominalCount : TConceptExpr → Nat
  | TConceptExpr.Name n => if IsNominal (TConceptExpr.Name n) then 1 else 0
  | TConceptExpr.And C D => nominalCount C + nominalCount D
  | TConceptExpr.Exists _ C => nominalCount C
  | _ => 0

/-- The sub-term at a position, given by argument numbers from the root. -/
def subAt : List Nat → TConceptExpr → Option TConceptExpr
  | [], t => some t
  | 0 :: q, TConceptExpr.And C _ => subAt q C
  | 1 :: q, TConceptExpr.And _ D => subAt q D
  | 0 :: q, TConceptExpr.Exists _ C => subAt q C
  | _, _ => none

/-- A conjunction or an existential: an object of its own. -/
def isCompound : TConceptExpr → Bool
  | TConceptExpr.And _ _ => true
  | TConceptExpr.Exists _ _ => true
  | _ => false

/-- What holds of an entry that the marker of `Nominal` pushes on `Path` while
it visits the term `t` at position `pos`: it is the nominal itself, or a
compound sub-term of `t` with its position; in both cases it is known to be
simple and contains the nominal. -/
def PathEntry (Nominal : String) (pos : List Nat) (t : TConceptExpr)
    (e : ObjRef × TConceptExpr) : Prop :=
  TExpressionMarker.KnownToBeSimple e.2 = true ∧ occursIn Nominal t = true ∧
  ((e.1 = ObjRef.name Nominal ∧ e.2 = TConceptExpr.Name Nominal) ∨
    (∃ q, e.1 = ObjRef.node (pos ++ q) ∧ subAt q t = some e.2 ∧ isCompound e.2 = true))

namespace TQueryToConceptsTransformer

/-- The relation `Rounds addr fuel k i s s1`: `k` rounds of the loop of `Run`,
with the indices `i`, ..., `i + k - 1`, lead from the locals `s` to the locals
`s1`; each of them emits one pair `(nominal, phi)`, which becomes the last
pair of `Result`, and leaves the nominal in `lastNominal` and the name `P<i>`
in the buffer. -/
inductive Rounds (addr : String → Nat) (fuel : Nat) : Nat → Nat → RunState → RunState → Prop where
  | done (i : Nat) (s : RunState) : Rounds addr fuel 0 i s s
  | step (k i : Nat) (s s1 s2 : RunState) (nominal : String) (phi : TConceptExpr) :
    runRound addr fuel i s = some (s1, false) →
    s1.Result = s.Result ++ [(nominal, phi)] →
    s1.lastNominal = nominal →
    s1.propositionalVariable = "P" ++ toString i →
    Rounds addr fuel k (i + 1) s1 s2 →
    Rounds addr fuel (k + 1) i s s2

end TQueryToConceptsTransformer


/-- The term that Phase 2 builds for the query of Figure 2 when `y` is the
first free variable. -/
def exFigure2Term : TConceptExpr :=
  TConceptExpr.And (TConceptExpr.Name "y:1")
    (TConceptExpr.And
      (TConceptExpr.Exists (TORoleExpr.Name "R4")
        (TConceptExpr.And
          (TConceptExpr.Exists (TORoleExpr.Inverse (TORoleExpr.Name "R2")) TConceptExpr.Top)
          (TConceptExpr.Exists (TORoleExpr.Inverse (TORoleExpr.Name "R5"))
            (TConceptExpr.And
              (TConceptExpr.Exists (TORoleExpr.Inverse (TORoleExpr.Name "R1")) TConceptExpr.Top)
              (TConceptExpr.Exists (TORoleExpr.Name "R3") (TConceptExpr.Name "y:2"))))))
      (TConceptExpr.Exists (TORoleExpr.Name "R6") (TConceptExpr.Name "y:3")))

/-- Addresses of the name objects for the examples: a name is read as a number
in base 256. -/
def exNameAddr (name : String) : Nat :=
  name.data.foldl (fun acc c => acc * 256 + c.toNat) 0


/-- The names of the leaves under conjunctions and existentials that are
nominals, from left to right. -/
def nominalNames : TConceptExpr → List String
  | TConceptExpr.Name n => if IsNominal (TConceptExpr.Name n) then [n] else []
  | TConceptExpr.And C D => nominalNames C ++ nominalNames D
  | TConceptExpr.Exists _ C => nominalNames C
  | _ => []

/-- The outcomes of the loop of `Run` for every choice of a nominal of the
term in every round: whatever the addresses of the name objects are, the
nominal that a round picks is one of the nominals of the term. -/
def TQueryToConceptsTransformer.allRuns (fuel : Nat) :
    Nat → Nat → TQueryToConceptsTransformer.RunState →
      List (Option TQueryToConceptsTransformer.RunState)
  | 0, _, _ => [none]
  | rounds + 1, i, s =>
    if nominalNames s.term = [] then [some s]
    else
      (nominalNames s.term).flatMap (fun nominal =>
        match TQueryToConceptsTransformer.runRoundWith nominal fuel i s with
        | none => [none]
        | some s1 => TQueryToConceptsTransformer.allRuns fuel rounds (i + 1) s1)

/-- Number of the sub-terms `Exists R C` of a term with the given role `R`. -/
def countExists (R : TORoleExpr) : TConceptExpr → Nat
  | TConceptExpr.Not C => countExists R C
  | TConceptExpr.And C D => countExists R C + countExists R D
  | TConceptExpr.Or C D => countExists R C + countExists R D
  | TConceptExpr.Exists S C => (if S = R then 1 else 0) + countExists R C
  | TConceptExpr.Forall _ C => countExists R C
  | _ => 0

/-- A run of the loop of `Run` that ended after three rounds, each of which
emitted a pair for the nominal `y`. -/
def exGoodRun (r : Option TQueryToConceptsTransformer.RunState) : Bool :=
  match r with
  | some s =>
    s.Result.length == 3 && s.lastNominal == "y" && s.propositionalVariable == "P3"
      && s.Result.all (fun p => p.1 == "y")
  | none => false

/-- The check of the query of Figure 2 for Phase 2 starting from the variable
`v`: `Assign` has a result, the term has one existential over `R6` or its
inverse, over `R6` itself unless `v` is `y_5`, and every run of the loop of
Phase 3 on the term is as `exGoodRun` says. -/
def exFigure2Check (v : Nat) : Bool :=
  match TermAssigner.Assign 30 none v exFigure2Assigner with
  | some (term, _) =>
    (countExists (TORoleExpr.Name "R6") term
        + countExists (TORoleExpr.Inverse (TORoleExpr.Name "R6")) term == 1)
      && (v == 8 || countExists (TORoleExpr.Name "R6") term == 1)
      && (TQueryToConceptsTransformer.allRuns 30 30 1
            { term := term, propositionalVariable := "", lastNominal := "",
              Result := [] }).all exGoodRun
  | none => false

/-- The state in which Phase 1 leaves the query of Figure 2. -/
def exFigure2Phase1 : Phase1State :=
  { query := { Body := [QRAtom.Role (TORoleExpr.Name "R1") 4 2,
                 QRAtom.Role (TORoleExpr.Name "R2") 5 3,
                 QRAtom.Role (TORoleExpr.Name "R3") 2 6,
                 QRAtom.Role (TORoleExpr.Name "R4") 1 3,
                 QRAtom.Role (TORoleExpr.Name "R5") 2 3,
                 QRAtom.Role (TORoleExpr.Name "R6") 1 8],
               FreeVars := [0, 1, 4, 5, 6, 8] },
    VarFact := ["x", "y", "z", "v", "x_1", "x_2", "y_3", "y_4", "y_5"],
    NewVarMap := [(0, 0), (1, 1), (4, 0), (5, 0), (6, 1), (7, 1), (8, 1)],
    passedAtoms := [0, 1, 2, 3, 5],
    n := 5 }


/-! ## The EL reasoner (`ELFReasoner.h`) -/

/-- The rules of the EL reasoner (`CSubRule`, `CAndSubRule`, `RAddRule`) with
their members; concepts and roles are named by their numbers in the maps of
the reasoner.  No `CExistSubRule` is ever created: its registration is
commented out in `processCI`. -/
inductive TELFRule where
  | CSubRule (Sup : Nat)
  | CAndSubRule (Conj Sup : Nat)
  | RAddRule (R : Nat) (Filler : Nat)
deriving DecidableEq, Repr

/-- Embeds `TELFConcept` with its `TRuleSet`: the origin, the set `Supers` and
the rules in the order in which they were added. -/
structure TELFConcept where
  Origin : TConceptExpr
  Supers : List Nat
  Rules : List TELFRule
deriving DecidableEq, Repr

/-- Embeds `TELFRole`: the origin and the set of pairs; no rule is ever added
to a role. -/
structure TELFRole where
  Origin : TORoleExpr
  PairSet : List (Nat × Nat)
deriving DecidableEq, Repr

/-- Embeds `ELFAction`: `R` is `none` for an action on concepts. -/
structure ELFAction where
  R : Option Nat
  C : Nat
  D : Nat
deriving DecidableEq, Repr

/-- Modelled from the spec: the axioms of the ontology that the EL reasoner
reads, a concept inclusion or a role inclusion (whose left side may be a
chain); `Other` is any other axiom. -/
inductive TDLAxiom where
  | ConceptInclusion (SubC SupC : TConceptExpr)
  | ORoleSubsumption (isChain : Bool) (Role : TORoleExpr)
  | Other
deriving DecidableEq, Repr

/-- Embeds the members of `ELFReasoner`: `CMap` and `RMap` hold the concepts
and roles in the order of their creation, a concept or role is named by its
position, and its key is its origin; `queue` has its front first.  The
statistics counters are only printed and are left out. -/
structure ELFReasoner where
  CMap : List TELFConcept
  RMap : List TELFRole
  CTop : Nat
  CBot : Nat
  queue : List ELFAction
deriving DecidableEq, Repr

namespace ELFReasoner

/-- Embeds `ELFReasoner::getC`: the concept of an expression, created when the
map has none.  The keys are compared as values: `Top`, `Bottom` and the
concept of a given name are single objects of the expression manager.  Equal
compound expressions built by separate calls are distinct objects, and so
distinct keys, for the code, and one key here: the embedding is exact for
ontologies whose axioms share the objects of equal expressions, as ontologies
over names do. -/
def getC (er : ELFReasoner) (p : TConceptExpr) : Nat × ELFReasoner :=
  match er.CMap.findIdx? (fun c => c.Origin = p) with
  | some i => (i, er)
  | none =>
    (er.CMap.length,
      { er with CMap := er.CMap ++ [{ Origin := p, Supers := [], Rules := [] }] })

/-- Embeds `ELFReasoner::getR`. -/
def getR (er : ELFReasoner) (p : TORoleExpr) : Nat × ELFReasoner :=
  match er.RMap.findIdx? (fun r => r.Origin = p) with
  | some i => (i, er)
  | none => (er.RMap.length, { er with RMap := er.RMap ++ [{ Origin := p, PairSet := [] }] })

/-- Embeds `TRuleSet::addRule` on the concept `C`. -/
def addRule (er : ELFReasoner) (C : Nat) (rule : TELFRule) : ELFReasoner :=
  { er with CMap := er.CMap.modify (fun c => { c with Rules := c.Rules ++ [rule] }) C }

/-- Embeds `ELFReasoner::processCI`.  In the first case the code does not fix
the order in which the three entries are looked up; it only decides the
numbers that new entries get. -/
def processCI (er : ELFReasoner) (SubC SupC : TConceptExpr) : ELFReasoner :=
  match SupC with
  | TConceptExpr.Exists R D =>
    let sub := er.getC SubC
    let r := sub.2.getR R
    let d := r.2.getC D
    d.2.addRule sub.1 (TELFRule.RAddRule r.1 d.1)
  | _ =>
    let D := er.getC SupC
    match SubC with
    | TConceptExpr.Exists _ _ => D.2
    | TConceptExpr.And A B =>
      let C1 := D.2.getC A
      let C2 := C1.2.getC B
      (C2.2.addRule C1.1 (TELFRule.CAndSubRule C2.1 D.1)).addRule C2.1
        (TELFRule.CAndSubRule C1.1 D.1)
    | _ =>
      let C := D.2.getC SubC
      C.2.addRule C.1 (TELFRule.CSubRule D.1)

/-- Embeds `ELFReasoner::processRI`: the role of the axiom gets its entry. -/
def processRI (er : ELFReasoner) (Role : TORoleExpr) : ELFReasoner := (er.getR Role).2

/-- Embeds the constructor of `ELFReasoner` on the used axioms of the
ontology, in their order. -/
def ctor (ont : List TDLAxiom) : ELFReasoner :=
  let bot := getC { CMap := [], RMap := [], CTop := 0, CBot := 0, queue := [] }
    TConceptExpr.Bottom
  let top := bot.2.getC TConceptExpr.Top
  ont.foldl (fun er axiom1 =>
      match axiom1 with
      | TDLAxiom.ConceptInclusion SubC SupC => er.processCI SubC SupC
      | TDLAxiom.ORoleSubsumption _ Role => er.processRI Role
      | TDLAxiom.Other => er)
    { top.2 with CBot := bot.1, CTop := top.1 }

/-- Embeds `ELFReasoner::addAction`. -/
def addAction (er : ELFReasoner) (action : ELFAction) : ELFReasoner :=
  { er with queue := er.queue ++ [action] }

/-- Embeds `TELFConcept::hasSuper` on the concept `X`. -/
def hasSuper (er : ELFReasoner) (X C : Nat) : Bool :=
  match er.CMap.get? X with
  | some c => decide (C ∈ c.Supers)
  | none => false

/-- Embeds the `apply` methods of the rules with one argument. -/
def applyRule (er : ELFReasoner) (rule : TELFRule) (addedC : Nat) : ELFReasoner :=
  match rule with
  | TELFRule.CSubRule sup => er.addAction { R := none, C := addedC, D := sup }
  | TELFRule.CAndSubRule conj sup =>
    if er.hasSuper addedC conj then er.addAction { R := none, C := addedC, D := sup } else er
  | TELFRule.RAddRule r filler => er.addAction { R := some r, C := addedC, D := filler }

/-- Embeds `TRuleSet::applyRules` with one argument, on the rules of the
concept `X`. -/
def applyRules (er : ELFReasoner) (X : Nat) (addedC : Nat) : ELFReasoner :=
  match er.CMap.get? X with
  | some c => c.Rules.foldl (fun e rule => e.applyRule rule addedC) er
  | none => er

/-- Embeds `TELFConcept::addC` on the concept `X`: the rules applied are those
of `X`, the receiver, and their argument is the added concept `C`. -/
def addC (er : ELFReasoner) (X C : Nat) : ELFReasoner :=
  if er.hasSuper X C then er
  else
    let addSuper : TELFConcept → TELFConcept := fun c =>
      { c with Supers := setInsert c.Supers C }
    applyRules { er with CMap := er.CMap.modify addSuper X } X C

/-- Embeds `TELFRole::addR` on the role `r`; a role has no rules to apply. -/
def addR (er : ELFReasoner) (r C D : Nat) : ELFReasoner :=
  let addLabel : TELFRole → TELFRole := fun role =>
    if (C, D) ∈ role.PairSet then role
    else { role with PairSet := role.PairSet ++ [(C, D)] }
  { er with RMap := er.RMap.modify addLabel r }

/-- Embeds `ELFAction::apply`. -/
def applyAction (er : ELFReasoner) (action : ELFAction) : ELFReasoner :=
  match action.R with
  | some r => er.addR r action.C action.D
  | none => er.addC action.C action.D

/-- The second loop of `classify`: the front action is applied, then popped;
the first argument bounds the number of turns. -/
def drain : Nat → ELFReasoner → Option ELFReasoner
  | 0, er => if er.queue = [] then some er else none
  | fuel + 1, er =>
    match er.queue with
    | [] => some er
    | action :: _ =>
      let er1 := er.applyAction action
      drain fuel { er1 with queue := er1.queue.tail }

/-- Embeds `ELFReasoner::classify`.  The first loop runs over `CMap` in the
order of the addresses of the keys, which is the parameter `order`, a list of
the concepts. -/
def classify (order : List Nat) (fuel : Nat) (er : ELFReasoner) : Option ELFReasoner :=
  drain fuel (order.foldl (fun e C => (e.addC C e.CTop).addC C C) er)

/-- The set `S(C)` of the concept with the origin `p`; empty when there is no
such concept. -/
def S (er : ELFReasoner) (p : TConceptExpr) : List TConceptExpr :=
  match er.CMap.find? (fun c => c.Origin = p) with
  | some c => c.Supers.filterMap (fun i => (er.CMap.get? i).map (fun d => d.Origin))
  | none => []

end ELFReasoner

/-- The ontology with the one axiom `A ⊑ B`. -/
def exOntology1 : List TDLAxiom :=
  [TDLAxiom.ConceptInclusion (TConceptExpr.Name "A") (TConceptExpr.Name "B")]

/-- The ontology with the axioms `A ⊑ B` and `B ⊑ C`. -/
def exOntology2 : List TDLAxiom :=
  [TDLAxiom.ConceptInclusion (TConceptExpr.Name "A") (TConceptExpr.Name "B"),
   TDLAxiom.ConceptInclusion (TConceptExpr.Name "B") (TConceptExpr.Name "C")]


/-- The lists obtained by inserting `x` at each place of a list. -/
def insertEverywhere (x : Nat) : List Nat → List (List Nat)
  | [] => [[x]]
  | y :: ys => (x :: y :: ys) :: (insertEverywhere x ys).map (fun l => y :: l)

/-- The orders in which a loop may run over the given concepts. -/
def allOrders : List Nat → List (List Nat)
  | [] => [[]]
  | x :: xs => (allOrders xs).flatMap (insertEverywhere x)

/-- The check of `exOntology1` for one order of the first loop of `classify`:
`B` ends up in `S(Top)`. -/
def exCheck1 (order : List Nat) : Bool :=
  match ELFReasoner.classify order 100 (ELFReasoner.ctor exOntology1) with
  | some er => decide (TConceptExpr.Name "B" ∈ er.S TConceptExpr.Top)
  | none => false

/-- The check of `exOntology2` for one order of the first loop of `classify`:
`B` ends up in `S(A)` and `C` does not. -/
def exCheck2 (order : List Nat) : Bool :=
  match ELFReasoner.classify order 100 (ELFReasoner.ctor exOntology2) with
  | some er =>
    decide (TConceptExpr.Name "B" ∈ er.S (TConceptExpr.Name "A"))
      && !decide (TConceptExpr.Name "C" ∈ er.S (TConceptExpr.Name "A"))
  | none => false


/-! ### Termination of the EL classifier -/

/-- The concept that the action created by a rule adds to a set `S`; a
`RAddRule` creates an action on a role. -/
def TELFRule.sup : TELFRule → Option Nat
  | TELFRule.CSubRule s => some s
  | TELFRule.CAndSubRule _ s => some s
  | TELFRule.RAddRule _ _ => none

namespace ELFReasoner

/-- Number of the rules of all concepts. -/
def totalRules (er : ELFReasoner) : Nat := (er.CMap.map (fun c => c.Rules.length)).sum

/-- The concepts that a concept action of the queue, or an action created by a
rule, may add to a set `S`. -/
def addable (er : ELFReasoner) : List Nat :=
  er.queue.map (fun a => a.D) ++ er.CMap.flatMap (fun c => c.Rules.filterMap TELFRule.sup)

/-- Number of the pairs `(X, C)` with `X` a concept of the map and `C` in `V`
such that `C` is not in `S(X)`. -/
def missing (V : List Nat) (er : ELFReasoner) : Nat :=
  (er.CMap.map (fun c => (V.toFinset \ c.Supers.toFinset).card)).sum

/-- The measure that every turn of the second loop of `classify` decreases: an
action that adds nothing shortens the queue, and an action that adds a new
element to a set `S(X)` lengthens the queue by the number of rules of `X` at
most. -/
def measure (V : List Nat) (er : ELFReasoner) : Nat :=
  er.missing V * (er.totalRules + 1) + er.queue.length

/-- Invariant of the second loop of `classify`: the concepts added by the
actions of the queue and by the rules are in `V`. -/
structure DrainInv (V : List Nat) (er : ELFReasoner) : Prop where
  queue : ∀ a ∈ er.queue, a.R = none → a.D ∈ V
  rules : ∀ c ∈ er.CMap, ∀ r ∈ c.Rules, ∀ s, r.sup = some s → s ∈ V

end ELFReasoner


/-- The ontology with the axioms `A ⊓ B ⊑ D`, `A ⊑ C` and `C ⊑ B`; its
concepts are numbered `Bottom` 0, `Top` 1, `D` 2, `A` 3, `B` 4, `C` 5. -/
def exOntology3 : List TDLAxiom :=
  [TDLAxiom.ConceptInclusion (TConceptExpr.And (TConceptExpr.Name "A") (TConceptExpr.Name "B"))
     (TConceptExpr.Name "D"),
   TDLAxiom.ConceptInclusion (TConceptExpr.Name "A") (TConceptExpr.Name "C"),
   TDLAxiom.ConceptInclusion (TConceptExpr.Name "C") (TConceptExpr.Name "B")]


/-! ### N-ary expressions (`tDLExpression.h`) -/

/-- Embeds the members of `TDLNAryExpression<Argument>`: the argument array
`Base` and the error string `EString`. -/
structure TDLNAryExpression where
  Base : List TDLExpression
  EString : String

namespace TDLNAryExpression

/-- Embeds the constructor of `TDLNAryExpression`: it builds the error string. -/
def ctor (typeName className : String) : TDLNAryExpression :=
  { Base := [],
    EString := "Expected " ++ typeName ++ " argument in the '" ++ className ++ "' expression" }

/-- Embeds `TDLNAryExpression::transform`; the `dynamic_cast` to the argument
class is the parameter `isArgument`. -/
def transform (isArgument : TDLExpression → Bool) (x : TDLNAryExpression)
    (arg : TDLExpression) : Except KernelError TDLExpression :=
  if isArgument arg then Except.ok arg
  else Except.error (KernelError.EFaCTPlusPlus x.EString)

/-- Embeds `TDLNAryExpression::add` of a single element: the outcome of the
call and the object after it.  The argument of `push_back` is evaluated first,
so a throwing `transform` leaves the array as it was. -/
def add (isArgument : TDLExpression → Bool) (x : TDLNAryExpression) (p : TDLExpression) :
    Except KernelError Unit × TDLNAryExpression :=
  match x.transform isArgument p with
  | Except.ok q => (Except.ok (), { x with Base := x.Base ++ [q] })
  | Except.error err => (Except.error err, x)

/-- Embeds `TDLNAryExpression::add` of a range (and of a vector): the elements
are added in order; an exception leaves the loop. -/
def addRange (isArgument : TDLExpression → Bool) :
    TDLNAryExpression → List TDLExpression → Except KernelError Unit × TDLNAryExpression
  | x, [] => (Except.ok (), x)
  | x, p :: ps =>
    match x.add isArgument p with
    | (Except.ok _, x1) => addRange isArgument x1 ps
    | (Except.error err, x1) => (Except.error err, x1)

end TDLNAryExpression

/-- Embeds the constructor of `TDLObjectRoleChain`, giving the n-ary part of
the new chain; a constructor that throws gives no object. -/
def TDLObjectRoleChain.ctor (v : List TDLExpression) : Except KernelError TDLNAryExpression :=
  match TDLNAryExpression.addRange ReasoningKernel.isObjectRoleExpression
      (TDLNAryExpression.ctor "object role expression" "role chain") v with
  | (Except.ok _, x) => Except.ok x
  | (Except.error err, _) => Except.error err


/-- The concept of the sub-chain test as the specification words it:
`(EXISTS R1.EXISTS R2. ... EXISTS Rn.NOT C) AND (FORALL R.C)`, for the trees
`R1 .. Rn` of the chain and the role at address `R`. -/
def ReasoningKernel.subChainTestConcept (D : KernelDeps) (C : DLTree) (R : Nat)
    (chain : List DLTree) : DLTree :=
  D.createSNFAnd (chain.foldr (fun r c => D.createSNFExists r c) (D.createSNFNot C))
    (D.createSNFForall (DLTree.RNAME R) C)

/-- A kernel holding `exTBox` whose argument list is the chain `R o SS`. -/
def exChainKernel (sat : Bool) : ReasoningKernel :=
  { exKernel true sat true with
      argList := [TDLExpression.ObjectRoleName "R", TDLExpression.ObjectRoleName "SS"] }


/-! ### Adding a concept to a node (`Reasoner.cpp`) -/

/-- Modelled from the spec: the tag of a DAG vertex (`dlVertex.h` is not among
the sources); `dtCollection` is the one tag that `addToDoEntry` tests, the
other tags are numbered. -/
inductive DagTag where
  | dtCollection
  | other (n : Nat)
deriving DecidableEq, Repr

/-- Modelled from the spec: a bipolar pointer is negative when its sign is. -/
def isNegative (p : BipolarPointer) : Bool := decide (p < 0)

/-- Modelled from the spec: `getLabel(tag)` is the complex-concept list of the
node for the tag of a complex concept and the simple-concept list otherwise. -/
def DlCompletionTree.getLabel (n : DlCompletionTree) (complex : Bool) : CWDArray :=
  if complex then n.cc else n.sc

namespace DlSatTester

/-- The members and methods used by `tryAddConcept`, `addToDoEntry` and
`insertToDoEntry` whose code is not among the sources, taken as parameters:
the type of the vertex of a pointer in the DAG, the kind of a tag, the
used-pointer marks, the flags `useActiveSignature` and `checkDataNode`, and
the methods, each returning its result and the state it leaves.  A node is
named by its position in the graph. -/
structure ToDoDeps where
  vertexType : BipolarPointer → DagTag
  isComplexConcept : DagTag → Bool
  isUsed : DlSatTester → BipolarPointer → Bool
  setUsed : BipolarPointer → DlSatTester → DlSatTester
  commonTacticBodyAnd : BipolarPointer → DlSatTester → Bool × DlSatTester
  updateLevel : Nat → DepSet → DlSatTester → DlSatTester
  addConceptToNode : Nat → ConceptWDep → DagTag → DlCompletionGraph → DlCompletionGraph
  useActiveSignature : Bool
  updateActiveSignature : BipolarPointer → DepSet → DlSatTester → Bool × DlSatTester
  isCached : DlSatTester → Nat → Bool
  correctCachedEntry : Nat → DlSatTester → Bool × DlSatTester
  addEntry : Nat → DagTag → ConceptWDep → ToDoList → ToDoList
  isDataNode : DlSatTester → Nat → Bool
  checkDataNode : Bool
  checkDataClash : Nat → DlSatTester → Bool × DlSatTester

/-- Modelled from the spec: `setClashSet` stores the clash set (`Reasoner.h` is
not among the sources). -/
def setClashSet (s : DlSatTester) (d : DepSet) : DlSatTester := { s with clashSet := d }

/-- Embeds `DlSatTester::tryAddConcept`: the result and the clash set after the
call; `none` when an assertion of a lookup fails. -/
def tryAddConcept (D : ToDoDeps) (checking : Bool) (s : DlSatTester) (lab : CWDArray)
    (bp : BipolarPointer) (dep : DepSet) : Option (addConceptResult × DepSet) :=
  let inv_p := inverse bp
  let canC := D.isUsed s bp
  let canNegC := D.isUsed s inv_p
  if canC then
    if canNegC then checkAddedConcept checking lab bp dep s.clashSet
    else
      (findConcept checking lab bp).map (fun found =>
        (if found then addConceptResult.acrExist else addConceptResult.acrDone, s.clashSet))
  else
    if canNegC then
      (findConceptClash checking lab inv_p dep s.clashSet).map (fun r =>
        (if r.1 then addConceptResult.acrClash else addConceptResult.acrDone, r.2))
    else some (addConceptResult.acrDone, s.clashSet)

/-- Embeds `DlSatTester::insertToDoEntry`; the log entry is left out. -/
def insertToDoEntry (D : ToDoDeps) (node : Nat) (C : ConceptWDep) (tag : DagTag)
    (s : DlSatTester) : Bool × DlSatTester :=
  let s1 := D.updateLevel node C.getDep s
  let s2 := { s1 with CGraph := D.addConceptToNode node C tag s1.CGraph }
  let s3 := D.setUsed C.bp s2
  let r := if D.useActiveSignature then D.updateActiveSignature C.bp C.getDep s3 else (false, s3)
  if r.1 then (true, r.2)
  else if D.isCached r.2 node then D.correctCachedEntry node r.2
  else
    let s4 := { r.2 with TODO := D.addEntry node tag C r.2.TODO }
    if D.isDataNode s4 node then
      if D.checkDataNode then D.checkDataClash node s4 else (false, s4)
    else (false, s4)

/-- Embeds `DlSatTester::addToDoEntry`: the result and the state after the
call; `none` when an assertion fails or the node does not exist.  The log
entries and the statistics counter are left out. -/
def addToDoEntry (D : ToDoDeps) (checking : Bool) (node : Nat) (C : ConceptWDep)
    (s : DlSatTester) : Option (Bool × DlSatTester) :=
  if C.bp = bpTOP then some (false, s)
  else if C.bp = bpBOTTOM then some (true, s.setClashSet C.getDep)
  else
    let tag := D.vertexType C.bp
    if tag = DagTag.dtCollection then
      if isNegative C.bp then some (false, s)
      else
        let r := D.commonTacticBodyAnd C.bp { s with curNode := some node, curConcept := C }
        some (r.1, { r.2 with curNode := s.curNode, curConcept := s.curConcept })
    else
      match s.CGraph.nodes.get? node with
      | none => none
      | some n =>
        match tryAddConcept D checking s (n.getLabel (D.isComplexConcept tag)) C.bp C.getDep with
        | none => none
        | some (addConceptResult.acrClash, cs) => some (true, { s with clashSet := cs })
        | some (addConceptResult.acrExist, cs) => some (false, { s with clashSet := cs })
        | some (addConceptResult.acrDone, cs) =>
          some (insertToDoEntry D node C tag { s with clashSet := cs })

end DlSatTester


/-- The query `R1(y,z), R2(z,y), R0(x,y)` with `x` free, built on a new
factory that created `x`, `y`, `z` in this order: the variables `y` and `z`
lie on a cycle. -/
def exCyclic : QRQuery × VariableFactory :=
  ({ Body := [QRAtom.Role (TORoleExpr.Name "R1") 1 2,
              QRAtom.Role (TORoleExpr.Name "R2") 2 1,
              QRAtom.Role (TORoleExpr.Name "R0") 0 1],
     FreeVars := [0] },
   ["x", "y", "z"])

/-- The state in which Phase 1 leaves the query `exCyclic`: the body is
`R1(y,z), R2(z,y), R0(x_1,y)`. -/
def exCyclicPhase1 : Phase1State :=
  { query := { Body := [QRAtom.Role (TORoleExpr.Name "R1") 1 2,
                 QRAtom.Role (TORoleExpr.Name "R2") 2 1,
                 QRAtom.Role (TORoleExpr.Name "R0") 3 1],
               FreeVars := [0, 3] },
    VarFact := ["x", "y", "z", "x_1"],
    NewVarMap := [(0, 0), (3, 0)],
    passedAtoms := [2],
    n := 1 }


/-! ### The depth of the nominals -/

/-- The nominals at the leaves of a term under conjunctions and existential
restrictions, from left to right, each with the number of existential
restrictions that enclose it, as the specification words the depth: every
existential restriction counts. -/
def specNominalDepths : Nat → TConceptExpr → List (String × Nat)
  | d, TConceptExpr.Name n => if IsNominal (TConceptExpr.Name n) then [(n, d)] else []
  | d, TConceptExpr.And C D => specNominalDepths d C ++ specNominalDepths d D
  | d, TConceptExpr.Exists _ C => specNominalDepths (d + 1) C
  | _, _ => []

/-- The nominals met by the walk of `TDepthMeasurer`, in the order of the
walk, each with the value of `CurrentDepth` at that moment: the number of
enclosing existential restrictions whose role is a role name. -/
def walkedDepths : Nat → TConceptExpr → List (String × Nat)
  | d, TConceptExpr.Name n => if IsNominal (TConceptExpr.Name n) then [(n, d)] else []
  | d, TConceptExpr.And C D => walkedDepths d C ++ walkedDepths d D
  | d, TConceptExpr.Exists (TORoleExpr.Name _) C => walkedDepths (d + 1) C
  | d, TConceptExpr.Exists (TORoleExpr.Inverse _) C => walkedDepths d C
  | _, _ => []

/-- The depth that a list of occurrences gives first for the name `n`. -/
def depthOf (l : List (String × Nat)) (n : String) : Option Nat :=
  (l.find? (fun e => decide (e.1 = n))).map Prod.snd

/-- The term `EXISTS R-.a`. -/
def exInverseTerm : TConceptExpr :=
  TConceptExpr.Exists (TORoleExpr.Inverse (TORoleExpr.Name "R")) (TConceptExpr.Name "a")

/-- The term `(EXISTS R-.EXISTS S-.a) AND (EXISTS T.b)`. -/
def exInverseTerm2 : TConceptExpr :=
  TConceptExpr.And
    (TConceptExpr.Exists (TORoleExpr.Inverse (TORoleExpr.Name "R"))
      (TConceptExpr.Exists (TORoleExpr.Inverse (TORoleExpr.Name "S")) (TConceptExpr.Name "a")))
    (TConceptExpr.Exists (TORoleExpr.Name "T") (TConceptExpr.Name "b"))

/-- The term `a AND (EXISTS R.a)`. -/
def exRepeatedTerm : TConceptExpr :=
  TConceptExpr.And (TConceptExpr.Name "a")
    (TConceptExpr.Exists (TORoleExpr.Name "R") (TConceptExpr.Name "a"))


/-! ### The cache of a node (`Reasoner.cpp`, `modelCacheIan.h`) -/

/-- Modelled from the spec: the coarse state of a cached model
(`modelCacheInterface.h` is not among the sources). -/
inductive modelCacheState where
  | csInvalid
  | csValid
  | csUnknown
deriving DecidableEq, Repr

/-- Embeds the members of `modelCacheIan`, the index sets kept as lists, with
the flag `hasNominalNode` of its base class.  The two sets of the simple rules
exist only with `RKG_USE_SIMPLE_RULES` and are left out. -/
structure modelCacheIan where
  hasNominalNode : Bool
  posDConcepts : List Nat
  posNConcepts : List Nat
  negDConcepts : List Nat
  negNConcepts : List Nat
  existsRoles : List Nat
  forallRoles : List Nat
  funcRoles : List Nat
  curState : modelCacheState
deriving DecidableEq, Repr

namespace modelCacheIan

/-- Embeds `modelCacheIan::getState`. -/
def getState (m : modelCacheIan) : modelCacheState := m.curState

/-- Embeds `modelCacheIan::shallowCache`. -/
def shallowCache (m : modelCacheIan) : Bool := m.existsRoles.isEmpty

/-- Embeds `modelCacheIan::initRolesFromArcs` on the edges of the node, each
given by its flag `isIBlocked()` and its role; `addExistsRole` is implemented
outside the header and is a parameter. -/
def initRolesFromArcs (addExistsRole : Int → modelCacheIan → modelCacheIan)
    (arcs : List (Bool × Int)) (m : modelCacheIan) : modelCacheIan :=
  { arcs.foldl (fun c q => if !q.1 then addExistsRole q.2 c else c) m with
      curState := modelCacheState.csValid }

end modelCacheIan

/-- A cached model as `DLHeap.getCache` returns it, through the interface
`modelCacheInterface`: a cache of the class `modelCacheIan`, or a cache of
another class (`modelCacheSingleton.h` is not among the sources) given by the
answer of its `shallowCache()`. -/
inductive modelCacheInterface where
  | Ian (m : modelCacheIan)
  | other (shallow : Bool)
deriving DecidableEq, Repr

/-- The virtual method `shallowCache` of a cached model. -/
def modelCacheInterface.shallowCache : modelCacheInterface → Bool
  | modelCacheInterface.Ian m => m.shallowCache
  | modelCacheInterface.other shallow => shallow

namespace DlSatTester

/-- The methods used by `canBeCached` and `doCacheNode` whose code is not among
the sources, taken as parameters: `isNominalNode` of a node, `getCache` of the
DAG (`none` is `NULL`), the edges of a node with their flags `isIBlocked()`
and roles, and the methods `clear`, `merge` and `addExistsRole` of
`modelCacheIan`; `merge` returns the state of the merged model and the cache
it leaves. -/
structure CacheDeps where
  isNominalNode : DlCompletionTree → Bool
  getCache : BipolarPointer → Option modelCacheInterface
  arcs : DlCompletionTree → List (Bool × Int)
  clear : modelCacheIan → modelCacheIan
  merge : modelCacheIan → Option modelCacheInterface → modelCacheState × modelCacheIan
  addExistsRole : Int → modelCacheIan → modelCacheIan

/-- One of the two loops of `canBeCached` over a label list: the state is the
flag `shallow` and the counter `size`, an `unsigned int`; `none` is the
`return false` at an entry without a cache. -/
def canBeCachedLoop (D : CacheDeps) : CWDArray → Bool × Nat → Option (Bool × Nat)
  | [], acc => some acc
  | p :: rest, (shallow, size) =>
    match D.getCache p.bp with
    | none => none
    | some c => canBeCachedLoop D rest (shallow && c.shallowCache, (size + 1) % 4294967296)

/-- Embeds `DlSatTester::canBeCached`; the statistics and the log are left
out. -/
def canBeCached (D : CacheDeps) (node : DlCompletionTree) : Bool :=
  if D.isNominalNode node then false
  else
    match canBeCachedLoop D node.sc (true, 0) with
    | none => false
    | some acc =>
      match canBeCachedLoop D node.cc acc with
      | none => false
      | some (shallow, size) => if shallow && size != 0 then false else true

/-- One of the two loops of `doCacheNode` over a label list: the state is the
local `dep` and `newNodeCache`; the second component of the result is `none`
when the loop runs to its end, and the state of the merge at which the
function returns otherwise. -/
def doCacheLoop (D : CacheDeps) :
    CWDArray → DepSet × modelCacheIan → (DepSet × modelCacheIan) × Option modelCacheState
  | [], acc => (acc, none)
  | p :: rest, (dep, cache) =>
    let dep1 := dep.add p.getDep
    let r := D.merge cache (D.getCache p.bp)
    match r.1 with
    | modelCacheState.csValid => doCacheLoop D rest (dep1, r.2)
    | st => ((dep1, r.2), some st)

/-- The members `newNodeCache` and `newNodeEdges` of the tester. -/
structure NodeCaches where
  newNodeCache : modelCacheIan
  newNodeEdges : modelCacheIan
deriving DecidableEq, Repr

/-- The end of `doCacheNode` after a merge that is not valid: the clash set is
set for `csInvalid` only. -/
def doCacheFail (s : DlSatTester) (nc : NodeCaches) (acc : DepSet × modelCacheIan)
    (st : modelCacheState) : DlSatTester × NodeCaches :=
  (if st = modelCacheState.csInvalid then s.setClashSet acc.1 else s,
    { nc with newNodeCache := acc.2 })

/-- Embeds `DlSatTester::doCacheNode`: the tester and its two caches after the
call. -/
def doCacheNode (D : CacheDeps) (node : DlCompletionTree) (s : DlSatTester) (nc : NodeCaches) :
    DlSatTester × NodeCaches :=
  match doCacheLoop D node.sc (∅, D.clear nc.newNodeCache) with
  | (acc, some st) => doCacheFail s nc acc st
  | (acc, none) =>
    match doCacheLoop D node.cc acc with
    | (acc1, some st) => doCacheFail s nc acc1 st
    | (acc1, none) =>
      let edges := (D.clear nc.newNodeEdges).initRolesFromArcs D.addExistsRole (D.arcs node)
      (s, { newNodeCache := (D.merge acc1.2 (some (modelCacheInterface.Ian edges))).2,
            newNodeEdges := edges })

/-- The cache that the merges of the entries of a list leave, one after
another. -/
def mergeAll (D : CacheDeps) : modelCacheIan → CWDArray → modelCacheIan
  | c, [] => c
  | c, p :: rest => mergeAll D (D.merge c (D.getCache p.bp)).2 rest

/-- Every merge of the entries of a list, one after another, is valid. -/
def allValid (D : CacheDeps) : modelCacheIan → CWDArray → Bool
  | _, [] => true
  | c, p :: rest =>
    decide ((D.merge c (D.getCache p.bp)).1 = modelCacheState.csValid)
      && allValid D (D.merge c (D.getCache p.bp)).2 rest

/-- The union of the DepSets of the entries of a list. -/
def depsOf (l : CWDArray) : DepSet := l.foldl (fun d p => d ∪ p.dep) ∅

end DlSatTester

/-- The cache with no entries. -/
def exEmptyCache : modelCacheIan :=
  { hasNominalNode := false, posDConcepts := [], posNConcepts := [], negDConcepts := [],
    negNConcepts := [], existsRoles := [], forallRoles := [], funcRoles := [],
    curState := modelCacheState.csValid }

/-- Cache services for the examples: the pointers `5` and `7` have shallow
caches of another class, the pointer `9` has a cache with one role on an
outgoing edge, the other pointers have none; a merge with the cache of `9`
is invalid, every other merge is valid. -/
def exCacheDeps : DlSatTester.CacheDeps :=
  { isNominalNode := fun _ => false,
    getCache := fun p =>
      if p = 5 ∨ p = 7 then some (modelCacheInterface.other true)
      else if p = 9 then some (modelCacheInterface.Ian { exEmptyCache with existsRoles := [1] })
      else none,
    arcs := fun _ => [],
    clear := fun _ => exEmptyCache,
    merge := fun c p =>
      if p = some (modelCacheInterface.Ian { exEmptyCache with existsRoles := [1] }) then
        (modelCacheState.csInvalid, { c with curState := modelCacheState.csInvalid })
      else (modelCacheState.csValid, c),
    addExistsRole := fun _ c => c }

/-- The node of the example engine: its labels are `5` and `7`, `9`. -/
def exNode : DlCompletionTree := { id := 0, sc := [⟨5, {1}⟩], cc := [⟨7, ∅⟩, ⟨9, {1}⟩] }


/-- Services of the tester for the examples: a pointer is used when it is in
the list of the used pointers of its sign, the DAG has no collection vertex,
and the other methods do nothing and find no clash. -/
def exToDoDeps : DlSatTester.ToDoDeps :=
  { vertexType := fun _ => DagTag.other 0,
    isComplexConcept := fun _ => false,
    isUsed := fun s p => if 0 < p then decide (p ∈ s.pUsed) else decide (p ∈ s.nUsed),
    setUsed := fun p s =>
      if 0 < p then { s with pUsed := s.pUsed ++ [p] } else { s with nUsed := s.nUsed ++ [p] },
    commonTacticBodyAnd := fun _ s => (false, s),
    updateLevel := fun _ _ s => s,
    addConceptToNode := fun _ _ _ g => g,
    useActiveSignature := false,
    updateActiveSignature := fun _ _ s => (false, s),
    isCached := fun _ _ => false,
    correctCachedEntry := fun _ s => (false, s),
    addEntry := fun _ _ _ t => t,
    isDataNode := fun _ _ => false,
    checkDataNode := false,
    checkDataClash := fun _ s => (false, s) }


/-- Two atoms of the same shape: concept atoms are equal; role atoms have the
same role and differ in one argument at most. -/
def sameShape : QRAtom → QRAtom → Bool
  | QRAtom.Role R a b, QRAtom.Role R1 a1 b1 => decide (R = R1) && (decide (a = a1) || decide (b = b1))
  | QRAtom.Concept C a, QRAtom.Concept C1 a1 => decide (C = C1) && decide (a = a1)
  | _, _ => false

/-- Invariant of Phase 1 at position `i` with respect to the body `orig` of
the query it started from: the query is connected, every atom has the shape of
the original atom at its position, and the atoms from `i` on are the original
ones. -/
structure ShapeInv (orig : List QRAtom) (i : Nat) (s : Phase1State) : Prop where
  conn : QueryConnectednessChecker.isConnected s.query = some true
  shape : ∀ j a, orig.get? j = some a →
    ∃ b, s.query.Body.get? j = some b ∧ sameShape a b = true ∧ (i ≤ j → b = a)


/-! ### An axiom `EXISTS R.C [= D` in the EL reasoner -/

namespace ELFReasoner

/-- The step of the loop of the constructor of `ELFReasoner` on one axiom. -/
def ctorStep (er : ELFReasoner) (axiom1 : TDLAxiom) : ELFReasoner :=
  match axiom1 with
  | TDLAxiom.ConceptInclusion SubC SupC => er.processCI SubC SupC
  | TDLAxiom.ORoleSubsumption _ Role => er.processRI Role
  | TDLAxiom.Other => er

/-- The state of the constructor of `ELFReasoner` before the loop over the
axioms: the entries of `Bottom` and `Top`. -/
def ctorInit : ELFReasoner :=
  let bot := getC { CMap := [], RMap := [], CTop := 0, CBot := 0, queue := [] }
    TConceptExpr.Bottom
  let top := bot.2.getC TConceptExpr.Top
  { top.2 with CBot := bot.1, CTop := top.1 }

/-- The order of the first loop of `classify` given by a list of concept
expressions: the entries of the expressions that have one, in the order of the
list. -/
def keyOrder (er : ELFReasoner) (ord : List TConceptExpr) : List Nat :=
  ord.filterMap (fun p => er.CMap.findIdx? (fun c => c.Origin = p))

/-- A rule with its concepts renamed. -/
def renameRule (σ : Nat → Nat) : TELFRule → TELFRule
  | TELFRule.CSubRule sup => TELFRule.CSubRule (σ sup)
  | TELFRule.CAndSubRule conj sup => TELFRule.CAndSubRule (σ conj) (σ sup)
  | TELFRule.RAddRule r filler => TELFRule.RAddRule r (σ filler)

/-- A concept entry with the concepts of its set and rules renamed. -/
def renameC (σ : Nat → Nat) (c : TELFConcept) : TELFConcept :=
  { Origin := c.Origin, Supers := c.Supers.map σ, Rules := c.Rules.map (renameRule σ) }

/-- An action with its concepts renamed. -/
def renameA (σ : Nat → Nat) (x : ELFAction) : ELFAction :=
  { R := x.R, C := σ x.C, D := σ x.D }

/-- The concepts of a rule are among the first `n` entries. -/
def ruleBound (n : Nat) : TELFRule → Prop
  | TELFRule.CSubRule sup => sup < n
  | TELFRule.CAndSubRule conj sup => conj < n ∧ sup < n
  | TELFRule.RAddRule _ filler => filler < n

/-- Invariant of the reasoner: the entries have distinct origins, and every
concept named by `CTop`, a set `Supers`, a rule or an action has an entry. -/
structure Closed (er : ELFReasoner) : Prop where
  nodup : (er.CMap.map (fun c => c.Origin)).Nodup
  top : er.CTop < er.CMap.length
  supers : ∀ c ∈ er.CMap, ∀ x ∈ c.Supers, x < er.CMap.length
  rules : ∀ c ∈ er.CMap, ∀ r ∈ c.Rules, ruleBound er.CMap.length r
  queue : ∀ x ∈ er.queue, x.C < er.CMap.length ∧ x.D < er.CMap.length

/-- The reasoner `b` is the reasoner `a` with its concepts renamed by `σ`,
but for entries of `b` with the origin `D` that have no rules (and, while the
constructor runs, an empty set `Supers`). -/
structure Sim (D : TConceptExpr) (building : Bool) (σ : Nat → Nat) (a b : ELFReasoner) :
    Prop where
  closed : Closed a
  nodupB : (b.CMap.map (fun c => c.Origin)).Nodup
  rmap : building = true → b.RMap = a.RMap
  top : b.CTop = σ a.CTop
  queue : b.queue = a.queue.map (renameA σ)
  entry : ∀ (i : Nat) (c : TELFConcept), a.CMap[i]? = some c → b.CMap[σ i]? = some (renameC σ c)
  dead : ∀ (j : Nat) (c : TELFConcept), b.CMap[j]? = some c →
    (∃ i, i < a.CMap.length ∧ σ i = j) ∨
      (c.Origin = D ∧ c.Rules = [] ∧ (building = true → c.Supers = []))

end ELFReasoner

/-- The ontology with the axioms `A [= B`, `EXISTS r.A [= D` and `D [= F`: the
entry of `D` is created by the second axiom. -/
def exInertOntology : List TDLAxiom :=
  [TDLAxiom.ConceptInclusion (TConceptExpr.Name "A") (TConceptExpr.Name "B")] ++
    TDLAxiom.ConceptInclusion
      (TConceptExpr.Exists (TORoleExpr.Name "r") (TConceptExpr.Name "A"))
      (TConceptExpr.Name "D") ::
    [TDLAxiom.ConceptInclusion (TConceptExpr.Name "D") (TConceptExpr.Name "F")]

/-- An order of the keys of the concept map of `exInertOntology`. -/
def exInertOrder : List TConceptExpr :=
  [TConceptExpr.Name "F", TConceptExpr.Top, TConceptExpr.Name "D", TConceptExpr.Name "A",
   TConceptExpr.Bottom, TConceptExpr.Name "B"]


/-- The check of the query of Figure 2 for Phase 2 starting from the variable
`v`: `Assign` has a result, which is a term built from `Top`, names,
conjunctions and existentials, of a size below the bound `30`, and with a
nominal. -/
def exFigure2Fragment (v : Nat) : Bool :=
  match TermAssigner.Assign 30 none v exFigure2Assigner with
  | some (term, _) =>
    inFragment term && decide (term.size < 30) && decide (0 < nominalCount term)
  | none => false

/-! # Theorems -/

/-! ## `checkAddedConcept` -/

theorem inverse_ne_TOP (p : Int) (hB : p ≠ bpBOTTOM) : inverse p ≠ bpTOP := by
  show (-p : Int) ≠ (1 : Int)
  have : p ≠ (-1 : Int) := hB
  omega

theorem inverse_ne_BOTTOM (p : Int) (hT : p ≠ bpTOP) : inverse p ≠ bpBOTTOM := by
  show (-p : Int) ≠ (-1 : Int)
  have : p ≠ (1 : Int) := hT
  omega

theorem isCorrect_inverse (p : Int) (hc : isCorrect p = true) : isCorrect (inverse p) = true := by
  have h : p ≠ (0 : Int) := by simpa [isCorrect, bpINVALID] using hc
  simpa [isCorrect, bpINVALID, inverse] using h

theorem argChecked_of (checking : Bool) (p : Int) (hc : isCorrect p = true) (hT : p ≠ bpTOP)
    (hB : p ≠ bpBOTTOM) : DlSatTester.argChecked checking p = true := by
  simp [DlSatTester.argChecked, hc, hT, hB]

theorem contains_iff (lab : CWDArray) (q : BipolarPointer) :
    (∃ e ∈ lab, e.bp = q) ↔ lab.contains q = true := by
  simp [CWDArray.contains]

theorem findConceptClashLoop_absent (p : BipolarPointer) (d cs : DepSet) (lab : CWDArray)
    (h : lab.contains p = false) :
    DlSatTester.findConceptClashLoop p d cs lab = (false, cs) := by
  induction lab with
  | nil => rfl
  | cons e rest ih =>
    simp only [CWDArray.contains, List.any_cons, Bool.or_eq_false_iff, beq_eq_false_iff_ne,
      ne_eq] at h
    simp only [DlSatTester.findConceptClashLoop, h.1, if_false]
    exact ih h.2

theorem findConceptClashLoop_present (p : BipolarPointer) (d cs : DepSet) (lab : CWDArray)
    (h : lab.contains p = true) :
    ∃ e, lab.find? (fun e => decide (e.bp = p)) = some e ∧
      DlSatTester.findConceptClashLoop p d cs lab = (true, e.dep ∪ d) := by
  induction lab with
  | nil => simp [CWDArray.contains] at h
  | cons e rest ih =>
    by_cases he : e.bp = p
    · exact ⟨e, by simp [List.find?, he],
        by simp [DlSatTester.findConceptClashLoop, he, DepSet.add, ConceptWDep.getDep]⟩
    · have h1 : CWDArray.contains rest p = true := by
        simpa [CWDArray.contains, he] using h
      obtain ⟨e1, h2, h3⟩ := ih h1
      exact ⟨e1, by simp [List.find?, he, h2], by simp [DlSatTester.findConceptClashLoop, he, h3]⟩

/-- C1: for a correct pointer `p` other than `TOP`/`BOTTOM`, `checkAddedConcept`
returns `acrExist` when `p` occurs in the label (clash set untouched); otherwise
`acrClash` when `inverse p` occurs, the clash set being the union of `d` and the
DepSet of the first entry carrying `inverse p`; otherwise `acrDone` (clash set
untouched). This holds with and without the `ENABLE_CHECKING` assertions. -/
theorem checkAddedConcept_cases (checking : Bool) (lab : CWDArray) (p : BipolarPointer)
    (d cs : DepSet) (hc : isCorrect p = true) (hT : p ≠ bpTOP) (hB : p ≠ bpBOTTOM) :
    ((∃ e ∈ lab, e.bp = p) →
        DlSatTester.checkAddedConcept checking lab p d cs =
          some (addConceptResult.acrExist, cs)) ∧
    ((¬ ∃ e ∈ lab, e.bp = p) → (∃ e ∈ lab, e.bp = inverse p) →
        ∃ e, lab.find? (fun e => decide (e.bp = inverse p)) = some e ∧
          DlSatTester.checkAddedConcept checking lab p d cs =
            some (addConceptResult.acrClash, d ∪ e.dep)) ∧
    ((¬ ∃ e ∈ lab, e.bp = p) → (¬ ∃ e ∈ lab, e.bp = inverse p) →
        DlSatTester.checkAddedConcept checking lab p d cs =
          some (addConceptResult.acrDone, cs)) := by
  have hg := argChecked_of checking p hc hT hB
  have hgi := argChecked_of checking (inverse p) (isCorrect_inverse p hc)
    (inverse_ne_TOP p hB) (inverse_ne_BOTTOM p hT)
  refine ⟨?_, ?_, ?_⟩
  · intro h
    have hp := (contains_iff lab p).1 h
    simp [DlSatTester.checkAddedConcept, DlSatTester.findConcept, hg, hp]
  · intro h1 h2
    have n1 : lab.contains p = false := by
      rw [← Bool.not_eq_true]; exact fun h => h1 ((contains_iff lab p).2 h)
    obtain ⟨e, he1, he2⟩ :=
      findConceptClashLoop_present (inverse p) d cs lab ((contains_iff _ _).1 h2)
    refine ⟨e, he1, ?_⟩
    simp [DlSatTester.checkAddedConcept, DlSatTester.findConcept, DlSatTester.findConceptClash,
      hg, hgi, n1, he2, Finset.union_comm]
  · intro h1 h2
    have n1 : lab.contains p = false := by
      rw [← Bool.not_eq_true]; exact fun h => h1 ((contains_iff lab p).2 h)
    have n2 : lab.contains (inverse p) = false := by
      rw [← Bool.not_eq_true]; exact fun h => h2 ((contains_iff _ _).2 h)
    simp [DlSatTester.checkAddedConcept, DlSatTester.findConcept, DlSatTester.findConceptClash,
      hg, hgi, n1, findConceptClashLoop_absent _ d cs lab n2]

/-- Adding `3` with DepSet `{5}` to a label holding `-3` twice clashes with the
first of the two entries: the clash set is `{5} ∪ {2}`. -/
theorem checkAddedConcept_cases_witness :
    isCorrect 3 = true ∧ (3 : BipolarPointer) ≠ bpTOP ∧ (3 : BipolarPointer) ≠ bpBOTTOM ∧
    ∃ e, exLabel.find? (fun e => decide (e.bp = inverse 3)) = some e ∧
      DlSatTester.checkAddedConcept true exLabel 3 {5} ∅ =
        some (addConceptResult.acrClash, {5} ∪ e.dep) :=
  ⟨by decide, by decide, by decide,
    (checkAddedConcept_cases true exLabel 3 {5} ∅ (by decide) (by decide) (by decide)).2.1
      (by decide) (by decide)⟩

/-! ## The constructor of the tester -/

/-- C5: the constructor succeeds for every TBox and option set, and afterwards
`useAnywhereBlocking` is `false` when the TBox has fairness constraints and is
the configured option value when it has none. -/
theorem ctor_useAnywhereBlocking (tBox : TBoxView) (o : ifOptionSet) (b : Bool) :
    ∃ s, DlSatTester.ctor tBox (some o) b = some s ∧
      (tBox.hasFC = true → s.useAnywhereBlocking = false) ∧
      (tBox.hasFC = false → s.useAnywhereBlocking = o.getBool "useAnywhereBlocking") := by
  cases hfc : tBox.hasFC <;> cases ho : o.getBool "useAnywhereBlocking" <;>
    simp [DlSatTester.ctor, DlSatTester.readConfig, DlSatTester.initMembers, hfc, ho]

/-! ## The poll of `checkSatisfiability` -/

theorem loop_exCancelled (n : Nat) : ∀ loop : Nat, loop + n = 4999 →
    DlSatTester.checkSatisfiabilityLoop exTactics false (n + 1) loop exCancelled =
      some (Except.ok false, exCancelled) := by
  induction n with
  | zero =>
    intro loop h
    have h1 : loop = 4999 := by omega
    subst h1
    rfl
  | succ n ih =>
    intro loop h
    have h2 : (loop + 1) % 4294967296 = loop + 1 := Nat.mod_eq_of_lt (by omega)
    have h3 : ¬ (loop + 1 = 5000) := by omega
    have hb : DlSatTester.loopBody exTactics false loop exCancelled =
        DlSatTester.LoopStep.again (loop + 1) exCancelled := by
      simp [DlSatTester.loopBody, DlSatTester.enterPass, exCancelled,
        DlSatTester.pollAndExpand, h2, h3, DlSatTester.expand, exTactics]
    rw [DlSatTester.checkSatisfiabilityLoop, hb]
    exact ih (loop + 1) (by omega)

/-- C6 fails for cancellation: with the cancelled flag set, the poll of the
5000th pass makes `checkSatisfiability` return `false`, an answer, and no
exception is thrown. -/
theorem checkSatisfiability_cancelled_returns_false :
    DlSatTester.checkSatisfiability exTactics false 5000 exCancelled =
      some (Except.ok false, exCancelled) :=
  loop_exCancelled 4999 0 (by omega)

/-- C6 as amended: when a pass reaches the poll in state `s2` on the 5000th
pass since the last poll and the poll observes the cancelled flag or an expired
timeout, `checkSatisfiability` stops there: it returns `false` when the flag is
set, and otherwise throws `EFPPTimeout`. -/
theorem checkSatisfiability_poll (T : DlSatTester.Tactics) (fair : Bool) (fuel loop : Nat)
    (s s2 : DlSatTester) (he : DlSatTester.enterPass T fair s = Sum.inr s2)
    (hl : (loop + 1) % 4294967296 = 5000)
    (hp : s2.tBox.isCancelled = true ∨
      (s2.testTimeout ≠ 0 ∧ (s2.testTimeout : ℚ) ≤ 1000 * s2.testTimer)) :
    DlSatTester.checkSatisfiabilityLoop T fair (fuel + 1) loop s =
      some (if s2.tBox.isCancelled then Except.ok false
            else Except.error DlSatTester.EFPPException.EFPPTimeout, s2) := by
  cases hc : s2.tBox.isCancelled with
  | true =>
    simp [DlSatTester.checkSatisfiabilityLoop, DlSatTester.loopBody, he,
      DlSatTester.pollAndExpand, hl, DlSatTester.poll, hc]
  | false =>
    rcases hp with hp | ⟨ht, hq⟩
    · rw [hc] at hp; exact absurd hp (by decide)
    · simp [DlSatTester.checkSatisfiabilityLoop, DlSatTester.loopBody, he,
        DlSatTester.pollAndExpand, hl, DlSatTester.poll, hc, ht, hq]

/-- One second of timeout, two seconds elapsed, not cancelled: the polling pass
throws `EFPPTimeout`. -/
theorem checkSatisfiability_poll_witness :
    DlSatTester.enterPass exTactics false exTimedOut = Sum.inr exTimedOut ∧
    (4999 + 1) % 4294967296 = 5000 ∧
    exTimedOut.testTimeout ≠ 0 ∧ (exTimedOut.testTimeout : ℚ) ≤ 1000 * exTimedOut.testTimer ∧
    DlSatTester.checkSatisfiabilityLoop exTactics false (0 + 1) 4999 exTimedOut =
      some (if exTimedOut.tBox.isCancelled then Except.ok false
            else Except.error DlSatTester.EFPPException.EFPPTimeout, exTimedOut) :=
  ⟨rfl, by decide, by decide, by norm_num [exTimedOut],
    checkSatisfiability_poll exTactics false 0 4999 exTimedOut exTimedOut rfl (by decide)
      (Or.inr ⟨by decide, by norm_num [exTimedOut]⟩)⟩

/-! ## The kernel queries -/

theorem run_bind_error {α β : Type} (x : KernelM α) (f : α → KernelM β) (k : ReasoningKernel)
    (err : KernelError) (h : x.run k = Except.error err) :
    (x >>= f).run k = Except.error err := by
  simp only [StateT.run_bind, h]
  rfl

theorem run_bind_ok {α β : Type} (x : KernelM α) (f : α → KernelM β) (k k1 : ReasoningKernel)
    (a : α) (h : x.run k = Except.ok (a, k1)) :
    (x >>= f).run k = (f a).run k1 := by
  simp only [StateT.run_bind, h]
  rfl

theorem run'_eq {α : Type} (x : KernelM α) (k : ReasoningKernel) :
    x.run' k = (x.run k).map Prod.fst := rfl

theorem e_run (D : KernelDeps) (C : TDLExpression) (c : DLTree) (k : ReasoningKernel)
    (h : D.e C = Except.ok c) : (ReasoningKernel.e D C).run k = Except.ok (c, k) := by
  simp [ReasoningKernel.e, ReasoningKernel.liftE, StateT.run, h, Except.map]

theorem getTBox_run (k : ReasoningKernel) (t : TBox) (ht : k.pTBox = some t) :
    ReasoningKernel.getTBox.run k = Except.ok (t, k) := by
  simp [ReasoningKernel.getTBox, StateT.run, ht]

theorem preprocessKB_inconsistent (D : KernelDeps) (k k1 : ReasoningKernel)
    (h : (ReasoningKernel.isKBConsistent D).run k = Except.ok (false, k1)) :
    (ReasoningKernel.preprocessKB D).run k = Except.error KernelError.EFPPInconsistentKB := by
  unfold ReasoningKernel.preprocessKB
  rw [run_bind_ok _ _ k k1 false h]
  rfl

/-- C3: when the consistency check reports the KB inconsistent, every query
throws `EFPPInconsistentKB` and so returns no answer. -/
theorem queries_throw_on_inconsistent_KB (D : KernelDeps) (k k1 : ReasoningKernel)
    (h : (ReasoningKernel.isKBConsistent D).run k = Except.ok (false, k1)) :
    (∀ C, (ReasoningKernel.isSatisfiable D C).run k =
      Except.error KernelError.EFPPInconsistentKB) ∧
    (∀ C E, (ReasoningKernel.isSubsumedBy D C E).run k =
      Except.error KernelError.EFPPInconsistentKB) ∧
    (∀ C E, (ReasoningKernel.isDisjoint D C E).run k =
      Except.error KernelError.EFPPInconsistentKB) ∧
    (∀ C E, (ReasoningKernel.isEquivalent D C E).run k =
      Except.error KernelError.EFPPInconsistentKB) ∧
    (∀ R, (ReasoningKernel.isFunctional D R).run k =
      Except.error KernelError.EFPPInconsistentKB) ∧
    (∀ R, (ReasoningKernel.isInverseFunctional D R).run k =
      Except.error KernelError.EFPPInconsistentKB) ∧
    (∀ R, (ReasoningKernel.isTransitive D R).run k =
      Except.error KernelError.EFPPInconsistentKB) ∧
    (∀ R, (ReasoningKernel.isSymmetric D R).run k =
      Except.error KernelError.EFPPInconsistentKB) ∧
    (∀ R, (ReasoningKernel.isAsymmetric D R).run k =
      Except.error KernelError.EFPPInconsistentKB) ∧
    (∀ R, (ReasoningKernel.isReflexive D R).run k =
      Except.error KernelError.EFPPInconsistentKB) ∧
    (∀ R, (ReasoningKernel.isIrreflexive D R).run k =
      Except.error KernelError.EFPPInconsistentKB) ∧
    (∀ R S, (ReasoningKernel.isSubRoles D R S).run k =
      Except.error KernelError.EFPPInconsistentKB) ∧
    (∀ R S, (ReasoningKernel.isDisjointRoles D R S).run k =
      Except.error KernelError.EFPPInconsistentKB) ∧
    (∀ R, (ReasoningKernel.isSubChain D R).run k =
      Except.error KernelError.EFPPInconsistentKB) := by
  have hp := preprocessKB_inconsistent D k k1 h
  refine ⟨?_, ?_, ?_, ?_, ?_, ?_, ?_, ?_, ?_, ?_, ?_, ?_, ?_, ?_⟩
  · intro C; unfold ReasoningKernel.isSatisfiable; exact run_bind_error _ _ k _ hp
  · intro C E; unfold ReasoningKernel.isSubsumedBy; exact run_bind_error _ _ k _ hp
  · intro C E; unfold ReasoningKernel.isDisjoint; exact run_bind_error _ _ k _ hp
  · intro C E; unfold ReasoningKernel.isEquivalent; exact run_bind_error _ _ k _ hp
  · intro R; unfold ReasoningKernel.isFunctional; exact run_bind_error _ _ k _ hp
  · intro R; unfold ReasoningKernel.isInverseFunctional; exact run_bind_error _ _ k _ hp
  · intro R; unfold ReasoningKernel.isTransitive; exact run_bind_error _ _ k _ hp
  · intro R; unfold ReasoningKernel.isSymmetric; exact run_bind_error _ _ k _ hp
  · intro R; unfold ReasoningKernel.isAsymmetric; exact run_bind_error _ _ k _ hp
  · intro R; unfold ReasoningKernel.isReflexive; exact run_bind_error _ _ k _ hp
  · intro R; unfold ReasoningKernel.isIrreflexive; exact run_bind_error _ _ k _ hp
  · intro R S; unfold ReasoningKernel.isSubRoles; exact run_bind_error _ _ k _ hp
  · intro R S; unfold ReasoningKernel.isDisjointRoles; exact run_bind_error _ _ k _ hp
  · intro R; unfold ReasoningKernel.isSubChain; exact run_bind_error _ _ k _ hp

/-- On a KB whose consistency flag is off, the check reports `false` and
`isSatisfiable(TOP)` throws. -/
theorem queries_throw_on_inconsistent_KB_witness :
    (ReasoningKernel.isKBConsistent exDeps).run (exKernel false true true) =
      Except.ok (false, exKernel false true true) ∧
    (ReasoningKernel.isSatisfiable exDeps TDLExpression.ConceptTop).run
      (exKernel false true true) = Except.error KernelError.EFPPInconsistentKB :=
  ⟨rfl, (queries_throw_on_inconsistent_KB exDeps (exKernel false true true)
    (exKernel false true true) rfl).1 TDLExpression.ConceptTop⟩

/-- C4: `checkTransitivity(R)` returns `b` exactly when the satisfiability
check of `(EXISTS R.EXISTS R.NOT C) AND (FORALL R.C)`, `C` being the fresh
concept of the TBox, returns `!b`: it returns `true` exactly when that concept
is found unsatisfiable. -/
theorem checkTransitivity_spec (D : KernelDeps) (R : DLTree) (k : ReasoningKernel) (t : TBox)
    (ht : k.pTBox = some t) (b : Bool) :
    (ReasoningKernel.checkTransitivity D R).run' k = Except.ok b ↔
      (ReasoningKernel.checkSat D
        (ReasoningKernel.transitivityTestConcept D t.getFreshConcept R)).run' k =
          Except.ok (!b) := by
  unfold ReasoningKernel.checkTransitivity
  rw [run'_eq, run'_eq, run_bind_ok _ _ k k t (getTBox_run k t ht)]
  simp only [StateT.run_bind, ReasoningKernel.transitivityTestConcept]
  cases h : (ReasoningKernel.checkSat D (D.createSNFAnd (D.createSNFExists R
      (D.createSNFExists R (D.createSNFNot t.getFreshConcept)))
      (D.createSNFForall R t.getFreshConcept))).run k with
  | error err => simp [Except.map, bind, Except.bind]
  | ok r =>
    cases b <;> cases hr : r.1 <;>
      simp [Except.map, bind, Except.bind, pure, StateT.pure, Except.pure, StateT.run, hr]

/-- With a TBox finding every concept unsatisfiable, the role at address `1`
is reported transitive. -/
theorem checkTransitivity_spec_witness :
    (exKernel true false true).pTBox = some (exTBox true false true) ∧
    (ReasoningKernel.checkTransitivity exDeps (DLTree.RNAME 1)).run'
      (exKernel true false true) = Except.ok true :=
  ⟨rfl, (checkTransitivity_spec exDeps (DLTree.RNAME 1) (exKernel true false true)
    (exTBox true false true) rfl true).2 rfl⟩

/-! ## The role master -/

theorem parentsOf_addParent (rm : RoleMaster) (p q x : Nat) :
    (RoleMaster.addParent rm p q).parentsOf x =
      if p = x ∧ x < rm.heap.length then rm.parentsOf x ++ [q] else rm.parentsOf x := by
  unfold RoleMaster.addParent RoleMaster.parentsOf
  simp only [List.get?_eq_getElem?, List.getElem?_modify]
  by_cases hx : x < rm.heap.length
  · rw [List.getElem?_eq_getElem hx]
    by_cases hp : p = x <;> simp [hp, hx]
  · have : rm.heap[x]? = none := List.getElem?_eq_none (by omega)
    simp [this, hx]

theorem heap_addParent_ne (rm : RoleMaster) (p q x : Nat) (h : x ≠ p) :
    (RoleMaster.addParent rm p q).heap.get? x = rm.heap.get? x := by
  unfold RoleMaster.addParent
  simp only [List.get?_eq_getElem?, List.getElem?_modify]
  have : ¬ p = x := fun e => h e.symm
  simp [this]

theorem length_addParent (rm : RoleMaster) (p q : Nat) :
    (RoleMaster.addParent rm p q).heap.length = rm.heap.length := by
  simp [RoleMaster.addParent]

/-- C8: for roles `R` (at `role`) and `S` (at `parent`) with their inverses set,
`addRoleParent` of two roles of the same kind returns `false` and leaves `S`
among the parents of `R` and `inverse(S)` among the parents of `inverse(R)`,
keeping every parent there was and touching no other role; for roles of
different kinds it returns `true` and leaves the state as it was. -/
theorem addRoleParent_spec (rm : RoleMaster) (role parent ri pi : Nat) (R P : TRole)
    (hR : rm.heap.get? role = some R) (hP : rm.heap.get? parent = some P)
    (hri : R.Inverse = some ri) (hpi : P.Inverse = some pi) (hv : ri < rm.heap.length) :
    (R.dataRole = P.dataRole →
      ∃ rm1, RoleMaster.addRoleParent rm role parent = some (false, rm1) ∧
        parent ∈ rm1.parentsOf role ∧ pi ∈ rm1.parentsOf ri ∧
        (∀ x q, q ∈ rm.parentsOf x → q ∈ rm1.parentsOf x) ∧
        (∀ x, x ≠ role → x ≠ ri → rm1.heap.get? x = rm.heap.get? x)) ∧
    (R.dataRole ≠ P.dataRole → RoleMaster.addRoleParent rm role parent = some (true, rm)) := by
  have hR1 : rm.heap[role]? = some R := by rw [← List.get?_eq_getElem?]; exact hR
  have hP1 : rm.heap[parent]? = some P := by rw [← List.get?_eq_getElem?]; exact hP
  have hrl : role < rm.heap.length := (List.getElem?_eq_some_iff.1 hR1).1
  constructor
  · intro hk
    refine ⟨RoleMaster.addParent (RoleMaster.addParent rm role parent) ri pi, ?_, ?_, ?_, ?_, ?_⟩
    · simp [RoleMaster.addRoleParent, hR1, hP1, hk, hri, hpi, length_addParent, hv]
    · rw [parentsOf_addParent, parentsOf_addParent]
      split <;> simp [hrl]
    · rw [parentsOf_addParent, parentsOf_addParent]
      simp [length_addParent, hv]
    · intro x q hq
      rw [parentsOf_addParent, parentsOf_addParent]
      split <;> split <;> simp [hq]
    · intro x h1 h2
      rw [heap_addParent_ne _ _ _ _ h2, heap_addParent_ne _ _ _ _ h1]
  · intro hk
    simp [RoleMaster.addRoleParent, hR1, hP1, hk]

/-- For the object roles `R` (address `2`, inverse `3`) and `S` (address `4`,
inverse `5`): `addRoleParent(R, S)` returns `false`, `S` becomes a parent of `R`
and `inverse(S)` a parent of `inverse(R)`. -/
theorem addRoleParent_spec_witness :
    exRM2.heap.get? 2 = some { name := "R", Id := 1, Inverse := some 3 } ∧
    exRM2.heap.get? 4 = some { name := "S", Id := 2, Inverse := some 5 } ∧
    ∃ rm1, RoleMaster.addRoleParent exRM2 2 4 = some (false, rm1) ∧
      4 ∈ rm1.parentsOf 2 ∧ 5 ∈ rm1.parentsOf 3 ∧
      (∀ x q, q ∈ exRM2.parentsOf x → q ∈ rm1.parentsOf x) ∧
      (∀ x, x ≠ 2 → x ≠ 3 → rm1.heap.get? x = exRM2.heap.get? x) :=
  ⟨by decide, by decide,
    (addRoleParent_spec exRM2 2 4 3 5 { name := "R", Id := 1, Inverse := some 3 }
      { name := "S", Id := 2, Inverse := some 5 } (by decide) (by decide) rfl rfl
      (by decide)).1 rfl⟩

/-- C10 fails: a name registered as an object role and requested as a data
role, or registered as a data role and requested as an object role, is not
refused; `ensureRoleName` returns the existing entry and changes nothing. -/
theorem ensureRoleName_ignores_category :
    RoleMaster.ensureRoleName RoleMaster.ctor "R" false = some (Except.ok 2, exRM1) ∧
    (exRM1.heap.get? 2).map (fun R => R.dataRole) = some false ∧
    RoleMaster.ensureRoleName exRM1 "R" true = some (Except.ok 2, exRM1) ∧
    RoleMaster.ensureRoleName RoleMaster.ctor "D" true = some (Except.ok 2, exRMD) ∧
    (exRMD.heap.get? 2).map (fun R => R.dataRole) = some true ∧
    RoleMaster.ensureRoleName exRMD "D" false = some (Except.ok 2, exRMD) :=
  ⟨rfl, by decide, rfl, rfl, by decide, rfl⟩

/-- C10 as amended: `ensureRoleName(name, isDataRole)` returns the entry of
`name` when it is a registered role, whatever category is requested, and
leaves the state unchanged; it throws `EFPPCantRegName` (with the type string
of the requested category) when the entry of `name` is not a registered role
and either has a non-zero id or new names are not allowed. -/
theorem ensureRoleName_outcomes (rm : RoleMaster) (name : String) (isDataRole : Bool) :
    (∀ ent : String × Nat, rm.roleNS.find? (fun e => e.1 == name) = some ent →
      RoleMaster.isRegisteredRole rm (some ent.2) = true →
      RoleMaster.ensureRoleName rm name isDataRole = some (Except.ok ent.2, rm)) ∧
    (∀ (p : Nat) (rm1 : RoleMaster), RoleMaster.nsInsert rm name = (some p, rm1) →
      RoleMaster.isRegisteredRole rm1 (some p) = false →
      (rm1.idOf p ≠ some 0 ∨ rm1.useUndefinedNames = false) →
      RoleMaster.ensureRoleName rm name isDataRole =
        some (Except.error
          { name := name, type := if isDataRole then "data role" else "role" }, rm1)) := by
  constructor
  · intro ent hf hr
    simp [RoleMaster.ensureRoleName, RoleMaster.nsInsert, hf, hr]
  · intro p rm1 hi hr hc
    have hc1 : rm1.idOf p ≠ some 0 ∨ (!rm1.useUndefinedNames) = true := by
      rcases hc with h | h
      · exact Or.inl h
      · exact Or.inr (by simp [h])
    simp only [RoleMaster.ensureRoleName, hi, hr, Bool.false_eq_true, if_false, hc1, if_true]

/-- The registered object role `R` is returned when requested as a data role;
with new names disallowed, the unknown name `X` is refused as a data role. -/
theorem ensureRoleName_outcomes_witness :
    RoleMaster.ensureRoleName exRM1 "R" true = some (Except.ok 2, exRM1) ∧
    RoleMaster.ensureRoleName (RoleMaster.setUndefinedNames RoleMaster.ctor false) "X" true =
      some (Except.error { name := "X", type := "data role" },
        (RoleMaster.nsInsert (RoleMaster.setUndefinedNames RoleMaster.ctor false) "X").2) :=
  ⟨(ensureRoleName_outcomes exRM1 "R" true).1 ("R", 2) (by decide) (by decide),
    (ensureRoleName_outcomes (RoleMaster.setUndefinedNames RoleMaster.ctor false) "X" true).2 2
      _ rfl (by decide) (Or.inr rfl)⟩

/-! ## `save` and `restore` -/

theorem vresize_self {α : Type} [Inhabited α] (v : List α) : vresize v v.length = v := by
  simp [vresize]

theorem zipWith_restore_self (ns : List DlCompletionTree) :
    List.zipWith DlCompletionTree.restore ns
      (ns.map (fun n => (n.sc.length, n.cc.length))) = ns := by
  induction ns with
  | nil => rfl
  | cons n rest ih =>
    simp only [List.map_cons, List.zipWith_cons_cons, ih]
    simp [DlCompletionTree.restore]

theorem zipWith_take_self (bs : List (List ToDoEntry)) :
    List.zipWith (fun b n => b.take n) bs (bs.map List.length) = bs := by
  induction bs with
  | nil => rfl
  | cons b rest ih => simp [ih]

theorem graph_save_restore (g : DlCompletionGraph) (level : Nat)
    (h : g.saved.length + 1 = level) : (g.save).restore level = some g := by
  have h0 : level ≠ 0 := by omega
  have h1 : level - 1 = g.saved.length := by omega
  simp [DlCompletionGraph.restore, DlCompletionGraph.save, h0, h1, zipWith_restore_self]

theorem todo_save_restore (t : ToDoList) (level : Nat)
    (h : t.saved.length + 1 = level) : (t.save).restore level = some t := by
  have h0 : level ≠ 0 := by omega
  have h1 : level - 1 = t.saved.length := by omega
  simp [ToDoList.restore, ToDoList.save, h0, h1, zipWith_take_self]

/-- C7 fails for an arbitrary state with a non-empty stack: `restore` takes
the current node from the branching context of the level, so an engine that is
at node `4` while the context records node `3` comes back at node `3`; and
restoring the level reached by `save` (level `2`) fails, the stack holding one
context only. -/
theorem save_restore_takes_node_from_context :
    exEngineMoved.Stack ≠ [] ∧
    exEngineMoved.tryLevel = 1 ∧
    exEngineMoved.curNode = some 4 ∧
    (DlSatTester.restore (DlSatTester.save exEngineMoved) 1).map (fun s => s.curNode) =
      some (some 3) ∧
    DlSatTester.restore (DlSatTester.save exEngineMoved) 2 = none :=
  ⟨by decide, rfl, rfl, rfl, rfl⟩

/-- C7 as amended: let the branching context of the current level record the
current node, the current concept and the lengths of the two used-pointer
arrays (as when the context has just been created), and let the graph and the
to-do list hold one snapshot per earlier level. Then `save()` followed by
`restore` of that level succeeds and gives back the branching level, the
current node and concept, the used-pointer arrays, the completion graph and
the to-do list as they were before `save()`. -/
theorem save_restore_nop (s : DlSatTester) (bc : BranchingContext)
    (hbc : s.Stack.get? (s.tryLevel - 1) = some bc) (hl : 0 < s.tryLevel)
    (hn : bc.curNode = s.curNode) (hc : bc.curConcept = s.curConcept)
    (hp : bc.pUsedIndex = s.pUsed.length) (hq : bc.nUsedIndex = s.nUsed.length)
    (hg : s.CGraph.saved.length + 1 = s.tryLevel) (ht : s.TODO.saved.length + 1 = s.tryLevel) :
    ∃ s1, DlSatTester.restore (DlSatTester.save s) s.tryLevel = some s1 ∧
      s1.tryLevel = s.tryLevel ∧ s1.curNode = s.curNode ∧ s1.curConcept = s.curConcept ∧
      s1.pUsed = s.pUsed ∧ s1.nUsed = s.nUsed ∧ s1.CGraph = s.CGraph ∧ s1.TODO = s.TODO := by
  have hbc1 : s.Stack[s.tryLevel - 1]? = some bc := by rw [← List.get?_eq_getElem?]; exact hbc
  have hlen : s.tryLevel - 1 < s.Stack.length := (List.getElem?_eq_some_iff.1 hbc1).1
  have hne : s.Stack ≠ [] := by
    intro h; rw [h] at hlen; simp at hlen
  have h0 : s.tryLevel ≠ 0 := by omega
  have hst : DlSatTester.stackTop s.Stack s.tryLevel =
      some (s.tryLevel - 1, s.Stack.take s.tryLevel) := by
    have : ¬ (s.tryLevel = 0 ∨ s.Stack.length < s.tryLevel) := by omega
    simp [DlSatTester.stackTop, this]
  have htk : (s.Stack.take s.tryLevel)[s.tryLevel - 1]? = some bc := by
    rw [List.getElem?_take_of_lt (by omega)]; exact hbc1
  simp only [DlSatTester.restore, DlSatTester.save, DlSatTester.clearBC, List.isEmpty_iff, hne,
    if_false, h0, hst, DlSatTester.restoreBC, List.get?_eq_getElem?, htk,
    graph_save_restore _ _ hg, todo_save_restore _ _ ht]
  refine ⟨_, rfl, rfl, hn, hc, ?_, ?_, rfl, rfl⟩
  · simp [hp, vresize_self]
  · simp [hq, vresize_self]

/-- The engine that has just created the context of level `1` comes back from
`save(); restore(1)` with the same level, node, concept, used-pointer arrays,
graph and to-do list. -/
theorem save_restore_nop_witness :
    exEngine.Stack.get? (exEngine.tryLevel - 1) =
      some { curNode := some 3, curConcept := ⟨5, {1}⟩, pUsedIndex := 2, nUsedIndex := 1,
             SGsize := 0, branchDep := ∅, branchIndex := 0 } ∧
    ∃ s1, DlSatTester.restore (DlSatTester.save exEngine) exEngine.tryLevel = some s1 ∧
      s1.tryLevel = exEngine.tryLevel ∧ s1.curNode = exEngine.curNode ∧
      s1.curConcept = exEngine.curConcept ∧ s1.pUsed = exEngine.pUsed ∧
      s1.nUsed = exEngine.nUsed ∧ s1.CGraph = exEngine.CGraph ∧ s1.TODO = exEngine.TODO :=
  ⟨rfl, save_restore_nop exEngine
    { curNode := some 3, curConcept := ⟨5, {1}⟩, pUsedIndex := 2, nUsedIndex := 1,
      SGsize := 0, branchDep := ∅, branchIndex := 0 }
    rfl (by decide) rfl rfl rfl rfl rfl rfl⟩

/-! ## The invariant of the role master -/

section RoleMasterInvariant

open RoleMaster

theorem idOf_lt (rm : RoleMaster) (x : Nat) (v : Int) (h : rm.idOf x = some v) :
    x < rm.heap.length := by
  unfold idOf at h
  rw [List.get?_eq_getElem?] at h
  by_contra hx
  rw [List.getElem?_eq_none (by omega)] at h
  simp at h

theorem inverseOf_lt (rm : RoleMaster) (x : Nat) (v : Nat) (h : rm.inverseOf x = some v) :
    x < rm.heap.length := by
  unfold inverseOf at h
  rw [List.get?_eq_getElem?] at h
  by_contra hx
  rw [List.getElem?_eq_none (by omega)] at h
  simp at h

/-- Transfer of the invariant to a state with the same `Roles` and next id whose
store keeps the id and the inverse of every role it held. -/
theorem Registered_transfer (regs : List Nat) (rm rm1 : RoleMaster)
    (hR : rm1.Roles = rm.Roles) (hI : rm1.newRoleId = rm.newRoleId)
    (hid : ∀ x v, rm.idOf x = some v → rm1.idOf x = some v)
    (hinv : ∀ x v, rm.inverseOf x = some v → rm1.inverseOf x = some v)
    (h : Registered regs rm) : Registered regs rm1 := by
  obtain ⟨h1, h2, h3, h4, h5⟩ := h
  refine ⟨by rw [hI]; exact h1, by rw [hR]; exact h2, ?_, ⟨hid _ _ h4.1, hinv _ _ h4.2⟩,
    ⟨hid _ _ h5.1, hinv _ _ h5.2⟩⟩
  intro k r hk
  obtain ⟨ri, a1, a2, a3, a4, a5, a6, a7⟩ := h3 k r hk
  exact ⟨ri, by rw [hR]; exact a1, by rw [hR]; exact a2, a3, hid _ _ a4, hid _ _ a5,
    hinv _ _ a6, hinv _ _ a7⟩

theorem idOf_addParent (rm : RoleMaster) (p q x : Nat) :
    (addParent rm p q).idOf x = rm.idOf x := by
  unfold addParent idOf
  simp only [List.get?_eq_getElem?, List.getElem?_modify]
  cases rm.heap[x]? with
  | none => rfl
  | some R => by_cases hp : p = x <;> simp [hp]

theorem inverseOf_addParent (rm : RoleMaster) (p q x : Nat) :
    (addParent rm p q).inverseOf x = rm.inverseOf x := by
  unfold addParent inverseOf
  simp only [List.get?_eq_getElem?, List.getElem?_modify]
  cases rm.heap[x]? with
  | none => rfl
  | some R => by_cases hp : p = x <;> simp [hp]

theorem Registered_nsInsert (regs : List Nat) (rm : RoleMaster) (name : String)
    (h : Registered regs rm) : Registered regs (nsInsert rm name).2 := by
  unfold nsInsert
  cases hf : rm.roleNS.find? (fun e => e.1 == name) with
  | some ent => exact h
  | none =>
    refine Registered_transfer regs rm _ rfl rfl ?_ ?_ h
    · intro x v hx
      have hl := idOf_lt rm x v hx
      unfold idOf at hx ⊢
      simp only [List.get?_eq_getElem?] at hx ⊢
      rw [List.getElem?_append_left hl]; exact hx
    · intro x v hx
      have hl := inverseOf_lt rm x v hx
      unfold inverseOf at hx ⊢
      simp only [List.get?_eq_getElem?] at hx ⊢
      rw [List.getElem?_append_left hl]; exact hx

theorem Registered_addRoleParent (regs : List Nat) (rm rm1 : RoleMaster) (role parent : Nat)
    (b : Bool) (hs : addRoleParent rm role parent = some (b, rm1))
    (h : Registered regs rm) : Registered regs rm1 := by
  unfold addRoleParent at hs
  split at hs
  · split at hs
    · simp only [Option.some.injEq, Prod.mk.injEq] at hs
      rw [← hs.2]; exact h
    · split at hs
      · dsimp only at hs
        split at hs
        · simp only [Option.some.injEq, Prod.mk.injEq] at hs
          rw [← hs.2]
          refine Registered_transfer regs rm _ rfl rfl ?_ ?_ h
          · intro x v hx; rw [idOf_addParent, idOf_addParent]; exact hx
          · intro x v hx; rw [inverseOf_addParent, inverseOf_addParent]; exact hx
        · exact absurd hs (by simp)
      · exact absurd hs (by simp)
  · exact absurd hs (by simp)

theorem registerRole_eq (rm rm1 : RoleMaster) (r : Nat) (d : Bool)
    (hs : registerRole rm r d = some rm1) :
    ∃ R R1 Ri, rm.heap[r]? = some R ∧ R.Inverse = none ∧ R.Id = 0 ∧
      rm1.heap = rm.heap.set r R1 ++ [Ri] ∧
      R1.Id = rm.newRoleId ∧ R1.Inverse = some rm.heap.length ∧
      Ri.Id = -rm.newRoleId ∧ Ri.Inverse = some r ∧
      rm1.Roles = rm.Roles ++ [some r, some rm.heap.length] ∧
      rm1.newRoleId = rm.newRoleId + 1 := by
  unfold registerRole at hs
  rw [List.get?_eq_getElem?] at hs
  cases hR : rm.heap[r]? with
  | none => rw [hR] at hs; exact absurd hs (by simp)
  | some R =>
    rw [hR] at hs
    dsimp only at hs
    split at hs
    · exact absurd hs (by simp)
    · rename_i hc
      have hc1 : R.Inverse = none ∧ R.Id = 0 := by
        constructor
        · by_contra h1; exact hc (Or.inl h1)
        · by_contra h1; exact hc (Or.inr h1)
      simp only [Option.some.injEq] at hs
      subst hs
      exact ⟨R, _, _, rfl, hc1.1, hc1.2, rfl, rfl, rfl, rfl, rfl, rfl, rfl⟩

theorem Registered_registerRole (regs : List Nat) (rm rm1 : RoleMaster) (r : Nat) (d : Bool)
    (hs : registerRole rm r d = some rm1) (h : Registered regs rm) :
    Registered (regs ++ [r]) rm1 := by
  obtain ⟨R, R1, Ri, hR, hRi, hRid, hheap, hR1id, hR1inv, hRiid, hRiinv, hroles, hnew⟩ :=
    registerRole_eq rm rm1 r d hs
  obtain ⟨h1, h2, h3, h4, h5⟩ := h
  have hrl : r < rm.heap.length := (List.getElem?_eq_some_iff.1 hR).1
  have hidr : rm.idOf r = some 0 := by simp [idOf, hR, hRid]
  have hinvr : rm.inverseOf r = none := by simp [inverseOf, hR, hRi]
  have keepId : ∀ x v, x ≠ r → rm.idOf x = some v → rm1.idOf x = some v := by
    intro x v hx hv
    have hl := idOf_lt rm x v hv
    unfold idOf at hv ⊢
    simp only [List.get?_eq_getElem?] at hv ⊢
    rw [hheap, List.getElem?_append_left (by simpa using hl),
      List.getElem?_set_ne (fun e => hx e.symm)]
    exact hv
  have keepInv : ∀ x v, x ≠ r → rm.inverseOf x = some v → rm1.inverseOf x = some v := by
    intro x v hx hv
    have hl := inverseOf_lt rm x v hv
    unfold inverseOf at hv ⊢
    simp only [List.get?_eq_getElem?] at hv ⊢
    rw [hheap, List.getElem?_append_left (by simpa using hl),
      List.getElem?_set_ne (fun e => hx e.symm)]
    exact hv
  have newR : rm1.heap[r]? = some R1 := by
    rw [hheap, List.getElem?_append_left (by simpa using hrl), List.getElem?_set_eq_of_lt _ hrl]
  have newRi : rm1.heap[rm.heap.length]? = some Ri := by
    rw [hheap]
    have hlen : (rm.heap.set r R1).length = rm.heap.length := by simp
    rw [List.getElem?_append_right (by omega), hlen]
    simp
  refine ⟨?_, ?_, ?_, ?_, ?_⟩
  · rw [hnew, h1]; simp
  · rw [hroles]; simp [h2]; omega
  · intro k x hk
    rw [List.get?_eq_getElem?] at hk
    by_cases hkl : k < regs.length
    · rw [List.getElem?_append_left hkl] at hk
      obtain ⟨ri, a1, a2, a3, a4, a5, a6, a7⟩ := h3 k x (by rw [List.get?_eq_getElem?]; exact hk)
      have hxr : x ≠ r := by
        intro e; rw [e, hidr] at a4
        simp only [Option.some.injEq] at a4; omega
      have hrir : ri ≠ r := by
        intro e; rw [e, hidr] at a5
        simp only [Option.some.injEq] at a5; omega
      rw [List.get?_eq_getElem?] at a1 a2
      refine ⟨ri, ?_, ?_, a3, keepId _ _ hxr a4, keepId _ _ hrir a5, keepInv _ _ hxr a6,
        keepInv _ _ hrir a7⟩
      · rw [List.get?_eq_getElem?, hroles, List.getElem?_append_left (by omega)]; exact a1
      · rw [List.get?_eq_getElem?, hroles, List.getElem?_append_left (by omega)]; exact a2
    · have hk2 : k = regs.length := by
        by_contra hne
        rw [List.getElem?_eq_none (by simp; omega)] at hk
        simp at hk
      subst hk2
      rw [List.getElem?_append_right (Nat.le_refl _)] at hk
      simp only [Nat.sub_self, List.getElem?_cons_zero, Option.some.injEq] at hk
      subst hk
      refine ⟨rm.heap.length, ?_, ?_, by omega, ?_, ?_, ?_, ?_⟩
      · rw [List.get?_eq_getElem?, hroles, List.getElem?_append_right (by omega)]
        have : 2 * (regs.length + 1) - rm.Roles.length = 0 := by omega
        rw [this]; rfl
      · rw [List.get?_eq_getElem?, hroles, List.getElem?_append_right (by omega)]
        have : 2 * (regs.length + 1) + 1 - rm.Roles.length = 1 := by omega
        rw [this]; rfl
      · simp [idOf, newR, hR1id, h1]
      · simp [idOf, newRi, hRiid, h1]
      · simp [inverseOf, newR, hR1inv]
      · simp [inverseOf, newRi, hRiinv]
  · have he : emptyRole ≠ r := by
      intro e; rw [e, hinvr] at h4; exact absurd h4.2 (by simp)
    exact ⟨keepId _ _ he h4.1, keepInv _ _ he h4.2⟩
  · have he : universalRole ≠ r := by
      intro e; rw [e, hinvr] at h5; exact absurd h5.2 (by simp)
    exact ⟨keepId _ _ he h5.1, keepInv _ _ he h5.2⟩

theorem Registered_of_Reachable (regs : List Nat) (rm : RoleMaster) (h : Reachable regs rm) :
    Registered regs rm := by
  induction h with
  | ctor =>
    refine ⟨rfl, rfl, ?_, ⟨rfl, rfl⟩, ⟨rfl, rfl⟩⟩
    intro k r hk; simp at hk
  | insert name _ ih => exact Registered_nsInsert _ _ name ih
  | register r d _ hs ih => exact Registered_registerRole _ _ _ r d hs ih
  | addRoleParent role parent b _ hs ih => exact Registered_addRoleParent _ _ _ role parent b hs ih
  | addDisjointRoles R S _ ih =>
    exact Registered_transfer _ _ _ rfl rfl (fun _ _ h => h) (fun _ _ h => h) ih
  | setUndefinedNames val _ ih =>
    exact Registered_transfer _ _ _ rfl rfl (fun _ _ h => h) (fun _ _ h => h) ih

/-- The public entry point stays within the reachable states: a call of
`ensureRoleName` that returns or throws registers no role or exactly one. -/
theorem reachable_ensureRoleName (regs : List Nat) (rm rm1 : RoleMaster) (name : String)
    (d : Bool) (res : Except EFPPCantRegName Nat) (h : Reachable regs rm)
    (hs : ensureRoleName rm name d = some (res, rm1)) :
    Reachable regs rm1 ∨ ∃ p, Reachable (regs ++ [p]) rm1 := by
  have hi := Reachable.insert name h
  unfold ensureRoleName at hs
  dsimp only at hs
  split at hs
  · rename_i rm2 heq
    simp only [Option.some.injEq, Prod.mk.injEq] at hs
    rw [heq] at hi; rw [← hs.2]; exact Or.inl hi
  · rename_i p rm2 heq
    rw [heq] at hi
    split at hs
    · simp only [Option.some.injEq, Prod.mk.injEq] at hs
      rw [← hs.2]; exact Or.inl hi
    · split at hs
      · simp only [Option.some.injEq, Prod.mk.injEq] at hs
        rw [← hs.2]; exact Or.inl hi
      · split at hs
        · exact absurd hs (by simp)
        · rename_i rm3 hreg
          simp only [Option.some.injEq, Prod.mk.injEq] at hs
          rw [← hs.2]
          exact Or.inr ⟨p, Reachable.register p d hi hreg⟩

/-- C9: in every reachable state of the role master, `regs` being the roles
registered so far in order: the next id is `n+1` and `Roles` holds `2 + 2n`
entries, so `size() = n`; the `(k+1)`-th registered role `r` has id `k+1`, sits
at position `2(k+1)` of `Roles`, its inverse `ri` is a distinct role with id
`-(k+1)` at the next position, `inverse(r) = ri` and `inverse(ri) = r`; the
built-in empty and universal roles have id `0` and are their own inverses. -/
theorem roleMaster_invariant (regs : List Nat) (rm : RoleMaster) (h : Reachable regs rm) :
    rm.newRoleId = (regs.length : Int) + 1 ∧
    rm.Roles.length = 2 + 2 * regs.length ∧
    rm.size = regs.length ∧
    (∀ k r, regs.get? k = some r →
      ∃ ri, rm.Roles.get? (2 * (k + 1)) = some (some r) ∧
        rm.Roles.get? (2 * (k + 1) + 1) = some (some ri) ∧ r ≠ ri ∧
        rm.idOf r = some ((k : Int) + 1) ∧ rm.idOf ri = some (-((k : Int) + 1)) ∧
        rm.inverseOf r = some ri ∧ rm.inverseOf ri = some r) ∧
    (rm.idOf RoleMaster.emptyRole = some 0 ∧
      rm.inverseOf RoleMaster.emptyRole = some RoleMaster.emptyRole) ∧
    (rm.idOf RoleMaster.universalRole = some 0 ∧
      rm.inverseOf RoleMaster.universalRole = some RoleMaster.universalRole) := by
  obtain ⟨h1, h2, h3, h4, h5⟩ := Registered_of_Reachable regs rm h
  refine ⟨h1, h2, ?_, h3, h4, h5⟩
  unfold RoleMaster.size
  omega

/-- After `ensureRoleName("R", false)` on a new role master: one registration,
four entries in `Roles`, `R` with id `1` and its inverse with id `-1`. -/
theorem roleMaster_invariant_witness :
    Reachable [2] exRM1 ∧
    (exRM1.newRoleId = (([2] : List Nat).length : Int) + 1 ∧
    exRM1.Roles.length = 2 + 2 * ([2] : List Nat).length ∧
    exRM1.size = ([2] : List Nat).length ∧
    (∀ k r, ([2] : List Nat).get? k = some r →
      ∃ ri, exRM1.Roles.get? (2 * (k + 1)) = some (some r) ∧
        exRM1.Roles.get? (2 * (k + 1) + 1) = some (some ri) ∧ r ≠ ri ∧
        exRM1.idOf r = some ((k : Int) + 1) ∧ exRM1.idOf ri = some (-((k : Int) + 1)) ∧
        exRM1.inverseOf r = some ri ∧ exRM1.inverseOf ri = some r) ∧
    (exRM1.idOf RoleMaster.emptyRole = some 0 ∧
      exRM1.inverseOf RoleMaster.emptyRole = some RoleMaster.emptyRole) ∧
    (exRM1.idOf RoleMaster.universalRole = some 0 ∧
      exRM1.inverseOf RoleMaster.universalRole = some RoleMaster.universalRole)) :=
  ⟨Reachable.register 2 false (Reachable.insert "R" Reachable.ctor) rfl,
    roleMaster_invariant [2] exRM1
      (Reachable.register 2 false (Reachable.insert "R" Reachable.ctor) rfl)⟩

end RoleMasterInvariant

/-! ## Query folding: the connectedness check -/

section Connectedness
open QueryConnectednessChecker

theorem mem_setInsert (s : List Nat) (v x : Nat) : x ∈ setInsert s v ↔ x ∈ s ∨ x = v := by
  unfold setInsert
  split
  · constructor
    · exact Or.inl
    · rintro (h | h)
      · exact h
      · subst h; assumption
  · simp

theorem role_mem_varsOf (body : List QRAtom) (R : TORoleExpr) (a b : Nat)
    (h : QRAtom.Role R a b ∈ body) : a ∈ varsOf body ∧ b ∈ varsOf body := by
  induction body with
  | nil => simp at h
  | cons x rest ih =>
    rcases List.mem_cons.1 h with h1 | h1
    · subst h1; simp [varsOf]
    · have := ih h1
      cases x <;> simp [varsOf, this.1, this.2]

theorem varsOf_length (body : List QRAtom) : (varsOf body).length ≤ 2 * body.length := by
  induction body with
  | nil => simp [varsOf]
  | cons x rest ih => cases x <;> simp [varsOf] <;> omega

theorem allPassed_iff (passed : List Nat) (body : List QRAtom) :
    allPassed passed body = true ↔ ∀ v ∈ varsOf body, v ∈ passed := by
  induction body with
  | nil => simp [allPassed, varsOf]
  | cons x rest ih =>
    cases x with
    | Role R a b =>
      by_cases ha : a ∈ passed <;> by_cases hb : b ∈ passed <;>
        simp [allPassed, varsOf, ha, hb, ih]
    | Concept C a =>
      by_cases ha : a ∈ passed <;> simp [allPassed, varsOf, ha, ih]

theorem unpassed_mono (body : List QRAtom) (p q : List Nat) (h : ∀ x ∈ p, x ∈ q) :
    unpassed body q ≤ unpassed body p := by
  unfold unpassed
  apply Finset.card_le_card
  intro x hx
  simp only [Finset.mem_sdiff, List.mem_toFinset] at hx ⊢
  exact ⟨hx.1, fun hp => hx.2 (h x hp)⟩

theorem unpassed_lt (body : List QRAtom) (p q : List Nat) (v : Nat) (h : ∀ x ∈ p, x ∈ q)
    (hv : v ∈ varsOf body) (hvp : v ∉ p) (hvq : v ∈ q) :
    unpassed body q < unpassed body p := by
  unfold unpassed
  apply Finset.card_lt_card
  constructor
  · intro x hx
    simp only [Finset.mem_sdiff, List.mem_toFinset] at hx ⊢
    exact ⟨hx.1, fun hp => hx.2 (h x hp)⟩
  · intro hsub
    have : v ∈ (varsOf body).toFinset \ q.toFinset := hsub (by simp [hv, hvp])
    simp [hvq] at this

theorem markStep_spec (body : List QRAtom) (fuel var : Nat) (passed acc : List Nat)
    (IH : ∀ v p, v ∈ varsOf body → v ∉ p → unpassed body p ≤ fuel →
      MarkSpec body v p (MarkVertex body fuel v p))
    (hU : unpassed body (setInsert passed var) ≤ fuel)
    (x : QRAtom) (hx : x ∈ body) (inv : LoopInv body var passed acc) :
    LoopInv body var passed (markStep (MarkVertex body fuel) var acc x) ∧
    (∀ u ∈ acc, u ∈ markStep (MarkVertex body fuel) var acc x) ∧
    (∀ R a b, x = QRAtom.Role R a b →
      (a = var → b ∈ markStep (MarkVertex body fuel) var acc x) ∧
      (b = var → a ∈ markStep (MarkVertex body fuel) var acc x)) := by
  have hvar : var ∈ acc := inv.base var ((mem_setInsert _ _ _).2 (Or.inr rfl))
  cases x with
  | Concept C a =>
    refine ⟨inv, fun u h => h, ?_⟩
    intro R a b h; cases h
  | Role R a1 a2 =>
    simp only [markStep]
    by_cases hskip : (a1 ≠ var ∧ a2 ≠ var) ∨ (a1 = var ∧ a2 = var)
    · rw [if_pos hskip]
      refine ⟨inv, fun u h => h, ?_⟩
      intro R' a b h
      cases h
      rcases hskip with ⟨h1, h2⟩ | ⟨h1, h2⟩
      · exact ⟨fun e => absurd e h1, fun e => absurd e h2⟩
      · exact ⟨fun _ => by rw [h2]; exact hvar, fun _ => by rw [h1]; exact hvar⟩
    · rw [if_neg hskip]
      -- exactly one end is `var`
      have hone : (a1 = var ∧ a2 ≠ var) ∨ (a1 ≠ var ∧ a2 = var) := by
        by_cases h1 : a1 = var <;> by_cases h2 : a2 = var
        · exact absurd (Or.inr ⟨h1, h2⟩) hskip
        · exact Or.inl ⟨h1, h2⟩
        · exact Or.inr ⟨h1, h2⟩
        · exact absurd (Or.inl ⟨h1, h2⟩) hskip
      have hadj : adjacent body var (if a1 = var then a2 else a1) := by
        rcases hone with ⟨h1, _⟩ | ⟨h1, h2⟩
        · rw [if_pos h1]; exact ⟨R, Or.inl (by rw [← h1]; exact hx)⟩
        · rw [if_neg h1]; exact ⟨R, Or.inr (by rw [← h2]; exact hx)⟩
      have hnbV : (if a1 = var then a2 else a1) ∈ varsOf body := by
        have := role_mem_varsOf body R a1 a2 hx
        split
        · exact this.2
        · exact this.1
      have hends : ∀ res : List Nat, (if a1 = var then a2 else a1) ∈ res → var ∈ res →
          ∀ R' a b, QRAtom.Role R a1 a2 = QRAtom.Role R' a b →
            (a = var → b ∈ res) ∧ (b = var → a ∈ res) := by
        intro res hnb hv R' a b h
        cases h
        rcases hone with ⟨h1, h2⟩ | ⟨h1, h2⟩
        · rw [if_pos h1] at hnb
          exact ⟨fun _ => hnb, fun e => absurd e h2⟩
        · rw [if_neg h1] at hnb
          exact ⟨fun e => absurd e h1, fun _ => hnb⟩
      by_cases hin : (if a1 = var then a2 else a1) ∈ acc
      · rw [if_pos hin]
        exact ⟨inv, fun u h => h, hends acc hin hvar⟩
      · rw [if_neg hin]
        have hUacc : unpassed body acc ≤ fuel :=
          le_trans (unpassed_mono body _ _ inv.base) hU
        have sp := IH _ acc hnbV hin hUacc
        refine ⟨⟨?_, ?_, ?_⟩, sp.keeps, hends _ sp.self (sp.keeps _ hvar)⟩
        · intro u hu; exact sp.keeps _ (inv.base u hu)
        · intro u hu hup huv w hw
          by_cases hua : u ∈ acc
          · exact sp.keeps _ (inv.closed u hua hup huv w hw)
          · exact sp.closed u hu hua w hw
        · intro u hu
          rcases sp.sound u hu with h | h
          · exact inv.sound u h
          · exact Or.inr (Relation.ReflTransGen.head hadj h)

theorem markLoop_spec (body : List QRAtom) (fuel var : Nat) (passed : List Nat)
    (IH : ∀ v p, v ∈ varsOf body → v ∉ p → unpassed body p ≤ fuel →
      MarkSpec body v p (MarkVertex body fuel v p))
    (hU : unpassed body (setInsert passed var) ≤ fuel) :
    ∀ (atoms : List QRAtom), (∀ a ∈ atoms, a ∈ body) → ∀ acc : List Nat,
      LoopInv body var passed acc →
      LoopInv body var passed
        (atoms.foldl (fun acc atom => markStep (MarkVertex body fuel) var acc atom) acc) ∧
      (∀ u ∈ acc,
        u ∈ atoms.foldl (fun acc atom => markStep (MarkVertex body fuel) var acc atom) acc) ∧
      (∀ R a b, QRAtom.Role R a b ∈ atoms →
        (a = var →
          b ∈ atoms.foldl (fun acc atom => markStep (MarkVertex body fuel) var acc atom) acc) ∧
        (b = var →
          a ∈ atoms.foldl (fun acc atom => markStep (MarkVertex body fuel) var acc atom) acc)) := by
  intro atoms
  induction atoms with
  | nil =>
    intro _ acc inv
    exact ⟨inv, fun u h => h, fun R a b h => by simp at h⟩
  | cons x rest ih =>
    intro hsub acc inv
    obtain ⟨inv1, hk1, he1⟩ :=
      markStep_spec body fuel var passed acc IH hU x (hsub x (List.mem_cons_self _ _)) inv
    obtain ⟨inv2, hk2, he2⟩ :=
      ih (fun a ha => hsub a (List.mem_cons_of_mem _ ha)) _ inv1
    simp only [List.foldl_cons]
    refine ⟨inv2, fun u hu => hk2 u (hk1 u hu), ?_⟩
    intro R a b hm
    rcases List.mem_cons.1 hm with h | h
    · have := he1 R a b h.symm
      exact ⟨fun e => hk2 _ (this.1 e), fun e => hk2 _ (this.2 e)⟩
    · exact he2 R a b h

theorem MarkVertex_spec (body : List QRAtom) (fuel : Nat) :
    ∀ v p, v ∈ varsOf body → v ∉ p → unpassed body p ≤ fuel →
      MarkSpec body v p (MarkVertex body fuel v p) := by
  induction fuel with
  | zero =>
    intro v p hv hvp hU
    exfalso
    have : 0 < unpassed body p := by
      unfold unpassed
      apply Finset.card_pos.2
      exact ⟨v, by simp [hv, hvp]⟩
    omega
  | succ fuel ih =>
    intro v p hv hvp hU
    have hU1 : unpassed body (setInsert p v) ≤ fuel := by
      have := unpassed_lt body p (setInsert p v) v
        (fun x hx => (mem_setInsert _ _ _).2 (Or.inl hx)) hv hvp
        ((mem_setInsert _ _ _).2 (Or.inr rfl))
      omega
    have inv0 : LoopInv body v p (setInsert p v) := by
      refine ⟨fun u h => h, ?_, ?_⟩
      · intro u hu hup huv
        rcases (mem_setInsert _ _ _).1 hu with h | h
        · exact absurd h hup
        · exact absurd h huv
      · intro u hu
        rcases (mem_setInsert _ _ _).1 hu with h | h
        · exact Or.inl h
        · exact Or.inr (by rw [h]; exact Relation.ReflTransGen.refl)
    obtain ⟨inv, _, he⟩ := markLoop_spec body fuel v p ih hU1 body (fun a h => h) _ inv0
    show MarkSpec body v p
      (body.foldl (fun acc atom => markStep (MarkVertex body fuel) v acc atom) (setInsert p v))
    refine ⟨?_, ?_, ?_, inv.sound⟩
    · intro u hu; exact inv.base u ((mem_setInsert _ _ _).2 (Or.inl hu))
    · exact inv.base v ((mem_setInsert _ _ _).2 (Or.inr rfl))
    · intro u hu hup w hw
      by_cases huv : u = v
      · subst huv
        obtain ⟨R, h | h⟩ := hw
        · exact (he R u w h).1 rfl
        · exact (he R w u h).2 rfl
      · exact inv.closed u hu hup huv w hw

theorem startVar_mem (body : List QRAtom) (h : body ≠ []) : startVar body ∈ varsOf body := by
  cases body with
  | nil => exact absurd rfl h
  | cons a rest => cases a <;> simp [startVar, varsOf]

theorem isConnected_eq (q : QRQuery) (h : q.Body ≠ []) :
    isConnected q =
      some (allPassed (MarkVertex q.Body (2 * q.Body.length) (startVar q.Body) []) q.Body) := by
  unfold isConnected
  cases hb : q.Body with
  | nil => exact absurd hb h
  | cons a rest => cases a <;> rfl

theorem linked_closed (body : List QRAtom) (s : List Nat) (v : Nat) (hv : v ∈ s)
    (hc : ∀ u ∈ s, ∀ w, adjacent body u w → w ∈ s) :
    ∀ w, Linked body v w → w ∈ s := by
  intro w hw
  induction hw with
  | refl => exact hv
  | tail _ hbc ih => exact hc _ ih _ hbc

theorem isConnected_linked (q : QRQuery) (h : q.Body ≠ []) :
    ∃ b, isConnected q = some b ∧
      (b = true ↔ ∀ v ∈ varsOf q.Body, Linked q.Body (startVar q.Body) v) := by
  refine ⟨_, isConnected_eq q h, ?_⟩
  have hfuel : unpassed q.Body [] ≤ 2 * q.Body.length := by
    unfold unpassed
    calc ((varsOf q.Body).toFinset \ ([] : List Nat).toFinset).card
        ≤ (varsOf q.Body).toFinset.card := Finset.card_le_card Finset.sdiff_subset
      _ ≤ (varsOf q.Body).length := List.toFinset_card_le _
      _ ≤ 2 * q.Body.length := varsOf_length _
  have sp := MarkVertex_spec q.Body (2 * q.Body.length) (startVar q.Body) []
    (startVar_mem _ h) (by simp) hfuel
  rw [allPassed_iff]
  constructor
  · intro hall v hv
    rcases sp.sound v (hall v hv) with h1 | h1
    · simp at h1
    · exact h1
  · intro hall v hv
    exact linked_closed q.Body _ _ sp.self (fun u hu w hw => sp.closed u hu (by simp) w hw) v
      (hall v hv)

/-- Claim C11: for every query with a non-empty body, `isConnected` returns a
flag, and the flag is `true` exactly when every variable occurring in an atom
of the body is reachable from the first argument of the first atom in the
undirected graph whose edges join the two arguments of each role atom. -/
theorem isConnected_reachability (q : QRQuery) (h : q.Body ≠ []) :
    ∃ b, isConnected q = some b ∧
      (b = true ↔ ∀ v ∈ varsOf q.Body, Linked q.Body (startVar q.Body) v) :=
  isConnected_linked q h

/-- Witness of C11 on the query of Figure 2. -/
theorem isConnected_reachability_witness :
    exFigure2.Body ≠ [] ∧
    ∃ b, isConnected exFigure2 = some b ∧
      (b = true ↔ ∀ v ∈ varsOf exFigure2.Body,
        Linked exFigure2.Body (startVar exFigure2.Body) v) :=
  ⟨by decide, isConnected_reachability exFigure2 (by decide)⟩

end Connectedness

/-! ## Query folding: replacing an atom -/

section Replace
open QueryConnectednessChecker

theorem erase_append_fresh (l : List Nat) (v : Nat) (h : v ∉ l) : (l ++ [v]).erase v = l := by
  rw [List.erase_append_right _ h]
  simp

theorem setInsert_fresh (l : List Nat) (v : Nat) (h : v ∉ l) : setInsert l v = l ++ [v] := by
  unfold setInsert
  rw [if_neg h]

theorem PossiblyReplaceAtom_eq (q : QRQuery) (i : Nat) (newAtom : QRAtom) (newArg : Nat)
    (passedAtoms : List Nat) (hi : i < q.Body.length) (hfresh : newArg ∉ q.FreeVars) :
    ∃ ret, isConnected { Body := q.Body.set i newAtom, FreeVars := q.FreeVars ++ [newArg] }
        = some ret ∧
      PossiblyReplaceAtom q i newAtom newArg passedAtoms =
        some (ret,
          if ret then { Body := q.Body.set i newAtom, FreeVars := q.FreeVars ++ [newArg] }
          else q,
          setInsert passedAtoms i) := by
  have hne : ({ Body := q.Body.set i newAtom, FreeVars := q.FreeVars ++ [newArg] } :
      QRQuery).Body ≠ [] := by
    intro h
    have : (q.Body.set i newAtom).length = 0 := by rw [show q.Body.set i newAtom = [] from h]; rfl
    rw [List.length_set] at this
    omega
  obtain ⟨b, hb, _⟩ := isConnected_linked _ hne
  refine ⟨b, hb, ?_⟩
  unfold PossiblyReplaceAtom
  rw [List.get?_eq_get hi]
  simp only [QRQuery.replaceAtom, QRQuery.setVarFree, setInsert_fresh _ _ hfresh, hb]
  cases b with
  | true => simp
  | false =>
    simp only [erase_append_fresh _ _ hfresh, List.set_set]
    simp
    cases q
    simp only [QRQuery.mk.injEq, and_true]
    apply List.ext_getElem?
    intro j
    by_cases hj : i = j
    · subst hj
      rw [List.getElem?_set_self (by simpa using hi)]
      exact (List.getElem?_eq_getElem _).symm
    · rw [List.getElem?_set_ne hj]

/-- Claim C12: when `PossiblyReplaceAtom` is called at a position of the body
with a new variable that is not free yet, it returns a flag; the flag is
`false` exactly when the query with the replacement is not connected, and
then the query (the atoms at every position and the free variables) is what it
was before the call; when the flag is `true`, the atom at the given position
is the new atom, the atoms at the other positions are unchanged and the free
variables are the former ones with the new variable added. -/
theorem PossiblyReplaceAtom_rollback (q : QRQuery) (i : Nat) (newAtom : QRAtom)
    (newArg : Nat) (passedAtoms : List Nat) (hi : i < q.Body.length)
    (hfresh : newArg ∉ q.FreeVars) :
    ∃ ret q1 passed1,
      PossiblyReplaceAtom q i newAtom newArg passedAtoms = some (ret, q1, passed1) ∧
      (ret = true ↔
        isConnected { Body := q.Body.set i newAtom, FreeVars := q.FreeVars ++ [newArg] }
          = some true) ∧
      (ret = false → q1 = q) ∧
      (ret = true →
        q1.Body.length = q.Body.length ∧
        q1.Body.get? i = some newAtom ∧
        (∀ j, j ≠ i → q1.Body.get? j = q.Body.get? j) ∧
        (∀ v, v ∈ q1.FreeVars ↔ v ∈ q.FreeVars ∨ v = newArg)) := by
  obtain ⟨ret, hc, he⟩ := PossiblyReplaceAtom_eq q i newAtom newArg passedAtoms hi hfresh
  refine ⟨ret, _, _, he, ?_, ?_, ?_⟩
  · rw [hc]; simp
  · intro h; rw [h]; rfl
  · intro h
    rw [h]
    simp only [if_true]
    refine ⟨List.length_set _ _ _, ?_, ?_, ?_⟩
    · rw [List.get?_eq_getElem?, List.getElem?_set_self hi]
    · intro j hj
      rw [List.get?_eq_getElem?, List.get?_eq_getElem?, List.getElem?_set_ne (Ne.symm hj)]
    · intro v; simp

/-- Witness of C12 on the query of Figure 2: the first atom `R1(x,z)` is
replaced by `R1(x,4)` for the new variable `4`. -/
theorem PossiblyReplaceAtom_rollback_witness :
    ∃ ret q1 passed1,
      PossiblyReplaceAtom exFigure2 0 (QRAtom.Role (TORoleExpr.Name "R1") 0 4) 4 []
        = some (ret, q1, passed1) ∧
      (ret = true ↔
        isConnected { Body := exFigure2.Body.set 0 (QRAtom.Role (TORoleExpr.Name "R1") 0 4),
                      FreeVars := exFigure2.FreeVars ++ [4] } = some true) ∧
      (ret = false → q1 = exFigure2) ∧
      (ret = true →
        q1.Body.length = exFigure2.Body.length ∧
        q1.Body.get? 0 = some (QRAtom.Role (TORoleExpr.Name "R1") 0 4) ∧
        (∀ j, j ≠ 0 → q1.Body.get? j = exFigure2.Body.get? j) ∧
        (∀ v, v ∈ q1.FreeVars ↔ v ∈ exFigure2.FreeVars ∨ v = 4)) :=
  PossiblyReplaceAtom_rollback exFigure2 0 (QRAtom.Role (TORoleExpr.Name "R1") 0 4) 4 []
    (by decide) (by decide)

end Replace

/-! ## Query folding: Phase 1 -/

section Phase1
open QueryConnectednessChecker

theorem tryFreshen_eq (s : Phase1State) (i old : Nat) (mk : Nat → QRAtom)
    (hi : i < s.query.Body.length) (hf : ∀ v ∈ s.query.FreeVars, v < s.VarFact.length) :
    ∃ ret : Bool, tryFreshen s i old mk = some (freshenOnce s i old mk, if ret then i else i + 1) := by
  have hfresh : s.VarFact.length ∉ s.query.FreeVars := fun h => Nat.lt_irrefl _ (hf _ h)
  obtain ⟨ret, hc, he⟩ := PossiblyReplaceAtom_eq s.query i (mk s.VarFact.length)
    s.VarFact.length s.passedAtoms hi hfresh
  refine ⟨ret, ?_⟩
  simp only [tryFreshen, freshenOnce, getNewCopyVar, VariableFactory.getNewVar, he, hc]
  cases ret <;> simp

theorem freshenOnce_inv (len i old : Nat) (mk : Nat → QRAtom) (s : Phase1State)
    (inv : Phase1Inv len i s) : Phase1Inv len (i + 1) (freshenOnce s i old mk) ∧
      i ∈ (freshenOnce s i old mk).passedAtoms := by
  have hp : ∀ j ∈ setInsert s.passedAtoms i, j < i + 1 := by
    intro j hj
    rcases (mem_setInsert _ _ _).1 hj with h | h
    · exact Nat.lt_succ_of_lt (inv.passed j h)
    · omega
  have hi : i ∈ setInsert s.passedAtoms i := (mem_setInsert _ _ _).2 (Or.inr rfl)
  unfold freshenOnce
  simp only [getNewCopyVar, VariableFactory.getNewVar]
  split
  · refine ⟨⟨?_, ?_, hp⟩, hi⟩
    · simp [inv.length]
    · intro v hv
      simp only [List.mem_append, List.mem_singleton, List.length_append,
        List.length_singleton] at hv ⊢
      rcases hv with h | h
      · exact Nat.lt_succ_of_lt (inv.fresh v h)
      · omega
  · refine ⟨⟨inv.length, ?_, hp⟩, hi⟩
    intro v hv
    simp only [List.length_append, List.length_singleton]
    exact Nat.lt_succ_of_lt (inv.fresh v hv)

theorem phase1Body_passed (s : Phase1State) (i : Nat) (hi : i < s.query.Body.length)
    (hp : i ∈ s.passedAtoms) : phase1Body s i = some (s, i + 1) := by
  unfold phase1Body
  rw [List.get?_eq_get hi]
  cases s.query.Body.get ⟨i, hi⟩ with
  | Concept C a => rfl
  | Role R a b => simp [hp]

theorem phase1Body_visit (len i : Nat) (s : Phase1State) (inv : Phase1Inv len i s)
    (hi : i < len) :
    Phase1Inv len (i + 1) (visitAtom s i) ∧
    (phase1Body s i = some (visitAtom s i, i + 1) ∨
      (phase1Body s i = some (visitAtom s i, i) ∧ i ∈ (visitAtom s i).passedAtoms)) := by
  have hi1 : i < s.query.Body.length := by rw [inv.length]; exact hi
  have inv1 : Phase1Inv len (i + 1) s :=
    ⟨inv.length, inv.fresh, fun j hj => Nat.lt_succ_of_lt (inv.passed j hj)⟩
  have hnp : i ∉ s.passedAtoms := fun h => Nat.lt_irrefl _ (inv.passed i h)
  unfold phase1Body visitAtom
  rw [List.get?_eq_get hi1]
  cases s.query.Body.get ⟨i, hi1⟩ with
  | Concept C a => exact ⟨inv1, Or.inl rfl⟩
  | Role R a b =>
    simp only [hnp, if_false, QRQuery.isFreeVar, decide_eq_true_eq]
    by_cases h2 : b ∈ s.query.FreeVars
    · simp only [h2, if_true]
      obtain ⟨ret, he⟩ := tryFreshen_eq s i b (fun newArg => QRAtom.Role R a newArg) hi1 inv.fresh
      have hinv := freshenOnce_inv len i b (fun newArg => QRAtom.Role R a newArg) s inv
      refine ⟨hinv.1, ?_⟩
      rw [he]
      cases ret
      · exact Or.inl rfl
      · exact Or.inr ⟨rfl, hinv.2⟩
    · simp only [h2, if_false]
      by_cases h1 : a ∈ s.query.FreeVars
      · simp only [h1, if_true]
        obtain ⟨ret, he⟩ :=
          tryFreshen_eq s i a (fun newArg => QRAtom.Role R newArg b) hi1 inv.fresh
        have hinv := freshenOnce_inv len i a (fun newArg => QRAtom.Role R newArg b) s inv
        refine ⟨hinv.1, ?_⟩
        rw [he]
        cases ret
        · exact Or.inl rfl
        · exact Or.inr ⟨rfl, hinv.2⟩
      · simp only [h1, if_false]
        exact ⟨inv1, Or.inl trivial⟩

theorem phase1Loop_eq (len : Nat) :
    ∀ (k i fuel : Nat) (s : Phase1State), i + k = len → 2 * k + 1 ≤ fuel →
      Phase1Inv len i s →
      phase1Loop len fuel s i = some ((List.range' i k).foldl visitAtom s) := by
  intro k
  induction k with
  | zero =>
    intro i fuel s hik hfuel _
    obtain ⟨f, rfl⟩ : ∃ f, fuel = f + 1 := ⟨fuel - 1, by omega⟩
    simp only [phase1Loop]
    rw [if_neg (by omega)]
    rfl
  | succ k ih =>
    intro i fuel s hik hfuel inv
    obtain ⟨f, rfl⟩ : ∃ f, fuel = f + 2 := ⟨fuel - 2, by omega⟩
    have hi : i < len := by omega
    obtain ⟨inv1, h | ⟨h, hp⟩⟩ := phase1Body_visit len i s inv hi
    · rw [phase1Loop, if_pos hi, h]
      simp only [List.range'_succ, List.foldl_cons]
      exact ih (i + 1) (f + 1) _ (by omega) (by omega) inv1
    · rw [phase1Loop, if_pos hi, h]
      simp only
      rw [phase1Loop, if_pos hi,
        phase1Body_passed _ i (by rw [inv1.length]; exact hi) hp]
      simp only [List.range'_succ, List.foldl_cons]
      exact ih (i + 1) f _ (by omega) (by omega) inv1

/-- Counterexample to C13 on the simple query `R1(x,y), R2(y,x)` with `x` and
`y` free: the first argument `x` of `R1(x,y)` is free, and replacing it by a
new variable leaves the query connected, yet Phase 1 leaves it in place (it
copies the second argument only); and `R2(y,x)` comes out unchanged, although
replacing its first argument `y` by a new variable leaves the result
connected. -/
theorem transformQueryPhase1_skips_arguments :
    exSimple.Body = [QRAtom.Role (TORoleExpr.Name "R1") 0 1,
      QRAtom.Role (TORoleExpr.Name "R2") 1 0] ∧
    exSimple.FreeVars = [0, 1] ∧
    isConnected
        { Body := exSimple.Body.set 0 (QRAtom.Role (TORoleExpr.Name "R1") 2 1),
          FreeVars := exSimple.FreeVars ++ [2] } = some true ∧
    (transformQueryPhase1 exSimple ["x", "y"]).map (fun s => s.query.Body) =
      some [QRAtom.Role (TORoleExpr.Name "R1") 0 2, QRAtom.Role (TORoleExpr.Name "R2") 1 0] ∧
    isConnected
        { Body := [QRAtom.Role (TORoleExpr.Name "R1") 0 2,
            QRAtom.Role (TORoleExpr.Name "R2") 4 0],
          FreeVars := [0, 1, 2, 4] } = some true := by
  decide

/-- Claim C13 (amended): on a query whose free variables were created by the
factory, `transformQueryPhase1` returns, and what it returns is the result of
visiting the positions of the body once each, in order: at a role atom it
makes one freshening attempt, on the second argument when that is free,
otherwise on the first argument when that is free, and the attempt is kept
exactly when `isConnected` holds of the query with the replacement. -/
theorem transformQueryPhase1_visits (query : QRQuery) (VarFact : VariableFactory)
    (hf : ∀ v ∈ query.FreeVars, v < VarFact.length) :
    transformQueryPhase1 query VarFact =
      some ((List.range query.Body.length).foldl visitAtom (phase1Init query VarFact)) := by
  rw [List.range_eq_range']
  exact phase1Loop_eq query.Body.length query.Body.length 0 _ _ (by omega) (by omega)
    ⟨rfl, hf, fun j hj => by simp [phase1Init] at hj⟩

/-- Witness of C13 on the simple query. -/
theorem transformQueryPhase1_visits_witness :
    (∀ v ∈ exSimple.FreeVars, v < ["x", "y"].length) ∧
    transformQueryPhase1 exSimple ["x", "y"] =
      some ((List.range exSimple.Body.length).foldl visitAtom
        (phase1Init exSimple ["x", "y"])) :=
  ⟨by decide, transformQueryPhase1_visits exSimple ["x", "y"] (by decide)⟩

end Phase1

/-! ## Query folding: Phase 2 -/

section Phase2
open TermAssigner

theorem assign_foldl_none
    (rec : Option Nat → Nat → TermAssigner → Option (TConceptExpr × TermAssigner))
    (previousAtom : Option Nat) (v : Nat) (atoms : List (Nat × QRAtom)) :
    atoms.foldl (assignStep rec previousAtom v) none = none := by
  induction atoms with
  | nil => rfl
  | cons x rest ih => simpa [assignStep] using ih

theorem assign_foldl_contributions
    (rec : Option Nat → Nat → TermAssigner → Option (TConceptExpr × TermAssigner))
    (previousAtom : Option Nat) (v : Nat) :
    ∀ (atoms : List (Nat × QRAtom)) (s : TConceptExpr) (a : TermAssigner),
      atoms.foldl (assignStep rec previousAtom v) (some (s, a)) =
        match contributions rec previousAtom v atoms a with
        | none => none
        | some (cs, a1) => some (cs.foldl smartAnd s, a1) := by
  intro atoms
  induction atoms with
  | nil => intro s a; rfl
  | cons x rest ih =>
    intro s a
    obtain ⟨j, atom⟩ := x
    cases atom with
    | Concept C arg =>
      simp only [List.foldl_cons, assignStep, contributions]
      by_cases h : arg = v
      · simp only [h, if_true]
        rw [ih]
        cases contributions rec previousAtom v rest a with
        | none => rfl
        | some r => rfl
      · simp only [h, if_false]
        rw [ih]
        cases contributions rec previousAtom v rest a with
        | none => rfl
        | some r => rfl
    | Role role arg1 arg2 =>
      simp only [List.foldl_cons, assignStep, contributions]
      by_cases hp : some j = previousAtom
      · simp only [hp, if_true]
        exact ih s a
      · simp only [hp, if_false]
        by_cases h1 : arg1 = v
        · simp only [h1, if_true]
          cases hr1 : rec (some j) arg2 a with
          | none => simp [assign_foldl_none]
          | some r1 =>
            obtain ⟨p1, a1⟩ := r1
            simp only [Option.map_some']
            by_cases h2 : arg2 = v
            · simp only [h2, if_true]
              cases hr2 : rec (some j) v a1 with
              | none =>
                have : rec (some j) arg1 a1 = none := by rw [h1]; exact hr2
                simp [assign_foldl_none, this, h1] 
              | some r2 =>
                obtain ⟨p2, a2⟩ := r2
                have : rec (some j) arg1 a1 = some (p2, a2) := by rw [h1]; exact hr2
                simp only [this, h1, Option.map_some']
                rw [ih]
                cases contributions rec previousAtom v rest a2 with
                | none => rfl
                | some r => simp
            · simp only [h2, if_false]
              rw [ih]
              cases contributions rec previousAtom v rest a1 with
              | none => rfl
              | some r => simp
        · simp only [h1, if_false]
          by_cases h2 : arg2 = v
          · simp only [h2, if_true]
            cases hr2 : rec (some j) arg1 a with
            | none => simp [assign_foldl_none]
            | some r2 =>
              obtain ⟨p2, a2⟩ := r2
              simp only [Option.map_some']
              rw [ih]
              cases contributions rec previousAtom v rest a2 with
              | none => rfl
              | some r => simp
          · simp only [h2, if_false]
            rw [ih]
            cases contributions rec previousAtom v rest a with
            | none => rfl
            | some r => simp

/-- Counterexample to C14 on the simple query `R1(x,y), R2(y,x)` with `x` and
`y` free, which Phase 1 turns into `R1(x,y_1), R2(y,x)`: the contributions
listed in the claim for `x` are `Exists R1 C` and `Exists (Inverse R2) C'`
with the terms `C = y:2` of `y_1` and `C' = y:3` of `y`, and the term that
`Assign` builds for `x` is the conjunction of the marker `x:1` with them. -/
theorem Assign_adds_marker :
    assignerOf (buildSimpleQuery exEmptyQuery []) = some exSimpleAssigner ∧
    (contributions (Assign 2) none 0 exSimpleAssigner.Query.Body.enum
        (createVar exSimpleAssigner 0).2).map (fun r => r.1)
      = some [TConceptExpr.Exists (TORoleExpr.Name "R1") (TConceptExpr.Name "y:2"),
          TConceptExpr.Exists (TORoleExpr.Inverse (TORoleExpr.Name "R2"))
            (TConceptExpr.Name "y:3")] ∧
    (Assign 3 none 0 exSimpleAssigner).map (fun r => r.1)
      = some (TConceptExpr.And (TConceptExpr.Name "x:1")
          (TConceptExpr.And
            (TConceptExpr.Exists (TORoleExpr.Name "R1") (TConceptExpr.Name "y:2"))
            (TConceptExpr.Exists (TORoleExpr.Inverse (TORoleExpr.Name "R2"))
              (TConceptExpr.Name "y:3")))) := by
  decide

/-- Claim C14 (amended): the term that `Assign` builds for a variable `v` is
the smart conjunction of the marker `createVar(v)` (a fresh marker concept or
`Top`) with the smart conjunction, in the order of the body, of `Exists R C_w`
for each role atom `R(v,w)` other than the atom just traversed,
`Exists (Inverse R) C_w` for each role atom `R(w,v)` other than the atom just
traversed, and `C` for each concept atom `C(v)`, where `C_w` is the term that
`Assign` builds for `w`; `Assign` has a result exactly when every recursive
call has one. -/
theorem Assign_conjunction (fuel : Nat) (previousAtom : Option Nat) (v : Nat)
    (a : TermAssigner) :
    Assign (fuel + 1) previousAtom v a =
      match contributions (Assign fuel) previousAtom v a.Query.Body.enum (createVar a v).2 with
      | none => none
      | some (cs, a1) =>
        some (smartAnd (createVar a v).1 (cs.foldl smartAnd TConceptExpr.Top), a1) := by
  simp only [Assign]
  rw [assign_foldl_contributions]
  cases contributions (Assign fuel) previousAtom v a.Query.Body.enum (createVar a v).2 with
  | none => rfl
  | some r => rfl

/-- Failing input of C15, the query of Figure 2: after Phase 1 and
`DeleteFictiveVariables` the variables `x_1` and `x_2` (numbers 4 and 5) are
free variables of the query, yet `createVar` gives `Top` for them, because it
tests the variable `x` they were copied from, which was deleted from the free
variables; the free variable `y_3` (number 6), whose original `y` still occurs
in a role atom, gets a marker. -/
theorem createVar_tests_the_original :
    assignerOf (buildQueryFigure2 exEmptyQuery []) = some exFigure2Assigner ∧
    exFigure2Assigner.Query.isFreeVar 4 = true ∧
    (createVar exFigure2Assigner 4).1 = TConceptExpr.Top ∧
    exFigure2Assigner.Query.isFreeVar 5 = true ∧
    (createVar exFigure2Assigner 5).1 = TConceptExpr.Top ∧
    exFigure2Assigner.Query.isFreeVar 6 = true ∧
    (createVar exFigure2Assigner 6).1 = TConceptExpr.Name "y:1" := by
  decide

end Phase2

/-! ## Query folding: the equation solver -/

section Solver
open TEquationSolver

theorem subsumed_exists_inverse {Δ : Type} (I : Interpretation Δ) (R : TORoleExpr)
    (C P : TConceptExpr) :
    Subsumed I (TConceptExpr.Exists (TORoleExpr.Inverse R) C) P ↔
      Subsumed I C (TConceptExpr.Forall R P) := by
  unfold Subsumed
  simp only [conceptSem, roleSem, Set.subset_def, Set.mem_setOf_eq]
  constructor
  · intro h y hy x hxy
    exact h x ⟨y, hxy, hy⟩
  · rintro h x ⟨y, hxy, hy⟩
    exact h y hy x hxy

theorem subsumed_and_left {Δ : Type} (I : Interpretation Δ) (C D P : TConceptExpr) :
    Subsumed I (TConceptExpr.And C D) P ↔
      Subsumed I C (TConceptExpr.Or (TConceptExpr.Not D) P) := by
  unfold Subsumed
  simp only [conceptSem, Set.subset_def, Set.mem_inter_iff, Set.mem_union, Set.mem_compl_iff]
  constructor
  · intro h x hx
    by_cases hd : x ∈ conceptSem I D
    · exact Or.inr (h x ⟨hx, hd⟩)
    · exact Or.inl hd
  · rintro h x ⟨hx, hd⟩
    rcases h x hx with h1 | h1
    · exact absurd hd h1
    · exact h1

theorem subsumed_and_right {Δ : Type} (I : Interpretation Δ) (C D P : TConceptExpr) :
    Subsumed I (TConceptExpr.And C D) P ↔
      Subsumed I D (TConceptExpr.Or (TConceptExpr.Not C) P) := by
  rw [← subsumed_and_left]
  unfold Subsumed
  simp only [conceptSem, Set.inter_comm]

theorem subsumed_conjunct {Δ : Type} (I : Interpretation Δ) (X Y P : TConceptExpr) :
    (conceptSem I X ∩ conceptSem I Y ⊆ conceptSem I P) ↔
      Subsumed I X (applyPeel P (Peel.conjunct Y)) := by
  have h := subsumed_and_left I X Y P
  unfold Subsumed at h
  simp only [conceptSem] at h
  cases Y with
  | Top =>
    unfold Subsumed
    simp [applyPeel, conceptSem]
  | Bottom => simp [applyPeel, Subsumed, conceptSem]
  | Name n => simpa [applyPeel, Subsumed, conceptSem] using h
  | Not C => simpa [applyPeel, Subsumed, conceptSem] using h
  | And C D => simpa [applyPeel, Subsumed, conceptSem] using h
  | Or C D => simpa [applyPeel, Subsumed, conceptSem] using h
  | Exists R C => simpa [applyPeel, Subsumed, conceptSem] using h
  | Forall R C => simpa [applyPeel, Subsumed, conceptSem] using h

theorem solveStep_and (ks : TConceptExpr → Bool) (C D P : TConceptExpr) :
    solveStep ks (TConceptExpr.And C D) P =
      some (if !ks C then (D, applyPeel P (Peel.conjunct C))
        else (C, applyPeel P (Peel.conjunct D))) := by
  cases h : ks C
  · cases C <;> simp [solveStep, h, applyPeel]
  · cases D <;> simp [solveStep, h, applyPeel]

theorem Solve_peels (ks : TConceptExpr → Bool) :
    ∀ (L P : TConceptExpr) (fuel : Nat), peelable ks L = true → L.size < fuel →
      Solve ks fuel L P = some (peeledNominal ks L, (peels ks L).foldl applyPeel P) ∧
      IsNominal (peeledNominal ks L) = true ∧
      ∀ (Δ : Type) (I : Interpretation Δ),
        (Subsumed I L P ↔
          Subsumed I (peeledNominal ks L) ((peels ks L).foldl applyPeel P)) := by
  intro L
  induction L with
  | Top => intro P fuel h; simp [peelable] at h
  | Bottom => intro P fuel h; simp [peelable] at h
  | Not C _ => intro P fuel h; simp [peelable] at h
  | Or C D _ _ => intro P fuel h; simp [peelable] at h
  | Forall R C _ => intro P fuel h; simp [peelable] at h
  | Name n =>
    intro P fuel h hf
    obtain ⟨f, rfl⟩ : ∃ f, fuel = f + 1 := ⟨fuel - 1, by omega⟩
    simp only [peelable] at h
    refine ⟨?_, h, fun Δ I => Iff.rfl⟩
    simp [Solve, h, peeledNominal, peels]
  | Exists R C ih =>
    intro P fuel h hf
    cases R with
    | Name r => simp [peelable] at h
    | Inverse R =>
      obtain ⟨f, rfl⟩ : ∃ f, fuel = f + 1 := ⟨fuel - 1, by omega⟩
      simp only [peelable] at h
      simp only [TConceptExpr.size] at hf
      obtain ⟨h1, h2, h3⟩ := ih (TConceptExpr.Forall R P) f h (by omega)
      refine ⟨?_, h2, ?_⟩
      · simp only [Solve, IsNominal, solveStep, peeledNominal, peels, List.foldl_cons, applyPeel]
        exact h1
      · intro Δ I
        rw [subsumed_exists_inverse]
        exact h3 Δ I
  | And C D ihC ihD =>
    intro P fuel h hf
    obtain ⟨f, rfl⟩ : ∃ f, fuel = f + 1 := ⟨fuel - 1, by omega⟩
    simp only [TConceptExpr.size] at hf
    simp only [peelable] at h
    by_cases hs : ks C = true
    · simp only [hs, Bool.not_true, if_false, Bool.false_eq_true] at h
      obtain ⟨h1, h2, h3⟩ := ihC (applyPeel P (Peel.conjunct D)) f h (by omega)
      simp only [peeledNominal, peels, hs, Bool.not_true, Bool.false_eq_true, if_false,
        List.foldl_cons]
      refine ⟨?_, h2, ?_⟩
      · simp only [Solve, IsNominal, solveStep_and, hs, Bool.not_true, Bool.false_eq_true,
          if_false]
        exact h1
      · intro Δ I
        rw [← h3 Δ I, ← subsumed_conjunct]
        rfl
    · have hs1 : ks C = false := by simpa using hs
      simp only [hs1, Bool.not_false, if_true] at h
      obtain ⟨h1, h2, h3⟩ := ihD (applyPeel P (Peel.conjunct C)) f h (by omega)
      simp only [peeledNominal, peels, hs1, Bool.not_false, if_true, List.foldl_cons]
      refine ⟨?_, h2, ?_⟩
      · simp only [Solve, IsNominal, solveStep_and, hs1, Bool.not_false, if_true,
          Bool.false_eq_true, if_false]
        exact h1
      · intro Δ I
        rw [← h3 Δ I, ← subsumed_conjunct]
        unfold Subsumed
        simp only [conceptSem, Set.inter_comm]

/-- Claim C16: for every left part `L` built from existentials over inverse
roles and binary conjunctions down to a nominal, `Solve` ends with that
nominal `n` as its left part, and its right part `phi` is the initial right
part `P` with every peeled `Exists (Inverse R)` turned into `Forall R` and
every peeled conjunct `Y` turned into `(Not Y) Or (right part)`, a conjunct
`Top` leaving the right part unchanged; and in every interpretation the
inclusion of `L` in `P` holds exactly when the inclusion of `n` in `phi`
holds. -/
theorem Solve_sound (KnownToBeSimple : TConceptExpr → Bool) (L P : TConceptExpr)
    (fuel : Nat) (h : peelable KnownToBeSimple L = true) (hf : L.size < fuel) :
    ∃ n phi, Solve KnownToBeSimple fuel L P = some (n, phi) ∧ IsNominal n = true ∧
      phi = (peels KnownToBeSimple L).foldl applyPeel P ∧
      ∀ (Δ : Type) (I : Interpretation Δ), (Subsumed I L P ↔ Subsumed I n phi) := by
  obtain ⟨h1, h2, h3⟩ := Solve_peels KnownToBeSimple L P fuel h hf
  exact ⟨_, _, h1, h2, rfl, h3⟩

/-- Witness of C16 on the left part `(Exists (Inverse R4) (y:2 And Exists R6 P1))`
with the right part `P3` and the marker of the folding code. -/
theorem Solve_sound_witness :
    peelable TExpressionMarker.KnownToBeSimple
      (TConceptExpr.Exists (TORoleExpr.Inverse (TORoleExpr.Name "R4"))
        (TConceptExpr.And (TConceptExpr.Name "y:2")
          (TConceptExpr.Exists (TORoleExpr.Name "R6") (TConceptExpr.Name "P1")))) = true ∧
    ∃ n phi, Solve TExpressionMarker.KnownToBeSimple 10
        (TConceptExpr.Exists (TORoleExpr.Inverse (TORoleExpr.Name "R4"))
          (TConceptExpr.And (TConceptExpr.Name "y:2")
            (TConceptExpr.Exists (TORoleExpr.Name "R6") (TConceptExpr.Name "P1"))))
        (TConceptExpr.Name "P3") = some (n, phi) ∧ IsNominal n = true ∧
      phi = (peels TExpressionMarker.KnownToBeSimple
        (TConceptExpr.Exists (TORoleExpr.Inverse (TORoleExpr.Name "R4"))
          (TConceptExpr.And (TConceptExpr.Name "y:2")
            (TConceptExpr.Exists (TORoleExpr.Name "R6") (TConceptExpr.Name "P1"))))).foldl
        applyPeel (TConceptExpr.Name "P3") ∧
      ∀ (Δ : Type) (I : Interpretation Δ),
        (Subsumed I
          (TConceptExpr.Exists (TORoleExpr.Inverse (TORoleExpr.Name "R4"))
            (TConceptExpr.And (TConceptExpr.Name "y:2")
              (TConceptExpr.Exists (TORoleExpr.Name "R6") (TConceptExpr.Name "P1"))))
          (TConceptExpr.Name "P3") ↔ Subsumed I n phi) :=
  ⟨by decide,
    Solve_sound TExpressionMarker.KnownToBeSimple
      (TConceptExpr.Exists (TORoleExpr.Inverse (TORoleExpr.Name "R4"))
        (TConceptExpr.And (TConceptExpr.Name "y:2")
          (TConceptExpr.Exists (TORoleExpr.Name "R6") (TConceptExpr.Name "P1"))))
      (TConceptExpr.Name "P3") 10 (by decide) (by decide)⟩

end Solver

/-! ## Query folding: Phase 3 -/

section Phase3

theorem mapInsert_mem (addr : String → Nat) (m : List (String × Nat)) (k : String) (d : Nat)
    (e : String × Nat) (h : e ∈ TDepthMeasurer.mapInsert addr m k d) : e ∈ m ∨ e = (k, d) := by
  unfold TDepthMeasurer.mapInsert at h
  split at h
  · exact Or.inl h
  · rw [List.mem_orderedInsert] at h
    rcases h with h | h
    · exact Or.inr h
    · exact Or.inl h

theorem mapInsert_ne_nil (addr : String → Nat) (m : List (String × Nat)) (k : String) (d : Nat) :
    TDepthMeasurer.mapInsert addr m k d ≠ [] := by
  unfold TDepthMeasurer.mapInsert
  split
  · rename_i h
    intro hm
    rw [hm] at h
    simp at h
  · intro h
    have : (k, d) ∈ List.orderedInsert (fun a b : String × Nat => addr a.1 ≤ addr b.1) (k, d) m :=
      (List.mem_orderedInsert _).2 (Or.inl rfl)
    rw [h] at this
    simp at this

theorem depth_visit_mem (addr : String → Nat) (t : TConceptExpr) :
    ∀ (d : Nat) (m : List (String × Nat)) (e : String × Nat),
      e ∈ TDepthMeasurer.visit addr d t m →
      e ∈ m ∨ (occursIn e.1 t = true ∧ IsNominal (TConceptExpr.Name e.1) = true) := by
  induction t with
  | Top => intro d m e h; exact Or.inl (by simpa [TDepthMeasurer.visit] using h)
  | Bottom => intro d m e h; exact Or.inl (by simpa [TDepthMeasurer.visit] using h)
  | Not C _ => intro d m e h; exact Or.inl (by simpa [TDepthMeasurer.visit] using h)
  | Or C D _ _ => intro d m e h; exact Or.inl (by simpa [TDepthMeasurer.visit] using h)
  | Forall R C _ => intro d m e h; exact Or.inl (by simpa [TDepthMeasurer.visit] using h)
  | Name n =>
    intro d m e h
    simp only [TDepthMeasurer.visit] at h
    split at h
    · rename_i hn
      rcases mapInsert_mem addr m n d e h with h1 | h1
      · exact Or.inl h1
      · subst h1
        exact Or.inr ⟨by simp [occursIn], hn⟩
    · exact Or.inl h
  | And C D ihC ihD =>
    intro d m e h
    simp only [TDepthMeasurer.visit] at h
    rcases ihD d _ e h with h1 | ⟨h1, h2⟩
    · rcases ihC d m e h1 with h3 | ⟨h3, h4⟩
      · exact Or.inl h3
      · exact Or.inr ⟨by simp [occursIn, h3], h4⟩
    · exact Or.inr ⟨by simp [occursIn, h1], h2⟩
  | Exists R C ih =>
    intro d m e h
    cases R with
    | Name r =>
      simp only [TDepthMeasurer.visit] at h
      rcases ih _ m e h with h1 | ⟨h1, h2⟩
      · exact Or.inl h1
      · exact Or.inr ⟨by simpa [occursIn] using h1, h2⟩
    | Inverse R =>
      simp only [TDepthMeasurer.visit] at h
      rcases ih _ m e h with h1 | ⟨h1, h2⟩
      · exact Or.inl h1
      · exact Or.inr ⟨by simpa [occursIn] using h1, h2⟩

theorem depth_visit_ne_nil (addr : String → Nat) (t : TConceptExpr) :
    ∀ (d : Nat) (m : List (String × Nat)), m ≠ [] → TDepthMeasurer.visit addr d t m ≠ [] := by
  induction t with
  | Top => intro d m h; simpa [TDepthMeasurer.visit] using h
  | Bottom => intro d m h; simpa [TDepthMeasurer.visit] using h
  | Not C _ => intro d m h; simpa [TDepthMeasurer.visit] using h
  | Or C D _ _ => intro d m h; simpa [TDepthMeasurer.visit] using h
  | Forall R C _ => intro d m h; simpa [TDepthMeasurer.visit] using h
  | Name n =>
    intro d m h
    simp only [TDepthMeasurer.visit]
    split
    · exact mapInsert_ne_nil _ _ _ _
    · exact h
  | And C D ihC ihD =>
    intro d m h
    simp only [TDepthMeasurer.visit]
    exact ihD d _ (ihC d m h)
  | Exists R C ih =>
    intro d m h
    cases R <;> simp only [TDepthMeasurer.visit] <;> exact ih _ m h

theorem depth_visit_nominal (addr : String → Nat) (t : TConceptExpr) :
    ∀ (d : Nat) (m : List (String × Nat)), 0 < nominalCount t →
      TDepthMeasurer.visit addr d t m ≠ [] := by
  induction t with
  | Top => intro d m h; simp [nominalCount] at h
  | Bottom => intro d m h; simp [nominalCount] at h
  | Not C _ => intro d m h; simp [nominalCount] at h
  | Or C D _ _ => intro d m h; simp [nominalCount] at h
  | Forall R C _ => intro d m h; simp [nominalCount] at h
  | Name n =>
    intro d m h
    simp only [nominalCount] at h
    simp only [TDepthMeasurer.visit]
    split
    · exact mapInsert_ne_nil _ _ _ _
    · rename_i hn
      simp [hn] at h
  | And C D ihC ihD =>
    intro d m h
    simp only [nominalCount] at h
    simp only [TDepthMeasurer.visit]
    by_cases hC : 0 < nominalCount C
    · exact depth_visit_ne_nil addr D d _ (ihC d m hC)
    · exact ihD d _ (by omega)
  | Exists R C ih =>
    intro d m h
    simp only [nominalCount] at h
    cases R <;> simp only [TDepthMeasurer.visit] <;> exact ih _ m h

theorem depth_visit_none (addr : String → Nat) (t : TConceptExpr) :
    ∀ (d : Nat) (m : List (String × Nat)), nominalCount t = 0 →
      TDepthMeasurer.visit addr d t m = m := by
  induction t with
  | Top => intro d m _; rfl
  | Bottom => intro d m _; rfl
  | Not C _ => intro d m _; rfl
  | Or C D _ _ => intro d m _; rfl
  | Forall R C _ => intro d m _; rfl
  | Name n =>
    intro d m h
    simp only [nominalCount] at h
    simp only [TDepthMeasurer.visit]
    split
    · rename_i hn
      simp [hn] at h
    · rfl
  | And C D ihC ihD =>
    intro d m h
    simp only [nominalCount] at h
    simp only [TDepthMeasurer.visit]
    rw [ihC d m (by omega), ihD d m (by omega)]
  | Exists R C ih =>
    intro d m h
    simp only [nominalCount] at h
    cases R <;> simp only [TDepthMeasurer.visit] <;> exact ih _ m h

theorem foldl_pick_mem {α : Type} (p : α → α → Bool) :
    ∀ (l : List α) (a : α),
      l.foldl (fun im it => if p im it then it else im) a = a ∨
      l.foldl (fun im it => if p im it then it else im) a ∈ l := by
  intro l
  induction l with
  | nil => intro a; exact Or.inl rfl
  | cons x rest ih =>
    intro a
    simp only [List.foldl_cons]
    by_cases h : p a x = true
    · simp only [h, if_true]
      rcases ih x with h1 | h1
      · exact Or.inr (by rw [h1]; exact List.mem_cons_self _ _)
      · exact Or.inr (List.mem_cons_of_mem _ h1)
    · simp only [h, if_false]
      rcases ih a with h1 | h1
      · exact Or.inl h1
      · exact Or.inr (List.mem_cons_of_mem _ h1)

theorem getMaxDepth_eq (l : List (String × Nat)) :
    TDepthMeasurer.getMaxDepth l = -1 ↔ l = [] := by
  cases l with
  | nil => simp [TDepthMeasurer.getMaxDepth]
  | cons e rest =>
    simp only [TDepthMeasurer.getMaxDepth]
    constructor
    · intro h
      omega
    · intro h
      simp at h

theorem getNominalWithMaxDepth_mem (l : List (String × Nat)) (h : l ≠ []) :
    ∃ e ∈ l, TDepthMeasurer.getNominalWithMaxDepth l = some e.1 := by
  cases l with
  | nil => exact absurd rfl h
  | cons e rest =>
    simp only [TDepthMeasurer.getNominalWithMaxDepth]
    have := foldl_pick_mem (fun im it : String × Nat => decide (it.2 ≥ im.2)) (e :: rest) e
    simp only [decide_eq_true_eq] at this
    rcases this with h1 | h1
    · exact ⟨e, List.mem_cons_self _ _, by rw [h1]⟩
    · exact ⟨_, h1, rfl⟩

end Phase3

section Phase3b
open TExpressionMarker

theorem simple_good_occurs (Nominal : String) (t : TConceptExpr) :
    KnownToBeSimple t = true → KnownToBeGood Nominal t = true → occursIn Nominal t = true := by
  induction t with
  | Top => intro h; simp [KnownToBeSimple] at h
  | Bottom => intro h; simp [KnownToBeSimple] at h
  | Not C _ => intro h; simp [KnownToBeSimple] at h
  | Or C D _ _ => intro h; simp [KnownToBeSimple] at h
  | Forall R C _ => intro h; simp [KnownToBeSimple] at h
  | Name n =>
    intro hs hg
    simp only [KnownToBeSimple] at hs
    simp only [KnownToBeGood, hs] at hg
    by_cases h : n = Nominal
    · simp [occursIn, h]
    · simp [h] at hg
  | And C D ihC ihD =>
    intro hs hg
    simp only [KnownToBeSimple, Bool.or_eq_true] at hs
    simp only [KnownToBeGood, Bool.and_eq_true] at hg
    simp only [occursIn, Bool.or_eq_true]
    rcases hs with h | h
    · exact Or.inl (ihC h hg.1)
    · exact Or.inr (ihD h hg.2)
  | Exists R C ih =>
    intro hs hg
    cases R with
    | Name r => simp [KnownToBeSimple] at hs
    | Inverse R =>
      simp only [KnownToBeSimple] at hs
      simp only [KnownToBeGood] at hg
      simpa [occursIn] using ih hs hg

theorem simple_nominalCount (t : TConceptExpr) :
    KnownToBeSimple t = true → 0 < nominalCount t := by
  induction t with
  | Top => intro h; simp [KnownToBeSimple] at h
  | Bottom => intro h; simp [KnownToBeSimple] at h
  | Not C _ => intro h; simp [KnownToBeSimple] at h
  | Or C D _ _ => intro h; simp [KnownToBeSimple] at h
  | Forall R C _ => intro h; simp [KnownToBeSimple] at h
  | Name n =>
    intro hs
    simp only [KnownToBeSimple] at hs
    simp [nominalCount, hs]
  | And C D ihC ihD =>
    intro hs
    simp only [KnownToBeSimple, Bool.or_eq_true] at hs
    simp only [nominalCount]
    rcases hs with h | h
    · have := ihC h; omega
    · have := ihD h; omega
  | Exists R C ih =>
    intro hs
    cases R with
    | Name r => simp [KnownToBeSimple] at hs
    | Inverse R =>
      simp only [KnownToBeSimple] at hs
      simpa [nominalCount] using ih hs

theorem simple_peelable (t : TConceptExpr) :
    KnownToBeSimple t = true → peelable KnownToBeSimple t = true := by
  induction t with
  | Top => intro h; simp [KnownToBeSimple] at h
  | Bottom => intro h; simp [KnownToBeSimple] at h
  | Not C _ => intro h; simp [KnownToBeSimple] at h
  | Or C D _ _ => intro h; simp [KnownToBeSimple] at h
  | Forall R C _ => intro h; simp [KnownToBeSimple] at h
  | Name n => intro hs; simpa [KnownToBeSimple, peelable] using hs
  | And C D ihC ihD =>
    intro hs
    simp only [KnownToBeSimple, Bool.or_eq_true] at hs
    simp only [peelable]
    by_cases hC : KnownToBeSimple C = true
    · simp only [hC, Bool.not_true, Bool.false_eq_true, if_false]
      exact ihC hC
    · have hC1 : KnownToBeSimple C = false := by simpa using hC
      simp only [hC1, Bool.not_false, if_true]
      rcases hs with h | h
      · exact absurd h hC
      · exact ihD h
  | Exists R C ih =>
    intro hs
    cases R with
    | Name r => simp [KnownToBeSimple] at hs
    | Inverse R =>
      simp only [KnownToBeSimple] at hs
      simpa [peelable] using ih hs

theorem pathEntry_left (Nominal : String) (pos : List Nat) (C D : TConceptExpr)
    (e : ObjRef × TConceptExpr) (h : PathEntry Nominal (pos ++ [0]) C e) :
    PathEntry Nominal pos (TConceptExpr.And C D) e := by
  obtain ⟨h1, h2, h3⟩ := h
  refine ⟨h1, by simp [occursIn, h2], ?_⟩
  rcases h3 with h3 | ⟨q, hq1, hq2, hq3⟩
  · exact Or.inl h3
  · exact Or.inr ⟨0 :: q, by simpa using hq1, by simpa [subAt] using hq2, hq3⟩

theorem pathEntry_right (Nominal : String) (pos : List Nat) (C D : TConceptExpr)
    (e : ObjRef × TConceptExpr) (h : PathEntry Nominal (pos ++ [1]) D e) :
    PathEntry Nominal pos (TConceptExpr.And C D) e := by
  obtain ⟨h1, h2, h3⟩ := h
  refine ⟨h1, by simp [occursIn, h2], ?_⟩
  rcases h3 with h3 | ⟨q, hq1, hq2, hq3⟩
  · exact Or.inl h3
  · exact Or.inr ⟨1 :: q, by simpa using hq1, by simpa [subAt] using hq2, hq3⟩

theorem pathEntry_exists (Nominal : String) (pos : List Nat) (R : TORoleExpr) (C : TConceptExpr)
    (e : ObjRef × TConceptExpr) (h : PathEntry Nominal (pos ++ [0]) C e) :
    PathEntry Nominal pos (TConceptExpr.Exists R C) e := by
  obtain ⟨h1, h2, h3⟩ := h
  refine ⟨h1, by simp [occursIn, h2], ?_⟩
  rcases h3 with h3 | ⟨q, hq1, hq2, hq3⟩
  · exact Or.inl h3
  · exact Or.inr ⟨0 :: q, by simpa using hq1, by simpa [subAt] using hq2, hq3⟩

theorem pathEntry_self (Nominal : String) (pos : List Nat) (t : TConceptExpr)
    (hc : isCompound t = true) (hs : KnownToBeSimple t = true)
    (hg : KnownToBeGood Nominal t = true) :
    PathEntry Nominal pos t (ObjRef.node pos, t) :=
  ⟨hs, simple_good_occurs Nominal t hs hg, Or.inr ⟨[], by simp, rfl, hc⟩⟩

theorem marker_visit (Nominal : String) (hN : IsNominal (TConceptExpr.Name Nominal) = true)
    (t : TConceptExpr) :
    ∀ (pos : List Nat) (Path : List (ObjRef × TConceptExpr)),
      ∃ new, visit Nominal pos t Path = Path ++ new ∧
        (∀ e ∈ new, PathEntry Nominal pos t e) ∧
        (occursIn Nominal t = true → new ≠ []) := by
  induction t with
  | Top => intro pos Path; exact ⟨[], by simp [visit], by simp, by simp [occursIn]⟩
  | Bottom => intro pos Path; exact ⟨[], by simp [visit], by simp, by simp [occursIn]⟩
  | Not C _ => intro pos Path; exact ⟨[], by simp [visit], by simp, by simp [occursIn]⟩
  | Or C D _ _ => intro pos Path; exact ⟨[], by simp [visit], by simp, by simp [occursIn]⟩
  | Forall R C _ => intro pos Path; exact ⟨[], by simp [visit], by simp, by simp [occursIn]⟩
  | Name n =>
    intro pos Path
    by_cases h : n = Nominal
    · subst h
      refine ⟨[(ObjRef.name n, TConceptExpr.Name n)], by simp [visit], ?_, by simp⟩
      intro e he
      simp only [List.mem_singleton] at he
      subst he
      exact ⟨by simpa [KnownToBeSimple] using hN, by simp [occursIn], Or.inl ⟨rfl, rfl⟩⟩
    · exact ⟨[], by simp [visit, h], by simp, by simp [occursIn, h]⟩
  | And C D ihC ihD =>
    intro pos Path
    obtain ⟨new1, e1, p1, n1⟩ := ihC (pos ++ [0]) Path
    obtain ⟨new2, e2, p2, n2⟩ := ihD (pos ++ [1]) (Path ++ new1)
    simp only [visit, e1, e2]
    split
    · rename_i hc
      simp only [Bool.and_eq_true] at hc
      refine ⟨new1 ++ new2 ++ [(ObjRef.node pos, TConceptExpr.And C D)], by simp, ?_, by simp⟩
      intro e he
      simp only [List.mem_append, List.mem_singleton] at he
      rcases he with (he | he) | he
      · exact pathEntry_left Nominal pos C D e (p1 e he)
      · exact pathEntry_right Nominal pos C D e (p2 e he)
      · subst he
        exact pathEntry_self Nominal pos _ rfl hc.2 hc.1.2
    · refine ⟨new1 ++ new2, by simp, ?_, ?_⟩
      · intro e he
        simp only [List.mem_append] at he
        rcases he with he | he
        · exact pathEntry_left Nominal pos C D e (p1 e he)
        · exact pathEntry_right Nominal pos C D e (p2 e he)
      · intro ho
        simp only [occursIn, Bool.or_eq_true] at ho
        rcases ho with ho | ho
        · have := n1 ho
          simp [this]
        · have := n2 ho
          simp [this]
  | Exists R C ih =>
    intro pos Path
    obtain ⟨new1, e1, p1, n1⟩ := ih (pos ++ [0]) Path
    simp only [visit, e1]
    split
    · rename_i hc
      simp only [Bool.and_eq_true] at hc
      refine ⟨new1 ++ [(ObjRef.node pos, TConceptExpr.Exists R C)], by simp, ?_, by simp⟩
      intro e he
      simp only [List.mem_append, List.mem_singleton] at he
      rcases he with he | he
      · exact pathEntry_exists Nominal pos R C e (p1 e he)
      · subst he
        exact pathEntry_self Nominal pos _ rfl hc.2 hc.1.2
    · refine ⟨new1, rfl, ?_, ?_⟩
      · intro e he
        exact pathEntry_exists Nominal pos R C e (p1 e he)
      · intro ho
        exact n1 (by simpa [occursIn] using ho)

theorem getSubterm_entry (Nominal : String) (hN : IsNominal (TConceptExpr.Name Nominal) = true)
    (t : TConceptExpr) (ho : occursIn Nominal t = true) :
    ∃ e, getSubterm (visit Nominal [] t []) = some e ∧ PathEntry Nominal [] t e := by
  obtain ⟨new, e1, p1, n1⟩ := marker_visit Nominal hN t [] []
  have hne := n1 ho
  rw [e1]
  simp only [List.nil_append, getSubterm]
  refine ⟨new.getLast hne, List.getLast?_eq_getLast _ hne, p1 _ (List.getLast_mem hne)⟩

end Phase3b

section Phase3c

theorem size_pos (t : TConceptExpr) : 0 < t.size := by
  cases t <;> simp [TConceptExpr.size]

theorem smartAnd_cases (a b : TConceptExpr) :
    smartAnd a b = a ∨ smartAnd a b = b ∨ smartAnd a b = TConceptExpr.And a b := by
  unfold smartAnd smartAndWith
  split
  · exact Or.inl rfl
  · split
    · exact Or.inr (Or.inl rfl)
    · split
      · exact Or.inl rfl
      · exact Or.inr (Or.inr rfl)

theorem smartAnd_fragment (a b : TConceptExpr) (ha : inFragment a = true)
    (hb : inFragment b = true) : inFragment (smartAnd a b) = true := by
  rcases smartAnd_cases a b with h | h | h <;> rw [h]
  · exact ha
  · exact hb
  · simp [inFragment, ha, hb]

theorem smartAnd_count (a b : TConceptExpr) :
    nominalCount (smartAnd a b) ≤ nominalCount a + nominalCount b := by
  rcases smartAnd_cases a b with h | h | h <;> rw [h]
  · omega
  · omega
  · simp [nominalCount]

theorem smartAnd_size (a b : TConceptExpr) :
    (smartAnd a b).size ≤ a.size + b.size + 1 := by
  rcases smartAnd_cases a b with h | h | h <;> rw [h]
  · omega
  · omega
  · simp [TConceptExpr.size]

/-- What the replacer keeps: the result is in the fragment and neither has more
nominals nor is larger. -/
theorem replacer_visit (target : ObjRef) (P : TConceptExpr) (hP : inFragment P = true)
    (hP0 : nominalCount P = 0) (hP1 : P.size = 1) (t : TConceptExpr) :
    ∀ (cur : List Nat), inFragment t = true →
      ∃ t1, TReplacer.visit target P cur t = some t1 ∧ inFragment t1 = true ∧
        nominalCount t1 ≤ nominalCount t ∧ t1.size ≤ t.size := by
  induction t with
  | Top => intro cur _; exact ⟨_, rfl, rfl, le_refl _, le_refl _⟩
  | Bottom => intro cur h; simp [inFragment] at h
  | Not C _ => intro cur h; simp [inFragment] at h
  | Or C D _ _ => intro cur h; simp [inFragment] at h
  | Forall R C _ => intro cur h; simp [inFragment] at h
  | Name n =>
    intro cur _
    simp only [TReplacer.visit]
    split
    · exact ⟨_, rfl, hP, by omega, by rw [hP1]; exact size_pos _⟩
    · exact ⟨_, rfl, rfl, le_refl _, le_refl _⟩
  | And C D ihC ihD =>
    intro cur h
    simp only [inFragment, Bool.and_eq_true] at h
    simp only [TReplacer.visit]
    split
    · exact ⟨_, rfl, hP, by omega, by rw [hP1]; exact size_pos _⟩
    · obtain ⟨c1, hc1, fc1, nc1, sc1⟩ := ihC (cur ++ [0]) h.1
      obtain ⟨d1, hd1, fd1, nd1, sd1⟩ := ihD (cur ++ [1]) h.2
      rw [hc1, hd1]
      refine ⟨_, rfl, smartAnd_fragment _ _ fc1 fd1, ?_, ?_⟩
      · have := smartAnd_count c1 d1
        simp only [nominalCount]
        omega
      · have := smartAnd_size c1 d1
        simp only [TConceptExpr.size]
        omega
  | Exists R C ih =>
    intro cur h
    simp only [inFragment] at h
    simp only [TReplacer.visit]
    split
    · exact ⟨_, rfl, hP, by omega, by rw [hP1]; exact size_pos _⟩
    · obtain ⟨c1, hc1, fc1, nc1, sc1⟩ := ih (cur ++ [0]) h
      rw [hc1]
      exact ⟨_, rfl, by simpa [inFragment] using fc1, by simpa [nominalCount] using nc1,
        by simpa [TConceptExpr.size] using sc1⟩

theorem node_ne (cur : List Nat) (c : Nat) (q : List Nat) :
    ObjRef.node cur ≠ ObjRef.node (cur ++ c :: q) := by
  intro h
  injection h with h
  have : (cur ++ c :: q).length = cur.length := by rw [← h]
  simp at this

/-- Replacing a compound sub-term that holds a nominal removes a nominal. -/
theorem replacer_node (P : TConceptExpr) (hP : inFragment P = true)
    (hP0 : nominalCount P = 0) (hP1 : P.size = 1) (t : TConceptExpr) :
    ∀ (cur q : List Nat) (sub : TConceptExpr), inFragment t = true →
      subAt q t = some sub → isCompound sub = true → 0 < nominalCount sub →
      ∃ t1, TReplacer.visit (ObjRef.node (cur ++ q)) P cur t = some t1 ∧
        inFragment t1 = true ∧ nominalCount t1 < nominalCount t ∧ t1.size ≤ t.size := by
  induction t with
  | Top =>
    intro cur q sub _ hs hc hn
    cases q with
    | nil => simp only [subAt, Option.some.injEq] at hs; subst hs; simp [isCompound] at hc
    | cons c q => cases c with
      | zero => simp [subAt] at hs
      | succ c => cases c <;> simp [subAt] at hs
  | Bottom => intro cur q sub h; simp [inFragment] at h
  | Not C _ => intro cur q sub h; simp [inFragment] at h
  | Or C D _ _ => intro cur q sub h; simp [inFragment] at h
  | Forall R C _ => intro cur q sub h; simp [inFragment] at h
  | Name n =>
    intro cur q sub _ hs hc hn
    cases q with
    | nil => simp only [subAt, Option.some.injEq] at hs; subst hs; simp [isCompound] at hc
    | cons c q => cases c with
      | zero => simp [subAt] at hs
      | succ c => cases c <;> simp [subAt] at hs
  | And C D ihC ihD =>
    intro cur q sub h hs hc hn
    simp only [inFragment, Bool.and_eq_true] at h
    cases q with
    | nil =>
      simp only [subAt, Option.some.injEq] at hs
      subst hs
      simp only [TReplacer.visit, List.append_nil, if_true]
      exact ⟨_, rfl, hP, by omega, by rw [hP1]; exact size_pos _⟩
    | cons c q =>
      simp only [TReplacer.visit, if_neg (node_ne cur c q)]
      cases c with
      | zero =>
        simp only [subAt] at hs
        obtain ⟨c1, hc1, fc1, nc1, sc1⟩ := ihC (cur ++ [0]) q sub h.1 hs hc hn
        obtain ⟨d1, hd1, fd1, nd1, sd1⟩ :=
          replacer_visit (ObjRef.node (cur ++ 0 :: q)) P hP hP0 hP1 D (cur ++ [1]) h.2
        have e : cur ++ 0 :: q = cur ++ [0] ++ q := by simp
        rw [e] at hd1 ⊢
        rw [hc1, hd1]
        refine ⟨_, rfl, smartAnd_fragment _ _ fc1 fd1, ?_, ?_⟩
        · have := smartAnd_count c1 d1
          simp only [nominalCount]
          omega
        · have := smartAnd_size c1 d1
          simp only [TConceptExpr.size]
          omega
      | succ c =>
        cases c with
        | zero =>
          simp only [subAt] at hs
          obtain ⟨d1, hd1, fd1, nd1, sd1⟩ := ihD (cur ++ [1]) q sub h.2 hs hc hn
          obtain ⟨c1, hc1, fc1, nc1, sc1⟩ :=
            replacer_visit (ObjRef.node (cur ++ 1 :: q)) P hP hP0 hP1 C (cur ++ [0]) h.1
          have e : cur ++ 1 :: q = cur ++ [1] ++ q := by simp
          rw [e] at hc1 ⊢
          rw [hc1, hd1]
          refine ⟨_, rfl, smartAnd_fragment _ _ fc1 fd1, ?_, ?_⟩
          · have := smartAnd_count c1 d1
            simp only [nominalCount]
            omega
          · have := smartAnd_size c1 d1
            simp only [TConceptExpr.size]
            omega
        | succ c => simp [subAt] at hs
  | Exists R C ih =>
    intro cur q sub h hs hc hn
    simp only [inFragment] at h
    cases q with
    | nil =>
      simp only [subAt, Option.some.injEq] at hs
      subst hs
      simp only [TReplacer.visit, List.append_nil, if_true]
      exact ⟨_, rfl, hP, by omega, by rw [hP1]; exact size_pos _⟩
    | cons c q =>
      simp only [TReplacer.visit, if_neg (node_ne cur c q)]
      cases c with
      | zero =>
        simp only [subAt] at hs
        obtain ⟨c1, hc1, fc1, nc1, sc1⟩ := ih (cur ++ [0]) q sub h hs hc hn
        have e : cur ++ 0 :: q = cur ++ [0] ++ q := by simp
        rw [e, hc1]
        exact ⟨_, rfl, by simpa [inFragment] using fc1, by simpa [nominalCount] using nc1,
          by simpa [TConceptExpr.size] using sc1⟩
      | succ c => simp [subAt] at hs

/-- Replacing a nominal name that occurs removes a nominal. -/
theorem replacer_name (n : String) (hn : IsNominal (TConceptExpr.Name n) = true)
    (P : TConceptExpr) (hP : inFragment P = true)
    (hP0 : nominalCount P = 0) (hP1 : P.size = 1) (t : TConceptExpr) :
    ∀ (cur : List Nat), inFragment t = true → occursIn n t = true →
      ∃ t1, TReplacer.visit (ObjRef.name n) P cur t = some t1 ∧
        inFragment t1 = true ∧ nominalCount t1 < nominalCount t ∧ t1.size ≤ t.size := by
  induction t with
  | Top => intro cur _ h; simp [occursIn] at h
  | Bottom => intro cur h; simp [inFragment] at h
  | Not C _ => intro cur h; simp [inFragment] at h
  | Or C D _ _ => intro cur h; simp [inFragment] at h
  | Forall R C _ => intro cur h; simp [inFragment] at h
  | Name m =>
    intro cur _ ho
    simp only [occursIn, decide_eq_true_eq] at ho
    subst ho
    simp only [TReplacer.visit, if_true]
    exact ⟨_, rfl, hP, by simp [nominalCount, hn, hP0], by rw [hP1]; exact size_pos _⟩
  | And C D ihC ihD =>
    intro cur h ho
    simp only [inFragment, Bool.and_eq_true] at h
    simp only [occursIn, Bool.or_eq_true] at ho
    have hne : ¬ (ObjRef.node cur = ObjRef.name n) := by intro h; cases h
    simp only [TReplacer.visit, if_neg hne]
    obtain ⟨c0, hc0, fc0, nc0, sc0⟩ := replacer_visit (ObjRef.name n) P hP hP0 hP1 C (cur ++ [0]) h.1
    obtain ⟨d0, hd0, fd0, nd0, sd0⟩ := replacer_visit (ObjRef.name n) P hP hP0 hP1 D (cur ++ [1]) h.2
    rw [hc0, hd0]
    refine ⟨_, rfl, smartAnd_fragment _ _ fc0 fd0, ?_, ?_⟩
    · have := smartAnd_count c0 d0
      simp only [nominalCount]
      rcases ho with ho | ho
      · obtain ⟨c1, hc1, _, nc1, _⟩ := ihC (cur ++ [0]) h.1 ho
        rw [hc0] at hc1
        cases hc1
        omega
      · obtain ⟨d1, hd1, _, nd1, _⟩ := ihD (cur ++ [1]) h.2 ho
        rw [hd0] at hd1
        cases hd1
        omega
    · have := smartAnd_size c0 d0
      simp only [TConceptExpr.size]
      omega
  | Exists R C ih =>
    intro cur h ho
    simp only [inFragment] at h
    simp only [occursIn] at ho
    have hne : ¬ (ObjRef.node cur = ObjRef.name n) := by intro h; cases h
    simp only [TReplacer.visit, if_neg hne]
    obtain ⟨c1, hc1, fc1, nc1, sc1⟩ := ih (cur ++ [0]) h ho
    rw [hc1]
    exact ⟨_, rfl, by simpa [inFragment] using fc1, by simpa [nominalCount] using nc1,
      by simpa [TConceptExpr.size] using sc1⟩

theorem subAt_size (t : TConceptExpr) :
    ∀ (q : List Nat) (sub : TConceptExpr), subAt q t = some sub → sub.size ≤ t.size := by
  induction t with
  | And C D ihC ihD =>
    intro q sub hs
    cases q with
    | nil => simp only [subAt, Option.some.injEq] at hs; subst hs; exact le_refl _
    | cons c q =>
      cases c with
      | zero => have := ihC q sub (by simpa [subAt] using hs); simp only [TConceptExpr.size]; omega
      | succ c =>
        cases c with
        | zero =>
          have := ihD q sub (by simpa [subAt] using hs); simp only [TConceptExpr.size]; omega
        | succ c => simp [subAt] at hs
  | Exists R C ih =>
    intro q sub hs
    cases q with
    | nil => simp only [subAt, Option.some.injEq] at hs; subst hs; exact le_refl _
    | cons c q =>
      cases c with
      | zero => have := ih q sub (by simpa [subAt] using hs); simp only [TConceptExpr.size]; omega
      | succ c => simp [subAt] at hs
  | Top =>
    intro q sub hs
    cases q with
    | nil => simp only [subAt, Option.some.injEq] at hs; subst hs; exact le_refl _
    | cons c q => cases c with
      | zero => simp [subAt] at hs
      | succ c => cases c <;> simp [subAt] at hs
  | Bottom =>
    intro q sub hs
    cases q with
    | nil => simp only [subAt, Option.some.injEq] at hs; subst hs; exact le_refl _
    | cons c q => cases c with
      | zero => simp [subAt] at hs
      | succ c => cases c <;> simp [subAt] at hs
  | Name n =>
    intro q sub hs
    cases q with
    | nil => simp only [subAt, Option.some.injEq] at hs; subst hs; exact le_refl _
    | cons c q => cases c with
      | zero => simp [subAt] at hs
      | succ c => cases c <;> simp [subAt] at hs
  | Not C _ =>
    intro q sub hs
    cases q with
    | nil => simp only [subAt, Option.some.injEq] at hs; subst hs; exact le_refl _
    | cons c q => cases c with
      | zero => simp [subAt] at hs
      | succ c => cases c <;> simp [subAt] at hs
  | Or C D _ _ =>
    intro q sub hs
    cases q with
    | nil => simp only [subAt, Option.some.injEq] at hs; subst hs; exact le_refl _
    | cons c q => cases c with
      | zero => simp [subAt] at hs
      | succ c => cases c <;> simp [subAt] at hs
  | Forall R C _ =>
    intro q sub hs
    cases q with
    | nil => simp only [subAt, Option.some.injEq] at hs; subst hs; exact le_refl _
    | cons c q => cases c with
      | zero => simp [subAt] at hs
      | succ c => cases c <;> simp [subAt] at hs

end Phase3c


section Phase3d
open TQueryToConceptsTransformer

theorem isNominal_name (x : TConceptExpr) (h : IsNominal x = true) :
    ∃ n, x = TConceptExpr.Name n := by
  cases x <;> simp [IsNominal] at h
  exact ⟨_, rfl⟩

theorem propVar_not_nominal (i : Nat) :
    IsNominal (TConceptExpr.Name ("P" ++ toString i)) = false := by
  simp [IsNominal, String.data_append]

theorem nominalCount_le_size (t : TConceptExpr) : nominalCount t ≤ t.size := by
  induction t with
  | Name n => simp only [nominalCount, TConceptExpr.size]; split <;> omega
  | And C D ihC ihD => simp only [nominalCount, TConceptExpr.size]; omega
  | Exists R C ih => simp only [nominalCount, TConceptExpr.size]; omega
  | Top => simp [nominalCount]
  | Bottom => simp [nominalCount]
  | Not C _ => simp [nominalCount]
  | Or C D _ _ => simp [nominalCount]
  | Forall R C _ => simp [nominalCount]

theorem runRound_stop (addr : String → Nat) (fuel i : Nat) (s : RunState)
    (h : nominalCount s.term = 0) : runRound addr fuel i s = some (s, true) := by
  unfold runRound
  simp only [depth_visit_none addr s.term 0 [] h]
  rfl

theorem runRound_progress (addr : String → Nat) (fuel i : Nat) (s : RunState)
    (hf : inFragment s.term = true) (hn : 0 < nominalCount s.term)
    (hfuel : s.term.size < fuel) :
    ∃ s1 nominal phi, runRound addr fuel i s = some (s1, false) ∧
      s1.Result = s.Result ++ [(nominal, phi)] ∧ s1.lastNominal = nominal ∧
      s1.propositionalVariable = "P" ++ toString i ∧
      inFragment s1.term = true ∧ nominalCount s1.term < nominalCount s.term ∧
      s1.term.size ≤ s.term.size := by
  have hne := depth_visit_nominal addr s.term 0 [] hn
  have hmax : ¬ TDepthMeasurer.getMaxDepth (TDepthMeasurer.visit addr 0 s.term []) = -1 :=
    fun h => hne ((getMaxDepth_eq _).1 h)
  obtain ⟨e, he, hnom⟩ := getNominalWithMaxDepth_mem _ hne
  have hocc : occursIn e.1 s.term = true ∧ IsNominal (TConceptExpr.Name e.1) = true := by
    rcases depth_visit_mem addr s.term 0 [] e he with h | h
    · simp at h
    · exact h
  obtain ⟨ent, hsub, hs, ho, hent⟩ := getSubterm_entry e.1 hocc.2 s.term hocc.1
  have hP : inFragment (TConceptExpr.Name ("P" ++ toString i)) = true := rfl
  have hP0 : nominalCount (TConceptExpr.Name ("P" ++ toString i)) = 0 := by
    simp [nominalCount, propVar_not_nominal]
  have hP1 : (TConceptExpr.Name ("P" ++ toString i)).size = 1 := rfl
  have hrep : ∃ t1, TReplacer.visit ent.1 (TConceptExpr.Name ("P" ++ toString i)) [] s.term
        = some t1 ∧ inFragment t1 = true ∧ nominalCount t1 < nominalCount s.term ∧
        t1.size ≤ s.term.size ∧ ent.2.size ≤ s.term.size := by
    rcases hent with ⟨h1, h2⟩ | ⟨q, h1, h2, h3⟩
    · obtain ⟨t1, a, b, c, d⟩ := replacer_name e.1 hocc.2 _ hP hP0 hP1 s.term [] hf hocc.1
      rw [h1]
      exact ⟨t1, a, b, c, d, by rw [h2]; exact size_pos _⟩
    · obtain ⟨t1, a, b, c, d⟩ := replacer_node _ hP hP0 hP1 s.term [] q ent.2 hf h2 h3
        (simple_nominalCount _ hs)
      rw [h1]
      exact ⟨t1, a, b, c, d, subAt_size _ _ _ h2⟩
  obtain ⟨t1, hr, ft1, nt1, st1, sent⟩ := hrep
  obtain ⟨hsolve, hnomL, _⟩ := Solve_peels TExpressionMarker.KnownToBeSimple ent.2
    (TConceptExpr.Name ("P" ++ toString i)) fuel (simple_peelable _ hs) (by omega)
  obtain ⟨ln, hln⟩ := isNominal_name _ hnomL
  refine ⟨{ term := t1, propositionalVariable := "P" ++ toString i,
            lastNominal := TEquationSolver.getNominalName ln,
            Result := s.Result ++ [(TEquationSolver.getNominalName ln,
              (peels TExpressionMarker.KnownToBeSimple ent.2).foldl applyPeel
                (TConceptExpr.Name ("P" ++ toString i)))] },
    _, _, ?_, rfl, rfl, rfl, ft1, nt1, st1⟩
  unfold runRound
  simp only [if_neg hmax, hnom, runRoundWith, hsub, hr, hsolve, hln,
    TEquationSolver.getNominal, Option.map_some']

theorem runLoop_rounds (addr : String → Nat) (fuel : Nat) :
    ∀ (n rounds i : Nat) (s : RunState), nominalCount s.term ≤ n → n < rounds →
      inFragment s.term = true → s.term.size < fuel →
      ∃ k s1, Rounds addr fuel k i s s1 ∧ nominalCount s1.term = 0 ∧
        runLoop addr fuel rounds i s = some s1 ∧
        s1.Result.length = s.Result.length + k ∧
        (k = 0 → s1 = s) ∧
        (0 < k → s1.propositionalVariable = "P" ++ toString (i + k - 1) ∧
          ∃ phi, s1.Result.getLast? = some (s1.lastNominal, phi)) := by
  intro n
  induction n with
  | zero =>
    intro rounds i s hn hr hf hfuel
    obtain ⟨r, rfl⟩ : ∃ r, rounds = r + 1 := ⟨rounds - 1, by omega⟩
    have h0 : nominalCount s.term = 0 := by omega
    refine ⟨0, s, Rounds.done i s, h0, ?_, rfl, fun _ => rfl, fun h => absurd h (by omega)⟩
    simp only [runLoop, runRound_stop addr fuel i s h0]
  | succ n ih =>
    intro rounds i s hn hr hf hfuel
    obtain ⟨r, rfl⟩ : ∃ r, rounds = r + 1 := ⟨rounds - 1, by omega⟩
    by_cases h0 : nominalCount s.term = 0
    · refine ⟨0, s, Rounds.done i s, h0, ?_, rfl, fun _ => rfl, fun h => absurd h (by omega)⟩
      simp only [runLoop, runRound_stop addr fuel i s h0]
    · obtain ⟨s1, nominal, phi, hround, hres, hlast, hpv, f1, n1, sz1⟩ :=
        runRound_progress addr fuel i s hf (by omega) hfuel
      obtain ⟨k, s2, hk, hz, hloop, hlen, hk0, hkpos⟩ :=
        ih r (i + 1) s1 (by omega) (by omega) f1 (by omega)
      refine ⟨k + 1, s2, Rounds.step k i s s1 s2 nominal phi hround hres hlast hpv hk, hz, ?_,
        ?_, fun h => absurd h (by omega), fun _ => ?_⟩
      · simp only [runLoop, hround]
        exact hloop
      · rw [hlen, hres]
        simp
        omega
      · by_cases hkz : k = 0
        · have := hk0 hkz
          subst hkz
          rw [this]
          refine ⟨by simpa using hpv, phi, ?_⟩
          rw [hres, hlast]
          simp
        · obtain ⟨a, b⟩ := hkpos (by omega)
          refine ⟨?_, b⟩
          rw [a]
          congr 2
          omega

end Phase3d

/-! ## Query folding: the query of Figure 2 -/

section Figure2
open TQueryToConceptsTransformer TermAssigner QueryConnectednessChecker

theorem setBegin_mem (addr : Nat → Nat) :
    ∀ (l : List Nat), l ≠ [] → ∃ v, setBegin addr l = some v ∧ v ∈ l := by
  intro l
  induction l with
  | nil => intro h; exact absurd rfl h
  | cons x rest ih =>
    intro _
    by_cases hr : rest = []
    · subst hr
      exact ⟨x, rfl, List.mem_cons_self _ _⟩
    · obtain ⟨w, hw, hm⟩ := ih hr
      simp only [setBegin, hw]
      split
      · exact ⟨x, rfl, List.mem_cons_self _ _⟩
      · exact ⟨w, rfl, List.mem_cons_of_mem _ hm⟩

theorem nominalNames_nil (t : TConceptExpr) : nominalNames t = [] ↔ nominalCount t = 0 := by
  induction t with
  | Name n => simp only [nominalNames, nominalCount]; split <;> simp
  | And C D ihC ihD =>
    simp only [nominalNames, nominalCount, List.append_eq_nil, ihC, ihD]
    omega
  | Exists R C ih => simpa [nominalNames, nominalCount] using ih
  | Top => simp [nominalNames, nominalCount]
  | Bottom => simp [nominalNames, nominalCount]
  | Not C _ => simp [nominalNames, nominalCount]
  | Or C D _ _ => simp [nominalNames, nominalCount]
  | Forall R C _ => simp [nominalNames, nominalCount]

theorem mem_nominalNames (n : String) (t : TConceptExpr) (ho : occursIn n t = true)
    (hn : IsNominal (TConceptExpr.Name n) = true) : n ∈ nominalNames t := by
  induction t with
  | Name m =>
    simp only [occursIn, decide_eq_true_eq] at ho
    subst ho
    simp [nominalNames, hn]
  | And C D ihC ihD =>
    simp only [occursIn, Bool.or_eq_true] at ho
    simp only [nominalNames, List.mem_append]
    rcases ho with h | h
    · exact Or.inl (ihC h)
    · exact Or.inr (ihD h)
  | Exists R C ih => exact ih (by simpa [occursIn] using ho)
  | Top => simp [occursIn] at ho
  | Bottom => simp [occursIn] at ho
  | Not C _ => simp [occursIn] at ho
  | Or C D _ _ => simp [occursIn] at ho
  | Forall R C _ => simp [occursIn] at ho

/-- Whatever the addresses of the names are, a run of the loop is one of the
runs that `allRuns` lists. -/
theorem runLoop_mem_allRuns (addr : String → Nat) (fuel : Nat) :
    ∀ (rounds i : Nat) (s : RunState),
      runLoop addr fuel rounds i s ∈ allRuns fuel rounds i s := by
  intro rounds
  induction rounds with
  | zero => intro i s; simp [runLoop, allRuns]
  | succ r ih =>
    intro i s
    simp only [runLoop, allRuns]
    by_cases h0 : nominalNames s.term = []
    · rw [if_pos h0, runRound_stop addr fuel i s ((nominalNames_nil _).1 h0)]
      simp
    · rw [if_neg h0]
      have hn : 0 < nominalCount s.term := by
        have := mt (nominalNames_nil s.term).2 h0
        omega
      have hne := depth_visit_nominal addr s.term 0 [] hn
      have hmax : ¬ TDepthMeasurer.getMaxDepth (TDepthMeasurer.visit addr 0 s.term []) = -1 :=
        fun h => hne ((getMaxDepth_eq _).1 h)
      obtain ⟨e, he, hnom⟩ := getNominalWithMaxDepth_mem _ hne
      have hocc : occursIn e.1 s.term = true ∧ IsNominal (TConceptExpr.Name e.1) = true := by
        rcases depth_visit_mem addr s.term 0 [] e he with h | h
        · simp at h
        · exact h
      rw [List.mem_flatMap]
      refine ⟨e.1, mem_nominalNames _ _ hocc.1 hocc.2, ?_⟩
      unfold runRound
      simp only [if_neg hmax, hnom]
      cases hw : runRoundWith e.1 fuel i s with
      | none => simp
      | some s1 => simpa using ih (i + 1) s1

/-- The first round overwrites the buffer: on a term with a nominal the loop
does not depend on what the buffer holds before. -/
theorem runLoop_buffer (addr : String → Nat) (fuel rounds i : Nat) (term : TConceptExpr)
    (buffer : String) (h : nominalNames term ≠ []) :
    runLoop addr fuel (rounds + 1) i
        { term := term, propositionalVariable := buffer, lastNominal := "", Result := [] } =
      runLoop addr fuel (rounds + 1) i
        { term := term, propositionalVariable := "", lastNominal := "", Result := [] } := by
  have hn : 0 < nominalCount term := by
    have := mt (nominalNames_nil term).2 h
    omega
  have hne := depth_visit_nominal addr term 0 [] hn
  have hmax : ¬ TDepthMeasurer.getMaxDepth (TDepthMeasurer.visit addr 0 term []) = -1 :=
    fun h => hne ((getMaxDepth_eq _).1 h)
  simp only [runLoop, runRound, if_neg hmax]
  rfl

set_option maxRecDepth 100000 in
theorem exFigure2Check_all : ∀ v ∈ exFigure2Assigner.Query.FreeVars, exFigure2Check v = true := by
  decide

theorem exFigure2_phase1 :
    transformQueryPhase1 exFigure2 (buildQueryFigure2 exEmptyQuery []).2 = some exFigure2Phase1 := by
  decide

/-- Counterexample to C18, with the variables and the names laid out in the
order of their creation: folding the query of Figure 2 yields four pairs, that
is four concept checks, not one. -/
theorem Run_figure2_four_checks :
    (Run id exNameAddr 30 "" exFigure2 (buildQueryFigure2 exEmptyQuery []).2).map List.length
      = some 4 := by
  decide

end Figure2

/-! ## The EL reasoner -/

section ELF
open ELFReasoner

theorem mem_insertEverywhere (x : Nat) (a b : List Nat) :
    a ++ x :: b ∈ insertEverywhere x (a ++ b) := by
  induction a with
  | nil =>
    cases b with
    | nil => simp [insertEverywhere]
    | cons y ys => simp [insertEverywhere]
  | cons y ys ih =>
    simp only [List.cons_append, insertEverywhere, List.mem_cons, List.mem_map]
    exact Or.inr ⟨_, ih, rfl⟩

theorem mem_allOrders (l2 : List Nat) : ∀ l1 : List Nat, l1.Perm l2 → l1 ∈ allOrders l2 := by
  induction l2 with
  | nil =>
    intro l1 h
    rw [List.perm_nil.1 h]
    simp [allOrders]
  | cons x xs ih =>
    intro l1 h
    have hx : x ∈ l1 := h.symm.subset (List.mem_cons_self _ _)
    obtain ⟨a, b, rfl⟩ := List.append_of_mem hx
    have h2 : (a ++ b).Perm xs := by
      have := List.perm_middle.symm.trans h
      exact (List.perm_cons x).1 this
    simp only [allOrders, List.mem_flatMap]
    exact ⟨a ++ b, ih _ h2, mem_insertEverywhere x a b⟩

theorem exCheck1_all : ∀ order ∈ allOrders (List.range 4), exCheck1 order = true := by
  decide

set_option maxRecDepth 100000 in
theorem exCheck2_all : ∀ order ∈ allOrders (List.range 5), exCheck2 order = true := by
  decide

/-- Failing input of C19, the ontology with the one axiom `A ⊑ B`, whose
concepts are `Bottom`, `Top`, `B` and `A`: in whatever order the first loop of
`classify` runs over the concepts, `classify` ends with `B` in `S(Top)`, yet
`Top ⊑ B` does not hold in every model of the axiom. -/
theorem classify_unsound_super (order : List Nat) (h : order.Perm (List.range 4)) :
    (∃ er, classify order 100 (ctor exOntology1) = some er ∧
      TConceptExpr.Name "B" ∈ er.S TConceptExpr.Top) ∧
    ∃ I : Interpretation Unit,
      Subsumed I (TConceptExpr.Name "A") (TConceptExpr.Name "B") ∧
      ¬ Subsumed I TConceptExpr.Top (TConceptExpr.Name "B") := by
  constructor
  · have hc := exCheck1_all order (mem_allOrders _ _ h)
    unfold exCheck1 at hc
    cases hr : classify order 100 (ctor exOntology1) with
    | none => rw [hr] at hc; simp at hc
    | some er =>
      rw [hr] at hc
      exact ⟨er, rfl, by simpa using hc⟩
  · refine ⟨⟨fun _ => ∅, fun _ _ _ => False⟩, ?_, ?_⟩
    · intro x hx
      exact hx
    · intro h
      exact h (show () ∈ conceptSem _ TConceptExpr.Top from trivial)

/-- Witness of the failing input of C19 for the order of creation. -/
theorem classify_unsound_super_witness :
    (∃ er, classify [0, 1, 2, 3] 100 (ctor exOntology1) = some er ∧
      TConceptExpr.Name "B" ∈ er.S TConceptExpr.Top) ∧
    ∃ I : Interpretation Unit,
      Subsumed I (TConceptExpr.Name "A") (TConceptExpr.Name "B") ∧
      ¬ Subsumed I TConceptExpr.Top (TConceptExpr.Name "B") :=
  classify_unsound_super [0, 1, 2, 3] (List.Perm.refl _)

/-- Failing input of C20, the ontology with the axioms `A ⊑ B` and `B ⊑ C`,
whose concepts are `Bottom`, `Top`, `B`, `A` and `C`: in whatever order the
first loop of `classify` runs over the concepts, `classify` ends with `B` in
`S(A)` and without `C` in `S(A)`, against the axiom `B ⊑ C`. -/
theorem classify_not_fixpoint (order : List Nat) (h : order.Perm (List.range 5)) :
    ∃ er, classify order 100 (ctor exOntology2) = some er ∧
      TConceptExpr.Name "B" ∈ er.S (TConceptExpr.Name "A") ∧
      TConceptExpr.Name "C" ∉ er.S (TConceptExpr.Name "A") := by
  have hc := exCheck2_all order (mem_allOrders _ _ h)
  unfold exCheck2 at hc
  cases hr : classify order 100 (ctor exOntology2) with
  | none => rw [hr] at hc; simp at hc
  | some er =>
    rw [hr] at hc
    simp only [Bool.and_eq_true, decide_eq_true_eq, Bool.not_eq_true', decide_eq_false_iff_not]
      at hc
    exact ⟨er, rfl, hc.1, hc.2⟩

/-- Witness of the failing input of C20 for the order of creation. -/
theorem classify_not_fixpoint_witness :
    ∃ er, classify [0, 1, 2, 3, 4] 100 (ctor exOntology2) = some er ∧
      TConceptExpr.Name "B" ∈ er.S (TConceptExpr.Name "A") ∧
      TConceptExpr.Name "C" ∉ er.S (TConceptExpr.Name "A") :=
  classify_not_fixpoint [0, 1, 2, 3, 4] (List.Perm.refl _)

end ELF

/-! ## The EL reasoner: termination and order of the first loop -/

section ELFTermination
open ELFReasoner

theorem applyRule_spec (er : ELFReasoner) (rule : TELFRule) (addedC : Nat) :
    ∃ new, er.applyRule rule addedC = { er with queue := er.queue ++ new } ∧
      new.length ≤ 1 ∧ ∀ a ∈ new, a.R = none → rule.sup = some a.D := by
  cases rule with
  | CSubRule s =>
    exact ⟨[{ R := none, C := addedC, D := s }], rfl, le_refl _, by simp [TELFRule.sup]⟩
  | CAndSubRule c s =>
    simp only [applyRule]
    split
    · exact ⟨[{ R := none, C := addedC, D := s }], rfl, le_refl _, by simp [TELFRule.sup]⟩
    · exact ⟨[], by simp, by simp, by simp⟩
  | RAddRule r f =>
    exact ⟨[{ R := some r, C := addedC, D := f }], rfl, le_refl _, by simp [TELFRule.sup]⟩

theorem applyRules_foldl (addedC : Nat) (rules : List TELFRule) :
    ∀ er : ELFReasoner,
      ∃ new, rules.foldl (fun e rule => e.applyRule rule addedC) er
          = { er with queue := er.queue ++ new } ∧
        new.length ≤ rules.length ∧
        ∀ a ∈ new, a.R = none → ∃ r ∈ rules, r.sup = some a.D := by
  induction rules with
  | nil => intro er; exact ⟨[], by simp, by simp, by simp⟩
  | cons r rest ih =>
    intro er
    obtain ⟨n1, e1, l1, p1⟩ := applyRule_spec er r addedC
    obtain ⟨n2, e2, l2, p2⟩ := ih (er.applyRule r addedC)
    refine ⟨n1 ++ n2, ?_, ?_, ?_⟩
    · simp only [List.foldl_cons, e2]
      rw [e1]
      simp
    · simp only [List.length_append, List.length_cons]
      omega
    · intro a ha hR
      rcases List.mem_append.1 ha with h | h
      · exact ⟨r, List.mem_cons_self _ _, p1 a h hR⟩
      · obtain ⟨r2, hr2, h2⟩ := p2 a h hR
        exact ⟨r2, List.mem_cons_of_mem _ hr2, h2⟩

theorem sum_map_modify {α : Type} (g : α → Nat) (f : α → α) :
    ∀ (l : List α) (X : Nat) (c : α), l.get? X = some c →
      ((l.modify f X).map g).sum + g c = (l.map g).sum + g (f c) := by
  intro l
  induction l with
  | nil => intro X c h; simp at h
  | cons x rest ih =>
    intro X c h
    cases X with
    | zero =>
      simp only [List.get?_cons_zero, Option.some.injEq] at h
      subst h
      simp only [List.modify_zero_cons, List.map_cons, List.sum_cons]
      omega
    | succ n =>
      simp only [List.get?_cons_succ] at h
      have := ih n c h
      simp only [List.modify_succ_cons, List.map_cons, List.sum_cons]
      omega

theorem mem_modify {α : Type} (f : α → α) :
    ∀ (l : List α) (X : Nat) (c1 : α), c1 ∈ l.modify f X → c1 ∈ l ∨ ∃ c ∈ l, c1 = f c := by
  intro l
  induction l with
  | nil => intro X c1 h; simp at h
  | cons x rest ih =>
    intro X c1 h
    cases X with
    | zero =>
      simp only [List.modify_zero_cons, List.mem_cons] at h
      rcases h with h | h
      · exact Or.inr ⟨x, List.mem_cons_self _ _, h⟩
      · exact Or.inl (List.mem_cons_of_mem _ h)
    | succ n =>
      simp only [List.modify_succ_cons, List.mem_cons] at h
      rcases h with h | h
      · exact Or.inl (by rw [h]; exact List.mem_cons_self _ _)
      · rcases ih n c1 h with h1 | ⟨c, hc, h1⟩
        · exact Or.inl (List.mem_cons_of_mem _ h1)
        · exact Or.inr ⟨c, List.mem_cons_of_mem _ hc, h1⟩

theorem rules_le_total (er : ELFReasoner) (c : TELFConcept) (h : c ∈ er.CMap) :
    c.Rules.length ≤ er.totalRules := by
  unfold totalRules
  exact List.single_le_sum (by simp) _ (List.mem_map_of_mem _ h)

theorem card_sdiff_setInsert (V S : List Nat) (C : Nat) (hV : C ∈ V) (hS : C ∉ S) :
    (V.toFinset \ (setInsert S C).toFinset).card + 1 = (V.toFinset \ S.toFinset).card := by
  have e : (setInsert S C).toFinset = insert C S.toFinset := by
    ext x
    simp [mem_setInsert, or_comm]
  have hm : C ∈ V.toFinset \ S.toFinset := by simp [hV, hS]
  rw [e, Finset.sdiff_insert, Finset.card_erase_of_mem hm]
  have : 0 < (V.toFinset \ S.toFinset).card := Finset.card_pos.2 ⟨C, hm⟩
  omega

theorem addC_spec (V : List Nat) (er : ELFReasoner) (X C : Nat)
    (hr : ∀ c ∈ er.CMap, ∀ r ∈ c.Rules, ∀ s, r.sup = some s → s ∈ V) (hC : C ∈ V) :
    ∃ new, (er.addC X C).queue = er.queue ++ new ∧
      (er.addC X C).totalRules = er.totalRules ∧
      (∀ c ∈ (er.addC X C).CMap, ∀ r ∈ c.Rules, ∀ s, r.sup = some s → s ∈ V) ∧
      (∀ a ∈ new, a.R = none → a.D ∈ V) ∧
      (er.addC X C).missing V * (er.totalRules + 1) + new.length
        ≤ er.missing V * (er.totalRules + 1) := by
  unfold addC
  by_cases hs : er.hasSuper X C = true
  · rw [if_pos hs]
    exact ⟨[], by simp, rfl, hr, by simp, by simp⟩
  · rw [if_neg hs]
    cases hg : er.CMap.get? X with
    | none =>
      have hlen : er.CMap.length ≤ X := by
        rw [List.get?_eq_getElem?] at hg
        exact List.getElem?_eq_none_iff.1 hg
      have hm : ∀ f : TELFConcept → TELFConcept, er.CMap.modify f X = er.CMap :=
        fun f => List.modify_eq_self hlen
      have e0 : applyRules
          { er with CMap := er.CMap.modify (fun c => { c with Supers := setInsert c.Supers C }) X }
          X C = er := by
        simp only [hm, applyRules, hg]
      rw [e0]
      exact ⟨[], by simp, rfl, hr, by simp, by simp⟩
    | some c =>
      have hcm : c ∈ er.CMap := List.get?_mem hg
      have hCS : C ∉ c.Supers := by
        intro h
        apply hs
        unfold hasSuper
        rw [hg]
        simpa using h
      have hlt : X < er.CMap.length := by
        rw [List.get?_eq_getElem?] at hg
        exact (List.getElem?_eq_some_iff.1 hg).1
      have hg2 : (er.CMap.modify (fun c => { c with Supers := setInsert c.Supers C }) X).get? X
          = some { c with Supers := setInsert c.Supers C } := by
        rw [List.get?_eq_getElem?, List.getElem?_modify_eq, ← List.get?_eq_getElem?, hg]
        rfl
      simp only [applyRules, hg2]
      obtain ⟨new, e1, l1, p1⟩ := applyRules_foldl C c.Rules
        { er with CMap := er.CMap.modify (fun c => { c with Supers := setInsert c.Supers C }) X }
      rw [e1]
      have htot : ((er.CMap.modify (fun c => { c with Supers := setInsert c.Supers C }) X).map
          (fun c => c.Rules.length)).sum = (er.CMap.map (fun c => c.Rules.length)).sum := by
        have := sum_map_modify (fun c : TELFConcept => c.Rules.length)
          (fun c => { c with Supers := setInsert c.Supers C }) er.CMap X c hg
        simpa using this
      have hmiss : ((er.CMap.modify (fun c => { c with Supers := setInsert c.Supers C }) X).map
          (fun c => (V.toFinset \ c.Supers.toFinset).card)).sum + 1
          = (er.CMap.map (fun c => (V.toFinset \ c.Supers.toFinset).card)).sum := by
        have := sum_map_modify (fun c : TELFConcept => (V.toFinset \ c.Supers.toFinset).card)
          (fun c => { c with Supers := setInsert c.Supers C }) er.CMap X c hg
        have h2 := card_sdiff_setInsert V c.Supers C hC hCS
        simp only at this
        omega
      refine ⟨new, rfl, ?_, ?_, ?_, ?_⟩
      · simp only [totalRules, htot]
      · intro c1 hc1 r hr1 s hs1
        rcases mem_modify _ _ _ _ hc1 with h | ⟨c0, hc0, h⟩
        · exact hr c1 h r hr1 s hs1
        · rw [h] at hr1
          exact hr c0 hc0 r hr1 s hs1
      · intro a ha hR
        obtain ⟨r, hr1, hr2⟩ := p1 a ha hR
        exact hr c hcm r hr1 _ hr2
      · have hrl := rules_le_total er c hcm
        simp only [missing]
        have : new.length ≤ er.totalRules := le_trans l1 hrl
        have hm2 := hmiss
        generalize ((er.CMap.modify (fun c => { c with Supers := setInsert c.Supers C }) X).map
          (fun c => (V.toFinset \ c.Supers.toFinset).card)).sum = m1 at hm2 ⊢
        generalize (er.CMap.map (fun c => (V.toFinset \ c.Supers.toFinset).card)).sum = m0 at hm2 ⊢
        subst hm2
        nlinarith

theorem drain_step (V : List Nat) (er : ELFReasoner) (a : ELFAction) (rest : List ELFAction)
    (hq : er.queue = a :: rest) (inv : DrainInv V er) :
    DrainInv V { er.applyAction a with queue := (er.applyAction a).queue.tail } ∧
    ELFReasoner.measure V { er.applyAction a with queue := (er.applyAction a).queue.tail }
      < ELFReasoner.measure V er := by
  unfold applyAction
  cases hR : a.R with
  | some r =>
    simp only [addR, hq, List.tail_cons]
    refine ⟨⟨?_, inv.rules⟩, ?_⟩
    · intro b hb hbR
      exact inv.queue b (by rw [hq]; exact List.mem_cons_of_mem _ hb) hbR
    · simp [ELFReasoner.measure, missing, totalRules, hq]
  | none =>
    obtain ⟨new, e1, t1, r1, n1, m1⟩ := addC_spec V er a.C a.D inv.rules
      (inv.queue a (by rw [hq]; exact List.mem_cons_self _ _) hR)
    simp only
    refine ⟨⟨?_, r1⟩, ?_⟩
    · intro b hb hbR
      simp only [e1, hq, List.cons_append, List.tail_cons, List.mem_append] at hb
      rcases hb with hb | hb
      · exact inv.queue b (by rw [hq]; exact List.mem_cons_of_mem _ hb) hbR
      · exact n1 b hb hbR
    · simp only [ELFReasoner.measure, e1, hq, List.cons_append, List.tail_cons,
        List.length_append, List.length_cons]
      have ht : totalRules { er.addC a.C a.D with queue := rest ++ new }
          = er.totalRules := t1
      have hm : missing V { er.addC a.C a.D with queue := rest ++ new }
          = missing V (er.addC a.C a.D) := rfl
      rw [ht, hm]
      omega

theorem drain_terminates (V : List Nat) :
    ∀ (n : Nat) (er : ELFReasoner), DrainInv V er → ELFReasoner.measure V er ≤ n →
      ∃ er1, drain n er = some er1 ∧ er1.queue = [] := by
  intro n
  induction n with
  | zero =>
    intro er _ hm
    have hq : er.queue = [] := by
      have : er.queue.length = 0 := by
        unfold ELFReasoner.measure at hm
        omega
      exact List.length_eq_zero.1 this
    exact ⟨er, by simp [drain, hq], hq⟩
  | succ n ih =>
    intro er inv hm
    cases hq : er.queue with
    | nil => exact ⟨er, by simp [drain, hq], hq⟩
    | cons a rest =>
      obtain ⟨inv1, hlt⟩ := drain_step V er a rest hq inv
      obtain ⟨er1, h1, h2⟩ := ih _ inv1 (by omega)
      refine ⟨er1, ?_, h2⟩
      simp only [drain, hq]
      exact h1

theorem drain_mono : ∀ (n : Nat) (er er1 : ELFReasoner), drain n er = some er1 →
    drain (n + 1) er = some er1 := by
  intro n
  induction n with
  | zero =>
    intro er er1 h
    simp only [drain] at h
    split at h
    · rename_i hq
      simp only [drain, hq]
      exact h
    · cases h
  | succ n ih =>
    intro er er1 h
    cases hq : er.queue with
    | nil =>
      simp only [drain, hq] at h ⊢
      exact h
    | cons a rest =>
      rw [drain] at h ⊢
      simp only [hq] at h ⊢
      exact ih _ _ h

theorem drain_mono_le (n m : Nat) (er er1 : ELFReasoner) (h : drain n er = some er1)
    (hnm : n ≤ m) : drain m er = some er1 := by
  induction hnm with
  | refl => exact h
  | step _ ih => exact drain_mono _ _ _ ih

theorem drainInv_addable (er : ELFReasoner) : DrainInv er.addable er := by
  constructor
  · intro a ha _
    simp only [addable, List.mem_append, List.mem_map]
    exact Or.inl ⟨a, ha, rfl⟩
  · intro c hc r hr s hs
    simp only [addable, List.mem_append, List.mem_flatMap, List.mem_filterMap]
    exact Or.inr ⟨c, hc, r, hr, hs⟩

/-- Claim C21: for every ontology and every order of the first loop,
`classify` terminates: there is a number of turns of the second loop after
which the action queue is empty, and every larger bound gives the same final
state.  An action that adds nothing only shortens the queue, an action that
adds a new element to a set `S(X)` creates at most as many actions as `X` has
rules, and the sets are bounded by the concepts that actions and rules can
add. -/
theorem classify_terminates (ont : List TDLAxiom) (order : List Nat) :
    ∃ fuel er, classify order fuel (ctor ont) = some er ∧ er.queue = [] ∧
      ∀ fuel1, fuel ≤ fuel1 → classify order fuel1 (ctor ont) = some er := by
  obtain ⟨er1, h1, h2⟩ := drain_terminates _ _ _
    (drainInv_addable (order.foldl (fun e C => (e.addC C e.CTop).addC C C) (ctor ont)))
    (le_refl _)
  exact ⟨_, er1, h1, h2, fun fuel1 hle => drain_mono_le _ _ _ _ h1 hle⟩

end ELFTermination

section ELFOrder
open ELFReasoner

/-- Claim C22, failing input: on the ontology `A ⊓ B ⊑ D`, `A ⊑ C`, `C ⊑ B`
the final set `S(C)` depends on the order in which the first loop of
`classify` visits the concepts: visiting them in the order of their creation
leaves `S(C) = {Top, C, B}`, visiting them in the opposite order leaves
`S(C) = {Top, C, B, D}`. -/
theorem classify_order_dependent :
    (classify [0, 1, 2, 3, 4, 5] 100 (ctor exOntology3)).map
        (fun er => er.S (TConceptExpr.Name "C"))
      = some [TConceptExpr.Top, TConceptExpr.Name "C", TConceptExpr.Name "B"] ∧
    (classify [5, 4, 3, 2, 1, 0] 100 (ctor exOntology3)).map
        (fun er => er.S (TConceptExpr.Name "C"))
      = some [TConceptExpr.Top, TConceptExpr.Name "C", TConceptExpr.Name "B",
          TConceptExpr.Name "D"] := by
  decide

end ELFOrder

/-! ## N-ary expressions -/

section NAry
open TDLNAryExpression

theorem addRange_ok (isArgument : TDLExpression → Bool) :
    ∀ (v : List TDLExpression) (x : TDLNAryExpression), (∀ p ∈ v, isArgument p = true) →
      addRange isArgument x v = (Except.ok (), { x with Base := x.Base ++ v }) := by
  intro v
  induction v with
  | nil => intro x _; simp [addRange]
  | cons p ps ih =>
    intro x h
    have hp : isArgument p = true := h p (List.mem_cons_self _ _)
    simp only [addRange, add, transform, hp, if_true]
    rw [ih _ (fun q hq => h q (List.mem_cons_of_mem _ hq))]
    simp

theorem addRange_error (isArgument : TDLExpression → Bool) :
    ∀ (v : List TDLExpression) (x : TDLNAryExpression), (∃ p ∈ v, isArgument p = false) →
      (addRange isArgument x v).1 = Except.error (KernelError.EFaCTPlusPlus x.EString) := by
  intro v
  induction v with
  | nil => intro x h; obtain ⟨p, hp, _⟩ := h; cases hp
  | cons p ps ih =>
    intro x h
    cases hp : isArgument p with
    | false => simp [addRange, add, transform, hp]
    | true =>
      simp only [addRange, add, transform, hp, if_true]
      obtain ⟨q, hq, hqa⟩ := h
      rcases List.mem_cons.1 hq with e | hq1
      · rw [e, hp] at hqa; cases hqa
      · exact ih _ ⟨q, hq1, hqa⟩

/-- Claim C23: `add(p)` succeeds exactly when `p` is of the argument class.
When it is, `p` is appended at the end of the argument array; when it is not,
the call raises `EFaCTPlusPlus` with the error string of the expression and
leaves the array unchanged.  The error string built by the constructor is
`Expected <typeName> argument in the '<className>' expression`.  A role chain
built from a list of object-role expressions holds the same elements in the
same order, and a list with another expression makes the constructor raise
`Expected object role expression argument in the 'role chain' expression`. -/
theorem add_spec (isArgument : TDLExpression → Bool) (x : TDLNAryExpression)
    (p : TDLExpression) :
    (isArgument p = true →
      x.add isArgument p = (Except.ok (), { x with Base := x.Base ++ [p] })) ∧
    (isArgument p = false →
      x.add isArgument p = (Except.error (KernelError.EFaCTPlusPlus x.EString), x)) ∧
    (∀ typeName className : String,
      (ctor typeName className).EString =
        "Expected " ++ typeName ++ " argument in the '" ++ className ++ "' expression" ∧
      (ctor typeName className).Base = []) ∧
    (∀ v : List TDLExpression, (∀ q ∈ v, ReasoningKernel.isObjectRoleExpression q = true) →
      TDLObjectRoleChain.ctor v = Except.ok
        { Base := v,
          EString := "Expected object role expression argument in the 'role chain' expression" }) ∧
    (∀ v : List TDLExpression, (∃ q ∈ v, ReasoningKernel.isObjectRoleExpression q = false) →
      TDLObjectRoleChain.ctor v = Except.error (KernelError.EFaCTPlusPlus
        "Expected object role expression argument in the 'role chain' expression")) := by
  refine ⟨?_, ?_, ?_, ?_, ?_⟩
  · intro h; simp [add, transform, h]
  · intro h; simp [add, transform, h]
  · intro t c; exact ⟨rfl, rfl⟩
  · intro v h
    unfold TDLObjectRoleChain.ctor
    rw [addRange_ok _ v _ h]
    simp only [ctor, List.nil_append]
    rfl
  · intro v h
    unfold TDLObjectRoleChain.ctor
    have h1 := addRange_error _ v (ctor "object role expression" "role chain") h
    cases h2 : addRange ReasoningKernel.isObjectRoleExpression
        (ctor "object role expression" "role chain") v with
    | mk r x1 =>
      rw [h2] at h1
      simp only at h1
      subst h1
      simp only [ctor]
      rfl

end NAry

/-! ## The sub-chain test and the built-in roles -/

section SubChain
open ReasoningKernel

theorem chainExists_ok (D : KernelDeps) (k : ReasoningKernel) :
    ∀ (l : List TDLExpression) (trees : List DLTree) (tmp : DLTree),
      (∀ p ∈ l, isObjectRoleExpression p = true) →
      List.Forall₂ (fun p tr => D.e p = Except.ok tr) l trees →
      (chainExists D l tmp).run k =
        Except.ok (trees.foldl (fun c r => D.createSNFExists r c) tmp, k) := by
  intro l
  induction l with
  | nil =>
    intro trees tmp _ h
    cases h
    rfl
  | cons p ps ih =>
    intro trees tmp ho h
    cases h with
    | cons hp hps =>
      rename_i tr trs
      have hop : isObjectRoleExpression p = true := ho p (List.mem_cons_self _ _)
      unfold chainExists
      simp only [hop, Bool.not_true, Bool.false_eq_true, if_false]
      rw [show (do
            let _ ← (pure PUnit.unit : KernelM PUnit)
            let r ← ReasoningKernel.e D p
            chainExists D ps (D.createSNFExists r tmp)) =
          (ReasoningKernel.e D p >>= fun r => chainExists D ps (D.createSNFExists r tmp))
          from rfl]
      rw [run_bind_ok _ _ k k tr (e_run D p tr k hp)]
      rw [ih trs _ (fun q hq => ho q (List.mem_cons_of_mem _ hq)) hps]
      rfl

theorem chainExists_step (D : KernelDeps) (p : TDLExpression) (ps : List TDLExpression)
    (tmp : DLTree) (h : isObjectRoleExpression p = true) :
    chainExists D (p :: ps) tmp =
      (ReasoningKernel.e D p >>= fun r => chainExists D ps (D.createSNFExists r tmp)) := by
  rw [chainExists]
  simp only [h, Bool.not_true, Bool.false_eq_true, if_false]
  rfl

theorem chainExists_not_role (D : KernelDeps) (p : TDLExpression) (ps : List TDLExpression)
    (tmp : DLTree) (k : ReasoningKernel) (h : isObjectRoleExpression p = false) :
    (chainExists D (p :: ps) tmp).run k = Except.error
      (KernelError.EFaCTPlusPlus "Role expression expected in the role chain construct") := by
  rw [chainExists]
  simp only [h, Bool.not_false, if_true]
  rfl

theorem chainExists_error (D : KernelDeps) (k : ReasoningKernel) :
    ∀ (l : List TDLExpression) (tmp : DLTree),
      (∃ p ∈ l, isObjectRoleExpression p = false) →
      (∀ p ∈ l, isObjectRoleExpression p = true → ∃ tr, D.e p = Except.ok tr) →
      (chainExists D l tmp).run k = Except.error
        (KernelError.EFaCTPlusPlus "Role expression expected in the role chain construct") := by
  intro l
  induction l with
  | nil => intro tmp h; obtain ⟨p, hp, _⟩ := h; cases hp
  | cons p ps ih =>
    intro tmp h he
    cases hp : isObjectRoleExpression p with
    | false => exact chainExists_not_role D p ps tmp k hp
    | true =>
      obtain ⟨tr, htr⟩ := he p (List.mem_cons_self _ _) hp
      rw [chainExists_step D p ps tmp hp, run_bind_ok _ _ k k tr (e_run D p tr k htr)]
      obtain ⟨q, hq, hqa⟩ := h
      rcases List.mem_cons.1 hq with e | hq1
      · rw [e, hp] at hqa; cases hqa
      · exact ih _ ⟨q, hq1, hqa⟩ (fun r hr => he r (List.mem_cons_of_mem _ hr))

theorem chainExists_raises (D : KernelDeps) (k : ReasoningKernel)
    (hD : ∀ p err, D.e p = Except.error err → ∃ s, err = KernelError.EFaCTPlusPlus s) :
    ∀ (l : List TDLExpression) (tmp : DLTree),
      (∃ p ∈ l, isObjectRoleExpression p = false) →
      ∃ s, (chainExists D l tmp).run k = Except.error (KernelError.EFaCTPlusPlus s) := by
  intro l
  induction l with
  | nil => intro tmp h; obtain ⟨p, hp, _⟩ := h; cases hp
  | cons p ps ih =>
    intro tmp h
    cases hp : isObjectRoleExpression p with
    | false => exact ⟨_, chainExists_not_role D p ps tmp k hp⟩
    | true =>
      rw [chainExists_step D p ps tmp hp]
      cases htr : D.e p with
      | error err =>
        obtain ⟨s, hs⟩ := hD p err htr
        refine ⟨s, ?_⟩
        apply run_bind_error
        simp [ReasoningKernel.e, ReasoningKernel.liftE, StateT.run, htr, Except.map, hs]
      | ok tr =>
        rw [run_bind_ok _ _ k k tr (e_run D p tr k htr)]
        obtain ⟨q, hq, hqa⟩ := h
        rcases List.mem_cons.1 hq with e | hq1
        · rw [e, hp] at hqa; cases hqa
        · exact ih _ ⟨q, hq1, hqa⟩

theorem checkSubChain_run (D : KernelDeps) (R : Nat) (k : ReasoningKernel) (t : TBox)
    (ht : k.pTBox = some t) :
    (checkSubChain D R).run k =
      ((chainExists D k.argList.reverse (D.createSNFNot t.getFreshConcept)) >>= fun tmp =>
        (checkSat D (D.createSNFAnd tmp (D.createSNFForall (DLTree.RNAME R) t.getFreshConcept))
          >>= fun r => pure (!r))).run k := by
  unfold checkSubChain
  rw [run_bind_ok (get : KernelM ReasoningKernel) _ k k k rfl,
    run_bind_ok _ _ k k t (getTBox_run k t ht)]

/-- Claim C24: `checkSubChain(R)` on the argument list `R1 .. Rn`.  When some
`Ri` is not an object-role expression, the call raises `EFaCTPlusPlus`, given
that the translator `e` raises nothing else; with a TBox and a translator that
accepts the object-role expressions of the list, the message is
`Role expression expected in the role chain construct`.  When every `Ri` is an
object-role expression translated to the tree `ri`, the call returns `b`
exactly when the satisfiability check of
`(EXISTS r1.EXISTS r2. ... EXISTS rn.NOT C) AND (FORALL R.C)`, with `C` the
fresh concept of the TBox, returns `!b`: it returns `true` exactly when that
concept is found unsatisfiable. -/
theorem checkSubChain_spec (D : KernelDeps) (R : Nat) (k : ReasoningKernel) :
    ((∃ p ∈ k.argList, isObjectRoleExpression p = false) →
      (∀ p err, D.e p = Except.error err → ∃ s, err = KernelError.EFaCTPlusPlus s) →
      ∃ s, (checkSubChain D R).run k = Except.error (KernelError.EFaCTPlusPlus s)) ∧
    (∀ t, k.pTBox = some t →
      (∃ p ∈ k.argList, isObjectRoleExpression p = false) →
      (∀ p ∈ k.argList, isObjectRoleExpression p = true → ∃ tr, D.e p = Except.ok tr) →
      (checkSubChain D R).run k = Except.error
        (KernelError.EFaCTPlusPlus "Role expression expected in the role chain construct")) ∧
    (∀ t chain, k.pTBox = some t →
      (∀ p ∈ k.argList, isObjectRoleExpression p = true) →
      List.Forall₂ (fun p tr => D.e p = Except.ok tr) k.argList chain →
      ∀ b : Bool, (checkSubChain D R).run' k = Except.ok b ↔
        (checkSat D (subChainTestConcept D t.getFreshConcept R chain)).run' k =
          Except.ok (!b)) := by
  refine ⟨?_, ?_, ?_⟩
  · intro h hD
    cases ht : k.pTBox with
    | none =>
      refine ⟨"FaCT++ Kernel: KB Not Initialised", ?_⟩
      unfold checkSubChain
      rw [run_bind_ok (get : KernelM ReasoningKernel) _ k k k rfl]
      apply run_bind_error
      simp [ReasoningKernel.getTBox, StateT.run, ht]
    | some t =>
      obtain ⟨p, hp, hpa⟩ := h
      obtain ⟨s, hs⟩ := chainExists_raises D k hD k.argList.reverse
        (D.createSNFNot t.getFreshConcept) ⟨p, List.mem_reverse.2 hp, hpa⟩
      exact ⟨s, by rw [checkSubChain_run D R k t ht]; exact run_bind_error _ _ k _ hs⟩
  · intro t ht h he
    obtain ⟨p, hp, hpa⟩ := h
    rw [checkSubChain_run D R k t ht]
    exact run_bind_error _ _ k _ (chainExists_error D k k.argList.reverse _
      ⟨p, List.mem_reverse.2 hp, hpa⟩ (fun q hq => he q (List.mem_reverse.1 hq)))
  · intro t chain ht ho hc b
    rw [run'_eq, run'_eq, checkSubChain_run D R k t ht,
      run_bind_ok _ _ k k _ (chainExists_ok D k k.argList.reverse chain.reverse _
        (fun q hq => ho q (List.mem_reverse.1 hq)) (List.forall₂_reverse_iff.2 hc))]
    simp only [List.foldl_reverse, subChainTestConcept, StateT.run_bind]
    cases h : (checkSat D (D.createSNFAnd
        (List.foldr (fun r c => D.createSNFExists r c) (D.createSNFNot t.getFreshConcept) chain)
        (D.createSNFForall (DLTree.RNAME R) t.getFreshConcept))).run k with
    | error err => simp [Except.map, bind, Except.bind]
    | ok r =>
      cases b <;> cases hr : r.1 <;>
        simp [Except.map, bind, Except.bind, pure, StateT.pure, Except.pure, StateT.run, hr]

/-- The chain `R o SS` under the role at address `1`, with a TBox that finds
every concept unsatisfiable: the tested concept is
`(EXISTS R.EXISTS SS.NOT C) AND (FORALL R1.C)` and the chain is reported to
be a sub-chain. -/
theorem checkSubChain_spec_witness :
    subChainTestConcept exDeps (DLTree.CNAME 1000) 1 [DLTree.RNAME 1, DLTree.RNAME 2] =
      DLTree.AND
        (DLTree.EXISTS (DLTree.RNAME 1) (DLTree.EXISTS (DLTree.RNAME 2)
          (DLTree.NOT (DLTree.CNAME 1000))))
        (DLTree.FORALL (DLTree.RNAME 1) (DLTree.CNAME 1000)) ∧
    (checkSubChain exDeps 1).run' (exChainKernel false) = Except.ok true :=
  ⟨rfl, (((checkSubChain_spec exDeps 1 (exChainKernel false)).2.2 (exTBox true false true)
    [DLTree.RNAME 1, DLTree.RNAME 2] rfl (by decide)
    (List.Forall₂.cons rfl (List.Forall₂.cons rfl List.Forall₂.nil))) true).2 rfl⟩

end SubChain

section BuiltinRoles
open ReasoningKernel

/-- Claim C25: on a consistent KB (`preprocessKB` passes, leaving `k1`) the
role-property queries answer for the built-in roles at once, whatever the
services of the TBox say: for the universal role `isFunctional` is `false`,
`isTransitive` `true`, `isSymmetric` `true`, `isAsymmetric` `false`,
`isReflexive` `true`, `isIrreflexive` `false`; for the empty role
`isFunctional` is `true`, `isTransitive` `true`, `isSymmetric` `true`,
`isAsymmetric` `true`, `isReflexive` `false`, `isIrreflexive` `true`.  The
kernel is left as `preprocessKB` left it. -/
theorem builtin_role_queries (D : KernelDeps) (k k1 : ReasoningKernel) (R : TDLExpression)
    (hk : (preprocessKB D).run k = Except.ok ((), k1)) :
    (D.isUniversalRole R = true →
      (isFunctional D R).run k = Except.ok (false, k1) ∧
      (isTransitive D R).run k = Except.ok (true, k1) ∧
      (isSymmetric D R).run k = Except.ok (true, k1) ∧
      (isAsymmetric D R).run k = Except.ok (false, k1) ∧
      (isReflexive D R).run k = Except.ok (true, k1) ∧
      (isIrreflexive D R).run k = Except.ok (false, k1)) ∧
    (D.isUniversalRole R = false → D.isEmptyRole R = true →
      (isFunctional D R).run k = Except.ok (true, k1) ∧
      (isTransitive D R).run k = Except.ok (true, k1) ∧
      (isSymmetric D R).run k = Except.ok (true, k1) ∧
      (isAsymmetric D R).run k = Except.ok (true, k1) ∧
      (isReflexive D R).run k = Except.ok (false, k1) ∧
      (isIrreflexive D R).run k = Except.ok (true, k1)) := by
  constructor
  · intro hU
    refine ⟨?_, ?_, ?_, ?_, ?_, ?_⟩
    · unfold isFunctional; rw [run_bind_ok _ _ k k1 () hk]; simp only [hU, if_true]; rfl
    · unfold isTransitive; rw [run_bind_ok _ _ k k1 () hk]; simp only [hU, if_true]; rfl
    · unfold isSymmetric; rw [run_bind_ok _ _ k k1 () hk]; simp only [hU, if_true]; rfl
    · unfold isAsymmetric; rw [run_bind_ok _ _ k k1 () hk]; simp only [hU, if_true]; rfl
    · unfold isReflexive; rw [run_bind_ok _ _ k k1 () hk]; simp only [hU, if_true]; rfl
    · unfold isIrreflexive; rw [run_bind_ok _ _ k k1 () hk]; simp only [hU, if_true]; rfl
  · intro hU hE
    refine ⟨?_, ?_, ?_, ?_, ?_, ?_⟩
    · unfold isFunctional; rw [run_bind_ok _ _ k k1 () hk]
      simp only [hU, hE, if_true, Bool.false_eq_true, if_false]; rfl
    · unfold isTransitive; rw [run_bind_ok _ _ k k1 () hk]
      simp only [hU, hE, if_true, Bool.false_eq_true, if_false]; rfl
    · unfold isSymmetric; rw [run_bind_ok _ _ k k1 () hk]
      simp only [hU, hE, if_true, Bool.false_eq_true, if_false]; rfl
    · unfold isAsymmetric; rw [run_bind_ok _ _ k k1 () hk]
      simp only [hU, hE, if_true, Bool.false_eq_true, if_false]; rfl
    · unfold isReflexive; rw [run_bind_ok _ _ k k1 () hk]
      simp only [hU, hE, if_true, Bool.false_eq_true, if_false]; rfl
    · unfold isIrreflexive; rw [run_bind_ok _ _ k k1 () hk]
      simp only [hU, hE, if_true, Bool.false_eq_true, if_false]; rfl

/-- On the consistent example KB the universal object role is reported not
functional and the empty object role is reported functional. -/
theorem builtin_role_queries_witness :
    (preprocessKB exDeps).run (exKernel true true true) =
      Except.ok ((), exKernel true true true) ∧
    (isFunctional exDeps TDLExpression.ObjectRoleTop).run (exKernel true true true) =
      Except.ok (false, exKernel true true true) ∧
    (isFunctional exDeps TDLExpression.ObjectRoleBottom).run (exKernel true true true) =
      Except.ok (true, exKernel true true true) :=
  ⟨rfl,
    ((builtin_role_queries exDeps (exKernel true true true) (exKernel true true true)
      TDLExpression.ObjectRoleTop rfl).1 rfl).1,
    ((builtin_role_queries exDeps (exKernel true true true) (exKernel true true true)
      TDLExpression.ObjectRoleBottom rfl).2 rfl rfl).1⟩

/-- Claim C26: on a consistent KB (`preprocessKB` passes, leaving `k1`), for
the empty role `R` and a role `S`: `isDisjointRoles(R, S)` and
`isDisjointRoles(S, R)` return `true` when `S` is not the universal role, and
both return `false` when `S` is the universal role, because the test for the
universal role comes first. -/
theorem isDisjointRoles_empty (D : KernelDeps) (k k1 : ReasoningKernel) (R S : TDLExpression)
    (hk : (preprocessKB D).run k = Except.ok ((), k1))
    (hE : D.isEmptyRole R = true) (hU : D.isUniversalRole R = false) :
    (D.isUniversalRole S = false →
      (isDisjointRoles D R S).run k = Except.ok (true, k1) ∧
      (isDisjointRoles D S R).run k = Except.ok (true, k1)) ∧
    (D.isUniversalRole S = true →
      (isDisjointRoles D R S).run k = Except.ok (false, k1) ∧
      (isDisjointRoles D S R).run k = Except.ok (false, k1)) := by
  constructor
  · intro hS
    constructor
    · unfold isDisjointRoles; rw [run_bind_ok _ _ k k1 () hk]
      simp only [hU, hE, hS, Bool.or_self, Bool.true_or, Bool.or_true, if_true,
        Bool.false_eq_true, if_false]
      rfl
    · unfold isDisjointRoles; rw [run_bind_ok _ _ k k1 () hk]
      simp only [hU, hE, hS, Bool.or_self, Bool.true_or, Bool.or_true, if_true,
        Bool.false_eq_true, if_false]
      rfl
  · intro hS
    constructor
    · unfold isDisjointRoles; rw [run_bind_ok _ _ k k1 () hk]
      simp only [hU, hE, hS, Bool.or_self, Bool.true_or, Bool.or_true, Bool.false_or,
        Bool.or_false, if_true]
      rfl
    · unfold isDisjointRoles; rw [run_bind_ok _ _ k k1 () hk]
      simp only [hU, hE, hS, Bool.or_self, Bool.true_or, Bool.or_true, Bool.false_or,
        Bool.or_false, if_true]
      rfl

/-- On the consistent example KB the empty object role and the universal
object role are reported not disjoint, in both orders of the arguments. -/
theorem isDisjointRoles_empty_witness :
    (preprocessKB exDeps).run (exKernel true true true) =
      Except.ok ((), exKernel true true true) ∧
    exDeps.isEmptyRole TDLExpression.ObjectRoleBottom = true ∧
    exDeps.isUniversalRole TDLExpression.ObjectRoleBottom = false ∧
    exDeps.isUniversalRole TDLExpression.ObjectRoleTop = true ∧
    (isDisjointRoles exDeps TDLExpression.ObjectRoleBottom TDLExpression.ObjectRoleTop).run
      (exKernel true true true) = Except.ok (false, exKernel true true true) ∧
    (isDisjointRoles exDeps TDLExpression.ObjectRoleTop TDLExpression.ObjectRoleBottom).run
      (exKernel true true true) = Except.ok (false, exKernel true true true) :=
  ⟨rfl, rfl, rfl, rfl,
    (isDisjointRoles_empty exDeps (exKernel true true true) (exKernel true true true)
      TDLExpression.ObjectRoleBottom TDLExpression.ObjectRoleTop rfl rfl rfl).2 rfl⟩

end BuiltinRoles

/-! ## Adding a concept to a node -/

/-- Claim C27: for every node, dep-set `d` and state of the tester,
`addToDoEntry` with the concept `BOTTOM` returns `true` (a clash) and leaves
the tester with the clash set `d` and everything else as it was, the labels of
the graph and the to-do list included; with the concept `TOP` it returns
`false` and leaves the tester unchanged. -/
theorem addToDoEntry_constants (D : DlSatTester.ToDoDeps) (checking : Bool) (node : Nat)
    (d : DepSet) (s : DlSatTester) :
    DlSatTester.addToDoEntry D checking node ⟨bpBOTTOM, d⟩ s
      = some (true, { s with clashSet := d }) ∧
    ({ s with clashSet := d } : DlSatTester).clashSet = d ∧
    ({ s with clashSet := d } : DlSatTester).CGraph = s.CGraph ∧
    ({ s with clashSet := d } : DlSatTester).TODO = s.TODO ∧
    DlSatTester.addToDoEntry D checking node ⟨bpTOP, d⟩ s = some (false, s) := by
  refine ⟨?_, rfl, rfl, rfl, ?_⟩
  · have h : ¬ (bpBOTTOM = bpTOP) := by decide
    simp [DlSatTester.addToDoEntry, h, DlSatTester.setClashSet, ConceptWDep.getDep]
  · simp [DlSatTester.addToDoEntry]

/-! ## The smart conjunction -/

theorem sameObject_eq (C D : TConceptExpr) (h : sameObject C D = true) : C = D := by
  cases C <;> cases D <;> simp_all [sameObject]

theorem And_ne_left (C D : TConceptExpr) : TConceptExpr.And C D ≠ C := by
  intro h
  have := congrArg TConceptExpr.size h
  simp [TConceptExpr.size] at this
  omega

theorem And_ne_right (C D : TConceptExpr) : TConceptExpr.And C D ≠ D := by
  intro h
  have := congrArg TConceptExpr.size h
  simp [TConceptExpr.size] at this
  omega

/-- Claim C28: the smart conjunction `And` on two objects `C` and `D`, where
`same` tells whether they are one object (and then they are one term).  For
one object it returns `C`; `And(TOP, D)` is `D` and `And(C, TOP)` is `C`; the
result is the new conjunction node exactly when the objects are distinct and
neither is `TOP`; the result is `TOP` only when both arguments are `TOP`.
The same holds for `smartAnd`, where the objects are compared by
`sameObject`. -/
theorem smartAnd_spec (same : Bool) (C D : TConceptExpr) (hsame : same = true → C = D) :
    (same = true → smartAndWith same C D = C) ∧
    (C = TConceptExpr.Top → smartAndWith same C D = D) ∧
    (D = TConceptExpr.Top → smartAndWith same C D = C) ∧
    (smartAndWith same C D = TConceptExpr.And C D ↔
      same = false ∧ C ≠ TConceptExpr.Top ∧ D ≠ TConceptExpr.Top) ∧
    (smartAndWith same C D = TConceptExpr.Top → C = TConceptExpr.Top ∧ D = TConceptExpr.Top) ∧
    smartAnd C D = smartAndWith (sameObject C D) C D ∧
    (sameObject C D = true → C = D) := by
  refine ⟨?_, ?_, ?_, ?_, ?_, rfl, sameObject_eq C D⟩
  · intro h; simp [smartAndWith, h]
  · intro hC
    cases same with
    | true => rw [← hsame rfl]; simp [smartAndWith]
    | false => subst hC; simp [smartAndWith]
  · intro hD
    cases same with
    | true => simp [smartAndWith]
    | false => subst hD; cases C <;> simp [smartAndWith]
  · cases same with
    | true =>
      simp only [smartAndWith, if_true]
      constructor
      · intro h; exact absurd h.symm (And_ne_left C D)
      · intro h; cases h.1
    | false =>
      constructor
      · intro h
        refine ⟨rfl, ?_, ?_⟩
        · intro hC; subst hC
          simp only [smartAndWith] at h
          exact And_ne_right _ _ h.symm
        · intro hD; subst hD
          have e : smartAndWith false C TConceptExpr.Top = C := by
            cases C <;> simp [smartAndWith]
          rw [e] at h
          exact And_ne_left _ _ h.symm
      · intro ⟨_, hC, hD⟩
        cases C <;> cases D <;> simp_all [smartAndWith]
  · intro h
    cases same with
    | true =>
      simp only [smartAndWith, if_true] at h
      exact ⟨h, (hsame rfl) ▸ h⟩
    | false =>
      cases C <;> cases D <;> simp_all [smartAndWith]

/-- One object given twice, the term `EXISTS R.A`: the result is the object
itself and no conjunction node is built. -/
theorem smartAnd_spec_witness :
    smartAndWith true (TConceptExpr.Exists (TORoleExpr.Name "R") (TConceptExpr.Name "A"))
        (TConceptExpr.Exists (TORoleExpr.Name "R") (TConceptExpr.Name "A"))
      = TConceptExpr.Exists (TORoleExpr.Name "R") (TConceptExpr.Name "A") :=
  (smartAnd_spec true (TConceptExpr.Exists (TORoleExpr.Name "R") (TConceptExpr.Name "A"))
    (TConceptExpr.Exists (TORoleExpr.Name "R") (TConceptExpr.Name "A")) (fun _ => rfl)).1 rfl

/-! ## The recursion of `Assign` on a cyclic query -/

section AssignCycle
open TermAssigner

theorem createVar_Query (a : TermAssigner) (v : Nat) : (createVar a v).2.Query = a.Query := by
  unfold createVar
  split
  · rfl
  · split <;> rfl

theorem Assign_cycle (fuel : Nat) :
    ∀ a : TermAssigner, a.Query.Body = exCyclicPhase1.query.Body →
      Assign fuel (some 0) 2 a = none ∧ Assign fuel (some 1) 1 a = none := by
  induction fuel with
  | zero => intro a _; exact ⟨rfl, rfl⟩
  | succ n ih =>
    intro a ha
    have hq : (createVar a 2).2.Query.Body = exCyclicPhase1.query.Body := by
      rw [createVar_Query]; exact ha
    have hq1 : (createVar a 1).2.Query.Body = exCyclicPhase1.query.Body := by
      rw [createVar_Query]; exact ha
    constructor
    · simp only [Assign, ha, exCyclicPhase1, List.enum, List.enumFrom, List.foldl, assignStep]
      simp [(ih _ hq).2]
    · simp only [Assign, ha, exCyclicPhase1, List.enum, List.enumFrom, List.foldl, assignStep]
      simp [(ih _ hq1).1]

theorem Assign_cycle_entry (fuel : Nat) (a : TermAssigner)
    (ha : a.Query.Body = exCyclicPhase1.query.Body) : Assign fuel (some 2) 1 a = none := by
  cases fuel with
  | zero => rfl
  | succ n =>
    have hq : (createVar a 1).2.Query.Body = exCyclicPhase1.query.Body := by
      rw [createVar_Query]; exact ha
    simp only [Assign, ha, exCyclicPhase1, List.enum, List.enumFrom, List.foldl, assignStep]
    simp [(Assign_cycle n _ hq).1]

theorem Assign_cycle_start (fuel : Nat) (a : TermAssigner)
    (ha : a.Query.Body = exCyclicPhase1.query.Body) : Assign fuel none 3 a = none := by
  cases fuel with
  | zero => rfl
  | succ n =>
    have hq : (createVar a 3).2.Query.Body = exCyclicPhase1.query.Body := by
      rw [createVar_Query]; exact ha
    simp only [Assign, ha, exCyclicPhase1, List.enum, List.enumFrom, List.foldl, assignStep]
    simp [Assign_cycle_entry n _ hq]

/-- Claim C29, failing input: the query `R1(y,z), R2(z,y), R0(x,y)` with `x`
free.  Phase 1 leaves the body `R1(y,z), R2(z,y), R0(x_1,y)`, Phase 2 starts
`Assign` at the free variable `x_1`, and no bound on the depth of the
recursion is enough for `Assign` to return: from `y` it goes through `R1` to
`z`, from `z` through `R2` back to `y`, and so on. -/
theorem Assign_cyclic_query_diverges :
    transformQueryPhase1 exCyclic.1 exCyclic.2 = some exCyclicPhase1 ∧
    (∀ addr : Nat → Nat,
      setBegin addr ((ctor exCyclicPhase1).DeleteFictiveVariables).Query.FreeVars = some 3) ∧
    (∀ fuel : Nat,
      Assign fuel none 3 (ctor exCyclicPhase1).DeleteFictiveVariables = none) ∧
    (∀ (addr : Nat → Nat) (fuel : Nat), transformQueryPhase2 addr fuel exCyclicPhase1 = none) := by
  have h3 : ∀ fuel : Nat,
      Assign fuel none 3 (ctor exCyclicPhase1).DeleteFictiveVariables = none :=
    fun fuel => Assign_cycle_start fuel _ rfl
  refine ⟨by decide, fun addr => rfl, h3, ?_⟩
  intro addr fuel
  unfold transformQueryPhase2
  simp only [show setBegin addr ((ctor exCyclicPhase1).DeleteFictiveVariables).Query.FreeVars
    = some 3 from rfl]
  exact h3 fuel

end AssignCycle

/-! ## The depth of the nominals -/

section Depth
open TDepthMeasurer

theorem depthOf_nil (n : String) : depthOf [] n = none := rfl

theorem depthOf_append (l1 l2 : List (String × Nat)) (n : String) :
    depthOf (l1 ++ l2) n = match depthOf l1 n with
      | some x => some x
      | none => depthOf l2 n := by
  induction l1 with
  | nil => simp [depthOf]
  | cons a rest ih =>
    unfold depthOf at ih ⊢
    by_cases h : a.1 = n
    · simp [List.find?, h]
    · simp only [List.cons_append, List.find?, h, decide_False]
      exact ih

theorem mem_mapInsert_iff (addr : String → Nat) (m : List (String × Nat)) (k : String) (d : Nat)
    (e : String × Nat) :
    e ∈ mapInsert addr m k d ↔ e ∈ m ∨ ((∀ x ∈ m, x.1 ≠ k) ∧ e = (k, d)) := by
  unfold mapInsert
  split
  · rename_i h
    simp only [List.any_eq_true, decide_eq_true_eq] at h
    obtain ⟨x, hx, hxk⟩ := h
    constructor
    · intro he; exact Or.inl he
    · intro he
      rcases he with he | ⟨hn, _⟩
      · exact he
      · exact absurd hxk (hn x hx)
  · rename_i h
    simp only [List.any_eq_true, decide_eq_true_eq, not_exists, not_and] at h
    rw [List.mem_orderedInsert]
    constructor
    · intro he
      rcases he with he | he
      · exact Or.inr ⟨h, he⟩
      · exact Or.inl he
    · intro he
      rcases he with he | ⟨_, he⟩
      · exact Or.inr he
      · exact Or.inl he

theorem depth_visit_iff (addr : String → Nat) (t : TConceptExpr) :
    ∀ (d : Nat) (m : List (String × Nat)) (e : String × Nat),
      e ∈ visit addr d t m ↔
        e ∈ m ∨ ((∀ x ∈ m, x.1 ≠ e.1) ∧ depthOf (walkedDepths d t) e.1 = some e.2) := by
  induction t with
  | Top => intro d m e; simp [visit, walkedDepths, depthOf]
  | Bottom => intro d m e; simp [visit, walkedDepths, depthOf]
  | Not C _ => intro d m e; simp [visit, walkedDepths, depthOf]
  | Or C D _ _ => intro d m e; simp [visit, walkedDepths, depthOf]
  | Forall R C _ => intro d m e; simp [visit, walkedDepths, depthOf]
  | Name n =>
    intro d m e
    simp only [visit, walkedDepths]
    split
    · rw [mem_mapInsert_iff]
      constructor
      · intro h
        rcases h with h | ⟨hn, he⟩
        · exact Or.inl h
        · subst he
          exact Or.inr ⟨hn, by simp [depthOf]⟩
      · intro h
        rcases h with h | ⟨hn, he⟩
        · exact Or.inl h
        · by_cases hk : n = e.1
          · simp [depthOf, hk] at he
            refine Or.inr ⟨by rw [hk]; exact hn, ?_⟩
            exact Prod.ext hk.symm he.symm
          · simp [depthOf, hk] at he
    · simp [depthOf]
  | Exists R C ih =>
    intro d m e
    cases R with
    | Name r => simp only [visit, walkedDepths]; exact ih _ m e
    | Inverse r => simp only [visit, walkedDepths]; exact ih _ m e
  | And C D ihC ihD =>
    intro d m e
    simp only [visit, walkedDepths]
    rw [ihD, ihC, depthOf_append]
    have keys : (∀ x ∈ visit addr d C m, x.1 ≠ e.1) ↔
        (∀ x ∈ m, x.1 ≠ e.1) ∧ depthOf (walkedDepths d C) e.1 = none := by
      constructor
      · intro h
        have hm : ∀ x ∈ m, x.1 ≠ e.1 := fun x hx => h x ((ihC d m x).2 (Or.inl hx))
        refine ⟨hm, ?_⟩
        cases hd : depthOf (walkedDepths d C) e.1 with
        | none => rfl
        | some y =>
          exact absurd rfl (h (e.1, y) ((ihC d m (e.1, y)).2 (Or.inr ⟨hm, hd⟩)))
      · intro ⟨hm, hd⟩ x hx
        rcases (ihC d m x).1 hx with h | ⟨_, h⟩
        · exact hm x h
        · intro hxe
          rw [hxe, hd] at h
          cases h
    rw [keys]
    cases hd : depthOf (walkedDepths d C) e.1 with
    | none => simp
    | some y => simp

theorem foldl_pick_max (p : String × Nat → String × Nat → Bool)
    (h1 : ∀ im it, p im it = true → im.2 ≤ it.2)
    (h2 : ∀ im it, p im it = false → it.2 ≤ im.2) :
    ∀ (l : List (String × Nat)) (a : String × Nat),
      a.2 ≤ (l.foldl (fun im it => if p im it then it else im) a).2 ∧
      ∀ e ∈ l, e.2 ≤ (l.foldl (fun im it => if p im it then it else im) a).2 := by
  intro l
  induction l with
  | nil => intro a; exact ⟨le_refl _, fun e he => by cases he⟩
  | cons x rest ih =>
    intro a
    simp only [List.foldl_cons]
    cases hp : p a x with
    | true =>
      simp only [if_true]
      obtain ⟨i1, i2⟩ := ih x
      refine ⟨le_trans (h1 a x hp) i1, ?_⟩
      intro e he
      rcases List.mem_cons.1 he with he | he
      · rw [he]; exact i1
      · exact i2 e he
    | false =>
      simp only [Bool.false_eq_true, if_false]
      obtain ⟨i1, i2⟩ := ih a
      refine ⟨i1, ?_⟩
      intro e he
      rcases List.mem_cons.1 he with he | he
      · rw [he]; exact le_trans (h2 a x hp) i1
      · exact i2 e he

theorem getMaxDepth_max (l : List (String × Nat)) (h : l ≠ []) :
    ∃ e ∈ l, getNominalWithMaxDepth l = some e.1 ∧ getMaxDepth l = (e.2 : Int) ∧
      ∀ x ∈ l, x.2 ≤ e.2 := by
  cases l with
  | nil => exact absurd rfl h
  | cons a rest =>
    have m1 := foldl_pick_mem (fun im it : String × Nat => decide (it.2 > im.2)) (a :: rest) a
    have m2 := foldl_pick_mem (fun im it : String × Nat => decide (it.2 ≥ im.2)) (a :: rest) a
    have x1 := foldl_pick_max (fun im it : String × Nat => decide (it.2 > im.2))
      (fun im it hp => by simp only [decide_eq_true_eq] at hp; omega)
      (fun im it hp => by simp only [decide_eq_false_iff_not] at hp; omega) (a :: rest) a
    have x2 := foldl_pick_max (fun im it : String × Nat => decide (it.2 ≥ im.2))
      (fun im it hp => by simp only [decide_eq_true_eq] at hp; omega)
      (fun im it hp => by simp only [decide_eq_false_iff_not] at hp; omega) (a :: rest) a
    simp only [decide_eq_true_eq] at m1 m2 x1 x2
    have r1 : (a :: rest).foldl (fun im it => if it.2 > im.2 then it else im) a ∈ a :: rest := by
      rcases m1 with e | e
      · rw [e]; exact List.mem_cons_self _ _
      · exact e
    have r2 : (a :: rest).foldl (fun im it => if it.2 ≥ im.2 then it else im) a ∈ a :: rest := by
      rcases m2 with e | e
      · rw [e]; exact List.mem_cons_self _ _
      · exact e
    refine ⟨_, r2, rfl, ?_, x2.2⟩
    simp only [getMaxDepth]
    have e1 := x1.2 _ r2
    have e2 := x2.2 _ r1
    omega

/-- Claim C30 as amended: for every term and every order of the name objects,
the table that the walk of `TDepthMeasurer` fills holds each nominal met under
conjunctions and existential restrictions with the depth of its first
occurrence in the walk, where the depth counts the enclosing existential
restrictions over role names only; `getMaxDepth` returns `-1` exactly when no
nominal is met; otherwise `getNominalWithMaxDepth` returns a nominal whose
depth in the table is the greatest, and `getMaxDepth` returns that depth. -/
theorem TDepthMeasurer_spec (addr : String → Nat) (t : TConceptExpr) :
    (∀ (n : String) (d : Nat),
      (n, d) ∈ visit addr 0 t [] ↔ depthOf (walkedDepths 0 t) n = some d) ∧
    (getMaxDepth (visit addr 0 t []) = -1 ↔ nominalCount t = 0) ∧
    (0 < nominalCount t →
      ∃ (n : String) (d : Nat), getNominalWithMaxDepth (visit addr 0 t []) = some n ∧
        (n, d) ∈ visit addr 0 t [] ∧ getMaxDepth (visit addr 0 t []) = (d : Int) ∧
        ∀ e ∈ visit addr 0 t [], e.2 ≤ d) := by
  refine ⟨?_, ?_, ?_⟩
  · intro n d
    rw [depth_visit_iff]
    simp
  · rw [getMaxDepth_eq]
    constructor
    · intro h
      by_contra hn
      exact depth_visit_nominal addr t 0 [] (Nat.pos_of_ne_zero hn) h
    · intro h
      exact depth_visit_none addr t 0 [] h
  · intro h
    obtain ⟨e, he, h1, h2, h3⟩ := getMaxDepth_max _ (depth_visit_nominal addr t 0 [] h)
    exact ⟨e.1, e.2, h1, he, h2, h3⟩

/-- Claim C30 fails where an existential restriction is over an inverse role
or a nominal occurs twice.  In `EXISTS R-.a` the nominal `a` has one enclosing
existential restriction and `getMaxDepth` returns `0`.  In
`(EXISTS R-.EXISTS S-.a) AND (EXISTS T.b)` the nominal `a` has two enclosing
existential restrictions and `b` one, and `getNominalWithMaxDepth` returns
`b`.  In `a AND (EXISTS R.a)` the second occurrence of `a` has one enclosing
existential restriction and `getMaxDepth` returns `0`. -/
theorem getMaxDepth_not_existential_depth :
    specNominalDepths 0 exInverseTerm = [("a", 1)] ∧
    getMaxDepth (visit exNameAddr 0 exInverseTerm []) = 0 ∧
    specNominalDepths 0 exInverseTerm2 = [("a", 2), ("b", 1)] ∧
    getNominalWithMaxDepth (visit exNameAddr 0 exInverseTerm2 []) = some "b" ∧
    getMaxDepth (visit exNameAddr 0 exInverseTerm2 []) = 1 ∧
    specNominalDepths 0 exRepeatedTerm = [("a", 0), ("a", 1)] ∧
    getMaxDepth (visit exNameAddr 0 exRepeatedTerm []) = 0 := by
  decide

end Depth

/-! ## The cache of a node -/

section Cache
open DlSatTester

theorem canBeCachedLoop_append (D : CacheDeps) :
    ∀ (l1 l2 : CWDArray) (acc : Bool × Nat),
      canBeCachedLoop D (l1 ++ l2) acc =
        match canBeCachedLoop D l1 acc with
        | none => none
        | some acc1 => canBeCachedLoop D l2 acc1 := by
  intro l1
  induction l1 with
  | nil => intro l2 acc; rfl
  | cons p rest ih =>
    intro l2 acc
    obtain ⟨shallow, size⟩ := acc
    simp only [List.cons_append, canBeCachedLoop]
    cases D.getCache p.bp with
    | none => rfl
    | some c => exact ih l2 _

theorem canBeCachedLoop_none (D : CacheDeps) :
    ∀ (l : CWDArray) (acc : Bool × Nat), (∃ e ∈ l, D.getCache e.bp = none) →
      canBeCachedLoop D l acc = none := by
  intro l
  induction l with
  | nil => intro acc h; obtain ⟨e, he, _⟩ := h; cases he
  | cons p rest ih =>
    intro acc h
    obtain ⟨shallow, size⟩ := acc
    simp only [canBeCachedLoop]
    cases hp : D.getCache p.bp with
    | none => rfl
    | some c =>
      obtain ⟨e, he, hen⟩ := h
      rcases List.mem_cons.1 he with h1 | h1
      · rw [h1, hp] at hen; cases hen
      · exact ih _ ⟨e, h1, hen⟩

theorem canBeCachedLoop_some (D : CacheDeps) :
    ∀ (l : CWDArray) (shallow : Bool) (size : Nat), size + l.length < 4294967296 →
      (∀ e ∈ l, D.getCache e.bp ≠ none) →
      ∃ sh, canBeCachedLoop D l (shallow, size) = some (sh, size + l.length) ∧
        (sh = true ↔ shallow = true ∧
          ∀ e ∈ l, ∀ c, D.getCache e.bp = some c → c.shallowCache = true) := by
  intro l
  induction l with
  | nil =>
    intro shallow size _ _
    exact ⟨shallow, rfl, by simp⟩
  | cons p rest ih =>
    intro shallow size hs hc
    simp only [List.length_cons] at hs
    cases hp : D.getCache p.bp with
    | none => exact absurd hp (hc p (List.mem_cons_self _ _))
    | some c =>
      obtain ⟨sh, h1, h2⟩ := ih (shallow && c.shallowCache) ((size + 1) % 4294967296)
        (by omega) (fun e he => hc e (List.mem_cons_of_mem _ he))
      refine ⟨sh, ?_, ?_⟩
      · simp only [canBeCachedLoop, hp, h1, List.length_cons]
        congr 2
        omega
      · rw [h2]
        simp only [Bool.and_eq_true, List.mem_cons, forall_eq_or_imp, hp, Option.some.injEq,
          forall_eq']
        tauto

/-- Claim C32: for a node whose label has fewer than `2^32` entries,
`canBeCached` returns `true` exactly when the node is not a nominal node,
every entry of its two label lists has a cached model, and the label is empty
or the cached model of some entry is not shallow.  A cache of the class
`modelCacheIan` is shallow exactly when its set `existsRoles` is empty. -/
theorem canBeCached_iff (D : CacheDeps) (node : DlCompletionTree)
    (hsize : node.sc.length + node.cc.length < 4294967296) :
    (canBeCached D node = true ↔
      D.isNominalNode node = false ∧
      (∀ e ∈ node.sc ++ node.cc, D.getCache e.bp ≠ none) ∧
      (node.sc ++ node.cc = [] ∨
        ∃ e ∈ node.sc ++ node.cc, ∃ c, D.getCache e.bp = some c ∧ c.shallowCache = false)) ∧
    (∀ m : modelCacheIan,
      (modelCacheInterface.Ian m).shallowCache = true ↔ m.existsRoles = []) := by
  constructor
  · have hloop : canBeCached D node =
        if D.isNominalNode node then false
        else match canBeCachedLoop D (node.sc ++ node.cc) (true, 0) with
          | none => false
          | some (shallow, size) => if shallow && size != 0 then false else true := by
      unfold canBeCached
      rw [canBeCachedLoop_append]
      cases canBeCachedLoop D node.sc (true, 0) <;> rfl
    rw [hloop]
    cases hn : D.isNominalNode node with
    | true => simp
    | false =>
      simp only [Bool.false_eq_true, if_false, true_and]
      by_cases hall : ∀ e ∈ node.sc ++ node.cc, D.getCache e.bp ≠ none
      · obtain ⟨sh, h1, h2⟩ := canBeCachedLoop_some D (node.sc ++ node.cc) true 0
          (by simpa using hsize) hall
        rw [h1]
        simp only [zero_add]
        constructor
        · intro h
          refine ⟨hall, ?_⟩
          by_cases hnil : node.sc ++ node.cc = []
          · exact Or.inl hnil
          · right
            have hlen : (node.sc ++ node.cc).length ≠ 0 := fun h0 =>
              hnil (List.length_eq_zero.1 h0)
            have hsh : sh = false := by
              cases sh with
              | false => rfl
              | true =>
                simp only [Bool.true_and, bne_iff_ne, ne_eq, ite_eq_right_iff,
                  Bool.false_eq_true, imp_false, not_not] at h
                exact absurd h hlen
            by_contra hno
            have : sh = true := h2.2 ⟨rfl, fun e he c hc => by
              cases hcs : c.shallowCache with
              | true => rfl
              | false => exact absurd ⟨e, he, c, hc, hcs⟩ hno⟩
            rw [hsh] at this
            cases this
        · intro ⟨_, h⟩
          rcases h with h | ⟨e, he, c, hc, hcs⟩
          · simp [h]
          · have hsh : sh = false := by
              cases hs : sh with
              | false => rfl
              | true =>
                have := (h2.1 hs).2 e he c hc
                rw [hcs] at this
                cases this
            simp [hsh]
      · have hex : ∃ e ∈ node.sc ++ node.cc, D.getCache e.bp = none := by
          by_contra hno
          exact hall (fun e he hc => hno ⟨e, he, hc⟩)
        rw [canBeCachedLoop_none D _ _ hex]
        simp only [Bool.false_eq_true, false_iff, not_and]
        intro h
        exact absurd h hall
  · intro m
    simp [modelCacheInterface.shallowCache, modelCacheIan.shallowCache]

/-- The node with the entries `5`, `7` and `9`, whose caches are shallow but
for that of `9`, can be cached. -/
theorem canBeCached_iff_witness :
    exNode.sc.length + exNode.cc.length < 4294967296 ∧
    canBeCached exCacheDeps exNode = true :=
  ⟨by decide, ((canBeCached_iff exCacheDeps exNode (by decide)).1).2
    ⟨rfl, by decide, Or.inr ⟨⟨9, {1}⟩, by decide, _, rfl, rfl⟩⟩⟩

theorem doCacheLoop_append (D : CacheDeps) :
    ∀ (l1 l2 : CWDArray) (acc : DepSet × modelCacheIan),
      doCacheLoop D (l1 ++ l2) acc =
        match doCacheLoop D l1 acc with
        | (acc1, none) => doCacheLoop D l2 acc1
        | (acc1, some st) => (acc1, some st) := by
  intro l1
  induction l1 with
  | nil => intro l2 acc; rfl
  | cons p rest ih =>
    intro l2 acc
    obtain ⟨dep, cache⟩ := acc
    simp only [List.cons_append, doCacheLoop]
    cases (D.merge cache (D.getCache p.bp)).1 with
    | csValid => exact ih l2 _
    | csInvalid => rfl
    | csUnknown => rfl

theorem foldl_deps (l : CWDArray) : ∀ d0 : DepSet,
    l.foldl (fun d p => d ∪ p.dep) d0 = d0 ∪ depsOf l := by
  induction l with
  | nil => intro d0; simp [depsOf]
  | cons p rest ih =>
    intro d0
    simp only [depsOf, List.foldl_cons]
    rw [ih (d0 ∪ p.dep), ih (∅ ∪ p.dep)]
    simp [Finset.union_assoc]

theorem depsOf_snoc (pre : CWDArray) (e : ConceptWDep) :
    depsOf (pre ++ [e]) = depsOf pre ∪ e.dep := by
  simp [depsOf, List.foldl_append]

theorem doCacheLoop_valid (D : CacheDeps) :
    ∀ (pre rest : CWDArray) (dep : DepSet) (c : modelCacheIan), allValid D c pre = true →
      doCacheLoop D (pre ++ rest) (dep, c) =
        doCacheLoop D rest (dep ∪ depsOf pre, mergeAll D c pre) := by
  intro pre
  induction pre with
  | nil => intro rest dep c _; simp [depsOf, mergeAll]
  | cons p ps ih =>
    intro rest dep c h
    simp only [allValid, Bool.and_eq_true, decide_eq_true_eq] at h
    have e1 : doCacheLoop D (p :: ps ++ rest) (dep, c) =
        doCacheLoop D (ps ++ rest) (dep ∪ p.dep, (D.merge c (D.getCache p.bp)).2) := by
      simp only [List.cons_append, doCacheLoop, h.1, DepSet.add, ConceptWDep.getDep]
      rfl
    rw [e1, ih rest _ _ h.2]
    have e2 : depsOf (p :: ps) = p.dep ∪ depsOf ps := by
      simp only [depsOf, List.foldl_cons]
      rw [foldl_deps ps (∅ ∪ p.dep)]
      simp [depsOf]
    rw [e2, Finset.union_assoc]
    rfl

theorem doCacheLoop_stop (D : CacheDeps) (e : ConceptWDep) (post : CWDArray) (dep : DepSet)
    (c : modelCacheIan) (h : (D.merge c (D.getCache e.bp)).1 ≠ modelCacheState.csValid) :
    doCacheLoop D (e :: post) (dep, c) =
      ((dep ∪ e.dep, (D.merge c (D.getCache e.bp)).2), some (D.merge c (D.getCache e.bp)).1) := by
  cases hm : (D.merge c (D.getCache e.bp)).1 with
  | csValid => exact absurd hm h
  | csInvalid => simp [doCacheLoop, DepSet.add, ConceptWDep.getDep, hm]
  | csUnknown => simp [doCacheLoop, DepSet.add, ConceptWDep.getDep, hm]

/-- Claim C33: let the label of the node, the simple-concept list followed by
the complex-concept list, be `pre`, `e`, `post`, where the merges of the
entries of `pre` are all valid and the merge of the cached model of `e` is
not.  When that merge is `csInvalid`, `doCacheNode` leaves the tester with the
clash set equal to the union of the DepSets of the entries of `pre` and of
`e`, and nothing else changed; for any other state it leaves the tester as it
was. -/
theorem doCacheNode_clashSet (D : CacheDeps) (node : DlCompletionTree) (s : DlSatTester)
    (nc : NodeCaches) (pre : CWDArray) (e : ConceptWDep) (post : CWDArray)
    (hsplit : node.sc ++ node.cc = pre ++ e :: post)
    (hvalid : allValid D (D.clear nc.newNodeCache) pre = true)
    (hst : (D.merge (mergeAll D (D.clear nc.newNodeCache) pre) (D.getCache e.bp)).1
      ≠ modelCacheState.csValid) :
    ((D.merge (mergeAll D (D.clear nc.newNodeCache) pre) (D.getCache e.bp)).1
        = modelCacheState.csInvalid →
      (doCacheNode D node s nc).1 = { s with clashSet := depsOf (pre ++ [e]) }) ∧
    ((D.merge (mergeAll D (D.clear nc.newNodeCache) pre) (D.getCache e.bp)).1
        ≠ modelCacheState.csInvalid →
      (doCacheNode D node s nc).1 = s) := by
  have hloop : doCacheNode D node s nc =
      match doCacheLoop D (node.sc ++ node.cc) (∅, D.clear nc.newNodeCache) with
      | (acc, some st) => doCacheFail s nc acc st
      | (acc1, none) =>
        let edges := (D.clear nc.newNodeEdges).initRolesFromArcs D.addExistsRole (D.arcs node)
        (s, { newNodeCache := (D.merge acc1.2 (some (modelCacheInterface.Ian edges))).2,
              newNodeEdges := edges }) := by
    unfold doCacheNode
    rw [doCacheLoop_append]
    cases h1 : doCacheLoop D node.sc (∅, D.clear nc.newNodeCache) with
    | mk acc o =>
      cases o with
      | none => rfl
      | some st => rfl
  rw [hloop, hsplit, doCacheLoop_valid D pre (e :: post) ∅ _ hvalid, doCacheLoop_stop D e post _ _ hst]
  simp only [doCacheFail, setClashSet, depsOf_snoc, Finset.empty_union]
  constructor
  · intro h; rw [if_pos h]
  · intro h; rw [if_neg h]

/-- On the example node the merges of `5` and `7` are valid and the merge of
`9` is invalid: the clash set recorded is the union of the DepSets of the
three entries. -/
theorem doCacheNode_clashSet_witness :
    exNode.sc ++ exNode.cc = [⟨5, {1}⟩, ⟨7, ∅⟩] ++ ⟨9, {1}⟩ :: [] ∧
    (doCacheNode exCacheDeps exNode exEngine
      { newNodeCache := exEmptyCache, newNodeEdges := exEmptyCache }).1
      = { exEngine with clashSet := {1} } :=
  ⟨rfl, (doCacheNode_clashSet exCacheDeps exNode exEngine
      { newNodeCache := exEmptyCache, newNodeEdges := exEmptyCache }
      [⟨5, {1}⟩, ⟨7, ∅⟩] ⟨9, {1}⟩ [] rfl (by decide) (by decide)).1 (by decide)⟩

end Cache

/-! ## `tryAddConcept` and `checkAddedConcept` -/

section TryAdd
open DlSatTester

theorem argChecked_inverse (checking : Bool) (p : BipolarPointer)
    (h : argChecked checking p = true) : argChecked checking (inverse p) = true := by
  cases checking with
  | false => rfl
  | true =>
    simp only [argChecked, Bool.not_true, Bool.false_or, Bool.and_eq_true, bne_iff_ne, ne_eq] at h
    exact argChecked_of true (inverse p) (isCorrect_inverse p h.1.1)
      (inverse_ne_TOP p h.2) (inverse_ne_BOTTOM p h.1.2)

theorem contains_unused (D : ToDoDeps) (s : DlSatTester) (lab : CWDArray) (q : BipolarPointer)
    (hused : ∀ e ∈ lab, D.isUsed s e.bp = true) (hq : D.isUsed s q = false) :
    lab.contains q = false := by
  cases h : lab.contains q with
  | false => rfl
  | true =>
    obtain ⟨e, he, heq⟩ := (contains_iff lab q).2 h
    rw [← heq, hused e he] at hq
    cases hq

/-- Claim C34: on a label in which the pointer of every entry is marked used,
`tryAddConcept` gives what `checkAddedConcept` gives: whenever
`checkAddedConcept(lab, p, d)` returns, `tryAddConcept(lab, p, d)` returns the
same result and leaves the same clash set; and `checkAddedConcept` returns for
every pointer that passes the assertions of the lookups, which is every
pointer when the assertions are compiled out. -/
theorem tryAddConcept_refines (D : ToDoDeps) (checking : Bool) (s : DlSatTester)
    (lab : CWDArray) (p : BipolarPointer) (dep : DepSet)
    (hused : ∀ e ∈ lab, D.isUsed s e.bp = true) :
    (∀ r, checkAddedConcept checking lab p dep s.clashSet = some r →
      tryAddConcept D checking s lab p dep = some r) ∧
    (argChecked checking p = true →
      ∃ r, checkAddedConcept checking lab p dep s.clashSet = some r) := by
  have key : argChecked checking p = true →
      tryAddConcept D checking s lab p dep = checkAddedConcept checking lab p dep s.clashSet ∧
      ∃ r, checkAddedConcept checking lab p dep s.clashSet = some r := by
    intro hp
    have hpi := argChecked_inverse checking p hp
    have hca : checkAddedConcept checking lab p dep s.clashSet =
        if lab.contains p then some (addConceptResult.acrExist, s.clashSet)
        else if (findConceptClashLoop (inverse p) dep s.clashSet lab).1 then
          some (addConceptResult.acrClash, (findConceptClashLoop (inverse p) dep s.clashSet lab).2)
        else
          some (addConceptResult.acrDone, (findConceptClashLoop (inverse p) dep s.clashSet lab).2) := by
      simp only [checkAddedConcept, findConcept, findConceptClash, hp, hpi, if_true]
      cases h1 : lab.contains p with
      | true => rfl
      | false =>
        simp only [Bool.false_eq_true, if_false]
        cases h2 : findConceptClashLoop (inverse p) dep s.clashSet lab with
        | mk b cs => cases b <;> rfl
    constructor
    · rw [hca]
      simp only [tryAddConcept]
      cases hC : D.isUsed s p with
      | true =>
        cases hN : D.isUsed s (inverse p) with
        | true => simp only [if_true]; exact hca
        | false =>
          have hab := contains_unused D s lab (inverse p) hused hN
          rw [findConceptClashLoop_absent _ _ _ _ hab]
          simp only [if_true, Bool.false_eq_true, if_false, findConcept, hp, Option.map_some']
          cases lab.contains p <;> rfl
      | false =>
        have hab := contains_unused D s lab p hused hC
        simp only [hab, Bool.false_eq_true, if_false]
        cases hN : D.isUsed s (inverse p) with
        | true =>
          simp only [if_true, findConceptClash, hpi, Option.map_some']
          cases h2 : findConceptClashLoop (inverse p) dep s.clashSet lab with
          | mk b cs => cases b <;> rfl
        | false =>
          have habi := contains_unused D s lab (inverse p) hused hN
          rw [findConceptClashLoop_absent _ _ _ _ habi]
          rfl
    · rw [hca]
      split
      · exact ⟨_, rfl⟩
      · split <;> exact ⟨_, rfl⟩
  constructor
  · intro r hr
    have hp : argChecked checking p = true := by
      cases h : argChecked checking p with
      | true => rfl
      | false => simp [checkAddedConcept, h] at hr
    rw [(key hp).1]
    exact hr
  · intro hp
    exact (key hp).2

/-- In the example tester the pointers `5`, `7` and `-4` are used.  On the
label holding `5` and `-4`, adding `4` clashes with the entry `-4`, and
`tryAddConcept` reports the clash with the same clash set as
`checkAddedConcept`. -/
theorem tryAddConcept_refines_witness :
    (∀ e ∈ ([⟨5, {1}⟩, ⟨-4, {2}⟩] : CWDArray), exToDoDeps.isUsed exEngine e.bp = true) ∧
    checkAddedConcept true [⟨5, {1}⟩, ⟨-4, {2}⟩] 4 {3} exEngine.clashSet =
      some (addConceptResult.acrClash, {2, 3}) ∧
    tryAddConcept exToDoDeps true exEngine [⟨5, {1}⟩, ⟨-4, {2}⟩] 4 {3} =
      some (addConceptResult.acrClash, {2, 3}) :=
  ⟨by decide, by decide,
    (tryAddConcept_refines exToDoDeps true exEngine [⟨5, {1}⟩, ⟨-4, {2}⟩] 4 {3} (by decide)).1
      _ (by decide)⟩

end TryAdd

/-! ## Registration and synonyms of roles -/

section RoleMasterCalls
open RoleMaster

theorem registered_last (regs : List Nat) (rm : RoleMaster) (p : Nat)
    (h : Registered (regs ++ [p]) rm) : isRegisteredRole rm (some p) = true := by
  obtain ⟨_, _, h3, _, _⟩ := h
  obtain ⟨ri, a1, _, _, a4, _, _, _⟩ := h3 regs.length p (by simp)
  unfold idOf at a4
  unfold isRegisteredRole
  simp only
  cases hR : rm.heap.get? p with
  | none => rw [hR] at a4; simp at a4
  | some R =>
    rw [hR] at a4
    simp only [Option.map_some', Option.some.injEq] at a4
    have hind : getIndex R = 2 * (regs.length + 1) := by
      unfold getIndex
      rw [a4]
      have : (0 : Int) < 2 * ((regs.length : Int) + 1) := by omega
      rw [if_pos this]
      omega
    have hlt : 2 * (regs.length + 1) < rm.Roles.length := by
      rw [List.get?_eq_getElem?] at a1
      exact (List.getElem?_eq_some_iff.1 a1).1
    simp only [hind, a1, firstRoleIndex, hlt, decide_True, Bool.and_true, decide_eq_true_eq]
    omega

theorem isRegisteredRole_new (rm : RoleMaster) (name : String) :
    isRegisteredRole
      { rm with heap := rm.heap ++ [{ name := name }],
                roleNS := rm.roleNS ++ [(name, rm.heap.length)] }
      (some rm.heap.length) = false := by
  simp [isRegisteredRole, getIndex, firstRoleIndex]

theorem find_after_register (rm rm1 : RoleMaster) (r : Nat) (d : Bool)
    (hs : registerRole rm r d = some rm1) : rm1.roleNS = rm.roleNS := by
  unfold registerRole at hs
  split at hs
  · cases hs
  · split at hs
    · cases hs
    · simp only [Option.some.injEq] at hs
      rw [← hs]

/-- Claim C35: in a reachable state of the role master, when
`ensureRoleName(name, d)` returns an entry, a second call for the same name,
whatever category it asks for, returns the same entry and leaves the role
master as it is, the list `Roles` and the next id included; and with undefined
names allowed the first call for a name that the name set does not hold
returns an entry and adds exactly two entries to `Roles`, the role and its
inverse, and one to the next id. -/
theorem ensureRoleName_idempotent (regs : List Nat) (rm : RoleMaster) (name : String)
    (d : Bool) (h : Reachable regs rm) :
    (∀ p rm1, ensureRoleName rm name d = some (Except.ok p, rm1) →
      ∀ d2, ensureRoleName rm1 name d2 = some (Except.ok p, rm1)) ∧
    (rm.roleNS.find? (fun e => e.1 == name) = none → rm.useUndefinedNames = true →
      ∃ p ri rm1, ensureRoleName rm name d = some (Except.ok p, rm1) ∧
        rm1.Roles = rm.Roles ++ [some p, some ri] ∧
        rm1.newRoleId = rm.newRoleId + 1 ∧
        rm1.inverseOf p = some ri ∧ rm1.inverseOf ri = some p ∧ p ≠ ri) := by
  constructor
  · intro p rm1 hs d2
    have key : ∃ ent : String × Nat, rm1.roleNS.find? (fun e => e.1 == name) = some ent ∧
        ent.2 = p ∧ isRegisteredRole rm1 (some p) = true := by
      have hi := Reachable.insert name h
      unfold ensureRoleName at hs
      dsimp only at hs
      cases hf : rm.roleNS.find? (fun e => e.1 == name) with
      | some ent =>
        have hn : nsInsert rm name = (some ent.2, rm) := by simp [nsInsert, hf]
        rw [hn] at hs hi
        dsimp only at hs
        split at hs
        · rename_i hreg
          simp only [Option.some.injEq, Prod.mk.injEq, Except.ok.injEq] at hs
          obtain ⟨hp, hrm⟩ := hs
          subst hrm
          subst hp
          exact ⟨ent, hf, rfl, hreg⟩
        · split at hs
          · simp at hs
          · split at hs
            · cases hs
            · rename_i rm2 hreg
              simp only [Option.some.injEq, Prod.mk.injEq, Except.ok.injEq] at hs
              obtain ⟨hp, hrm⟩ := hs
              subst hrm
              subst hp
              refine ⟨ent, ?_, rfl, ?_⟩
              · rw [find_after_register _ _ _ _ hreg]; exact hf
              · exact registered_last regs _ _
                  (Registered_of_Reachable _ _ (Reachable.register ent.2 d hi hreg))
      | none =>
        have hn : nsInsert rm name = (some rm.heap.length,
            { rm with heap := rm.heap ++ [{ name := name }],
                      roleNS := rm.roleNS ++ [(name, rm.heap.length)] }) := by
          simp [nsInsert, hf]
        rw [hn] at hs hi
        dsimp only at hs
        rw [isRegisteredRole_new] at hs
        simp only [Bool.false_eq_true, if_false] at hs
        split at hs
        · simp at hs
        · split at hs
          · cases hs
          · rename_i rm2 hreg
            simp only [Option.some.injEq, Prod.mk.injEq, Except.ok.injEq] at hs
            obtain ⟨hp, hrm⟩ := hs
            subst hrm
            subst hp
            refine ⟨(name, rm.heap.length), ?_, rfl, ?_⟩
            · rw [find_after_register _ _ _ _ hreg]
              simp [List.find?_append, hf]
            · exact registered_last regs _ _
                (Registered_of_Reachable _ _ (Reachable.register rm.heap.length d hi hreg))
    obtain ⟨ent, hf, hp, hreg⟩ := key
    have := (ensureRoleName_outcomes rm1 name d2).1 ent hf (by rw [hp]; exact hreg)
    rw [hp] at this
    exact this
  · intro hf hu
    have hi := Reachable.insert name h
    have hn : nsInsert rm name = (some rm.heap.length,
        { rm with heap := rm.heap ++ [{ name := name }],
                  roleNS := rm.roleNS ++ [(name, rm.heap.length)] }) := by
      simp [nsInsert, hf]
    rw [hn] at hi
    have hreg : ∃ rm2, registerRole
        { rm with heap := rm.heap ++ [{ name := name }],
                  roleNS := rm.roleNS ++ [(name, rm.heap.length)] } rm.heap.length d
        = some rm2 := by
      simp [registerRole]
    obtain ⟨rm2, hreg⟩ := hreg
    have hinv := Registered_of_Reachable _ _ (Reachable.register rm.heap.length d hi hreg)
    obtain ⟨R, R1, Ri, _, _, _, _, _, _, _, _, hroles, hnew⟩ := registerRole_eq _ _ _ _ hreg
    obtain ⟨_, _, h3, _, _⟩ := hinv
    obtain ⟨ri, a1, a2, a3, _, _, a6, a7⟩ := h3 regs.length rm.heap.length (by simp)
    refine ⟨rm.heap.length, ri, rm2, ?_, ?_, hnew, a6, a7, a3⟩
    · unfold ensureRoleName
      dsimp only
      rw [hn]
      dsimp only
      rw [isRegisteredRole_new]
      simp only [Bool.false_eq_true, if_false, hreg]
      rw [if_neg]
      simp [idOf, hu]
    · rw [hroles] at a2 ⊢
      have hlen := (Registered_of_Reachable _ _ hi).2.1
      simp only at hlen
      have : (rm.Roles ++ [some rm.heap.length, some (rm.heap ++ [({ name := name } : TRole)]).length]).get?
          (2 * (regs.length + 1) + 1) = some (some (rm.heap ++ [({ name := name } : TRole)]).length) := by
        rw [List.get?_eq_getElem?, List.getElem?_append_right (by omega)]
        have : 2 * (regs.length + 1) + 1 - rm.Roles.length = 1 := by omega
        rw [this]
        rfl
      rw [this] at a2
      simp only [Option.some.injEq] at a2
      rw [a2]

/-- In the new role master the first call for `R` registers the role at
address `2`, and a second call, asking for a data role, returns the same entry
and changes nothing. -/
theorem ensureRoleName_idempotent_witness :
    ensureRoleName RoleMaster.ctor "R" false = some (Except.ok 2, exRM1) ∧
    ensureRoleName exRM1 "R" true = some (Except.ok 2, exRM1) :=
  ⟨rfl, (ensureRoleName_idempotent [] RoleMaster.ctor "R" false Reachable.ctor).1 2 exRM1
    rfl true⟩

theorem get?_addParent (rm : RoleMaster) (p q x : Nat) :
    (addParent rm p q).heap.get? x =
      (rm.heap.get? x).map
        (fun R => if p = x then { R with parents := R.parents ++ [q] } else R) := by
  unfold addParent
  simp only [List.get?_eq_getElem?, List.getElem?_modify]
  cases rm.heap[x]? with
  | none => rfl
  | some R => by_cases hp : p = x <;> simp [hp]

theorem get?_addParent_fields (rm : RoleMaster) (p q x : Nat) (T : TRole)
    (h : rm.heap.get? x = some T) :
    ∃ T1, (addParent rm p q).heap.get? x = some T1 ∧ T1.Inverse = T.Inverse ∧
      T1.dataRole = T.dataRole := by
  rw [get?_addParent, h]
  by_cases hp : p = x
  · exact ⟨{ T with parents := T.parents ++ [q] },
      by simp only [Option.map_some', if_pos hp], rfl, rfl⟩
  · exact ⟨T, by simp only [Option.map_some', if_neg hp], rfl, rfl⟩

theorem addRoleParent_eq (rm : RoleMaster) (role parent ri pi : Nat) (R P : TRole)
    (hR : rm.heap.get? role = some R) (hP : rm.heap.get? parent = some P)
    (hri : R.Inverse = some ri) (hpi : P.Inverse = some pi) (hv : ri < rm.heap.length)
    (hk : R.dataRole = P.dataRole) :
    addRoleParent rm role parent =
      some (false, addParent (addParent rm role parent) ri pi) := by
  unfold addRoleParent
  rw [hR, hP]
  simp only [hk, ne_eq, not_true_eq_false, if_false, hri, hpi, length_addParent, hv, if_true]

/-- Claim C36: `addRoleSynonym(role, syn)` for roles with their inverses set.
For `role = syn` it returns `false` and leaves the role master as it is; for
roles of different kinds it returns `true` and leaves the role master as it
is, so no parent is added; for distinct roles of the same kind it returns
`false` after four additions: `syn` to the parents of `role`, `inverse(syn)`
to the parents of `inverse(role)`, `role` to the parents of `syn` and
`inverse(role)` to the parents of `inverse(syn)`. -/
theorem addRoleSynonym_spec (rm : RoleMaster) (role syn ri si : Nat) (R S : TRole)
    (hR : rm.heap.get? role = some R) (hS : rm.heap.get? syn = some S)
    (hri : R.Inverse = some ri) (hsi : S.Inverse = some si)
    (hvr : ri < rm.heap.length) (hvs : si < rm.heap.length) :
    (role = syn → addRoleSynonym rm role syn = some (false, rm)) ∧
    (role ≠ syn → R.dataRole ≠ S.dataRole → addRoleSynonym rm role syn = some (true, rm)) ∧
    (role ≠ syn → R.dataRole = S.dataRole →
      addRoleSynonym rm role syn = some (false,
        addParent (addParent (addParent (addParent rm role syn) ri si) syn role) si ri) ∧
      syn ∈ (addParent (addParent (addParent (addParent rm role syn) ri si) syn role)
        si ri).parentsOf role ∧
      si ∈ (addParent (addParent (addParent (addParent rm role syn) ri si) syn role)
        si ri).parentsOf ri ∧
      role ∈ (addParent (addParent (addParent (addParent rm role syn) ri si) syn role)
        si ri).parentsOf syn ∧
      ri ∈ (addParent (addParent (addParent (addParent rm role syn) ri si) syn role)
        si ri).parentsOf si) := by
  have hrl : role < rm.heap.length := by
    rw [List.get?_eq_getElem?] at hR
    exact (List.getElem?_eq_some_iff.1 hR).1
  have hsl : syn < rm.heap.length := by
    rw [List.get?_eq_getElem?] at hS
    exact (List.getElem?_eq_some_iff.1 hS).1
  refine ⟨?_, ?_, ?_⟩
  · intro h; simp [addRoleSynonym, h]
  · intro hne hk
    have h1 := (addRoleParent_spec rm role syn ri si R S hR hS hri hsi hvr).2 hk
    simp [addRoleSynonym, hne, h1]
  · intro hne hk
    have h1 := addRoleParent_eq rm role syn ri si R S hR hS hri hsi hvr hk
    obtain ⟨Sa, hSa, iSa, dSa⟩ := get?_addParent_fields rm role syn syn S hS
    obtain ⟨Sb, hSb, iSb, dSb⟩ :=
      get?_addParent_fields (addParent rm role syn) ri si syn Sa hSa
    obtain ⟨Ra, hRa, iRa, dRa⟩ := get?_addParent_fields rm role syn role R hR
    obtain ⟨Rb, hRb, iRb, dRb⟩ :=
      get?_addParent_fields (addParent rm role syn) ri si role Ra hRa
    have h2 := addRoleParent_eq (addParent (addParent rm role syn) ri si) syn role si ri Sb Rb
      hSb hRb (by rw [iSb, iSa, hsi]) (by rw [iRb, iRa, hri])
      (by simpa [length_addParent] using hvs) (by rw [dSb, dSa, dRb, dRa, hk])
    refine ⟨?_, ?_, ?_, ?_, ?_⟩
    · simp only [addRoleSynonym, hne, if_false, h1, h2]
    all_goals
      simp only [parentsOf_addParent, length_addParent]
      repeat' split
      all_goals simp_all

/-- The object roles `R` (at `2`, inverse `3`) and `S` (at `4`, inverse `5`):
`addRoleSynonym(R, S)` returns `false` and makes each a parent of the other. -/
theorem addRoleSynonym_spec_witness :
    exRM2.heap.get? 2 = some { name := "R", Id := 1, Inverse := some 3 } ∧
    exRM2.heap.get? 4 = some { name := "S", Id := 2, Inverse := some 5 } ∧
    (addRoleSynonym exRM2 2 4).map (fun r => (r.1, r.2.parentsOf 2, r.2.parentsOf 3,
      r.2.parentsOf 4, r.2.parentsOf 5)) = some (false, [4], [5], [2], [3]) ∧
    addRoleSynonym exRM2 2 4 = some (false,
      addParent (addParent (addParent (addParent exRM2 2 4) 3 5) 4 2) 5 3) :=
  ⟨by decide, by decide, by decide,
    ((addRoleSynonym_spec exRM2 2 4 3 5 { name := "R", Id := 1, Inverse := some 3 }
      { name := "S", Id := 2, Inverse := some 5 } (by decide) (by decide) rfl rfl
      (by decide) (by decide)).2.2 (by decide) rfl).1⟩

end RoleMasterCalls

/-! ## The shape of the query after Phase 1 -/

section Phase1Shape
open QueryConnectednessChecker

theorem sameShape_refl (a : QRAtom) : sameShape a a = true := by
  cases a <;> simp [sameShape]

theorem freshenOnce_shape (orig : List QRAtom) (len i old : Nat) (R : TORoleExpr) (a b : Nat)
    (mk : Nat → QRAtom) (s : Phase1State) (hi : i < len) (inv : Phase1Inv len i s)
    (sh : ShapeInv orig i s) (hat : s.query.Body.get? i = some (QRAtom.Role R a b))
    (hmk : ∀ n, sameShape (QRAtom.Role R a b) (mk n) = true) :
    ShapeInv orig (i + 1) (freshenOnce s i old mk) := by
  have hil : i < s.query.Body.length := by rw [inv.length]; exact hi
  unfold freshenOnce
  simp only [getNewCopyVar, VariableFactory.getNewVar]
  split
  · rename_i hc
    refine ⟨hc, ?_⟩
    intro j x hx
    obtain ⟨y, hy, hs, he⟩ := sh.shape j x hx
    by_cases hj : j = i
    · subst hj
      have hyx : y = x := he (le_refl _)
      subst hyx
      rw [hat] at hy
      simp only [Option.some.injEq] at hy
      subst hy
      refine ⟨mk s.VarFact.length, ?_, hmk _, fun h => absurd h (by omega)⟩
      simp only [List.get?_eq_getElem?]
      rw [List.getElem?_set_self hil]
    · refine ⟨y, ?_, hs, fun h => he (by omega)⟩
      simp only [List.get?_eq_getElem?] at hy ⊢
      rw [List.getElem?_set_ne (fun e => hj e.symm)]
      exact hy
  · refine ⟨sh.conn, ?_⟩
    intro j x hx
    obtain ⟨y, hy, hs, he⟩ := sh.shape j x hx
    exact ⟨y, hy, hs, fun h => he (by omega)⟩

theorem visitAtom_shape (orig : List QRAtom) (len i : Nat) (s : Phase1State) (hi : i < len)
    (inv : Phase1Inv len i s) (sh : ShapeInv orig i s) :
    ShapeInv orig (i + 1) (visitAtom s i) := by
  have keep : ShapeInv orig (i + 1) s :=
    ⟨sh.conn, fun j x hx => by
      obtain ⟨y, hy, hs, he⟩ := sh.shape j x hx
      exact ⟨y, hy, hs, fun h => he (by omega)⟩⟩
  unfold visitAtom
  cases hat : s.query.Body.get? i with
  | none => exact keep
  | some atom =>
    cases atom with
    | Concept C a => exact keep
    | Role R a b =>
      simp only
      split
      · exact freshenOnce_shape orig len i b R a b _ s hi inv sh hat
          (fun n => by simp [sameShape])
      · split
        · exact freshenOnce_shape orig len i a R a b _ s hi inv sh hat
            (fun n => by simp [sameShape])
        · exact keep

theorem foldl_visitAtom_shape (orig : List QRAtom) (len : Nat) :
    ∀ (k i : Nat) (s : Phase1State), i + k = len → Phase1Inv len i s → ShapeInv orig i s →
      Phase1Inv len len ((List.range' i k).foldl visitAtom s) ∧
      ShapeInv orig len ((List.range' i k).foldl visitAtom s) := by
  intro k
  induction k with
  | zero =>
    intro i s hik inv sh
    have : i = len := by omega
    subst this
    exact ⟨inv, sh⟩
  | succ k ih =>
    intro i s hik inv sh
    have hi : i < len := by omega
    simp only [List.range'_succ, List.foldl_cons]
    exact ih (i + 1) _ (by omega) (phase1Body_visit len i s inv hi).1
      (visitAtom_shape orig len i s hi inv sh)

/-- Claim C37: on a query that `isConnected` accepts, whose free variables
were created by the factory, `transformQueryPhase1` returns, and the query it
leaves is accepted by `isConnected`, has as many atoms as the original query,
and at every position an atom of the shape of the original one: the same
concept atom, or a role atom with the same role that differs from the
original in one argument at most. -/
theorem transformQueryPhase1_shape (query : QRQuery) (VarFact : VariableFactory)
    (hf : ∀ v ∈ query.FreeVars, v < VarFact.length)
    (hc : isConnected query = some true) :
    ∃ s, transformQueryPhase1 query VarFact = some s ∧
      isConnected s.query = some true ∧
      s.query.Body.length = query.Body.length ∧
      ∀ j a, query.Body.get? j = some a →
        ∃ b, s.query.Body.get? j = some b ∧ sameShape a b = true := by
  have inv0 : Phase1Inv query.Body.length 0 (phase1Init query VarFact) :=
    ⟨rfl, hf, fun j hj => by simp [phase1Init] at hj⟩
  have sh0 : ShapeInv query.Body 0 (phase1Init query VarFact) :=
    ⟨hc, fun j a ha => ⟨a, ha, sameShape_refl a, fun _ => rfl⟩⟩
  obtain ⟨inv1, sh1⟩ := foldl_visitAtom_shape query.Body query.Body.length
    query.Body.length 0 _ (by omega) inv0 sh0
  refine ⟨_, transformQueryPhase1_visits query VarFact hf, ?_, ?_, ?_⟩
  · rw [List.range_eq_range']; exact sh1.conn
  · rw [List.range_eq_range']; exact inv1.length
  · intro j a ha
    rw [List.range_eq_range']
    obtain ⟨b, hb, hs, _⟩ := sh1.shape j a ha
    exact ⟨b, hb, hs⟩

/-- Witness of C37 on the simple query `R1(x,y), R2(y,x)`, which Phase 1 turns
into `R1(x,y_1), R2(y,x)`. -/
theorem transformQueryPhase1_shape_witness :
    (∀ v ∈ exSimple.FreeVars, v < ["x", "y"].length) ∧
    isConnected exSimple = some true ∧
    ∃ s, transformQueryPhase1 exSimple ["x", "y"] = some s ∧
      isConnected s.query = some true ∧
      s.query.Body.length = exSimple.Body.length ∧
      ∀ j a, exSimple.Body.get? j = some a →
        ∃ b, s.query.Body.get? j = some b ∧ sameShape a b = true :=
  ⟨by decide, by decide, transformQueryPhase1_shape exSimple ["x", "y"] (by decide) (by decide)⟩

end Phase1Shape

/-! ## Termination of `Solve`, the keys of the result, progress of Phase 3 -/

section SolveTermination
open TEquationSolver

theorem Solve_stuck (ks : TConceptExpr → Bool) (L P : TConceptExpr)
    (hn : IsNominal L = false) (hs : solveStep ks L P = some (L, P)) :
    ∀ fuel, Solve ks fuel L P = none := by
  intro fuel
  induction fuel with
  | zero => rfl
  | succ n ih => simp only [Solve, hn, Bool.false_eq_true, if_false, hs]; exact ih

/-- Claim C38: for every left part built from existentials over inverse roles
and conjunctions, following at a conjunction the first argument when the
marker knows it to be simple and the second argument otherwise, down to a
nominal, `Solve` returns as soon as the bound on the turns exceeds the size of
the left part; a turn on an existential over an inverse role or on a
conjunction replaces the left part by one of its arguments, a strictly smaller
term; and on a left part that is `TOP` or a concept name that is not a nominal
a turn changes nothing, so `Solve` returns for no bound on the turns. -/
theorem Solve_terminates (ks : TConceptExpr → Bool) (L P : TConceptExpr) :
    (peelable ks L = true → ∀ fuel, L.size < fuel →
      ∃ n phi, Solve ks fuel L P = some (n, phi) ∧ IsNominal n = true) ∧
    (∀ R C, L = TConceptExpr.Exists (TORoleExpr.Inverse R) C →
      solveStep ks L P = some (C, TConceptExpr.Forall R P) ∧ C.size < L.size) ∧
    (∀ C D, L = TConceptExpr.And C D →
      ∃ l r, solveStep ks L P = some (l, r) ∧ (l = C ∨ l = D) ∧ l.size < L.size) ∧
    (L = TConceptExpr.Top ∨ (∃ n, L = TConceptExpr.Name n ∧ IsNominal L = false) →
      solveStep ks L P = some (L, P) ∧ ∀ fuel, Solve ks fuel L P = none) := by
  refine ⟨?_, ?_, ?_, ?_⟩
  · intro h fuel hf
    obtain ⟨h1, h2, _⟩ := Solve_peels ks L P fuel h hf
    exact ⟨_, _, h1, h2⟩
  · intro R C hL
    subst hL
    exact ⟨rfl, by simp [TConceptExpr.size]⟩
  · intro C D hL
    subst hL
    rw [solveStep_and]
    cases ks C with
    | true => exact ⟨C, _, rfl, Or.inl rfl, by simp [TConceptExpr.size]; omega⟩
    | false => exact ⟨D, _, rfl, Or.inr rfl, by simp [TConceptExpr.size]; omega⟩
  · intro h
    rcases h with h | ⟨n, h, hn⟩
    · subst h
      exact ⟨rfl, Solve_stuck ks _ P rfl rfl⟩
    · subst h
      exact ⟨rfl, Solve_stuck ks _ P hn rfl⟩

end SolveTermination

section Nominal
open TEquationSolver

theorem takeWhile_no_colon (l : List Char) (h : ':' ∉ l) :
    l.takeWhile (fun c => c ≠ ':') = l := by
  induction l with
  | nil => rfl
  | cons a rest ih =>
    simp only [List.mem_cons, not_or] at h
    have ha : decide (a ≠ ':') = true := decide_eq_true (fun e => h.1 e.symm)
    rw [List.takeWhile_cons, ha, if_pos rfl, ih h.2]

theorem takeWhile_colon (l r : List Char) (h : ':' ∉ l) :
    (l ++ ':' :: r).takeWhile (fun c => c ≠ ':') = l := by
  induction l with
  | nil => simp [List.takeWhile]
  | cons a rest ih =>
    simp only [List.mem_cons, not_or] at h
    have ha : decide (a ≠ ':') = true := decide_eq_true (fun e => h.1 e.symm)
    rw [List.cons_append, List.takeWhile_cons, ha, if_pos rfl, ih h.2]

theorem getNominalName_colon (s suffix : String) (h : ':' ∉ s.data)
    (hlen : s.length < 2147483648) : getNominalName (s ++ ":" ++ suffix) = s := by
  have hd : (s ++ ":" ++ suffix).data = s.data ++ ':' :: suffix.data := by
    simp [String.data_append]
  have hl : s.data.length < 2147483648 := hlen
  have hf : findColon (s ++ ":" ++ suffix) = s.data.length := by
    unfold findColon
    simp only [hd, takeWhile_colon _ _ h, List.length_append, List.length_cons]
    rw [if_pos (by omega)]
  unfold getNominalName
  simp only [hf, hd]
  have : s.data.length % 4294967296 = s.data.length := Nat.mod_eq_of_lt (by omega)
  rw [this, if_pos hl]
  simp

theorem getNominalName_whole (name : String) (h : ':' ∉ name.data)
    (hlen : name.length < 18446744073709551616) : getNominalName name = name := by
  have hl : name.data.length < 18446744073709551616 := hlen
  have hf : findColon name = 18446744073709551615 := by
    unfold findColon
    simp only [takeWhile_no_colon _ h, lt_irrefl, if_false]
  unfold getNominalName
  simp only [hf]
  have : (18446744073709551615 : Nat) % 4294967296 = 4294967295 := by norm_num
  rw [this]
  rw [if_neg (by norm_num)]
  rw [List.take_of_length_le (by omega)]

/-- Claim C39: for every variable name `s` without a colon and shorter than
`2^31` characters, and every counter `N`, `getNominal` on the marker concept
named `s + ":" + N`, as `createVar` builds it, returns `s`; and on a concept
whose name has no colon `getNominal` returns the whole name (a name has fewer
than `2^64` characters): `find` gives `npos`, which becomes `-1` in the `int`
and `npos` again as the length to copy. -/
theorem getNominal_marker (s : String) (hs : ':' ∉ s.data) :
    (s.length < 2147483648 → ∀ N : Nat,
      getNominal (TConceptExpr.Name (s ++ ":" ++ toString N)) = some s) ∧
    (s.length < 18446744073709551616 → getNominal (TConceptExpr.Name s) = some s) ∧
    (∀ (a : TermAssigner) (v orig : Nat), mapFind a.NewVarMap v = some orig →
      a.Query.isFreeVar orig = true → a.VarFact.getName orig = s →
      (TermAssigner.createVar a v).1 = TConceptExpr.Name (s ++ ":" ++ toString (a.N + 1))) := by
  refine ⟨?_, ?_, ?_⟩
  · intro hlen N
    simp only [getNominal, getNominalName_colon s (toString N) hs hlen]
  · intro hlen
    simp only [getNominal, getNominalName_whole s hs hlen]
  · intro a v orig hm hf hname
    simp only [TermAssigner.createVar, hm, hf, if_true, hname]

/-- The marker `x:1` of the variable `x` gives the key `x`. -/
theorem getNominal_marker_witness :
    ':' ∉ "x".data ∧ "x".length < 2147483648 ∧
    getNominal (TConceptExpr.Name ("x" ++ ":" ++ toString 1)) = some "x" :=
  ⟨by decide, by decide, (getNominal_marker "x" (by decide)).1 (by decide) 1⟩

end Nominal

section Phase3Progress
open TQueryToConceptsTransformer

theorem rounds_count (addr : String → Nat) (fuel : Nat) (k i : Nat) (s s1 : RunState)
    (h : Rounds addr fuel k i s s1) :
    inFragment s.term = true → s.term.size < fuel →
      nominalCount s1.term + k ≤ nominalCount s.term := by
  induction h with
  | done i s => intro _ _; omega
  | step k i s s1 s2 nominal phi hr _ _ _ _ ih =>
    intro hf hfuel
    have hn : 0 < nominalCount s.term := by
      by_contra h0
      have h0 : nominalCount s.term = 0 := by omega
      rw [runRound_stop addr fuel i s h0] at hr
      simp at hr
    obtain ⟨s1', _, _, hr1, _, _, _, f1, n1, z1⟩ := runRound_progress addr fuel i s hf hn hfuel
    rw [hr] at hr1
    simp only [Option.some.injEq, Prod.mk.injEq, and_true] at hr1
    subst hr1
    have := ih f1 (by omega)
    omega

/-- Claim C40: on a term built from `Top`, names, conjunctions and
existentials (and a bound on the turns of `Solve` above the size of the
term), a round of Phase 3 on a term with a nominal returns a term with
strictly fewer nominal occurrences; the name `P<i>` that the replacer puts in
is not a nominal; and the loop of `Run` ends after `k` rounds with `k` at most
the number of nominal occurrences of the initial term, whatever bound above
that number is put on the rounds. -/
theorem Run_progress (addr : String → Nat) (fuel i : Nat) (s : RunState)
    (hf : inFragment s.term = true) (hfuel : s.term.size < fuel) :
    (0 < nominalCount s.term →
      ∃ s1, runRound addr fuel i s = some (s1, false) ∧
        nominalCount s1.term < nominalCount s.term ∧ inFragment s1.term = true) ∧
    IsNominal (TConceptExpr.Name ("P" ++ toString i)) = false ∧
    (∀ rounds, nominalCount s.term < rounds →
      ∃ k s2, k ≤ nominalCount s.term ∧ Rounds addr fuel k i s s2 ∧
        runLoop addr fuel rounds i s = some s2 ∧ nominalCount s2.term = 0) := by
  refine ⟨?_, propVar_not_nominal i, ?_⟩
  · intro hn
    obtain ⟨s1, _, _, hr1, _, _, _, f1, n1, _⟩ := runRound_progress addr fuel i s hf hn hfuel
    exact ⟨s1, hr1, n1, f1⟩
  · intro rounds hr
    obtain ⟨k, s2, hk, hz, hloop, _, _, _⟩ :=
      runLoop_rounds addr fuel (nominalCount s.term) rounds i s (le_refl _) hr hf hfuel
    have := rounds_count addr fuel k i s s2 hk hf hfuel
    exact ⟨k, s2, by omega, hk, hloop, hz⟩

/-- On the term of Figure 2, which has three nominals, the first round leaves
fewer nominals and the loop ends after three rounds at most. -/
theorem Run_progress_witness :
    inFragment exFigure2Term = true ∧ nominalCount exFigure2Term = 3 ∧
    ∃ k s2, k ≤ 3 ∧
      Rounds exNameAddr 30 k 1
        { term := exFigure2Term, propositionalVariable := "", lastNominal := "", Result := [] }
        s2 ∧
      runLoop exNameAddr 30 4 1
        { term := exFigure2Term, propositionalVariable := "", lastNominal := "", Result := [] }
        = some s2 ∧ nominalCount s2.term = 0 :=
  ⟨by decide, by decide,
    (Run_progress exNameAddr 30 1
      { term := exFigure2Term, propositionalVariable := "", lastNominal := "", Result := [] }
      (by decide) (by decide)).2.2 4 (by decide)⟩

end Phase3Progress

section ELFExists
open ELFReasoner

theorem ctor_eq_foldl (ont : List TDLAxiom) : ctor ont = ont.foldl ctorStep ctorInit := rfl

theorem findIdx_origin_some (l : List TELFConcept) (p : TConceptExpr) (i : Nat)
    (h : l.findIdx? (fun c => c.Origin = p) = some i) :
    ∃ c, l[i]? = some c ∧ c.Origin = p := by
  obtain ⟨hi, hp, _⟩ := List.findIdx?_eq_some_iff_getElem.1 h
  exact ⟨l[i], List.getElem?_eq_getElem hi, by simpa using hp⟩

theorem findIdx_origin_none (l : List TELFConcept) (p : TConceptExpr) :
    l.findIdx? (fun c => c.Origin = p) = none ↔ p ∉ l.map (fun c => c.Origin) := by
  rw [List.findIdx?_eq_none_iff]
  simp only [decide_eq_false_iff_not, List.mem_map, not_exists, not_and]

theorem origin_inj (l : List TELFConcept) (hn : (l.map (fun c => c.Origin)).Nodup)
    (i j : Nat) (c d : TELFConcept) (hi : l[i]? = some c) (hj : l[j]? = some d)
    (ho : c.Origin = d.Origin) : i = j := by
  have hil : i < l.length := (List.getElem?_eq_some_iff.1 hi).1
  have hjl : j < l.length := (List.getElem?_eq_some_iff.1 hj).1
  have hi1 : l[i] = c := (List.getElem?_eq_some_iff.1 hi).2
  have hj1 : l[j] = d := (List.getElem?_eq_some_iff.1 hj).2
  have hil1 : i < (l.map (fun c => c.Origin)).length := by simpa using hil
  have hjl1 : j < (l.map (fun c => c.Origin)).length := by simpa using hjl
  have e : (l.map (fun c => c.Origin))[i] = (l.map (fun c => c.Origin))[j] := by
    simp only [List.getElem_map, hi1, hj1, ho]
  exact (List.Nodup.getElem_inj_iff hn).1 e

theorem findIdx_of_get (l : List TELFConcept) (hn : (l.map (fun c => c.Origin)).Nodup)
    (i : Nat) (c : TELFConcept) (hi : l[i]? = some c) :
    l.findIdx? (fun x => x.Origin = c.Origin) = some i := by
  have hil : i < l.length := (List.getElem?_eq_some_iff.1 hi).1
  have hi1 : l[i] = c := (List.getElem?_eq_some_iff.1 hi).2
  rw [List.findIdx?_eq_some_iff_getElem]
  refine ⟨hil, by simp [hi1], ?_⟩
  intro j hji hp
  simp only [decide_eq_true_eq] at hp
  have := origin_inj l hn j i l[j] c (List.getElem?_eq_getElem (by omega)) hi hp
  omega

theorem mem_of_get (l : List TELFConcept) (i : Nat) (c : TELFConcept)
    (hi : l[i]? = some c) : c ∈ l := by
  rw [List.mem_iff_getElem?]
  exact ⟨i, hi⟩

theorem find_of_get (l : List TELFConcept) (hn : (l.map (fun c => c.Origin)).Nodup)
    (i : Nat) (c : TELFConcept) (hi : l[i]? = some c) :
    l.find? (fun x => x.Origin = c.Origin) = some c := by
  induction l generalizing i with
  | nil => simp at hi
  | cons x rest ih =>
    cases i with
    | zero =>
      simp only [List.getElem?_cons_zero, Option.some.injEq] at hi
      subst hi
      simp
    | succ k =>
      simp only [List.getElem?_cons_succ] at hi
      simp only [List.map_cons, List.nodup_cons, List.mem_map, not_exists, not_and] at hn
      have hx : x.Origin ≠ c.Origin := fun e =>
        hn.1 c (mem_of_get rest k c hi) e.symm
      simp only [List.find?, hx, decide_False]
      exact ih hn.2 k hi

theorem find_origin_none (l : List TELFConcept) (p : TConceptExpr) :
    l.find? (fun c => c.Origin = p) = none ↔ p ∉ l.map (fun c => c.Origin) := by
  rw [List.find?_eq_none]
  simp only [decide_eq_true_eq, List.mem_map, not_exists, not_and]

theorem getElem?_snoc_some {α : Type} (l : List α) (e c : α) (i : Nat)
    (h : (l ++ [e])[i]? = some c) :
    (i < l.length ∧ l[i]? = some c) ∨ (i = l.length ∧ c = e) := by
  by_cases hi : i < l.length
  · rw [List.getElem?_append_left hi] at h
    exact Or.inl ⟨hi, h⟩
  · rw [List.getElem?_append_right (by omega)] at h
    have h0 : i - l.length = 0 := by
      by_contra hne
      have : ([e] : List α)[i - l.length]? = none := by
        apply List.getElem?_eq_none
        simp only [List.length_singleton]
        omega
      rw [this] at h
      cases h
    rw [h0] at h
    simp only [List.getElem?_cons_zero, Option.some.injEq] at h
    exact Or.inr ⟨by omega, h.symm⟩

theorem get_of_lt (l : List TELFConcept) (i : Nat) (hi : i < l.length) :
    ∃ c, l[i]? = some c ∧ c ∈ l :=
  ⟨l[i], List.getElem?_eq_getElem hi, List.getElem_mem hi⟩

theorem lt_of_get (l : List TELFConcept) (i : Nat) (c : TELFConcept) (h : l[i]? = some c) :
    i < l.length := (List.getElem?_eq_some_iff.1 h).1

theorem ruleBound_mono (n m : Nat) (hnm : n ≤ m) (r : TELFRule) (h : ruleBound n r) :
    ruleBound m r := by
  cases r with
  | CSubRule s => simp only [ruleBound] at h ⊢; omega
  | CAndSubRule c s => simp only [ruleBound] at h ⊢; omega
  | RAddRule r f => simp only [ruleBound] at h ⊢; omega

theorem renameRule_congr (σ τ : Nat → Nat) (n : Nat) (h : ∀ i, i < n → τ i = σ i)
    (r : TELFRule) (hr : ruleBound n r) : renameRule τ r = renameRule σ r := by
  cases r with
  | CSubRule s => simp only [ruleBound] at hr; simp only [renameRule, h s hr]
  | CAndSubRule c s => simp only [ruleBound] at hr; simp only [renameRule, h c hr.1, h s hr.2]
  | RAddRule r f => simp only [ruleBound] at hr; simp only [renameRule, h f hr]

theorem renameC_congr (σ τ : Nat → Nat) (n : Nat) (h : ∀ i, i < n → τ i = σ i)
    (c : TELFConcept) (hs : ∀ x ∈ c.Supers, x < n) (hr : ∀ r ∈ c.Rules, ruleBound n r) :
    renameC τ c = renameC σ c := by
  unfold renameC
  congr 1
  · exact List.map_congr_left (fun x hx => h x (hs x hx))
  · exact List.map_congr_left (fun r hx => renameRule_congr σ τ n h r (hr r hx))

theorem closed_append (a : ELFReasoner) (p : TConceptExpr) (h : Closed a)
    (hp : p ∉ a.CMap.map (fun c => c.Origin)) :
    Closed { a with CMap := a.CMap ++ [{ Origin := p, Supers := [], Rules := [] }] } := by
  constructor
  · simp only [List.map_append, List.map_cons, List.map_nil]
    rw [List.nodup_append]
    refine ⟨h.nodup, List.nodup_singleton _, ?_⟩
    intro x hx hx1
    simp only [List.mem_singleton] at hx1
    subst hx1
    exact hp hx
  · simp only [List.length_append, List.length_singleton]
    have := h.top
    omega
  · intro c hc x hx
    simp only [List.length_append, List.length_singleton]
    simp only [List.mem_append, List.mem_singleton] at hc
    rcases hc with hc | hc
    · have := h.supers c hc x hx
      omega
    · subst hc
      simp at hx
  · intro c hc r hr
    simp only [List.mem_append, List.mem_singleton] at hc
    rcases hc with hc | hc
    · exact ruleBound_mono _ _ (by simp) r (h.rules c hc r hr)
    · subst hc
      simp at hr
  · intro x hx
    simp only [List.length_append, List.length_singleton]
    have := h.queue x hx
    omega

theorem sim_inj (D : TConceptExpr) (bld : Bool) (σ : Nat → Nat) (a b : ELFReasoner)
    (h : Sim D bld σ a b) (i j : Nat) (hi : i < a.CMap.length) (hj : j < a.CMap.length)
    (e : σ i = σ j) : i = j := by
  obtain ⟨c, hc, _⟩ := get_of_lt a.CMap i hi
  obtain ⟨d, hd, _⟩ := get_of_lt a.CMap j hj
  have h1 := h.entry i c hc
  have h2 := h.entry j d hd
  rw [e, h2] at h1
  have h3 : d.Origin = c.Origin := by
    have := congrArg TELFConcept.Origin (Option.some.inj h1)
    simpa [renameC] using this
  exact origin_inj a.CMap h.closed.nodup i j c d hc hd h3.symm

theorem sim_refl (D : TConceptExpr) (bld : Bool) (a : ELFReasoner) (h : Closed a) :
    Sim D bld id a a := by
  have hid : ∀ c : TELFConcept, renameC id c = c := by
    intro c
    have hr : ∀ r : TELFRule, renameRule id r = r := by
      intro r; cases r <;> rfl
    simp only [renameC, List.map_id_fun, id_eq]
    have : c.Rules.map (renameRule id) = c.Rules := by
      rw [List.map_congr_left (fun r _ => hr r)]
      simp
    rw [this]
  refine ⟨h, h.nodup, fun _ => rfl, rfl, ?_, ?_, ?_⟩
  · have : ∀ x : ELFAction, renameA id x = x := fun x => rfl
    rw [List.map_congr_left (fun x _ => this x)]
    simp
  · intro i c hc
    rw [hid]
    exact hc
  · intro j c hc
    exact Or.inl ⟨j, lt_of_get _ _ _ hc, rfl⟩

theorem sim_queue_congr (σ τ : Nat → Nat) (a : ELFReasoner) (h : Closed a)
    (hτ : ∀ i, i < a.CMap.length → τ i = σ i) :
    a.queue.map (renameA τ) = a.queue.map (renameA σ) := by
  apply List.map_congr_left
  intro x hx
  have := h.queue x hx
  simp only [renameA, hτ x.C this.1, hτ x.D this.2]

theorem sim_extend (D : TConceptExpr) (σ : Nat → Nat) (a b b1 : ELFReasoner)
    (p : TConceptExpr) (j : Nat) (h : Sim D true σ a b)
    (hp : p ∉ a.CMap.map (fun c => c.Origin))
    (hn : (b1.CMap.map (fun c => c.Origin)).Nodup) (hr : b1.RMap = b.RMap)
    (ht : b1.CTop = b.CTop) (hq : b1.queue = b.queue)
    (hj : b1.CMap[j]? = some { Origin := p, Supers := [], Rules := [] })
    (hold : ∀ (k : Nat) (c : TELFConcept), b.CMap[k]? = some c → b1.CMap[k]? = some c)
    (hnew : ∀ (k : Nat) (c : TELFConcept), b1.CMap[k]? = some c → b.CMap[k]? = some c ∨ k = j) :
    Sim D true (Function.update σ a.CMap.length j)
      { a with CMap := a.CMap ++ [{ Origin := p, Supers := [], Rules := [] }] } b1 := by
  have hσ : ∀ i, i < a.CMap.length → Function.update σ a.CMap.length j i = σ i := by
    intro i hi
    exact Function.update_noteq (by omega) _ _
  refine ⟨closed_append a p h.closed hp, hn, fun _ => ?_, ?_, ?_, ?_, ?_⟩
  · rw [hr]; exact h.rmap rfl
  · rw [ht, h.top]
    exact (hσ _ h.closed.top).symm
  · rw [hq, h.queue]
    exact (sim_queue_congr σ _ a h.closed hσ).symm
  · intro i c hc
    rcases getElem?_snoc_some _ _ _ _ hc with ⟨hi, hc1⟩ | ⟨hi, hc1⟩
    · rw [hσ i hi]
      have hmem := mem_of_get _ _ _ hc1
      rw [renameC_congr σ _ a.CMap.length hσ c (h.closed.supers c hmem) (h.closed.rules c hmem)]
      exact hold _ _ (h.entry i c hc1)
    · subst hi
      subst hc1
      rw [Function.update_same]
      exact hj
  · intro k c hc
    rcases hnew k c hc with hb | hk
    · rcases h.dead k c hb with ⟨i, hi, hik⟩ | hd
      · refine Or.inl ⟨i, ?_, ?_⟩
        · simp only [List.length_append, List.length_singleton]; omega
        · rw [hσ i hi]; exact hik
      · exact Or.inr hd
    · refine Or.inl ⟨a.CMap.length, ?_, ?_⟩
      · simp only [List.length_append, List.length_singleton]; omega
      · rw [Function.update_same]; exact hk.symm

theorem getC_found (er : ELFReasoner) (p : TConceptExpr) (i : Nat)
    (h : er.CMap.findIdx? (fun c => c.Origin = p) = some i) : er.getC p = (i, er) := by
  simp only [getC, h]

theorem getC_new (er : ELFReasoner) (p : TConceptExpr)
    (h : er.CMap.findIdx? (fun c => c.Origin = p) = none) :
    er.getC p = (er.CMap.length,
      { er with CMap := er.CMap ++ [{ Origin := p, Supers := [], Rules := [] }] }) := by
  simp only [getC, h]

theorem sim_origin_mem (D : TConceptExpr) (bld : Bool) (σ : Nat → Nat) (a b : ELFReasoner)
    (h : Sim D bld σ a b) (j : Nat) (d : TELFConcept) (hd : b.CMap[j]? = some d)
    (hne : d.Origin ∉ a.CMap.map (fun c => c.Origin)) :
    (∀ i, i < a.CMap.length → σ i ≠ j) ∧ d.Origin = D ∧ d.Rules = [] ∧
      (bld = true → d.Supers = []) := by
  have himg : ∀ i, i < a.CMap.length → σ i ≠ j := by
    intro i hi hik
    obtain ⟨c, hc, hcm⟩ := get_of_lt a.CMap i hi
    have h1 := h.entry i c hc
    rw [hik, hd] at h1
    have : d.Origin = c.Origin := by
      have := congrArg TELFConcept.Origin (Option.some.inj h1)
      simpa [renameC] using this
    exact hne (by rw [this]; exact List.mem_map_of_mem _ hcm)
  rcases h.dead j d hd with ⟨i, hi, hik⟩ | hdd
  · exact absurd hik (himg i hi)
  · exact ⟨himg, hdd⟩

theorem getC_sim (D : TConceptExpr) (σ : Nat → Nat) (a b : ELFReasoner) (p : TConceptExpr)
    (h : Sim D true σ a b) :
    ∃ τ, (∀ i, i < a.CMap.length → τ i = σ i) ∧ Sim D true τ (a.getC p).2 (b.getC p).2 ∧
      (b.getC p).1 = τ (a.getC p).1 ∧ (a.getC p).1 < (a.getC p).2.CMap.length ∧
      a.CMap.length ≤ (a.getC p).2.CMap.length := by
  cases ha : a.CMap.findIdx? (fun c => c.Origin = p) with
  | some i =>
    obtain ⟨c, hc, hcp⟩ := findIdx_origin_some _ _ _ ha
    have hb : b.CMap.findIdx? (fun c => c.Origin = p) = some (σ i) := by
      have := findIdx_of_get b.CMap h.nodupB (σ i) (renameC σ c) (h.entry i c hc)
      simpa [renameC, hcp] using this
    rw [getC_found a p i ha, getC_found b p _ hb]
    exact ⟨σ, fun _ _ => rfl, h, rfl, lt_of_get _ _ _ hc, le_refl _⟩
  | none =>
    have hp : p ∉ a.CMap.map (fun c => c.Origin) := (findIdx_origin_none _ _).1 ha
    rw [getC_new a p ha]
    cases hb : b.CMap.findIdx? (fun c => c.Origin = p) with
    | some j =>
      obtain ⟨d, hd, hdp⟩ := findIdx_origin_some _ _ _ hb
      rw [getC_found b p j hb]
      obtain ⟨_, _, hr, hs⟩ := sim_origin_mem D true σ a b h j d hd (by rw [hdp]; exact hp)
      have hde : d = { Origin := p, Supers := [], Rules := [] } := by
        cases d with
        | mk o s r =>
          simp only at hdp hr hs
          simp only [hdp, hr, hs trivial]
      refine ⟨Function.update σ a.CMap.length j, ?_, ?_, ?_, ?_, ?_⟩
      · intro i hi
        exact Function.update_noteq (by omega) _ _
      · exact sim_extend D σ a b b p j h hp h.nodupB rfl rfl rfl (by rw [hd, hde])
          (fun _ _ hk => hk) (fun _ _ hk => Or.inl hk)
      · simp only [Function.update_same]
      · simp only [List.length_append, List.length_singleton]; omega
      · simp only [List.length_append, List.length_singleton]; omega
    | none =>
      have hpb : p ∉ b.CMap.map (fun c => c.Origin) := (findIdx_origin_none _ _).1 hb
      rw [getC_new b p hb]
      refine ⟨Function.update σ a.CMap.length b.CMap.length, ?_, ?_, ?_, ?_, ?_⟩
      · intro i hi
        exact Function.update_noteq (by omega) _ _
      · apply sim_extend D σ a b _ p b.CMap.length h hp
        · simp only [List.map_append, List.map_cons, List.map_nil]
          rw [List.nodup_append]
          refine ⟨h.nodupB, List.nodup_singleton _, ?_⟩
          intro x hx hx1
          simp only [List.mem_singleton] at hx1
          subst hx1
          exact hpb hx
        · rfl
        · rfl
        · rfl
        · simp
        · intro k c hk
          simp only
          rw [List.getElem?_append_left (lt_of_get _ _ _ hk)]
          exact hk
        · intro k c hk
          rcases getElem?_snoc_some _ _ _ _ hk with ⟨_, h1⟩ | ⟨h1, _⟩
          · exact Or.inl h1
          · exact Or.inr h1
      · simp only [Function.update_same]
      · simp only [List.length_append, List.length_singleton]; omega
      · simp only [List.length_append, List.length_singleton]; omega

theorem sim_frame (D : TConceptExpr) (bld : Bool) (σ : Nat → Nat) (a b a1 b1 : ELFReasoner)
    (h : Sim D bld σ a b) (ha : a1.CMap = a.CMap) (hb : b1.CMap = b.CMap)
    (hat : a1.CTop = a.CTop) (hbt : b1.CTop = b.CTop)
    (hq : b1.queue = a1.queue.map (renameA σ))
    (hqa : ∀ x ∈ a1.queue, x.C < a.CMap.length ∧ x.D < a.CMap.length)
    (hr : bld = true → b1.RMap = a1.RMap) : Sim D bld σ a1 b1 := by
  refine ⟨⟨?_, ?_, ?_, ?_, ?_⟩, ?_, hr, ?_, hq, ?_, ?_⟩
  · rw [ha]; exact h.closed.nodup
  · rw [ha, hat]; exact h.closed.top
  · rw [ha]; exact h.closed.supers
  · rw [ha]; exact h.closed.rules
  · rw [ha]; exact hqa
  · rw [hb]; exact h.nodupB
  · rw [hbt, hat]; exact h.top
  · rw [ha, hb]; exact h.entry
  · rw [ha, hb]; exact h.dead

theorem getR_sim (D : TConceptExpr) (σ : Nat → Nat) (a b : ELFReasoner) (p : TORoleExpr)
    (h : Sim D true σ a b) :
    Sim D true σ (a.getR p).2 (b.getR p).2 ∧ (b.getR p).1 = (a.getR p).1 ∧
      (a.getR p).2.CMap = a.CMap := by
  have hr := h.rmap rfl
  unfold getR
  rw [hr]
  cases a.RMap.findIdx? (fun r => r.Origin = p) with
  | some i => exact ⟨h, rfl, rfl⟩
  | none =>
    refine ⟨?_, rfl, rfl⟩
    exact sim_frame D true σ a b _ _ h rfl rfl rfl rfl h.queue h.closed.queue
      (fun _ => by simp only [hr])

theorem modify_origins (f : TELFConcept → TELFConcept) (hf : ∀ c, (f c).Origin = c.Origin)
    (l : List TELFConcept) (i : Nat) :
    (l.modify f i).map (fun c => c.Origin) = l.map (fun c => c.Origin) := by
  apply List.ext_getElem?
  intro m
  simp only [List.getElem?_map, List.getElem?_modify]
  cases l[m]? with
  | none => rfl
  | some c =>
    by_cases h : i = m
    · simp [h, hf]
    · simp [h]

theorem get_modify_same (f : TELFConcept → TELFConcept) (l : List TELFConcept) (i : Nat)
    (c : TELFConcept) (h : l[i]? = some c) : (l.modify f i)[i]? = some (f c) := by
  rw [List.getElem?_modify, h]
  simp

theorem get_modify_ne (f : TELFConcept → TELFConcept) (l : List TELFConcept) (i k : Nat)
    (h : i ≠ k) : (l.modify f i)[k]? = l[k]? := by
  rw [List.getElem?_modify]
  cases l[k]? with
  | none => rfl
  | some c => simp [h]

theorem get_modify_some (f : TELFConcept → TELFConcept) (l : List TELFConcept) (i k : Nat)
    (c : TELFConcept) (h : (l.modify f i)[k]? = some c) :
    ∃ c0, l[k]? = some c0 ∧ c = if i = k then f c0 else c0 := by
  rw [List.getElem?_modify] at h
  cases hk : l[k]? with
  | none => rw [hk] at h; cases h
  | some c0 =>
    rw [hk] at h
    simp only [Option.map_eq_map, Option.map_some', Option.some.injEq] at h
    exact ⟨c0, rfl, h.symm⟩

theorem closed_modify (a : ELFReasoner) (f : TELFConcept → TELFConcept) (i : Nat)
    (h : Closed a) (hf : ∀ c, (f c).Origin = c.Origin)
    (hs : ∀ c ∈ a.CMap, ∀ x ∈ (f c).Supers, x < a.CMap.length)
    (hr : ∀ c ∈ a.CMap, ∀ r ∈ (f c).Rules, ruleBound a.CMap.length r) :
    Closed { a with CMap := a.CMap.modify f i } := by
  constructor
  · simp only [modify_origins f hf]
    exact h.nodup
  · simp only [List.length_modify]
    exact h.top
  · intro c hc x hx
    simp only [List.length_modify]
    rcases mem_modify f _ _ _ hc with hc1 | ⟨c0, hc0, e⟩
    · exact h.supers c hc1 x hx
    · subst e
      exact hs c0 hc0 x hx
  · intro c hc r hx
    simp only [List.length_modify]
    rcases mem_modify f _ _ _ hc with hc1 | ⟨c0, hc0, e⟩
    · exact h.rules c hc1 r hx
    · subst e
      exact hr c0 hc0 r hx
  · intro x hx
    simp only [List.length_modify]
    exact h.queue x hx

theorem modify_sim (D : TConceptExpr) (bld : Bool) (σ : Nat → Nat) (a b : ELFReasoner)
    (h : Sim D bld σ a b) (i : Nat) (hi : i < a.CMap.length)
    (f g : TELFConcept → TELFConcept) (hg : ∀ c, (g c).Origin = c.Origin)
    (hcomm : ∀ c, a.CMap[i]? = some c → g (renameC σ c) = renameC σ (f c))
    (hclosed : Closed { a with CMap := a.CMap.modify f i }) :
    Sim D bld σ { a with CMap := a.CMap.modify f i }
      { b with CMap := b.CMap.modify g (σ i) } := by
  refine ⟨hclosed, ?_, h.rmap, h.top, h.queue, ?_, ?_⟩
  · simp only [modify_origins g hg]
    exact h.nodupB
  · intro k c hk
    obtain ⟨c0, hk0, e⟩ := get_modify_some f _ _ _ _ hk
    by_cases hik : i = k
    · subst hik
      rw [if_pos rfl] at e
      subst e
      simp only
      rw [get_modify_same g _ _ _ (h.entry i c0 hk0), hcomm c0 hk0]
    · rw [if_neg hik] at e
      subst e
      have hne : σ i ≠ σ k := fun e1 =>
        hik (sim_inj D bld σ a b h i k hi (lt_of_get _ _ _ hk0) e1)
      simp only
      rw [get_modify_ne g _ _ _ hne]
      exact h.entry k c hk0
  · intro j c hj
    obtain ⟨c0, hj0, e⟩ := get_modify_some g _ _ _ _ hj
    by_cases hij : σ i = j
    · exact Or.inl ⟨i, by simpa only [List.length_modify] using hi, hij⟩
    · rw [if_neg hij] at e
      subst e
      rcases h.dead j c hj0 with ⟨k, hk, e1⟩ | hd
      · exact Or.inl ⟨k, by simpa only [List.length_modify] using hk, e1⟩
      · exact Or.inr hd

theorem dead_modify (D : TConceptExpr) (σ : Nat → Nat) (a b : ELFReasoner)
    (h : Sim D false σ a b) (j : Nat) (hj : ∀ i, i < a.CMap.length → σ i ≠ j)
    (g : TELFConcept → TELFConcept) (hg : ∀ c, (g c).Origin = c.Origin)
    (hgr : ∀ c, (g c).Rules = c.Rules) :
    Sim D false σ a { b with CMap := b.CMap.modify g j } := by
  refine ⟨h.closed, ?_, (fun e => by cases e), h.top, h.queue, ?_, ?_⟩
  · simp only [modify_origins g hg]
    exact h.nodupB
  · intro i c hc
    simp only
    rw [get_modify_ne g _ _ _ (fun e => hj i (lt_of_get _ _ _ hc) e.symm)]
    exact h.entry i c hc
  · intro k c hk
    obtain ⟨c0, hk0, e⟩ := get_modify_some g _ _ _ _ hk
    rcases h.dead k c0 hk0 with hl | ⟨h1, h2, _⟩
    · exact Or.inl hl
    · refine Or.inr ⟨?_, ?_, (fun e => by cases e)⟩
      · rw [e]; split
        · rw [hg]; exact h1
        · exact h1
      · rw [e]; split
        · rw [hgr]; exact h2
        · exact h2

theorem addRule_sim (D : TConceptExpr) (σ : Nat → Nat) (a b : ELFReasoner)
    (h : Sim D true σ a b) (i : Nat) (hi : i < a.CMap.length) (r : TELFRule)
    (hr : ruleBound a.CMap.length r) :
    Sim D true σ (a.addRule i r) (b.addRule (σ i) (renameRule σ r)) := by
  unfold addRule
  apply modify_sim D true σ a b h i hi
  · intro c; rfl
  · intro c _
    simp only [renameC, List.map_append, List.map_cons, List.map_nil]
  · apply closed_modify a (fun c => { c with Rules := c.Rules ++ [r] }) i h.closed
      (fun c => rfl)
    · intro c hc x hx
      exact h.closed.supers c hc x hx
    · intro c hc r1 hr1
      simp only [List.mem_append, List.mem_singleton] at hr1
      rcases hr1 with h1 | h1
      · exact h.closed.rules c hc r1 h1
      · subst h1; exact hr

theorem addRule_length (a : ELFReasoner) (i : Nat) (r : TELFRule) :
    (a.addRule i r).CMap.length = a.CMap.length := by
  simp only [addRule, List.length_modify]

theorem processCI_sup_exists (er : ELFReasoner) (X : TConceptExpr) (R : TORoleExpr)
    (E : TConceptExpr) :
    er.processCI X (TConceptExpr.Exists R E) =
      (((er.getC X).2.getR R).2.getC E).2.addRule (er.getC X).1
        (TELFRule.RAddRule ((er.getC X).2.getR R).1 (((er.getC X).2.getR R).2.getC E).1) :=
  rfl

theorem processCI_sub_exists (er : ELFReasoner) (R : TORoleExpr) (C Y : TConceptExpr)
    (hY : ∀ R1 E, Y ≠ TConceptExpr.Exists R1 E) :
    er.processCI (TConceptExpr.Exists R C) Y = (er.getC Y).2 := by
  cases Y <;> first | rfl | exact absurd rfl (hY _ _)

theorem processCI_sub_and (er : ELFReasoner) (A B Y : TConceptExpr)
    (hY : ∀ R1 E, Y ≠ TConceptExpr.Exists R1 E) :
    er.processCI (TConceptExpr.And A B) Y =
      ((((er.getC Y).2.getC A).2.getC B).2.addRule ((er.getC Y).2.getC A).1
        (TELFRule.CAndSubRule (((er.getC Y).2.getC A).2.getC B).1 (er.getC Y).1)).addRule
        (((er.getC Y).2.getC A).2.getC B).1
        (TELFRule.CAndSubRule ((er.getC Y).2.getC A).1 (er.getC Y).1) := by
  cases Y <;> first | rfl | exact absurd rfl (hY _ _)

theorem processCI_sub_other (er : ELFReasoner) (X Y : TConceptExpr)
    (hY : ∀ R1 E, Y ≠ TConceptExpr.Exists R1 E)
    (hX1 : ∀ R1 E, X ≠ TConceptExpr.Exists R1 E)
    (hX2 : ∀ A B, X ≠ TConceptExpr.And A B) :
    er.processCI X Y =
      ((er.getC Y).2.getC X).2.addRule ((er.getC Y).2.getC X).1
        (TELFRule.CSubRule (er.getC Y).1) := by
  cases Y with
  | Exists R1 E => exact absurd rfl (hY R1 E)
  | _ =>
    cases X with
    | Exists R1 E => exact absurd rfl (hX1 R1 E)
    | And A B => exact absurd rfl (hX2 A B)
    | _ => rfl

theorem processCI_sim (D : TConceptExpr) (σ : Nat → Nat) (a b : ELFReasoner)
    (X Y : TConceptExpr) (h : Sim D true σ a b) :
    ∃ τ, Sim D true τ (a.processCI X Y) (b.processCI X Y) := by
  by_cases hY : ∃ R E, Y = TConceptExpr.Exists R E
  · obtain ⟨R, E, rfl⟩ := hY
    obtain ⟨τ1, _, s1, i1, l1, _⟩ := getC_sim D σ a b X h
    obtain ⟨s2, r2, c2⟩ := getR_sim D τ1 _ _ R s1
    obtain ⟨τ3, e3, s3, i3, l3, m3⟩ := getC_sim D τ1 _ _ E s2
    rw [c2] at e3 m3
    have hlt : (a.getC X).1 < (((a.getC X).2.getR R).2.getC E).2.CMap.length := by omega
    have key := addRule_sim D τ3 _ _ s3 (a.getC X).1 hlt
      (TELFRule.RAddRule ((a.getC X).2.getR R).1 (((a.getC X).2.getR R).2.getC E).1) l3
    refine ⟨τ3, ?_⟩
    rw [processCI_sup_exists, processCI_sup_exists, i3, r2, i1, ← e3 _ l1]
    exact key
  · have hY1 : ∀ R1 E, Y ≠ TConceptExpr.Exists R1 E := fun R1 E e => hY ⟨R1, E, e⟩
    obtain ⟨τ1, _, s1, i1, l1, _⟩ := getC_sim D σ a b Y h
    by_cases hX : ∃ R E, X = TConceptExpr.Exists R E
    · obtain ⟨R, E, rfl⟩ := hX
      rw [processCI_sub_exists _ _ _ _ hY1, processCI_sub_exists _ _ _ _ hY1]
      exact ⟨τ1, s1⟩
    · have hX1 : ∀ R1 E, X ≠ TConceptExpr.Exists R1 E := fun R1 E e => hX ⟨R1, E, e⟩
      by_cases hA : ∃ A B, X = TConceptExpr.And A B
      · obtain ⟨A, B, rfl⟩ := hA
        obtain ⟨τ2, e2, s2, i2, l2, m2⟩ := getC_sim D τ1 _ _ A s1
        obtain ⟨τ3, e3, s3, i3, l3, m3⟩ := getC_sim D τ2 _ _ B s2
        have hd : (a.getC Y).1 < (((a.getC Y).2.getC A).2.getC B).2.CMap.length := by omega
        have hc1 : ((a.getC Y).2.getC A).1 < (((a.getC Y).2.getC A).2.getC B).2.CMap.length := by
          omega
        have k1 := addRule_sim D τ3 _ _ s3 ((a.getC Y).2.getC A).1 hc1
          (TELFRule.CAndSubRule (((a.getC Y).2.getC A).2.getC B).1 (a.getC Y).1) ⟨l3, hd⟩
        have k2 := addRule_sim D τ3 _ _ k1 (((a.getC Y).2.getC A).2.getC B).1
          (by rw [addRule_length]; exact l3)
          (TELFRule.CAndSubRule ((a.getC Y).2.getC A).1 (a.getC Y).1)
          (by rw [addRule_length]; exact ⟨hc1, hd⟩)
        have hdτ : τ3 (a.getC Y).1 = τ1 (a.getC Y).1 := by
          rw [e3 _ (by omega), e2 _ l1]
        refine ⟨τ3, ?_⟩
        rw [processCI_sub_and _ _ _ _ hY1, processCI_sub_and _ _ _ _ hY1, i3, i2, i1,
          ← e3 _ l2, ← hdτ]
        exact k2
      · have hX2 : ∀ A B, X ≠ TConceptExpr.And A B := fun A B e => hA ⟨A, B, e⟩
        obtain ⟨τ2, e2, s2, i2, l2, m2⟩ := getC_sim D τ1 _ _ X s1
        have hd : (a.getC Y).1 < ((a.getC Y).2.getC X).2.CMap.length := by omega
        have k1 := addRule_sim D τ2 _ _ s2 ((a.getC Y).2.getC X).1 l2
          (TELFRule.CSubRule (a.getC Y).1) hd
        refine ⟨τ2, ?_⟩
        rw [processCI_sub_other _ _ _ hY1 hX1 hX2, processCI_sub_other _ _ _ hY1 hX1 hX2,
          i2, i1, ← e2 _ l1]
        exact k1

theorem ctorStep_sim (D : TConceptExpr) (σ : Nat → Nat) (a b : ELFReasoner)
    (ax : TDLAxiom) (h : Sim D true σ a b) :
    ∃ τ, Sim D true τ (ctorStep a ax) (ctorStep b ax) := by
  cases ax with
  | ConceptInclusion X Y => exact processCI_sim D σ a b X Y h
  | ORoleSubsumption c R => exact ⟨σ, (getR_sim D σ a b R h).1⟩
  | Other => exact ⟨σ, h⟩

theorem foldl_ctorStep_sim (D : TConceptExpr) (ont : List TDLAxiom) :
    ∀ (σ : Nat → Nat) (a b : ELFReasoner), Sim D true σ a b →
      ∃ τ, Sim D true τ (ont.foldl ctorStep a) (ont.foldl ctorStep b) := by
  induction ont with
  | nil => intro σ a b h; exact ⟨σ, h⟩
  | cons ax rest ih =>
    intro σ a b h
    obtain ⟨τ, h1⟩ := ctorStep_sim D σ a b ax h
    exact ih τ _ _ h1

theorem closed_ctorInit : Closed ctorInit := by
  have hall : ∀ c ∈ ctorInit.CMap, c.Supers = [] ∧ c.Rules = [] := by decide
  constructor
  · decide
  · decide
  · intro c hc x hx
    rw [(hall c hc).1] at hx; cases hx
  · intro c hc r hr
    rw [(hall c hc).2] at hr; cases hr
  · intro x hx
    have : ctorInit.queue = [] := by decide
    rw [this] at hx; cases hx

theorem closed_foldl (ont : List TDLAxiom) : Closed (ont.foldl ctorStep ctorInit) := by
  obtain ⟨_, h⟩ := foldl_ctorStep_sim TConceptExpr.Top ont id _ _
    (sim_refl TConceptExpr.Top true ctorInit closed_ctorInit)
  exact h.closed

theorem sim_start (D : TConceptExpr) (a : ELFReasoner) (h : Closed a) :
    Sim D true id a (a.getC D).2 := by
  cases ha : a.CMap.findIdx? (fun c => c.Origin = D) with
  | some i =>
    rw [getC_found a D i ha]
    exact sim_refl D true a h
  | none =>
    have hp : D ∉ a.CMap.map (fun c => c.Origin) := (findIdx_origin_none _ _).1 ha
    rw [getC_new a D ha]
    have h0 := sim_refl D true a h
    refine ⟨h, (closed_append a D h hp).nodup, fun _ => rfl, h0.top, h0.queue, ?_, ?_⟩
    · intro i c hc
      simp only [id_eq]
      rw [List.getElem?_append_left (lt_of_get _ _ _ hc)]
      exact h0.entry i c hc
    · intro j c hj
      rcases getElem?_snoc_some _ _ _ _ hj with ⟨hl, _⟩ | ⟨_, hc⟩
      · exact Or.inl ⟨j, hl, rfl⟩
      · subst hc
        exact Or.inr ⟨rfl, rfl, fun _ => rfl⟩

theorem sim_weaken (D : TConceptExpr) (σ : Nat → Nat) (a b : ELFReasoner)
    (h : Sim D true σ a b) : Sim D false σ a b :=
  ⟨h.closed, h.nodupB, (fun e => by cases e), h.top, h.queue, h.entry, fun j c hj =>
    (h.dead j c hj).imp id (fun hd => ⟨hd.1, hd.2.1, (fun e => by cases e)⟩)⟩

theorem ctor_sim (D : TConceptExpr) (pre post : List TDLAxiom) (R : TORoleExpr)
    (C : TConceptExpr) (hD : ∀ R1 E, D ≠ TConceptExpr.Exists R1 E) :
    ∃ τ, Sim D false τ (ctor (pre ++ post))
      (ctor (pre ++ TDLAxiom.ConceptInclusion (TConceptExpr.Exists R C) D :: post)) := by
  rw [ctor_eq_foldl, ctor_eq_foldl, List.foldl_append, List.foldl_append, List.foldl_cons]
  have h0 := sim_start D _ (closed_foldl pre)
  obtain ⟨τ, h1⟩ := foldl_ctorStep_sim D post id _ _ h0
  refine ⟨τ, sim_weaken D τ _ _ ?_⟩
  have e : ctorStep (pre.foldl ctorStep ctorInit)
      (TDLAxiom.ConceptInclusion (TConceptExpr.Exists R C) D)
      = ((pre.foldl ctorStep ctorInit).getC D).2 := processCI_sub_exists _ _ _ _ hD
  rw [e]
  exact h1

theorem hasSuper_sim (D : TConceptExpr) (bld : Bool) (σ : Nat → Nat) (a b : ELFReasoner)
    (h : Sim D bld σ a b) (X C : Nat) (hX : X < a.CMap.length) (hC : C < a.CMap.length) :
    b.hasSuper (σ X) (σ C) = a.hasSuper X C := by
  obtain ⟨c, hc, hcm⟩ := get_of_lt a.CMap X hX
  simp only [hasSuper, List.get?_eq_getElem?, hc, h.entry X c hc, renameC]
  rw [decide_eq_decide]
  constructor
  · intro hm
    obtain ⟨x, hx, e⟩ := List.mem_map.1 hm
    have := sim_inj D bld σ a b h x C (h.closed.supers c hcm x hx) hC e
    subst this
    exact hx
  · exact List.mem_map_of_mem σ

theorem addAction_sim (D : TConceptExpr) (bld : Bool) (σ : Nat → Nat) (a b : ELFReasoner)
    (h : Sim D bld σ a b) (x : ELFAction) (hC : x.C < a.CMap.length)
    (hD : x.D < a.CMap.length) :
    Sim D bld σ (a.addAction x) (b.addAction (renameA σ x)) := by
  refine sim_frame D bld σ a b (a.addAction x) (b.addAction (renameA σ x)) h rfl rfl rfl rfl
    ?_ ?_ ?_
  · simp only [addAction, h.queue, List.map_append, List.map_cons, List.map_nil]
  · intro y hy
    simp only [addAction, List.mem_append, List.mem_singleton] at hy
    rcases hy with hy | hy
    · exact h.closed.queue y hy
    · subst hy; exact ⟨hC, hD⟩
  · exact h.rmap

theorem applyRule_CMap (a : ELFReasoner) (r : TELFRule) (C : Nat) :
    (a.applyRule r C).CMap = a.CMap := by
  cases r with
  | CSubRule s => rfl
  | CAndSubRule c s =>
    simp only [applyRule]
    split <;> rfl
  | RAddRule r f => rfl

theorem applyRule_sim (D : TConceptExpr) (bld : Bool) (σ : Nat → Nat) (a b : ELFReasoner)
    (h : Sim D bld σ a b) (r : TELFRule) (C : Nat) (hr : ruleBound a.CMap.length r)
    (hC : C < a.CMap.length) :
    Sim D bld σ (a.applyRule r C) (b.applyRule (renameRule σ r) (σ C)) := by
  cases r with
  | CSubRule s =>
    exact addAction_sim D bld σ a b h { R := none, C := C, D := s } hC hr
  | CAndSubRule c s =>
    simp only [applyRule, renameRule]
    rw [hasSuper_sim D bld σ a b h C c hC hr.1]
    split
    · exact addAction_sim D bld σ a b h { R := none, C := C, D := s } hC hr.2
    · exact h
  | RAddRule r f =>
    exact addAction_sim D bld σ a b h { R := some r, C := C, D := f } hC hr

theorem foldl_applyRule_CMap (C : Nat) (rules : List TELFRule) :
    ∀ a : ELFReasoner, (rules.foldl (fun e r => e.applyRule r C) a).CMap = a.CMap := by
  induction rules with
  | nil => intro a; rfl
  | cons r rest ih =>
    intro a
    rw [List.foldl_cons, ih, applyRule_CMap]

theorem foldl_applyRule_sim (D : TConceptExpr) (bld : Bool) (σ : Nat → Nat) (C : Nat)
    (rules : List TELFRule) :
    ∀ (a b : ELFReasoner), Sim D bld σ a b → (∀ r ∈ rules, ruleBound a.CMap.length r) →
      C < a.CMap.length →
      Sim D bld σ (rules.foldl (fun e r => e.applyRule r C) a)
        ((rules.map (renameRule σ)).foldl (fun e r => e.applyRule r (σ C)) b) := by
  induction rules with
  | nil => intro a b h _ _; exact h
  | cons r rest ih =>
    intro a b h hr hC
    rw [List.map_cons, List.foldl_cons, List.foldl_cons]
    apply ih
    · exact applyRule_sim D bld σ a b h r C (hr r (List.mem_cons_self _ _)) hC
    · intro r1 hr1
      rw [applyRule_CMap]
      exact hr r1 (List.mem_cons_of_mem _ hr1)
    · rw [applyRule_CMap]; exact hC

theorem applyRules_CMap (a : ELFReasoner) (X C : Nat) : (a.applyRules X C).CMap = a.CMap := by
  unfold applyRules
  cases a.CMap.get? X with
  | none => rfl
  | some c => exact foldl_applyRule_CMap C c.Rules a

theorem addC_origins (a : ELFReasoner) (X C : Nat) :
    (a.addC X C).CMap.map (fun c => c.Origin) = a.CMap.map (fun c => c.Origin) := by
  unfold addC
  split
  · rfl
  · simp only
    rw [applyRules_CMap]
    exact modify_origins (fun c => { c with Supers := setInsert c.Supers C })
      (fun c => rfl) _ _

theorem addC_length (a : ELFReasoner) (X C : Nat) :
    (a.addC X C).CMap.length = a.CMap.length := by
  have := congrArg List.length (addC_origins a X C)
  simpa only [List.length_map] using this

theorem addC_CTop (a : ELFReasoner) (X C : Nat) : (a.addC X C).CTop = a.CTop := by
  unfold addC
  split
  · rfl
  · simp only [applyRules]
    split
    · rename_i c _
      have : ∀ (rules : List TELFRule) (e : ELFReasoner),
          (rules.foldl (fun e r => e.applyRule r C) e).CTop = e.CTop := by
        intro rules
        induction rules with
        | nil => intro e; rfl
        | cons r rest ih =>
          intro e
          rw [List.foldl_cons, ih]
          cases r with
          | CSubRule s => rfl
          | CAndSubRule c s =>
            simp only [applyRule]
            split <;> rfl
          | RAddRule r f => rfl
      rw [this]
    · rfl

theorem addC_sim (D : TConceptExpr) (bld : Bool) (σ : Nat → Nat) (a b : ELFReasoner)
    (h : Sim D bld σ a b) (X C : Nat) (hX : X < a.CMap.length) (hC : C < a.CMap.length) :
    Sim D bld σ (a.addC X C) (b.addC (σ X) (σ C)) := by
  unfold addC
  rw [hasSuper_sim D bld σ a b h X C hX hC]
  by_cases hs : a.hasSuper X C = true
  · rw [if_pos hs, if_pos hs]
    exact h
  · rw [if_neg hs, if_neg hs]
    obtain ⟨c, hc, hcm⟩ := get_of_lt a.CMap X hX
    have hnot : C ∉ c.Supers := by
      intro hin
      apply hs
      simp only [hasSuper, List.get?_eq_getElem?, hc, hin, decide_True]
    have hnot1 : σ C ∉ c.Supers.map σ := by
      intro hm
      obtain ⟨x, hx, e⟩ := List.mem_map.1 hm
      have := sim_inj D bld σ a b h x C (h.closed.supers c hcm x hx) hC e
      subst this
      exact hnot hx
    have hcl := closed_modify a (fun c => { c with Supers := setInsert c.Supers C }) X
      h.closed (fun c => rfl) ?_ ?_
    rotate_left
    · intro c1 hc1 x hx
      simp only [setInsert] at hx
      split at hx
      · exact h.closed.supers c1 hc1 x hx
      · simp only [List.mem_append, List.mem_singleton] at hx
        rcases hx with hx | hx
        · exact h.closed.supers c1 hc1 x hx
        · subst hx; exact hC
    · intro c1 hc1 r hr
      exact h.closed.rules c1 hc1 r hr
    have s1 := modify_sim D bld σ a b h X hX
      (fun c => { c with Supers := setInsert c.Supers C })
      (fun c => { c with Supers := setInsert c.Supers (σ C) }) (fun c => rfl)
      (by
        intro c1 hc1
        rw [hc] at hc1
        have := Option.some.inj hc1
        subst this
        simp only [renameC, setInsert, if_neg hnot, if_neg hnot1, List.map_append,
          List.map_cons, List.map_nil])
      hcl
    have ha1 := get_modify_same (fun c => { c with Supers := setInsert c.Supers C }) _ _ _ hc
    have hb1 := s1.entry X _ ha1
    simp only at hb1
    simp only [applyRules, List.get?_eq_getElem?, ha1, hb1, renameC]
    apply foldl_applyRule_sim D bld σ C c.Rules _ _ s1
    · intro r hr
      simp only [List.length_modify]
      exact h.closed.rules c hcm r hr
    · simp only [List.length_modify]
      exact hC

theorem addC_dead (D : TConceptExpr) (σ : Nat → Nat) (a b : ELFReasoner)
    (h : Sim D false σ a b) (j C : Nat) (hj : ∀ i, i < a.CMap.length → σ i ≠ j) :
    Sim D false σ a (b.addC j C) := by
  unfold addC
  split
  · exact h
  · have s1 := dead_modify D σ a b h j hj
      (fun c => { c with Supers := setInsert c.Supers C }) (fun c => rfl) (fun c => rfl)
    simp only [applyRules, List.get?_eq_getElem?]
    split
    · rename_i c1 hc1
      rcases s1.dead j c1 hc1 with ⟨i, hi, e⟩ | ⟨_, hr, _⟩
      · exact absurd e (hj i hi)
      · rw [hr]
        exact s1
    · exact s1

theorem applyAction_sim (D : TConceptExpr) (σ : Nat → Nat) (a b : ELFReasoner)
    (h : Sim D false σ a b) (x : ELFAction) (hC : x.C < a.CMap.length)
    (hD : x.D < a.CMap.length) :
    Sim D false σ (a.applyAction x) (b.applyAction (renameA σ x)) := by
  unfold applyAction
  cases hx : x.R with
  | some r =>
    simp only [renameA, hx]
    exact sim_frame D false σ a b (a.addR r x.C x.D) (b.addR r (σ x.C) (σ x.D)) h rfl rfl
      rfl rfl h.queue h.closed.queue (fun e => by cases e)
  | none =>
    simp only [renameA, hx]
    exact addC_sim D false σ a b h x.C x.D hC hD

theorem sim_tail (D : TConceptExpr) (bld : Bool) (σ : Nat → Nat) (a b : ELFReasoner)
    (h : Sim D bld σ a b) :
    Sim D bld σ { a with queue := a.queue.tail } { b with queue := b.queue.tail } := by
  refine sim_frame D bld σ a b { a with queue := a.queue.tail }
    { b with queue := b.queue.tail } h rfl rfl rfl rfl ?_ ?_ ?_
  · simp only [h.queue, List.map_tail]
  · intro x hx
    exact h.closed.queue x (List.mem_of_mem_tail hx)
  · exact h.rmap

theorem drain_sim (D : TConceptExpr) (σ : Nat → Nat) :
    ∀ (fuel : Nat) (a b : ELFReasoner), Sim D false σ a b →
      (drain fuel a = none ∧ drain fuel b = none) ∨
        ∃ a1 b1, drain fuel a = some a1 ∧ drain fuel b = some b1 ∧ Sim D false σ a1 b1 := by
  intro fuel
  induction fuel with
  | zero =>
    intro a b h
    cases hq : a.queue with
    | nil =>
      have hb : b.queue = [] := by rw [h.queue, hq]; rfl
      exact Or.inr ⟨a, b, by simp [drain, hq], by simp [drain, hb], h⟩
    | cons x rest =>
      have hb : b.queue = renameA σ x :: rest.map (renameA σ) := by rw [h.queue, hq]; rfl
      exact Or.inl ⟨by simp [drain, hq], by simp [drain, hb]⟩
  | succ n ih =>
    intro a b h
    cases hq : a.queue with
    | nil =>
      have hb : b.queue = [] := by rw [h.queue, hq]; rfl
      exact Or.inr ⟨a, b, by simp [drain, hq], by simp [drain, hb], h⟩
    | cons x rest =>
      have hb : b.queue = renameA σ x :: rest.map (renameA σ) := by rw [h.queue, hq]; rfl
      have hx := h.closed.queue x (by rw [hq]; exact List.mem_cons_self _ _)
      have s1 := sim_tail D false σ _ _ (applyAction_sim D σ a b h x hx.1 hx.2)
      have ea : drain (n + 1) a = drain n
          { a.applyAction x with queue := (a.applyAction x).queue.tail } := by
        simp only [drain, hq]
      have eb : drain (n + 1) b = drain n
          { b.applyAction (renameA σ x) with
            queue := (b.applyAction (renameA σ x)).queue.tail } := by
        simp only [drain, hb]
      rw [ea, eb]
      exact ih _ _ s1

theorem findIdx_origin_congr (p : TConceptExpr) :
    ∀ (l l1 : List TELFConcept) (i : Nat),
      l1.map (fun c => c.Origin) = l.map (fun c => c.Origin) →
      List.findIdx? (fun c => decide (c.Origin = p)) l1 i
        = List.findIdx? (fun c => decide (c.Origin = p)) l i := by
  intro l
  induction l with
  | nil =>
    intro l1 i h
    have : l1 = [] := by simpa using h
    rw [this]
  | cons x xs ih =>
    intro l1 i h
    cases l1 with
    | nil => simp at h
    | cons y ys =>
      simp only [List.map_cons, List.cons.injEq] at h
      rw [List.findIdx?_cons, List.findIdx?_cons, h.1, ih ys (i + 1) h.2]

theorem keyOrder_congr (a a1 : ELFReasoner) (ord : List TConceptExpr)
    (h : a1.CMap.map (fun c => c.Origin) = a.CMap.map (fun c => c.Origin)) :
    keyOrder a1 ord = keyOrder a ord := by
  unfold keyOrder
  congr 1
  funext p
  exact findIdx_origin_congr p _ _ 0 h

theorem keyOrder_cons (a : ELFReasoner) (p : TConceptExpr) (ord : List TConceptExpr) :
    keyOrder a (p :: ord) = keyOrder a [p] ++ keyOrder a ord := by
  simp only [keyOrder, List.filterMap_cons, List.filterMap_nil]
  cases a.CMap.findIdx? (fun c => decide (c.Origin = p)) <;> rfl

theorem firstLoop_origins (order : List Nat) :
    ∀ a : ELFReasoner,
      (order.foldl (fun e C => (e.addC C e.CTop).addC C C) a).CMap.map (fun c => c.Origin)
        = a.CMap.map (fun c => c.Origin) := by
  induction order with
  | nil => intro a; rfl
  | cons x rest ih =>
    intro a
    rw [List.foldl_cons, ih, addC_origins, addC_origins]

theorem firstStep_sim (D : TConceptExpr) (σ : Nat → Nat) (a b : ELFReasoner)
    (p : TConceptExpr) (h : Sim D false σ a b) :
    Sim D false σ ((keyOrder a [p]).foldl (fun e C => (e.addC C e.CTop).addC C C) a)
      ((keyOrder b [p]).foldl (fun e C => (e.addC C e.CTop).addC C C) b) := by
  cases ha : a.CMap.findIdx? (fun c => c.Origin = p) with
  | some i =>
    obtain ⟨c, hc, hcp⟩ := findIdx_origin_some _ _ _ ha
    have hb : b.CMap.findIdx? (fun c => c.Origin = p) = some (σ i) := by
      have := findIdx_of_get b.CMap h.nodupB (σ i) (renameC σ c) (h.entry i c hc)
      simpa [renameC, hcp] using this
    have hi := lt_of_get _ _ _ hc
    simp only [keyOrder, List.filterMap_cons, List.filterMap_nil, ha, hb, List.foldl_cons,
      List.foldl_nil]
    rw [h.top]
    have s1 := addC_sim D false σ a b h i a.CTop hi h.closed.top
    exact addC_sim D false σ _ _ s1 i i (by rw [addC_length]; exact hi)
      (by rw [addC_length]; exact hi)
  | none =>
    have hp : p ∉ a.CMap.map (fun c => c.Origin) := (findIdx_origin_none _ _).1 ha
    cases hb : b.CMap.findIdx? (fun c => c.Origin = p) with
    | none =>
      simp only [keyOrder, List.filterMap_cons, List.filterMap_nil, ha, hb, List.foldl_nil]
      exact h
    | some j =>
      obtain ⟨d, hd, hdp⟩ := findIdx_origin_some _ _ _ hb
      obtain ⟨hj, _⟩ := sim_origin_mem D false σ a b h j d hd (by rw [hdp]; exact hp)
      simp only [keyOrder, List.filterMap_cons, List.filterMap_nil, ha, hb, List.foldl_cons,
        List.foldl_nil]
      exact addC_dead D σ a _ (addC_dead D σ a b h j b.CTop hj) j j hj

theorem firstLoop_sim (D : TConceptExpr) (σ : Nat → Nat) (ord : List TConceptExpr) :
    ∀ (a b : ELFReasoner), Sim D false σ a b →
      Sim D false σ ((keyOrder a ord).foldl (fun e C => (e.addC C e.CTop).addC C C) a)
        ((keyOrder b ord).foldl (fun e C => (e.addC C e.CTop).addC C C) b) := by
  induction ord with
  | nil => intro a b h; exact h
  | cons p rest ih =>
    intro a b h
    rw [keyOrder_cons a p rest, keyOrder_cons b p rest, List.foldl_append, List.foldl_append]
    have s1 := firstStep_sim D σ a b p h
    rw [← keyOrder_congr a _ rest (firstLoop_origins (keyOrder a [p]) a),
      ← keyOrder_congr b _ rest (firstLoop_origins (keyOrder b [p]) b)]
    exact ih _ _ s1

theorem S_sim (D : TConceptExpr) (σ : Nat → Nat) (a b : ELFReasoner)
    (h : Sim D false σ a b) (p : TConceptExpr)
    (hp : p ≠ D ∨ p ∈ a.CMap.map (fun c => c.Origin)) : b.S p = a.S p := by
  unfold S
  cases ha : a.CMap.find? (fun c => c.Origin = p) with
  | some c =>
    have hcp : c.Origin = p := by
      have := List.find?_some ha
      simpa using this
    obtain ⟨i, hi⟩ := List.mem_iff_getElem?.1 (List.mem_of_find?_eq_some ha)
    have hb : b.CMap.find? (fun c => c.Origin = p) = some (renameC σ c) := by
      have := find_of_get b.CMap h.nodupB (σ i) (renameC σ c) (h.entry i c hi)
      simpa [renameC, hcp] using this
    rw [hb]
    simp only [renameC, List.filterMap_map]
    apply List.filterMap_congr
    intro x hx
    obtain ⟨d, hd, _⟩ := get_of_lt a.CMap x (h.closed.supers c (mem_of_get _ _ _ hi) x hx)
    simp only [Function.comp, List.get?_eq_getElem?, hd, h.entry x d hd, renameC,
      Option.map_some']
  | none =>
    have hpa : p ∉ a.CMap.map (fun c => c.Origin) := (find_origin_none _ _).1 ha
    have hpD : p ≠ D := by
      rcases hp with hp | hp
      · exact hp
      · exact absurd hp hpa
    cases hb : b.CMap.find? (fun c => c.Origin = p) with
    | none => rfl
    | some d =>
      have hdp : d.Origin = p := by
        have := List.find?_some hb
        simpa using this
      obtain ⟨j, hj⟩ := List.mem_iff_getElem?.1 (List.mem_of_find?_eq_some hb)
      obtain ⟨_, hdD, _⟩ := sim_origin_mem D false σ a b h j d hj (by rw [hdp]; exact hpa)
      exact absurd (hdp.symm.trans hdD) hpD

theorem classify_sim (D : TConceptExpr) (σ : Nat → Nat) (a b : ELFReasoner)
    (h : Sim D false σ a b) (ord : List TConceptExpr) (fuel : Nat) :
    (classify (keyOrder a ord) fuel a = none ∧ classify (keyOrder b ord) fuel b = none) ∨
      ∃ a1 b1, classify (keyOrder a ord) fuel a = some a1 ∧
        classify (keyOrder b ord) fuel b = some b1 ∧ Sim D false σ a1 b1 :=
  drain_sim D σ fuel _ _ (firstLoop_sim D σ ord a b h)

theorem processCI_sub_exists_frame (er : ELFReasoner) (R : TORoleExpr) (C D : TConceptExpr)
    (hD : ∀ R1 E, D ≠ TConceptExpr.Exists R1 E) :
    (er.processCI (TConceptExpr.Exists R C) D).RMap = er.RMap ∧
      (er.processCI (TConceptExpr.Exists R C) D).queue = er.queue ∧
      ((er.processCI (TConceptExpr.Exists R C) D).CMap = er.CMap ∨
        (er.processCI (TConceptExpr.Exists R C) D).CMap
          = er.CMap ++ [{ Origin := D, Supers := [], Rules := [] }]) := by
  rw [processCI_sub_exists er R C D hD]
  unfold getC
  cases er.CMap.findIdx? (fun c => c.Origin = D) with
  | some i => exact ⟨rfl, rfl, Or.inl rfl⟩
  | none => exact ⟨rfl, rfl, Or.inr rfl⟩

theorem drain_origins : ∀ (fuel : Nat) (a a1 : ELFReasoner), drain fuel a = some a1 →
    a1.CMap.map (fun c => c.Origin) = a.CMap.map (fun c => c.Origin) := by
  intro fuel
  induction fuel with
  | zero =>
    intro a a1 h
    simp only [drain] at h
    split at h
    · cases h; rfl
    · cases h
  | succ n ih =>
    intro a a1 h
    cases hq : a.queue with
    | nil =>
      simp only [drain, hq] at h
      cases h; rfl
    | cons x rest =>
      simp only [drain, hq] at h
      rw [ih _ _ h]
      simp only [applyAction]
      cases x.R with
      | some r => rfl
      | none => exact addC_origins a x.C x.D

/-- Claim C31: an axiom `EXISTS R.C [= D`, with `D` not itself an existential
(the right side is then "a concept name or bottom" for `processCI`), never
fires.  On every state `processCI` leaves the roles and the queue as they are
and at most appends the entry of `D`, with an empty set and no rule, to the
concept map, so no rule is attached for the axiom.  Let the first loop of
`classify` run over the keys in the order `ord` in both runs.  Then for every
bound on the second loop and every concept `p` other than `D` (and for `D`
too when the ontology without the axiom has an entry for it) the set `S(p)`
after `classify` is the same with and without the axiom, and there is a bound
from which on both runs return. -/
theorem exists_sub_never_fires (pre post : List TDLAxiom) (R : TORoleExpr)
    (C D : TConceptExpr) (hD : ∀ R1 E, D ≠ TConceptExpr.Exists R1 E) :
    (∀ er : ELFReasoner,
      (er.processCI (TConceptExpr.Exists R C) D).RMap = er.RMap ∧
      (er.processCI (TConceptExpr.Exists R C) D).queue = er.queue ∧
      ((er.processCI (TConceptExpr.Exists R C) D).CMap = er.CMap ∨
        (er.processCI (TConceptExpr.Exists R C) D).CMap
          = er.CMap ++ [{ Origin := D, Supers := [], Rules := [] }])) ∧
    (∀ (ord : List TConceptExpr) (fuel : Nat) (p : TConceptExpr),
      (p ≠ D ∨ p ∈ (ctor (pre ++ post)).CMap.map (fun c => c.Origin)) →
      (classify
          (keyOrder
            (ctor (pre ++ TDLAxiom.ConceptInclusion (TConceptExpr.Exists R C) D :: post)) ord)
          fuel
          (ctor (pre ++ TDLAxiom.ConceptInclusion (TConceptExpr.Exists R C) D :: post))).map
          (fun e => e.S p)
        = (classify (keyOrder (ctor (pre ++ post)) ord) fuel (ctor (pre ++ post))).map
          (fun e => e.S p)) ∧
    (∀ ord : List TConceptExpr, ∃ fuel e0 e1, ∀ fuel1, fuel ≤ fuel1 →
      classify (keyOrder (ctor (pre ++ post)) ord) fuel1 (ctor (pre ++ post)) = some e0 ∧
      classify
          (keyOrder
            (ctor (pre ++ TDLAxiom.ConceptInclusion (TConceptExpr.Exists R C) D :: post)) ord)
          fuel1
          (ctor (pre ++ TDLAxiom.ConceptInclusion (TConceptExpr.Exists R C) D :: post))
        = some e1) := by
  obtain ⟨σ, hsim⟩ := ctor_sim D pre post R C hD
  refine ⟨fun er => processCI_sub_exists_frame er R C D hD, ?_, ?_⟩
  · intro ord fuel p hp
    rcases classify_sim D σ _ _ hsim ord fuel with ⟨h0, h1⟩ | ⟨a1, b1, h0, h1, hs⟩
    · rw [h0, h1]
    · rw [h0, h1]
      simp only [Option.map_some', Option.some.injEq]
      apply S_sim D σ a1 b1 hs p
      rcases hp with hp | hp
      · exact Or.inl hp
      · right
        have e1 : a1.CMap.map (fun c => c.Origin)
            = (ctor (pre ++ post)).CMap.map (fun c => c.Origin) := by
          have hd : drain fuel ((keyOrder (ctor (pre ++ post)) ord).foldl
              (fun e C => (e.addC C e.CTop).addC C C) (ctor (pre ++ post))) = some a1 := h0
          rw [drain_origins _ _ _ hd, firstLoop_origins]
        rw [e1]
        exact hp
  · intro ord
    obtain ⟨e0, h0, _⟩ := drain_terminates _ _ _
      (drainInv_addable ((keyOrder (ctor (pre ++ post)) ord).foldl
        (fun e C => (e.addC C e.CTop).addC C C) (ctor (pre ++ post))))
      (le_refl _)
    rcases classify_sim D σ _ _ hsim ord _ with ⟨h2, _⟩ | ⟨a1, b1, _, h3, _⟩
    · have h4 : drain _ ((keyOrder (ctor (pre ++ post)) ord).foldl
          (fun e C => (e.addC C e.CTop).addC C C) (ctor (pre ++ post))) = none := h2
      rw [h0] at h4
      cases h4
    · exact ⟨_, e0, b1, fun fuel1 hle =>
        ⟨drain_mono_le _ _ _ _ h0 hle, drain_mono_le _ _ _ _ h3 hle⟩⟩

theorem exists_sub_never_fires_witness :
    (∀ R1 E, TConceptExpr.Name "D" ≠ TConceptExpr.Exists R1 E) ∧
    (classify (keyOrder (ctor exInertOntology) exInertOrder) 40 (ctor exInertOntology)).map
        (fun e => e.S (TConceptExpr.Name "A"))
      = (classify
          (keyOrder
            (ctor
              ([TDLAxiom.ConceptInclusion (TConceptExpr.Name "A") (TConceptExpr.Name "B")] ++
                [TDLAxiom.ConceptInclusion (TConceptExpr.Name "D") (TConceptExpr.Name "F")]))
            exInertOrder)
          40
          (ctor
            ([TDLAxiom.ConceptInclusion (TConceptExpr.Name "A") (TConceptExpr.Name "B")] ++
              [TDLAxiom.ConceptInclusion (TConceptExpr.Name "D")
                (TConceptExpr.Name "F")]))).map
        (fun e => e.S (TConceptExpr.Name "A")) :=
  ⟨(fun _ _ h => by cases h),
    (exists_sub_never_fires
      [TDLAxiom.ConceptInclusion (TConceptExpr.Name "A") (TConceptExpr.Name "B")]
      [TDLAxiom.ConceptInclusion (TConceptExpr.Name "D") (TConceptExpr.Name "F")]
      (TORoleExpr.Name "r") (TConceptExpr.Name "A") (TConceptExpr.Name "D")
      (fun _ _ h => by cases h)).2.1 exInertOrder 40 (TConceptExpr.Name "A")
      (Or.inl (by decide))⟩

end ELFExists

section Phase3Pairs
open TQueryToConceptsTransformer TermAssigner QueryConnectednessChecker

/-- Claim C17: on a term built from `Top`, names, conjunctions and
existentials, with enough fuel, Phase 3 of `Run` has a result: there is a
number `k` of rounds, with the indices `1`, ..., `k`, each of which emits one
pair `(nominal, phi_i)`, after which the term contains no nominal (it has no
nominal leaf, and so the test of the loop finds none); `k` is at most the
number of nominals of the initial term and is not `0` when that term has a
nominal; the result is the `k` pairs followed by the pair
`(lastNominal, Not P)`, where for `k > 0` the name `P` is `P<k>` and
`lastNominal` is the nominal of the pair of round `k`; so the result holds
exactly `k + 1` pairs. -/
theorem RunPhase3_pairs (addr : String → Nat) (fuel : Nat) (buffer : String)
    (term : TConceptExpr) (hf : inFragment term = true) (hfuel : term.size < fuel) :
    ∃ k s,
      Rounds addr fuel k 1
        { term := term, propositionalVariable := buffer, lastNominal := "", Result := [] } s ∧
      nominalCount s.term = 0 ∧
      TDepthMeasurer.getMaxDepth (TDepthMeasurer.visit addr 0 s.term []) = -1 ∧
      k ≤ nominalCount term ∧
      (0 < nominalCount term → 0 < k) ∧
      s.Result.length = k ∧
      (0 < k → s.propositionalVariable = "P" ++ toString k ∧
        ∃ phi, s.Result.getLast? = some (s.lastNominal, phi)) ∧
      RunPhase3 addr fuel buffer term =
        some (s.Result ++
          [(s.lastNominal, TConceptExpr.Not (TConceptExpr.Name s.propositionalVariable))]) ∧
      (s.Result ++
        [(s.lastNominal,
          TConceptExpr.Not (TConceptExpr.Name s.propositionalVariable))]).length = k + 1 := by
  obtain ⟨k, s, hk, hz, hloop, hlen, hk0, hpos⟩ :=
    runLoop_rounds addr fuel (nominalCount term) fuel 1
      { term := term, propositionalVariable := buffer, lastNominal := "", Result := [] }
      (le_refl _) (lt_of_le_of_lt (nominalCount_le_size term) hfuel) hf hfuel
  have hlen1 : s.Result.length = k := by simpa using hlen
  have hcount := rounds_count addr fuel k 1 _ s hk hf hfuel
  refine ⟨k, s, hk, hz, ?_, ?_, ?_, hlen1, ?_, ?_, by simp [hlen1]⟩
  · rw [depth_visit_none addr s.term 0 [] hz]
    rfl
  · simp only at hcount
    omega
  · intro hn
    by_contra h0
    have h1 : k = 0 := by omega
    have h2 := hk0 h1
    rw [h2] at hz
    simp only at hz
    omega
  · intro h
    obtain ⟨a, b⟩ := hpos h
    refine ⟨?_, b⟩
    rw [a]
    congr 2
    omega
  · simp only [RunPhase3, hloop]

/-- On the term of the query of Figure 2, which has three nominals, Phase 3
has between one and three rounds and leaves no nominal. -/
theorem RunPhase3_pairs_witness :
    inFragment exFigure2Term = true ∧ exFigure2Term.size < 30 ∧
    nominalCount exFigure2Term = 3 ∧
    ∃ k s,
      Rounds exNameAddr 30 k 1
        { term := exFigure2Term, propositionalVariable := "", lastNominal := "",
          Result := [] } s ∧
      nominalCount s.term = 0 ∧
      TDepthMeasurer.getMaxDepth (TDepthMeasurer.visit exNameAddr 0 s.term []) = -1 ∧
      k ≤ nominalCount exFigure2Term ∧
      (0 < nominalCount exFigure2Term → 0 < k) ∧
      s.Result.length = k ∧
      (0 < k → s.propositionalVariable = "P" ++ toString k ∧
        ∃ phi, s.Result.getLast? = some (s.lastNominal, phi)) ∧
      RunPhase3 exNameAddr 30 "" exFigure2Term =
        some (s.Result ++
          [(s.lastNominal, TConceptExpr.Not (TConceptExpr.Name s.propositionalVariable))]) ∧
      (s.Result ++
        [(s.lastNominal,
          TConceptExpr.Not (TConceptExpr.Name s.propositionalVariable))]).length = k + 1 :=
  ⟨by decide, by decide, by decide,
    RunPhase3_pairs exNameAddr 30 "" exFigure2Term (by decide) (by decide)⟩

set_option maxRecDepth 100000 in
theorem exFigure2Fragment_all :
    ∀ v ∈ exFigure2Assigner.Query.FreeVars, exFigure2Fragment v = true := by
  decide

/-- Claim C18 (amended): the query of Figure 2 is connected; Phase 1 turns it
into `R1(x_1,z), R2(x_2,v), R3(z,y_3), R4(y,v), R5(z,v), R6(y,y_5)`; and
whatever the addresses of the variables and of the names are, Phase 2 builds a
term with exactly one existential over `R6` or its inverse, which is an
existential over `R6` itself (the contribution of the atom `R6(y,y_5)` to the
term of `y`) unless Phase 2 starts from `y_5`; Phase 3 has `k` rounds with
`k` at least `1` and at most the number of nominals of the term, after which
the term has no nominal, and `Run` yields the `k` pairs of the rounds followed
by the final pair `(lastNominal, Not P<k>)`: `k + 1` pairs, never one. -/
theorem Run_figure2 (varAddr : Nat → Nat) (nameAddr : String → Nat) (buffer : String) :
    isConnected exFigure2 = some true ∧
    ∃ s term a res k s1,
      transformQueryPhase1 exFigure2 (buildQueryFigure2 exEmptyQuery []).2 = some s ∧
      s.query.Body = [QRAtom.Role (TORoleExpr.Name "R1") 4 2,
        QRAtom.Role (TORoleExpr.Name "R2") 5 3, QRAtom.Role (TORoleExpr.Name "R3") 2 6,
        QRAtom.Role (TORoleExpr.Name "R4") 1 3, QRAtom.Role (TORoleExpr.Name "R5") 2 3,
        QRAtom.Role (TORoleExpr.Name "R6") 1 8] ∧
      transformQueryPhase2 varAddr 30 s = some (term, a) ∧
      countExists (TORoleExpr.Name "R6") term
        + countExists (TORoleExpr.Inverse (TORoleExpr.Name "R6")) term = 1 ∧
      (setBegin varAddr [4, 5, 6, 1, 8] ≠ some 8 →
        countExists (TORoleExpr.Name "R6") term = 1) ∧
      Rounds nameAddr 30 k 1
        { term := term, propositionalVariable := buffer, lastNominal := "", Result := [] }
        s1 ∧
      0 < k ∧ k ≤ nominalCount term ∧ nominalCount s1.term = 0 ∧
      Run varAddr nameAddr 30 buffer exFigure2 (buildQueryFigure2 exEmptyQuery []).2
        = some res ∧
      res = s1.Result ++
        [(s1.lastNominal, TConceptExpr.Not (TConceptExpr.Name ("P" ++ toString k)))] ∧
      res.length = k + 1 := by
  refine ⟨by decide, ?_⟩
  obtain ⟨v, hv, hm⟩ := setBegin_mem varAddr [4, 5, 6, 1, 8] (by simp)
  have hcheck := exFigure2Check_all v hm
  have hfrag := exFigure2Fragment_all v hm
  unfold exFigure2Check at hcheck
  unfold exFigure2Fragment at hfrag
  cases hA : Assign 30 none v exFigure2Assigner with
  | none => rw [hA] at hcheck; simp at hcheck
  | some r =>
    obtain ⟨term, a⟩ := r
    rw [hA] at hcheck hfrag
    simp only [Bool.and_eq_true, Bool.or_eq_true, beq_iff_eq, List.all_eq_true] at hcheck
    simp only [Bool.and_eq_true, decide_eq_true_eq] at hfrag
    obtain ⟨⟨hc1, hc2⟩, _⟩ := hcheck
    obtain ⟨⟨hf, hsize⟩, hnom⟩ := hfrag
    have hp2 : transformQueryPhase2 varAddr 30 exFigure2Phase1 = some (term, a) := by
      have e : (TermAssigner.ctor exFigure2Phase1).DeleteFictiveVariables
          = exFigure2Assigner := by decide
      simp only [transformQueryPhase2, e]
      have e2 : exFigure2Assigner.Query.FreeVars = [4, 5, 6, 1, 8] := rfl
      rw [e2, hv]
      exact hA
    obtain ⟨k, s1, hk, hz, hloop, hlen, hk0, hpos⟩ :=
      runLoop_rounds nameAddr 30 (nominalCount term) 30 1
        { term := term, propositionalVariable := buffer, lastNominal := "", Result := [] }
        (le_refl _) (lt_of_le_of_lt (nominalCount_le_size term) hsize) hf hsize
    have hlen1 : s1.Result.length = k := by simpa using hlen
    have hkpos : 0 < k := by
      by_contra h0
      have h1 : k = 0 := by omega
      have h2 := hk0 h1
      rw [h2] at hz
      simp only at hz
      omega
    have hP : s1.propositionalVariable = "P" ++ toString k := by
      rw [(hpos hkpos).1]
      congr 2
      omega
    have hcount := rounds_count nameAddr 30 k 1 _ s1 hk hf hsize
    simp only at hcount
    refine ⟨exFigure2Phase1, term, a, _, k, s1, exFigure2_phase1, rfl, hp2, hc1, ?_, hk,
      hkpos, by omega, hz, ?_, rfl, by simp [hlen1]⟩
    · intro hne
      rcases hc2 with h | h
      · exact absurd (by rw [hv, h]) hne
      · exact h
    · simp only [Run, exFigure2_phase1, hp2, RunPhase3, hloop, hP]

end Phase3Pairs
